import Mathlib

/-!
The loom bytecode compiler and virtual machine

A shallow embedding of the Scheme interpreter's compilation pipeline
(`compile.go`) and of its stack virtual machine (`vm.go`), with the parts of
the value model (`values.go`), of the lexical scopes (`eval.go`) and of the
numeric built-ins (`numerics.go`) they use.

Modelling conventions.

* A Go panic is `Except.error`; a normal result is `Except.ok`.
* `Number` is a big float in the source.  The machine model keeps to the finite
  Numbers whose values are exact integers, on which the operations of
  `big.Float` neither round nor panic; the built-ins `Big.NumberAdd`,
  `Big.NumberMul`, `Big.NumberSub` and `Big.NumberDiv` take the operation of
  `big.Float` as a parameter that may panic.
* Go pointers to scopes and frames are addresses into two heaps (lists of
  cells, a new cell is appended).  The links that are fixed when a cell is
  allocated (`scope.outer`, `frame.caller`) are carried by the reference: a
  reference is the chain of addresses that starts at the cell and follows the
  link, innermost first, and the empty chain is the nil pointer.
* Pairs are immutable trees (the compiler and the machine only read them).
* The distinguished closure `callCC` is recognised by pointer identity in the
  source; it is a constructor of its own here.
-/

namespace Loom

/-! ## Values (values.go, vm.go) -/

abbrev Symbol := String

/-- A pointer to a scope: the addresses of the scope and of its outer scopes. -/
abbrev ScopeRef := List Nat

/-- A pointer to a frame: the addresses of the frame and of its callers. -/
abbrev FrameRef := List Nat

inductive Opcode
  | opQuote
  | opGet
  | opBinding
  | opVector
  | opList
  | opLambda
  | opIf
  | opSet
  | opDefine
  | opCall
  | opTail
  | opReturn
  deriving DecidableEq, Repr

/-- The numeric built-in procedures of `globalScope` (numerics.go). -/
inductive Builtin
  | NumberPred
  | NumberEq
  | NumberLt
  | NumberGt
  | NumberLte
  | NumberGte
  | NumberAdd
  | NumberMul
  | NumberSub
  deriving DecidableEq, Repr

mutual
inductive Value
  | null
  | number (n : Int)
  | boolean (b : Bool)
  | character (c : Char)
  | string (s : String)
  | symbol (s : Symbol)
  | pair (car cdr : Value)
  | vector (elems : List Value)
  | procedureFunc (f : Builtin)
  | compiledClosure (proc : CompiledProcedure) (scope : ScopeRef)
  | callCC
  | continuation (stack : FrameRef) (arity : Nat)
  | integer (i : Int)
  | compiledProcedure (p : CompiledProcedure)
  | binding (where_ : ScopeRef) (name : Symbol)
inductive CompiledProcedure
  | mk (name : Symbol) (formals : List Symbol) (isVariadic : Bool) (body : List Instruction)
inductive Instruction
  | mk (code : Opcode) (immediate : Value)
end

open Opcode

def Instruction.code : Instruction → Opcode
  | .mk c _ => c

def Instruction.immediate : Instruction → Value
  | .mk _ v => v

def CompiledProcedure.name : CompiledProcedure → Symbol
  | .mk n _ _ _ => n

def CompiledProcedure.formals : CompiledProcedure → List Symbol
  | .mk _ f _ _ => f

def CompiledProcedure.isVariadic : CompiledProcedure → Bool
  | .mk _ _ v _ => v

def CompiledProcedure.body : CompiledProcedure → List Instruction
  | .mk _ _ _ b => b

/-- Truthy returns the truth value of v: any value besides false is true. -/
def Truthy : Value → Bool
  | .boolean b => b
  | _ => true

def Cons (car cdr : Value) : Value := .pair car cdr

/-- ToVector converts the list to a vector; an improper tail becomes the last
element.  On a `*Pair` receiver this is `(*Pair).ToVector`. -/
def Value.ToVector : Value → List Value
  | .null => []
  | .pair a d => a :: Value.ToVector d
  | v => [v]

/-- ToList converts the vector to a list. -/
def ToList : List Value → Value
  | [] => .null
  | v :: rest => .pair v (ToList rest)

/-- The symbol a value is, or the empty symbol: `sym, _ := v.(Symbol)`. -/
def Value.asSymbol : Value → Symbol
  | .symbol s => s
  | _ => ""

def invalidFormals : String :=
  "formals must be of the form (variable1 ...), variable, or (variable1 ... variablen . variablen+1)"

/-- The loop of `makeFormals`; `formals` are the symbols declared so far. -/
def makeFormalsLoop : Value → List Symbol → Except String (List Symbol × Bool)
  | .pair (.symbol sym) cdr, formals =>
    if sym ∈ formals then .error ("duplicate formal " ++ sym)
    else
      match cdr with
      | .symbol r => .ok (formals ++ [sym, r], true)
      | .pair a d => makeFormalsLoop (.pair a d) (formals ++ [sym])
      | .null => .ok (formals ++ [sym], false)
      | _ => .error invalidFormals
  | _, _ => .error invalidFormals

def makeFormals (declaration : Value) : Except String (List Symbol × Bool) :=
  match declaration with
  | .symbol sym => .ok ([sym], true)
  | .null => .ok ([], false)
  | .pair a d => makeFormalsLoop (.pair a d) []
  | _ => .error invalidFormals

/-! ## The compiler (compile.go) -/

theorem Value.one_le_sizeOf (v : Value) : 1 ≤ sizeOf v := by
  cases v <;> simp <;> omega

theorem Value.sizeOf_ToVector_le (v : Value) : sizeOf v.ToVector ≤ sizeOf v + 2 := by
  induction v using Value.ToVector.induct with
  | case1 => simp [Value.ToVector]
  | case2 a d ih => simp [Value.ToVector]; omega
  | case3 v h1 h2 => rw [Value.ToVector.eq_3 v h1 h2]; simp; omega

theorem sizeOf_dropLast_le (l : List Value) : sizeOf l.dropLast ≤ sizeOf l := by
  induction l with
  | nil => simp
  | cons a t ih =>
    cases t with
    | nil => simp
    | cons b t => simp [List.dropLast] at ih ⊢; omega

theorem sizeOf_lt_of_getLast? (l : List Value) (x : Value) (h : l.getLast? = some x) :
    sizeOf x < sizeOf l :=
  List.sizeOf_lt_of_mem (List.mem_of_getLast?_eq_some h)

def invalidLambda : String := "lamdba must be of the form (lambda formals body)"

def invalidIf : String :=
  "if must be of the form (if test consequent) or (if test consequent alternate)"

def invalidSet : String := "set! must be of the form (set! variable expression)"

def invalidDefine : String :=
  "define must be of the form (define variable expression), (define (variable formals) body), or (define (variable . formal) body)"

/-- The instruction `compileVariable` appends. -/
def compileVariable (e : Symbol) : List Instruction :=
  [⟨opGet, .symbol e⟩]

/-- The instruction `compileQuote` appends: `e.cdr.(*Pair).car` is the datum. -/
def compileQuote (e : Value) : Except String (List Instruction) :=
  match e with
  | .pair _ (.pair datum _) => .ok [⟨opQuote, datum⟩]
  | _ => .error "interface conversion: Value is not *Pair"

mutual
/-- The instructions of a body: every expression but the last is compiled as
non-tail, the last one as tail, and a RETURN follows unless the code ends in a
TAIL. -/
def compileBody (exprs : List Value) : Except String (List Instruction) :=
  match _h : exprs.getLast? with
  | none => .ok []
  | some last => do
    let init ← compileSeq exprs.dropLast
    let fin ← compile last true
    let body := init ++ fin
    match body.getLast? with
    | some i => if i.code ≠ opTail then .ok (body ++ [⟨opReturn, .null⟩]) else .ok body
    | none => .ok body
termination_by (sizeOf exprs, 4)
decreasing_by
  · simp_wf
    have := sizeOf_dropLast_le exprs
    omega
  · simp_wf
    have := sizeOf_lt_of_getLast? exprs last _h
    omega

/-- The loop `for _, expr := range exprs { c.compile(expr, false) }`. -/
def compileSeq (exprs : List Value) : Except String (List Instruction) :=
  match exprs with
  | [] => .ok []
  | expr :: rest => do
    let a ← compile expr false
    let b ← compileSeq rest
    .ok (a ++ b)
termination_by (sizeOf exprs, 2)
decreasing_by
  all_goals simp_wf
  all_goals omega

def compileLambda (e : Value) : Except String (List Instruction) :=
  match _h : e.ToVector with
  | a0 :: a1 :: a2 :: rest => do
    let (formals, isVariadic) ← makeFormals a1
    let body ← compileBody (a2 :: rest)
    .ok [⟨opLambda, .compiledProcedure ⟨"<lambda>", formals, isVariadic, body⟩⟩]
  | _ => .error invalidLambda
termination_by (sizeOf e, 0)
decreasing_by
  all_goals simp_wf
  all_goals
    have hv := Value.sizeOf_ToVector_le e
    rw [_h] at hv
    simp at hv
    have h0 := Value.one_le_sizeOf a0
    have h1 := Value.one_le_sizeOf a1
    have h2 := Value.one_le_sizeOf a2
    omega

def compileIf (e : Value) (tail : Bool) : Except String (List Instruction) :=
  match _h : e.ToVector with
  | a0 :: a1 :: a2 :: rest =>
    if 1 < rest.length then .error invalidIf
    else do
      let ifBody ← compileBody [a2]
      let elseBody ←
        match _h2 : rest with
        | a3 :: _ => compileBody [a3]
        | [] => pure [⟨opQuote, .null⟩, ⟨opReturn, .null⟩]
      let test ← compile a1 false
      .ok (test ++
        [⟨opLambda, .compiledProcedure ⟨"<if-true>", [], false, ifBody⟩⟩,
         ⟨opLambda, .compiledProcedure ⟨"<if-false>", [], false, elseBody⟩⟩,
         ⟨opIf, .null⟩,
         ⟨if tail then opTail else opCall, .integer 0⟩])
  | _ => .error invalidIf
termination_by (sizeOf e, 0)
decreasing_by
  all_goals simp_wf
  all_goals
    have hv := Value.sizeOf_ToVector_le e
    rw [_h] at hv
    simp at hv
    have h0 := Value.one_le_sizeOf a0
    have h1 := Value.one_le_sizeOf a1
    have h2 := Value.one_le_sizeOf a2
    omega

def compileSet (e : Value) : Except String (List Instruction) :=
  match _h : e.ToVector with
  | [a0, a1, a2] =>
    match a1 with
    | .symbol sym => do
      let v ← compile a2 false
      .ok (v ++ [⟨opSet, .symbol sym⟩])
    | _ => .error invalidSet
  | _ => .error invalidSet
termination_by (sizeOf e, 0)
decreasing_by
  all_goals simp_wf
  all_goals
    have hv := Value.sizeOf_ToVector_le e
    rw [_h] at hv
    simp at hv
    have h0 := Value.one_le_sizeOf a0
    have h1 := Value.one_le_sizeOf a1
    have h2 := Value.one_le_sizeOf a2
    omega

def compileDefine (e : Value) : Except String (List Instruction) :=
  match _h : e.ToVector with
  | a0 :: a1 :: a2 :: rest =>
    match a1 with
    | .symbol v => do
      let x ← compile a2 false
      .ok (x ++ [⟨opDefine, .symbol v⟩])
    | .pair (.symbol sym) vcdr => do
      let (formals, isVariadic) ← makeFormals vcdr
      let body ← compileBody (a2 :: rest)
      .ok [⟨opLambda, .compiledProcedure ⟨sym, formals, isVariadic, body⟩⟩,
           ⟨opDefine, .symbol sym⟩]
    | _ => .error invalidDefine
  | _ => .error invalidDefine
termination_by (sizeOf e, 0)
decreasing_by
  all_goals simp_wf
  all_goals
    have hv := Value.sizeOf_ToVector_le e
    rw [_h] at hv
    simp at hv
    have h0 := Value.one_le_sizeOf a0
    have h1 := Value.one_le_sizeOf a1
    have h2 := Value.one_le_sizeOf a2
    omega

/-- The instructions `c.compile(expression, tail)` appends to the body. -/
def compile (expression : Value) (tail : Bool) : Except String (List Instruction) :=
  match expression with
  | .null => .ok [⟨opQuote, .null⟩]
  | .number n => .ok [⟨opQuote, .number n⟩]
  | .boolean b => .ok [⟨opQuote, .boolean b⟩]
  | .character c => .ok [⟨opQuote, .character c⟩]
  | .string s => .ok [⟨opQuote, .string s⟩]
  | .symbol e => .ok (compileVariable e)
  | .vector es => do
    let body ← compileSeq es
    .ok ([⟨opQuote, .vector []⟩] ++ body ++ [⟨opVector, .integer es.length⟩])
  | .pair car cdr =>
    let sym := car.asSymbol
    if sym = "quote" then compileQuote (.pair car cdr)
    else if sym = "lambda" then compileLambda (.pair car cdr)
    else if sym = "if" then compileIf (.pair car cdr) tail
    else if sym = "set!" then compileSet (.pair car cdr)
    else if sym = "include" then .error "NYI: include"
    else if sym = "include-ci" then .error "NYI: include-ci"
    else if sym = "define" then compileDefine (.pair car cdr)
    else do
      let f ← compile car false
      let args := (Value.pair car cdr).ToVector.tail
      let as ← compileSeq args
      .ok (f ++ as ++ [⟨if tail then opTail else opCall, .integer args.length⟩])
  | _ => .error "unknown expression type"
termination_by (sizeOf expression, 3)
decreasing_by
  all_goals simp_wf
  · omega
  · omega
  · omega
  · omega
  · omega
  · omega
  · have hv := Value.sizeOf_ToVector_le cdr
    have h0 := Value.one_le_sizeOf car
    simp [Value.ToVector]
    omega
end

/-! ## Scopes (eval.go) -/

/-- A scope cell: the `env` map of a `scope`, latest binding first.  The
`outer` link is carried by the `ScopeRef`. -/
structure Scope where
  env : List (Symbol × Value)

/-- The map read `v, ok := env[name]`. -/
def envGet : List (Symbol × Value) → Symbol → Option Value
  | [], _ => none
  | (k, v) :: rest, name => if k = name then some v else envGet rest name

/-- The map write `env[name] = v`. -/
def envPut (env : List (Symbol × Value)) (name : Symbol) (v : Value) : List (Symbol × Value) :=
  (name, v) :: env

def nilDeref : String := "invalid memory address or nil pointer dereference"

/-- The lookup walks the chain and returns the value of the nearest scope that
binds the name. -/
def Scope.lookup (scopes : List Scope) : ScopeRef → Symbol → Option Value
  | [], _ => none
  | a :: outer, name =>
    match scopes.get? a with
    | none => none
    | some s =>
      match envGet s.env name with
      | some v => some v
      | none => Scope.lookup scopes outer name

/-- The define: `s.env[name] = v` in the scope itself. -/
def Scope.set (scopes : List Scope) (s : ScopeRef) (name : Symbol) (v : Value) :
    Except String (List Scope) :=
  match s with
  | [] => .error nilDeref
  | a :: _ =>
    match scopes.get? a with
    | none => .error nilDeref
    | some cell => .ok (scopes.set a ⟨envPut cell.env name v⟩)

/-- The assignment of `set!`: the nearest scope that binds the name is updated;
the result is `none` when no scope binds it (the source returns false). -/
def Scope.setIfBound (scopes : List Scope) : ScopeRef → Symbol → Value → Option (List Scope)
  | [], _, _ => none
  | a :: outer, name, v =>
    match scopes.get? a with
    | none => none
    | some cell =>
      match envGet cell.env name with
      | some _ => some (scopes.set a ⟨envPut cell.env name v⟩)
      | none => Scope.setIfBound scopes outer name v

/-- The push allocates a scope with an empty `env` whose outer scope is `s`. -/
def Scope.push (scopes : List Scope) (s : ScopeRef) : List Scope × ScopeRef :=
  (scopes ++ [⟨[]⟩], scopes.length :: s)

/-! ## Built-in procedures (numerics.go, globals.go) -/

/-- The test `eqv(n, v)` for a Number `n`: `v` is a Number of the same value. -/
def eqvNumber (n : Int) : Value → Bool
  | .number m => decide (n = m)
  | _ => false

def NumberPred (args : List Value) : Value :=
  match args with
  | [.number _] => .boolean true
  | _ => .boolean false

def NumberEq (args : List Value) : Value :=
  match args with
  | [] => .boolean true
  | .number n :: rest => .boolean (rest.all (eqvNumber n))
  | _ :: _ => .boolean false

/-- The loop of the ordering predicates: every argument is a Number in the
relation `rel` with the one before it. -/
def numberChain (rel : Int → Int → Bool) : Int → List Value → Bool
  | _, [] => true
  | n, .number x :: rest => rel n x && numberChain rel x rest
  | _, _ :: _ => false

def NumberLt (args : List Value) : Value :=
  match args with
  | [] => .boolean true
  | .number n :: rest => .boolean (numberChain (fun a b => decide (a < b)) n rest)
  | _ :: _ => .boolean false

def NumberGt (args : List Value) : Value :=
  match args with
  | [] => .boolean true
  | .number n :: rest => .boolean (numberChain (fun a b => decide (a > b)) n rest)
  | _ :: _ => .boolean false

def NumberLte (args : List Value) : Value :=
  match args with
  | [] => .boolean true
  | .number n :: rest => .boolean (numberChain (fun a b => decide (a ≤ b)) n rest)
  | _ :: _ => .boolean false

def NumberGte (args : List Value) : Value :=
  match args with
  | [] => .boolean true
  | .number n :: rest => .boolean (numberChain (fun a b => decide (a ≥ b)) n rest)
  | _ :: _ => .boolean false

/-- The loop of the arithmetic built-ins: the result is nil as soon as an
argument is not a Number.  The operation `op` is total, as the operations of
`big.Float` are on exact integers; `Big.numberFold` is the loop with an
operation that may panic. -/
def numberFold (op : Int → Int → Int) : Int → List Value → Value
  | acc, [] => .number acc
  | acc, .number x :: rest => numberFold op (op acc x) rest
  | _, _ :: _ => .null

def NumberAdd (args : List Value) : Value :=
  match args with
  | [] => .null
  | .number n :: rest => numberFold (fun a b => a + b) n rest
  | _ :: _ => .null

def NumberMul (args : List Value) : Value :=
  match args with
  | [] => .null
  | .number n :: rest => numberFold (fun a b => a * b) n rest
  | _ :: _ => .null

def NumberSub (args : List Value) : Value :=
  match args with
  | [] => .null
  | [.number n] => .number (-n)
  | .number n :: rest => numberFold (fun a b => a - b) n rest
  | _ :: _ => .null

/-- The application `f(args)` of a `ProcedureFunc`.  On the exact integers of
the machine model none of these built-ins panics. -/
def Builtin.Apply (f : Builtin) (args : List Value) : Except String Value :=
  match f with
  | .NumberPred => .ok (Loom.NumberPred args)
  | .NumberEq => .ok (Loom.NumberEq args)
  | .NumberLt => .ok (Loom.NumberLt args)
  | .NumberGt => .ok (Loom.NumberGt args)
  | .NumberLte => .ok (Loom.NumberLte args)
  | .NumberGte => .ok (Loom.NumberGte args)
  | .NumberAdd => .ok (Loom.NumberAdd args)
  | .NumberMul => .ok (Loom.NumberMul args)
  | .NumberSub => .ok (Loom.NumberSub args)

/-- The global scope is the scope at address 0. -/
def globalScope : ScopeRef := [0]

/-- The numeric entries of the `env` of `globalScope`. -/
def globalEnv : Scope :=
  ⟨[("number?", .procedureFunc .NumberPred),
    ("=", .procedureFunc .NumberEq),
    ("<", .procedureFunc .NumberLt),
    (">", .procedureFunc .NumberGt),
    ("<=", .procedureFunc .NumberLte),
    (">=", .procedureFunc .NumberGte),
    ("+", .procedureFunc .NumberAdd),
    ("*", .procedureFunc .NumberMul),
    ("-", .procedureFunc .NumberSub)]⟩

/-! ## The virtual machine (vm.go) -/

structure CompiledClosure where
  proc : CompiledProcedure
  scope : ScopeRef

/-- The procedure of the predefined closure `callCC`; its scope is `globalScope`. -/
def callCCProc : CompiledProcedure :=
  ⟨"call-with-current-continuation", ["procedure", "continuation"], false,
    [⟨opGet, .symbol "procedure"⟩, ⟨opGet, .symbol "continuation"⟩, ⟨opTail, .integer 1⟩]⟩

/-- A frame cell.  The `caller` link is carried by the `FrameRef`. -/
structure Frame where
  closure : Option CompiledClosure
  scope : ScopeRef
  stack : List Value
  pc : Nat

/-- The state of `run`: the two heaps, the field `stack` of the `vm` (here
`mstack`, the active frame and its callers) and the local variables `body`,
`scope`, `stack` (the operand stack, top last) and `pc` of the loop. -/
structure VM where
  frames : List Frame
  scopes : List Scope
  mstack : FrameRef
  body : List Instruction
  scope : ScopeRef
  stack : List Value
  pc : Nat

/-- What one turn of the loop of `run` does: it goes on in a new state or
`run` returns a value. -/
inductive Outcome
  | next (m : VM)
  | done (v : Value)

def Frame.copy (f : Frame) : Frame :=
  { closure := f.closure, scope := f.scope, stack := f.stack, pc := f.pc }

/-- The loop of `copyStack`: a copy of every frame of the chain is allocated,
top first, and the copies are linked in the same order. -/
def Frame.copyChain (frames : List Frame) : FrameRef → Except String (List Frame × FrameRef)
  | [] => .ok (frames, [])
  | s :: callers =>
    match frames.get? s with
    | none => .error nilDeref
    | some f =>
      match Frame.copyChain (frames ++ [f.copy]) callers with
      | .error e => .error e
      | .ok (frames2, copies) => .ok (frames2, frames.length :: copies)

def Frame.copyStack (frames : List Frame) (f : FrameRef) : Except String (List Frame × FrameRef) :=
  match f with
  | [] => .error nilDeref
  | _ :: _ => Frame.copyChain frames f

def arityMessage (p : CompiledProcedure) : String :=
  p.name ++ " expects" ++ (if p.isVariadic then " at least" else "") ++ " " ++
    toString (if p.isVariadic then p.formals.length - 1 else p.formals.length) ++ " arguments"

/-- The bindings of a list of formals to the first arguments, in order. -/
def bindFormals (scopes : List Scope) (scope : ScopeRef) :
    List Symbol → List Value → Except String (List Scope)
  | [], _ => .ok scopes
  | _ :: _, [] => .error "index out of range"
  | sym :: formals, arg :: args =>
    match Scope.set scopes scope sym arg with
    | .error e => .error e
    | .ok scopes1 => bindFormals scopes1 scope formals args

def VM.assignFormals (scopes : List Scope) (p : CompiledProcedure) (scope : ScopeRef)
    (args : List Value) : Except String (List Scope) :=
  if p.isVariadic then
    match p.formals.getLast? with
    | none => .error "slice bounds out of range"
    | some rest =>
      let formals := p.formals.dropLast
      if args.length < formals.length then .error (arityMessage p)
      else
        match bindFormals scopes scope formals args with
        | .error e => .error e
        | .ok scopes1 => Scope.set scopes1 scope rest (ToList (args.drop formals.length))
  else
    if args.length < p.formals.length then .error (arityMessage p)
    else bindFormals scopes scope p.formals args

/-- The head of `run`: the local variables are set from the active frame. -/
def VM.start (frames : List Frame) (scopes : List Scope) (mstack : FrameRef) :
    Except String VM :=
  match mstack with
  | [] => .error nilDeref
  | a :: _ =>
    match frames.get? a with
    | none => .error nilDeref
    | some f =>
      match f.closure with
      | none => .error nilDeref
      | some c =>
        .ok { frames := frames, scopes := scopes, mstack := mstack,
              body := c.proc.body, scope := f.scope, stack := [], pc := 0 }

def notInteger : String := "interface conversion: Value is not integer"

def notSymbol : String := "interface conversion: Value is not Symbol"

def notProcedure : String := "interface conversion: Value is not Procedure"

def outOfRange : String := "index out of range"

/-- The operand count `int(inst.immediate.(integer))` of an instruction. -/
def operandCount (immediate : Value) : Except String Nat :=
  match immediate with
  | .integer i => if 0 ≤ i then .ok i.toNat else .error "slice bounds out of range"
  | _ => .error notInteger

/-- The slices `stack[:len(stack)-n]` and `stack[len(stack)-n:]`. -/
def splitStack (stack : List Value) (n : Nat) : Except String (List Value × List Value) :=
  if n ≤ stack.length then
    .ok (stack.take (stack.length - n), stack.drop (stack.length - n))
  else .error "slice bounds out of range"

/-- The assignment `m.stack.stack, m.stack.pc = stack, pc`. -/
def VM.save (m : VM) (stack : List Value) : Except String (List Frame) :=
  match m.mstack with
  | [] => .error nilDeref
  | a :: _ =>
    match m.frames.get? a with
    | none => .error nilDeref
    | some f => .ok (m.frames.set a { f with stack := stack, pc := m.pc })

/-- The case `*compiledClosure` of CALL (`tail` false) and TAIL (`tail` true):
`stack` is the operand stack below the procedure and `args` are the `nargs`
arguments. -/
def VM.callClosure (m : VM) (tail : Bool) (c : CompiledClosure) (isCallCC : Bool)
    (stack args : List Value) (nargs : Nat) : Except String Outcome :=
  match m.save stack with
  | .error e => .error e
  | .ok frames1 =>
    let captured : Except String (List Frame × List Value) :=
      if isCallCC then
        match Frame.copyStack frames1 m.mstack with
        | .error e => .error e
        | .ok (frames2, k) => .ok (frames2, args ++ [.continuation k nargs])
      else .ok (frames1, args)
    match captured with
    | .error e => .error e
    | .ok (frames2, args2) =>
      match Scope.push m.scopes c.scope with
      | (scopes1, scope) =>
        match VM.assignFormals scopes1 c.proc scope args2 with
        | .error e => .error e
        | .ok scopes2 =>
          .ok (.next
            { frames := frames2 ++ [{ closure := some c, scope := [], stack := [], pc := 0 }],
              scopes := scopes2,
              mstack := frames2.length :: (if tail then m.mstack.tail else m.mstack),
              body := c.proc.body, scope := scope, stack := [], pc := 0 })

def continuationMessage (arity : Nat) : String :=
  "continuation expects " ++ toString arity ++ " argument" ++ (if 1 < arity then "s" else "")

/-- The case `*continuation` of CALL and TAIL: the stack of frames is replaced
by a copy of the captured one. -/
def VM.callContinuation (m : VM) (k : FrameRef) (arity : Nat) (args : List Value) :
    Except String Outcome :=
  if args.length ≠ arity then .error (continuationMessage arity)
  else
    match Frame.copyStack m.frames k with
    | .error e => .error e
    | .ok (frames1, top) =>
      match top with
      | [] => .error nilDeref
      | a :: _ =>
        match frames1.get? a with
        | none => .error nilDeref
        | some f =>
          match f.closure with
          | none => .error nilDeref
          | some c =>
            .ok (.next
              { frames := frames1, scopes := m.scopes, mstack := top,
                body := c.proc.body, scope := f.scope, stack := f.stack ++ args,
                pc := f.pc + 1 })

/-- The return of `v` to the caller (RETURN, and TAIL of a built-in): without
a caller `run` returns `v`, otherwise the caller becomes the active frame. -/
def VM.returnValue (m : VM) (v : Value) : Except String Outcome :=
  match m.mstack with
  | [] => .error nilDeref
  | [_] => .ok (.done v)
  | _ :: caller :: callers =>
    match m.frames.get? caller with
    | none => .error nilDeref
    | some f =>
      match f.closure with
      | none => .error nilDeref
      | some c =>
        .ok (.next
          { m with mstack := caller :: callers, scope := c.scope, body := c.proc.body,
                   stack := f.stack ++ [v], pc := f.pc + 1 })

/-- The instructions CALL (`tail` false) and TAIL (`tail` true). -/
def VM.call (m : VM) (tail : Bool) (immediate : Value) : Except String Outcome :=
  match operandCount immediate with
  | .error e => .error e
  | .ok nargs =>
    match splitStack m.stack nargs with
    | .error e => .error e
    | .ok (stack1, args) =>
      match stack1.getLast? with
      | none => .error outOfRange
      | some proc =>
        let stack := stack1.dropLast
        match proc with
        | .compiledClosure p s => m.callClosure tail ⟨p, s⟩ false stack args nargs
        | .callCC => m.callClosure tail ⟨callCCProc, globalScope⟩ true stack args nargs
        | .continuation k arity => m.callContinuation k arity args
        | .procedureFunc f =>
          match f.Apply args with
          | .error e => .error e
          | .ok v =>
            if tail then m.returnValue v
            else .ok (.next { m with stack := stack ++ [v], pc := m.pc + 1 })
        | _ => .error notProcedure

/-- One turn of the loop of `run`: the instruction at `pc` is executed and
`pc` is incremented. -/
def VM.step (m : VM) : Except String Outcome :=
  match m.body.get? m.pc with
  | none => .error outOfRange
  | some inst =>
    match inst.code with
    | opQuote => .ok (.next { m with stack := m.stack ++ [inst.immediate], pc := m.pc + 1 })
    | opGet =>
      match inst.immediate with
      | .symbol sym =>
        match Scope.lookup m.scopes m.scope sym with
        | none => .error (sym ++ " is not bound")
        | some value => .ok (.next { m with stack := m.stack ++ [value], pc := m.pc + 1 })
      | _ => .error notSymbol
    | opBinding =>
      match inst.immediate with
      | .binding where_ name =>
        let value := (Scope.lookup m.scopes where_ name).getD .null
        .ok (.next { m with stack := m.stack ++ [value], pc := m.pc + 1 })
      | _ => .error "interface conversion: Value is not *binding"
    | opVector =>
      match operandCount inst.immediate with
      | .error e => .error e
      | .ok n =>
        match splitStack m.stack n with
        | .error e => .error e
        | .ok (stack, v) => .ok (.next { m with stack := stack ++ [.vector v], pc := m.pc + 1 })
    | opList =>
      match operandCount inst.immediate with
      | .error e => .error e
      | .ok n =>
        match m.stack.getLast? with
        | none => .error outOfRange
        | some tail =>
          match splitStack m.stack.dropLast n with
          | .error e => .error e
          | .ok (stack, values) =>
            let head := values.foldr (fun v _ => Cons v tail) tail
            .ok (.next { m with stack := stack ++ [head], pc := m.pc + 1 })
    | opLambda =>
      match inst.immediate with
      | .compiledProcedure proc =>
        .ok (.next { m with stack := m.stack ++ [.compiledClosure proc m.scope], pc := m.pc + 1 })
      | _ => .error "interface conversion: Value is not *compiledProcedure"
    | opIf =>
      match m.stack.reverse with
      | else_ :: if_ :: cond :: rest =>
        .ok (.next { m with stack := rest.reverse ++ [if Truthy cond then if_ else else_],
                            pc := m.pc + 1 })
      | _ => .error outOfRange
    | opSet =>
      match inst.immediate with
      | .symbol sym =>
        match m.stack.getLast? with
        | none => .error outOfRange
        | some value =>
          match Scope.setIfBound m.scopes m.scope sym value with
          | none => .error ("set!: " ++ sym ++ " is not bound")
          | some scopes1 =>
            .ok (.next { m with scopes := scopes1, stack := m.stack.dropLast, pc := m.pc + 1 })
      | _ => .error notSymbol
    | opDefine =>
      match inst.immediate with
      | .symbol sym =>
        match m.stack.getLast? with
        | none => .error outOfRange
        | some value =>
          match Scope.set m.scopes m.scope sym value with
          | .error e => .error e
          | .ok scopes1 =>
            .ok (.next { m with scopes := scopes1, stack := m.stack.dropLast, pc := m.pc + 1 })
      | _ => .error notSymbol
    | opCall => m.call false inst.immediate
    | opTail => m.call true inst.immediate
    | opReturn =>
      match m.stack.getLast? with
      | none => .error outOfRange
      | some v => m.returnValue v

/-- The loop of `run`, for at most `fuel` turns: `done v` when `run` has
returned `v`, `next m` when the loop is still going on, in state `m`. -/
def VM.run : Nat → VM → Except String Outcome
  | 0, m => .ok (.next m)
  | fuel + 1, m =>
    match m.step with
    | .error e => .error e
    | .ok (.done v) => .ok (.done v)
    | .ok (.next m1) => VM.run fuel m1

/-- The state in which `(*compiledClosure).Apply` enters the loop of `run`:
a scope is pushed on the scope of the closure, the formals are assigned and
`init` allocates the first frame. -/
def CompiledClosure.enter (frames : List Frame) (scopes : List Scope) (c : CompiledClosure)
    (args : List Value) : Except String VM :=
  match Scope.push scopes c.scope with
  | (scopes1, scope) =>
    match VM.assignFormals scopes1 c.proc scope args with
    | .error e => .error e
    | .ok scopes2 =>
      VM.start (frames ++ [{ closure := some c, scope := scope, stack := [], pc := 0 }])
        scopes2 [frames.length]

def CompiledClosure.Apply (fuel : Nat) (frames : List Frame) (scopes : List Scope)
    (c : CompiledClosure) (args : List Value) : Except String Outcome :=
  match c.enter frames scopes args with
  | .error e => .error e
  | .ok m => m.run fuel

/-! ## Programs of the tests (vm_test.go) -/

/-- The expression `((lambda (x) (define (fac n acc) (if (= n 0) acc
(fac (- n 1) (* n acc)))) (fac x 1)) n)` of TestCompile. -/
def facProgram (n : Int) : Value :=
  ToList
    [ToList
      [.symbol "lambda", ToList [.symbol "x"],
       ToList
        [.symbol "define", ToList [.symbol "fac", .symbol "n", .symbol "acc"],
         ToList
          [.symbol "if", ToList [.symbol "=", .symbol "n", .number 0], .symbol "acc",
           ToList
            [.symbol "fac", ToList [.symbol "-", .symbol "n", .number 1],
             ToList [.symbol "*", .symbol "n", .symbol "acc"]]]],
       ToList [.symbol "fac", .symbol "x", .number 1]],
     .number n]

def facThen : CompiledProcedure :=
  ⟨"<if-true>", [], false, [⟨opGet, .symbol "acc"⟩, ⟨opReturn, .null⟩]⟩

def facElse : CompiledProcedure :=
  ⟨"<if-false>", [], false,
    [⟨opGet, .symbol "fac"⟩,
     ⟨opGet, .symbol "-"⟩, ⟨opGet, .symbol "n"⟩, ⟨opQuote, .number 1⟩, ⟨opCall, .integer 2⟩,
     ⟨opGet, .symbol "*"⟩, ⟨opGet, .symbol "n"⟩, ⟨opGet, .symbol "acc"⟩, ⟨opCall, .integer 2⟩,
     ⟨opTail, .integer 2⟩]⟩

def facProc : CompiledProcedure :=
  ⟨"fac", ["n", "acc"], false,
    [⟨opGet, .symbol "="⟩, ⟨opGet, .symbol "n"⟩, ⟨opQuote, .number 0⟩, ⟨opCall, .integer 2⟩,
     ⟨opLambda, .compiledProcedure facThen⟩,
     ⟨opLambda, .compiledProcedure facElse⟩,
     ⟨opIf, .null⟩,
     ⟨opTail, .integer 0⟩]⟩

def facOuter : CompiledProcedure :=
  ⟨"<lambda>", ["x"], false,
    [⟨opLambda, .compiledProcedure facProc⟩, ⟨opDefine, .symbol "fac"⟩,
     ⟨opGet, .symbol "fac"⟩, ⟨opGet, .symbol "x"⟩, ⟨opQuote, .number 1⟩, ⟨opTail, .integer 2⟩]⟩

/-- The code of `facProgram n`. -/
def facCode (n : Int) : List Instruction :=
  [⟨opLambda, .compiledProcedure facOuter⟩, ⟨opQuote, .number n⟩, ⟨opTail, .integer 1⟩]

/-- The symbols that `compile` treats as special forms. -/
def specialForms : List Symbol :=
  ["quote", "lambda", "if", "set!", "include", "include-ci", "define"]

/-- The greatest length of the chain of frames (the active frame and its
callers) over the states the loop of `run` goes through in its first `fuel`
turns, the starting state included. -/
def VM.maxChain : Nat → VM → Nat
  | 0, m => m.mstack.length
  | fuel + 1, m =>
    max m.mstack.length
      (match m.step with
       | .ok (.next m1) => VM.maxChain fuel m1
       | _ => 0)

/-- The closure that the tests apply: the given code, named `<stdin>`, over
the given scope. -/
def rootClosure (code : List Instruction) (scope : ScopeRef) : CompiledClosure :=
  ⟨⟨"<stdin>", [], false, code⟩, scope⟩

/-- The state at the head of `fac`: the active frame is the only frame of the
chain, and a new scope binds `n` to `k` and `acc` to `a`. -/
def facHead (F : List Frame) (S : List Scope) (r : ScopeRef) (s1 : Nat) (k a : Int)
    (fr : Frame) : VM :=
  { frames := F ++ [fr],
    scopes := S ++ [⟨[("acc", .number a), ("n", .number k)]⟩],
    mstack := [F.length],
    body := facProc.body,
    scope := S.length :: s1 :: r,
    stack := [],
    pc := 0 }

/-- The scope heap of the tests: the global scope and a scope pushed on it
that binds `call/cc` to `callCC`. -/
def testScopes : List Scope :=
  [globalEnv, ⟨[("call/cc", .callCC)]⟩]

/-- The expression `((lambda (x) ((lambda (y) y) 1) x) v)`: the body of the
outer procedure makes a non-tail call and then refers to its formal. -/
def nonTailProgram (v : Int) : Value :=
  ToList
    [ToList
      [.symbol "lambda", ToList [.symbol "x"],
       ToList [ToList [.symbol "lambda", ToList [.symbol "y"], .symbol "y"], .number 1],
       .symbol "x"],
     .number v]

def nonTailInner : CompiledProcedure :=
  ⟨"<lambda>", ["y"], false, [⟨opGet, .symbol "y"⟩, ⟨opReturn, .null⟩]⟩

def nonTailOuter : CompiledProcedure :=
  ⟨"<lambda>", ["x"], false,
    [⟨opLambda, .compiledProcedure nonTailInner⟩, ⟨opQuote, .number 1⟩, ⟨opCall, .integer 1⟩,
     ⟨opGet, .symbol "x"⟩, ⟨opReturn, .null⟩]⟩

/-- The code of `nonTailProgram v`. -/
def nonTailCode (v : Int) : List Instruction :=
  [⟨opLambda, .compiledProcedure nonTailOuter⟩, ⟨opQuote, .number v⟩, ⟨opTail, .integer 1⟩]


/-- The expression `(lambda formals body...)`; `body` is the list of the body
expressions. -/
def lambdaExpr (formals body : Value) : Value :=
  .pair (.symbol "lambda") (.pair formals body)

/-- The definition `(define (f . formals) body...)`. -/
def defineFunction (f : Symbol) (formals body : Value) : Value :=
  .pair (.symbol "define") (.pair (.pair (.symbol f) formals) body)

/-- The definition `(define f e)`. -/
def defineVariable (f : Symbol) (e : Value) : Value :=
  ToList [.symbol "define", .symbol f, e]

/-- The procedure `p` under another name. -/
def withName (name : Symbol) (p : CompiledProcedure) : CompiledProcedure :=
  ⟨name, p.formals, p.isVariadic, p.body⟩

/-- The instruction with the procedure of a LAMBDA renamed. -/
def renameLambda (name : Symbol) : Instruction → Instruction
  | ⟨opLambda, .compiledProcedure p⟩ => ⟨opLambda, .compiledProcedure (withName name p)⟩
  | i => i

/-- A machine about to execute RETURN in a frame that has a caller: the frame
of the caller holds the operand stack `[1]` and the pc 4. -/
def returnExample : VM :=
  { frames := [{ closure := some ⟨⟨"caller", [], false, []⟩, []⟩, scope := [],
                 stack := [.number 1], pc := 4 },
               { closure := none, scope := [], stack := [], pc := 0 }],
    scopes := [],
    mstack := [1, 0],
    body := [⟨opReturn, .null⟩],
    scope := [],
    stack := [.number 5],
    pc := 0 }

/-- A machine about to execute CALL 1 (`tail` false) or TAIL 1 (`tail` true)
on a closure of one formal, in a frame that has one caller. -/
def callExample (tail : Bool) : VM :=
  { frames := [{ closure := none, scope := [], stack := [], pc := 0 },
               { closure := none, scope := [], stack := [], pc := 0 }],
    scopes := [],
    mstack := [1, 0],
    body := [⟨if tail then opTail else opCall, .integer 1⟩],
    scope := [],
    stack := [.compiledClosure ⟨"id", ["y"], false, [⟨opGet, .symbol "y"⟩, ⟨opReturn, .null⟩]⟩ [],
              .number 5],
    pc := 0 }

/-- The expression `(* 2 (call/cc (lambda (c) (c v) w)))` of TestVM and
TestCompile, with a trailing expression `w` in the body of the receiver. -/
def callccProgram (v : Int) (w : Value) : Value :=
  ToList
    [.symbol "*", .number 2,
     ToList
      [.symbol "call/cc",
       ToList
        [.symbol "lambda", ToList [.symbol "c"], ToList [.symbol "c", .number v], w]]]

/-- The body of the receiver: the code of `(c v)` and then the code `rest` of
what follows it. -/
def receiverBody (v : Int) (rest : List Instruction) : List Instruction :=
  [⟨opGet, .symbol "c"⟩, ⟨opQuote, .number v⟩, ⟨opCall, .integer 1⟩] ++ rest

def callccCode (v : Int) (rest : List Instruction) : List Instruction :=
  [⟨opGet, .symbol "*"⟩, ⟨opQuote, .number 2⟩, ⟨opGet, .symbol "call/cc"⟩,
   ⟨opLambda, .compiledProcedure ⟨"<lambda>", ["c"], false, receiverBody v rest⟩⟩,
   ⟨opCall, .integer 1⟩, ⟨opTail, .integer 2⟩]


/-- The state in which `(*continuation).Apply` enters the loop of `run`: the
captured stack of frames is copied, the argument is appended to the operand
stack that the copy of the top frame holds, and `run` starts. -/
def Continuation.enter (frames : List Frame) (scopes : List Scope) (k : FrameRef)
    (arity : Nat) (args : List Value) : Except String VM :=
  if args.length ≠ arity then .error (continuationMessage arity)
  else
    match Frame.copyStack frames k with
    | .error e => .error e
    | .ok (frames1, top) =>
      match top with
      | [] => .error nilDeref
      | a :: _ =>
        match frames1.get? a with
        | none => .error nilDeref
        | some f =>
          match args with
          | [] => .error outOfRange
          | arg :: _ =>
            VM.start (frames1.set a { f with stack := f.stack ++ [arg] }) scopes top

def Continuation.Apply (fuel : Nat) (frames : List Frame) (scopes : List Scope) (k : FrameRef)
    (arity : Nat) (args : List Value) : Except String Outcome :=
  match Continuation.enter frames scopes k arity args with
  | .error e => .error e
  | .ok m => m.run fuel

/-- The frames of the chain of the machine, the active frame first: what the
field `stack` of the `vm` points to. -/
def VM.chain (m : VM) : List (Option Frame) :=
  m.mstack.map m.frames.get?

/-- The frame with a value appended to the operand stack it holds. -/
def Frame.push (f : Frame) (v : Value) : Frame :=
  { f with stack := f.stack ++ [v] }

/-- The closure of the frames of `continuationExample`. -/
def resumeClosure : CompiledClosure :=
  ⟨⟨"main", [], false,
    [⟨opQuote, .number 0⟩, ⟨opQuote, .number 0⟩, ⟨opReturn, .null⟩]⟩, []⟩

/-- A machine about to execute CALL 1 (`tail` false) or TAIL 1 (`tail` true)
on a continuation of the two frames at the addresses 1 and 2, with the
argument 5, in the frame at the address 0. -/
def continuationExample (tail : Bool) : VM :=
  { frames := [{ closure := some resumeClosure, scope := [], stack := [], pc := 0 },
               { closure := some resumeClosure, scope := [0], stack := [.number 2], pc := 1 },
               { closure := none, scope := [], stack := [.number 7], pc := 4 }],
    scopes := [⟨[]⟩],
    mstack := [0],
    body := [⟨if tail then opTail else opCall, .integer 1⟩],
    scope := [],
    stack := [.continuation [1, 2] 1, .number 5],
    pc := 0 }

/-! ## Syntax rules (syntax.go) -/

/-- A rule of a ruleset: `pattern` is a `*Pair` in the source. -/
structure SyntaxRule where
  pattern : Value
  template : Value

/-- A ruleset.  `literals` maps each literal to the scope that bound it when
the ruleset was defined (the nil pointer `[]` when no scope did), latest entry
first. -/
structure SyntaxRules where
  scope : ScopeRef
  literals : List (Symbol × ScopeRef)
  rules : List SyntaxRule

/-- The matcher of one rule. -/
structure SyntaxMatcher where
  literals : List (Symbol × ScopeRef)
  ruleScope : ScopeRef
  formScope : ScopeRef
  rule : SyntaxRule

/-- The field `syntax` of a scope cell, latest entry first; `none` is the nil
map of a scope that was not made by `push`.  The tables are kept in a heap of
their own, at the addresses of the scope cells. -/
abbrev KeywordTable := Option (List (Symbol × SyntaxRules))

/-- The result of a function that was given too few turns. -/
def outOfFuel : String := "out of fuel"

def notVector : String := "interface conversion: Value is not Vector"

/-- The map read `where, ok := m.literals[p]`. -/
def literalGet : List (Symbol × ScopeRef) → Symbol → Option ScopeRef
  | [], _ => none
  | (k, w) :: rest, name => if k = name then some w else literalGet rest name

/-- The map read `v, ok := s.syntax[name]`. -/
def keywordGet : List (Symbol × SyntaxRules) → Symbol → Option SyntaxRules
  | [], _ => none
  | (k, r) :: rest, name => if k = name then some r else keywordGet rest name

/-- The scope of the chain that binds the name, or the nil pointer. -/
def Scope.where_ (scopes : List Scope) : ScopeRef → Symbol → ScopeRef
  | [], _ => []
  | a :: outer, name =>
    match scopes.get? a with
    | none => []
    | some s =>
      match envGet s.env name with
      | some _ => a :: outer
      | none => Scope.where_ scopes outer name

/-- The ruleset of the nearest scope of the chain whose table has the name. -/
def Scope.lookupKeyword (keywords : List KeywordTable) : ScopeRef → Symbol → Option SyntaxRules
  | [], _ => none
  | a :: outer, name =>
    match keywords.get? a with
    | some (some table) =>
      match keywordGet table name with
      | some r => some r
      | none => Scope.lookupKeyword keywords outer name
    | _ => Scope.lookupKeyword keywords outer name

/-- The type assertion `v.(*Pair)`: the car and the cdr of the pair, or the
nil pointer. -/
def Value.asPair : Value → Option (Value × Value)
  | .pair a d => some (a, d)
  | _ => none

/-- The loop of `(*Pair).len` from the cdr `d` of a pair on: the pairs that
follow, and one more for an improper tail. -/
def lenLoop : Value → Nat
  | .pair _ d => lenLoop d + 1
  | .null => 0
  | _ => 1

/-- The method `(*Pair).len`; the nil pointer has length 0. -/
def pairLen : Option (Value × Value) → Nat
  | none => 0
  | some (_, d) => lenLoop d + 1

/-- The test `more && next.car == Symbol("...")`. -/
def isEllipsis : Option (Value × Value) → Bool
  | some (.symbol s, _) => s == "..."
  | _ => false

/-- The test `len(t) > 1 && t[1] == Symbol("...")` of the vector loops. -/
def isEllipsisVector : List Value → Bool
  | _ :: .symbol s :: _ => s == "..."
  | _ => false

/-- The call `equal(p, form, ...)` of the default case of `matchPattern`,
where `p` is no pair and no vector: it is `eqv(p, form)`.  Numbers are
compared by value and so are the other data the parser reads; the remaining
values are pointers compared by identity in the source, and match nothing
here. -/
def equalDatum : Value → Value → Bool
  | .number a, .number b => decide (a = b)
  | .boolean a, .boolean b => decide (a = b)
  | .character a, .character b => decide (a = b)
  | .string a, .string b => decide (a = b)
  | .integer a, .integer b => decide (a = b)
  | _, _ => false

/-- The loop `for k, v := range scope.env { bindings.env[k] = v }`: every name
of `scope` gets its value in `bindings`. -/
def copyOut (scope bindings : List (Symbol × Value)) : List (Symbol × Value) :=
  scope ++ bindings

/-- `scope.set(sym, matched)` after an ellipsis, unless the sub-pattern is no
symbol or is a literal. -/
def setMatched (m : SyntaxMatcher) (ellipsis : Value) (scope : List (Symbol × Value))
    (matched : List Value) : List (Symbol × Value) :=
  match ellipsis with
  | .symbol sym =>
    match literalGet m.literals sym with
    | some _ => scope
    | none => envPut scope sym (.vector matched)
  | _ => scope

mutual
/-- The method `matchPattern`: `none` is the result false, `some` holds the
`env` of `bindings` after the call.  The `env` of a scope is all the matcher
uses of it. -/
def SyntaxMatcher.matchPattern (scopes : List Scope) (m : SyntaxMatcher) :
    Nat → Value → Value → List (Symbol × Value) → Except String (Option (List (Symbol × Value)))
  | 0, _, _, _ => .error outOfFuel
  | fuel + 1, pattern, form, bindings =>
    match pattern with
    | .null =>
      match form with
      | .null => .ok (some bindings)
      | _ => .ok none
    | .symbol p =>
      if p = "_" then .ok (some bindings)
      else
        match literalGet m.literals p with
        | some where_ =>
          match form with
          | .symbol f =>
            if p = f ∧ Scope.where_ scopes m.formScope f = where_ then .ok (some bindings)
            else .ok none
          | _ => .ok none
        | none => .ok (some (envPut bindings p form))
    | .pair pcar pcdr =>
      match form with
      | .pair fcar fcdr =>
        match SyntaxMatcher.matchLoop scopes m fuel pcar pcdr (some (fcar, fcdr)) [] with
        | .error e => .error e
        | .ok none => .ok none
        | .ok (some scope) => .ok (some (copyOut scope bindings))
      | _ => .ok none
    | .vector p =>
      match form with
      | .vector f =>
        match SyntaxMatcher.matchVector scopes m fuel p f [] with
        | .error e => .error e
        | .ok none => .ok none
        | .ok (some scope) => .ok (some (copyOut scope bindings))
      | _ => .ok none
    | p => if equalDatum p form then .ok (some bindings) else .ok none
/-- The loop of the case `*Pair` of `matchPattern`, at the pair `p` with the
fields `pcar` and `pcdr`; `form` is a `*Pair` that may be nil.  The result
holds the `env` of `scope` when the loop returns true. -/
def SyntaxMatcher.matchLoop (scopes : List Scope) (m : SyntaxMatcher) :
    Nat → Value → Value → Option (Value × Value) → List (Symbol × Value) →
      Except String (Option (List (Symbol × Value)))
  | 0, _, _, _, _ => .error outOfFuel
  | fuel + 1, pcar, pcdr, form, scope =>
    let next := pcdr.asPair
    if isEllipsis next then
      let nmatches : Int := (pairLen form : Int) - (pairLen next : Int) + 1
      if nmatches < 0 then .ok none
      else
        let looped : Except String
            (Option (Option (Value × Value) × List (Symbol × Value) × List Value)) :=
          if 0 < nmatches then
            SyntaxMatcher.ellipsisLoop scopes m fuel pcar form nmatches.toNat scope []
          else .ok (some (form, scope, []))
        match looped with
        | .error e => .error e
        | .ok none => .ok none
        | .ok (some (form1, scope1, matched)) =>
          let scope2 := setMatched m pcar scope1 matched
          match next with
          | none => .error nilDeref
          | some (_, ncdr) =>
            match ncdr.asPair with
            | some (acar, acdr) =>
              match form1 with
              | none => .error nilDeref
              | some (_, fcdr) =>
                SyntaxMatcher.matchLoop scopes m fuel acar acdr fcdr.asPair scope2
            | none =>
              match form1 with
              | none => .ok (some scope2)
              | some (_, fcdr) => SyntaxMatcher.matchPattern scopes m fuel ncdr fcdr scope2
    else
      match form with
      | none => .ok none
      | some (fcar, fcdr) =>
        match SyntaxMatcher.matchPattern scopes m fuel pcar fcar scope with
        | .error e => .error e
        | .ok none => .ok none
        | .ok (some scope1) =>
          match next with
          | some (ncar, ncdr) =>
            SyntaxMatcher.matchLoop scopes m fuel ncar ncdr fcdr.asPair scope1
          | none => SyntaxMatcher.matchPattern scopes m fuel pcdr fcdr scope1
/-- The inner loop of an ellipsis, entered with `matches > 0`: the sub-pattern
is matched against `form.car`, `matches` times; the result holds the last form
matched, the `env` of `scope` and the forms matched. -/
def SyntaxMatcher.ellipsisLoop (scopes : List Scope) (m : SyntaxMatcher) :
    Nat → Value → Option (Value × Value) → Nat → List (Symbol × Value) → List Value →
      Except String (Option (Option (Value × Value) × List (Symbol × Value) × List Value))
  | 0, _, _, _, _, _ => .error outOfFuel
  | fuel + 1, ellipsis, form, nmatches, scope, matched =>
    match form with
    | none => .error nilDeref
    | some (fcar, fcdr) =>
      match SyntaxMatcher.matchPattern scopes m fuel ellipsis fcar scope with
      | .error e => .error e
      | .ok none => .ok none
      | .ok (some scope1) =>
        if nmatches - 1 = 0 then .ok (some (form, scope1, matched ++ [fcar]))
        else
          SyntaxMatcher.ellipsisLoop scopes m fuel ellipsis fcdr.asPair (nmatches - 1) scope1
            (matched ++ [fcar])
/-- The loop of the case `Vector` of `matchPattern`. -/
def SyntaxMatcher.matchVector (scopes : List Scope) (m : SyntaxMatcher) :
    Nat → List Value → List Value → List (Symbol × Value) →
      Except String (Option (List (Symbol × Value)))
  | 0, _, _, _ => .error outOfFuel
  | fuel + 1, p, form, scope =>
    match p with
    | [] => if form.length ≠ 0 then .ok none else .ok (some scope)
    | p0 :: ptail =>
      if isEllipsisVector p then
        let p2 := ptail.tail
        let nmatches : Int := (form.length : Int) - (p2.length : Int)
        if nmatches < 0 then .ok none
        else
          match SyntaxMatcher.matchEach scopes m fuel p0 (form.take nmatches.toNat) scope with
          | .error e => .error e
          | .ok none => .ok none
          | .ok (some scope1) =>
            SyntaxMatcher.matchVector scopes m fuel p2 (form.drop nmatches.toNat)
              (setMatched m p0 scope1 (form.take nmatches.toNat))
      else
        match form with
        | [] => .ok none
        | f0 :: ftail =>
          match SyntaxMatcher.matchPattern scopes m fuel p0 f0 scope with
          | .error e => .error e
          | .ok none => .ok none
          | .ok (some scope1) => SyntaxMatcher.matchVector scopes m fuel ptail ftail scope1
/-- The loop `for _, form := range matched` of the case `Vector`. -/
def SyntaxMatcher.matchEach (scopes : List Scope) (m : SyntaxMatcher) :
    Nat → Value → List Value → List (Symbol × Value) →
      Except String (Option (List (Symbol × Value)))
  | 0, _, _, _ => .error outOfFuel
  | fuel + 1, ellipsis, forms, scope =>
    match forms with
    | [] => .ok (some scope)
    | f :: rest =>
      match SyntaxMatcher.matchPattern scopes m fuel ellipsis f scope with
      | .error e => .error e
      | .ok none => .ok none
      | .ok (some scope1) => SyntaxMatcher.matchEach scopes m fuel ellipsis rest scope1
end

/-- The case `*Pair` of `matchPattern` once the form has passed the type
assertion: the loop runs in a scope pushed on `bindings`, whose names are
copied out when it returns true.  A nil `*Pair` passes the assertion too. -/
def SyntaxMatcher.matchPair (scopes : List Scope) (m : SyntaxMatcher) (fuel : Nat)
    (pcar pcdr : Value) (form : Option (Value × Value)) (bindings : List (Symbol × Value)) :
    Except String (Option (List (Symbol × Value))) :=
  match SyntaxMatcher.matchLoop scopes m fuel pcar pcdr form [] with
  | .error e => .error e
  | .ok none => .ok none
  | .ok (some scope) => .ok (some (copyOut scope bindings))

/-- The list that the loop of `emitTemplate` links: the pairs of the emitted
values in order, the cdr of the last one being `tail`. -/
def linkPairs : List Value → Value → Value
  | [], tail => tail
  | v :: rest, tail => .pair v (linkPairs rest tail)

/-- The loop of `syntaxRules.match`: the result of the first rule, in order,
that does not return false. -/
def SyntaxRules.loop (try_ : SyntaxRule → Except String (Option Value)) :
    List SyntaxRule → Except String (Option Value)
  | [] => .ok none
  | r :: rest =>
    match try_ r with
    | .error e => .error e
    | .ok (some v) => .ok (some v)
    | .ok none => SyntaxRules.loop try_ rest

/-- The matches that an ellipsis after the template `t` appends to the values
emitted so far: those of the vector bound to `t` when `t` is a symbol, none
otherwise. -/
def emitMatches (t : Value) (bindings : List (Symbol × Value)) (acc : List Value) :
    Except String (List Value) :=
  match t with
  | .symbol sym =>
    match envGet bindings sym with
    | some (.vector ms) => .ok (acc ++ ms)
    | _ => .error notVector
  | _ => .ok acc

mutual
/-- The method `emitTemplate`.  `bindings` is the `env` of the scope of the
bindings of the pattern, which has no outer scope. -/
def SyntaxMatcher.emitTemplate (scopes : List Scope) (keywords : List KeywordTable)
    (m : SyntaxMatcher) : Nat → Value → List (Symbol × Value) → Except String Value
  | 0, _, _ => .error outOfFuel
  | fuel + 1, template, bindings =>
    match template with
    | .null => .ok .null
    | .symbol t =>
      match literalGet m.literals t with
      | some where_ =>
        match where_ with
        | [] => .ok (.symbol t)
        | a :: outer => .ok (.binding (a :: outer) t)
      | none =>
        match envGet bindings t with
        | some v => .ok v
        | none => .ok (.symbol t)
    | .pair tcar tcdr => SyntaxMatcher.emitLoop scopes keywords m fuel tcar tcdr bindings []
    | .vector t =>
      match SyntaxMatcher.emitVector scopes keywords m fuel t bindings [] with
      | .error e => .error e
      | .ok result => .ok (.vector result)
    | t => .ok t
/-- The loop of the case `*Pair` of `emitTemplate`, at the pair `t` with the
fields `tcar` and `tcdr`; `acc` holds the cars of the pairs linked from `head`
to `tail`. -/
def SyntaxMatcher.emitLoop (scopes : List Scope) (keywords : List KeywordTable)
    (m : SyntaxMatcher) : Nat → Value → Value → List (Symbol × Value) → List Value →
      Except String Value
  | 0, _, _, _, _ => .error outOfFuel
  | fuel + 1, tcar, tcdr, bindings, acc =>
    let next := tcdr.asPair
    if isEllipsis next then
      match emitMatches tcar bindings acc with
      | .error e => .error e
      | .ok acc1 =>
        match next with
        | none => .error nilDeref
        | some (_, ncdr) =>
          match ncdr.asPair with
          | some (acar, acdr) => SyntaxMatcher.emitLoop scopes keywords m fuel acar acdr bindings acc1
          | none => SyntaxMatcher.emitEnd scopes keywords m fuel ncdr bindings acc1
    else
      match SyntaxMatcher.emitTemplate scopes keywords m fuel tcar bindings with
      | .error e => .error e
      | .ok v =>
        match next with
        | some (ncar, ncdr) =>
          SyntaxMatcher.emitLoop scopes keywords m fuel ncar ncdr bindings (acc ++ [v])
        | none => SyntaxMatcher.emitEnd scopes keywords m fuel tcdr bindings (acc ++ [v])
/-- The end of the loop of the case `*Pair`: the cdr of the last pair of the
template is emitted into `tail.cdr` unless it is nil, and when the car of
`head` is a keyword of the scope of the rules, the list is matched against
the rules of that keyword. -/
def SyntaxMatcher.emitEnd (scopes : List Scope) (keywords : List KeywordTable)
    (m : SyntaxMatcher) : Nat → Value → List (Symbol × Value) → List Value →
      Except String Value
  | 0, _, _, _ => .error outOfFuel
  | fuel + 1, tcdr, bindings, acc =>
    let emitted : Except String Value :=
      match tcdr with
      | .null => .ok .null
      | t => SyntaxMatcher.emitTemplate scopes keywords m fuel t bindings
    match emitted with
    | .error e => .error e
    | .ok tail =>
      match acc with
      | [] => .error nilDeref
      | h :: rest =>
        let head := linkPairs (h :: rest) tail
        match h with
        | .symbol sym =>
          match Scope.lookupKeyword keywords m.ruleScope sym with
          | some rules =>
            match SyntaxRules.loop
                (fun r => SyntaxMatcher.match_ scopes keywords
                  ⟨rules.literals, rules.scope, m.ruleScope, r⟩ fuel head) rules.rules with
            | .error e => .error e
            | .ok (some v) => .ok v
            | .ok none => .ok head
          | none => .ok head
        | _ => .ok head
/-- The loop of the case `Vector` of `emitTemplate`. -/
def SyntaxMatcher.emitVector (scopes : List Scope) (keywords : List KeywordTable)
    (m : SyntaxMatcher) : Nat → List Value → List (Symbol × Value) → List Value →
      Except String (List Value)
  | 0, _, _, _ => .error outOfFuel
  | fuel + 1, t, bindings, result =>
    match t with
    | [] => .ok result
    | t0 :: ttail =>
      if isEllipsisVector t then
        match emitMatches t0 bindings result with
        | .error e => .error e
        | .ok result1 => SyntaxMatcher.emitVector scopes keywords m fuel ttail.tail bindings result1
      else
        match SyntaxMatcher.emitTemplate scopes keywords m fuel t0 bindings with
        | .error e => .error e
        | .ok v => SyntaxMatcher.emitVector scopes keywords m fuel ttail bindings (result ++ [v])
/-- The method `syntaxMatcher.match`: the first elements of the pattern and of
the form are ignored, the rest of the pattern is matched in new bindings and
the template is emitted; `none` is the result false. -/
def SyntaxMatcher.match_ (scopes : List Scope) (keywords : List KeywordTable)
    (m : SyntaxMatcher) : Nat → Value → Except String (Option Value)
  | 0, _ => .error outOfFuel
  | fuel + 1, form =>
    match m.rule.pattern, form with
    | .pair _ pcdr, .pair _ fcdr =>
      let matched : Except String (Option (List (Symbol × Value))) :=
        match pcdr.asPair with
        | none =>
          match fcdr.asPair with
          | some _ => .ok none
          | none => .ok (some [])
        | some (pcar, pcdr1) => SyntaxMatcher.matchPair scopes m fuel pcar pcdr1 fcdr.asPair []
      match matched with
      | .error e => .error e
      | .ok none => .ok none
      | .ok (some bindings) =>
        match SyntaxMatcher.emitTemplate scopes keywords m fuel m.rule.template bindings with
        | .error e => .error e
        | .ok v => .ok (some v)
    | _, _ => .error nilDeref
end

/-- The method `syntaxRules.match`: the rules are tried in order, each in a
matcher of its own. -/
def SyntaxRules.match_ (scopes : List Scope) (keywords : List KeywordTable) (fuel : Nat)
    (r : SyntaxRules) (form : Value) (scope : ScopeRef) : Except String (Option Value) :=
  SyntaxRules.loop
    (fun rule => SyntaxMatcher.match_ scopes keywords ⟨r.literals, r.scope, scope, rule⟩ fuel form)
    r.rules

/-! ## Keyword definitions (eval.go) -/

def invalidDefineSyntax : String :=
  "define-syntax must be of the form (define-syntax keyword transformer-spec)"

def invalidSyntaxRules : String :=
  "syntax-rules must be of the form (syntax-rules (literal ...) syntaxrule ...)"

def invalidRule : String := "rules must be of the form ((list-pattern) template)"

def nilMap : String := "assignment to entry in nil map"

/-- The method `setKeyword`: `s.syntax[name] = v`, a write to the table of the
scope itself.  The write to a nil map panics. -/
def Scope.setKeyword (keywords : List KeywordTable) (s : ScopeRef) (name : Symbol)
    (v : SyntaxRules) : Except String (List KeywordTable) :=
  match s with
  | [] => .error nilDeref
  | a :: _ =>
    match keywords.get? a with
    | none => .error nilDeref
    | some none => .error nilMap
    | some (some table) => .ok (keywords.set a (some ((name, v) :: table)))

/-- The table of a scope made by `push`, which makes both maps: the cell is
allocated at the address at which `Scope.push` allocates the `env`. -/
def pushKeywords (keywords : List KeywordTable) : List KeywordTable :=
  keywords ++ [some []]

/-- The table of `globalScope`, which is declared with its `env` only. -/
def globalKeywords : List KeywordTable := [none]

/-- `NewEnv`: the environment whose `globals` is `globalScope`. -/
def NewEnv : ScopeRef := globalScope

/-- The method `Env.With`: the new environment has a scope with the given
`env`, no `syntax` map and the globals of `e` as outer scope. -/
def Env.With (scopes : List Scope) (keywords : List KeywordTable) (e : ScopeRef)
    (bindings : List (Symbol × Value)) : List Scope × List KeywordTable × ScopeRef :=
  (scopes ++ [⟨bindings⟩], keywords ++ [none], scopes.length :: e)

/-- The loop over the literals of `evalDefineSyntax`: `literals[l] = s.where(l)`. -/
def defineLiterals (scopes : List Scope) (s : ScopeRef) :
    List Value → List (Symbol × ScopeRef) → Except String (List (Symbol × ScopeRef))
  | [], literals => .ok literals
  | .symbol l :: rest, literals =>
    defineLiterals scopes s rest ((l, Scope.where_ scopes s l) :: literals)
  | _ :: _, _ => .error invalidSyntaxRules

/-- The loop over the rules of `evalDefineSyntax`. -/
def defineRules : List Value → Except String (List SyntaxRule)
  | [] => .ok []
  | .pair a d :: rest =>
    match Value.ToVector (.pair a d) with
    | [.pair pa pd, template] =>
      match defineRules rest with
      | .error e => .error e
      | .ok rules => .ok (⟨.pair pa pd, template⟩ :: rules)
    | _ => .error invalidRule
  | _ :: _ => .error invalidRule

/-- The vector of the literals of a ruleset: `literalSpec.ToVector()`, where
`literalSpec` is a list or nil. -/
def literalVector : Value → Except String (List Value)
  | .pair a d => .ok (Value.ToVector (.pair a d))
  | .null => .ok []
  | _ => .error invalidSyntaxRules

/-- The function `evalDefineSyntax`, which `eval` calls on a form whose car is
`define-syntax` with the scope it evaluates in (so `Env.Eval` calls it with
the globals of the environment): the ruleset is stored in the table of `s`.
The result holds the tables after the call; the value returned is nil. -/
def evalDefineSyntax (scopes : List Scope) (keywords : List KeywordTable) (e : Value)
    (s : ScopeRef) : Except String (List KeywordTable) :=
  match e.ToVector with
  | [_, .symbol keyword, .pair (.symbol spec) specCdr] =>
    if spec ≠ "syntax-rules" then .error invalidDefineSyntax
    else
      match Value.ToVector (.pair (.symbol spec) specCdr) with
      | _ :: literalSpec :: ruleSpec :: ruleSpecs =>
        match literalVector literalSpec with
        | .error err => .error err
        | .ok ls =>
          match defineLiterals scopes s ls [] with
          | .error err => .error err
          | .ok literals =>
            match defineRules (ruleSpec :: ruleSpecs) with
            | .error err => .error err
            | .ok rules => Scope.setKeyword keywords s keyword ⟨s, literals, rules⟩
      | _ => .error invalidSyntaxRules
  | _ => .error invalidDefineSyntax

/-! ## The rulesets of TestSyntaxRules (syntax_test.go) -/

/-- The datum `(quote v)` that the parser reads for `'v`. -/
def quoted (v : Value) : Value := ToList [.symbol "quote", v]

/-- The rules of `and`. -/
def andRuleSpecs : List Value :=
  [ToList [ToList [.symbol "and"], .boolean true],
   ToList [ToList [.symbol "and", .symbol "test"], .symbol "test"],
   ToList [ToList [.symbol "and", .symbol "test1", .symbol "test2", .symbol "..."],
           ToList [.symbol "if", .symbol "test1",
                   ToList [.symbol "and", .symbol "test2", .symbol "..."], .boolean false]]]

/-- The definition of `and` that the test evaluates. -/
def andDefinition : Value :=
  ToList [.symbol "define-syntax", .symbol "and",
          ToList (.symbol "syntax-rules" :: .null :: andRuleSpecs)]

/-- The definition of `begin` that the test evaluates. -/
def beginDefinition : Value :=
  ToList [.symbol "define-syntax", .symbol "begin",
    ToList [.symbol "syntax-rules", .null,
      ToList [ToList [.symbol "begin", .symbol "exp", .symbol "..."],
              ToList [ToList [.symbol "lambda", .null, .symbol "exp", .symbol "..."]]]]]

/-- The template `(let ((temp test)) body)` of the rules of `cond`. -/
def letTemp (body : Value) : Value :=
  ToList [.symbol "let", ToList [ToList [.symbol "temp", .symbol "test"]], body]

/-- The template `(cond clause1 clause2 ...)`. -/
def condRest : Value :=
  ToList [.symbol "cond", .symbol "clause1", .symbol "clause2", .symbol "..."]

/-- The template `(begin result1 result2 ...)`. -/
def beginResults : Value :=
  ToList [.symbol "begin", .symbol "result1", .symbol "result2", .symbol "..."]

/-- The definition of `cond` that the test evaluates. -/
def condDefinition : Value :=
  ToList [.symbol "define-syntax", .symbol "cond",
    ToList [.symbol "syntax-rules", ToList [.symbol "else", .symbol "=>"],
      ToList [ToList [.symbol "cond",
                ToList [.symbol "else", .symbol "result1", .symbol "result2", .symbol "..."]],
              beginResults],
      ToList [ToList [.symbol "cond", ToList [.symbol "test", .symbol "=>", .symbol "result"]],
              letTemp (ToList [.symbol "if", .symbol "temp",
                               ToList [.symbol "result", .symbol "temp"]])],
      ToList [ToList [.symbol "cond", ToList [.symbol "test", .symbol "=>", .symbol "result"],
                .symbol "clause1", .symbol "clause2", .symbol "..."],
              letTemp (ToList [.symbol "if", .symbol "temp",
                               ToList [.symbol "result", .symbol "temp"], condRest])],
      ToList [ToList [.symbol "cond", ToList [.symbol "test"]], .symbol "test"],
      ToList [ToList [.symbol "cond", ToList [.symbol "test"],
                .symbol "clause1", .symbol "clause2", .symbol "..."],
              letTemp (ToList [.symbol "if", .symbol "temp", .symbol "temp", condRest])],
      ToList [ToList [.symbol "cond",
                ToList [.symbol "test", .symbol "result1", .symbol "result2", .symbol "..."]],
              ToList [.symbol "if", .symbol "test", beginResults]],
      ToList [ToList [.symbol "cond",
                ToList [.symbol "test", .symbol "result1", .symbol "result2", .symbol "..."],
                .symbol "clause1", .symbol "clause2", .symbol "..."],
              ToList [.symbol "if", .symbol "test", beginResults, condRest]]]]

/-- The scopes of the test: `globalScope` and the scope `globalScope.push()`
in which the definitions are evaluated. -/
def syntaxScopes : List Scope := (Scope.push [globalEnv] globalScope).1

/-- The scope `globalScope.push()` of the test. -/
def syntaxScope : ScopeRef := (Scope.push [globalEnv] globalScope).2

/-- The ruleset stored under `name` by the definitions evaluated in order in
the scope of the test, and the tables after them. -/
def definedIn (definitions : List Value) (name : Symbol) :
    Except String (List KeywordTable × SyntaxRules) :=
  match definitions.foldlM
      (fun keywords d => evalDefineSyntax syntaxScopes keywords d syntaxScope)
      (pushKeywords globalKeywords) with
  | .error e => .error e
  | .ok keywords =>
    match Scope.lookupKeyword keywords syntaxScope name with
    | none => .error "no keyword"
    | some rules => .ok (keywords, rules)

/-- The call `rules.match(form, globalScope)` of the test, `rules` being the
ruleset of `name` after the definitions. -/
def testMatch (definitions : List Value) (name : Symbol) (fuel : Nat) (form : Value) :
    Except String (Option Value) :=
  match definedIn definitions name with
  | .error e => .error e
  | .ok (keywords, rules) => SyntaxRules.match_ syntaxScopes keywords fuel rules form globalScope

/-- The ruleset that the definition of `and` stores, defined in the scope `s`. -/
def andRules (s : ScopeRef) : SyntaxRules :=
  ⟨s, [],
   [⟨ToList [.symbol "and"], .boolean true⟩,
    ⟨ToList [.symbol "and", .symbol "test"], .symbol "test"⟩,
    ⟨ToList [.symbol "and", .symbol "test1", .symbol "test2", .symbol "..."],
     ToList [.symbol "if", .symbol "test1",
             ToList [.symbol "and", .symbol "test2", .symbol "..."], .boolean false]⟩]⟩

/-- The form `(if t1 (if t2 ... (if t(n-1) tn #f) ... #f) #f)`; it is `t1` for
one form. -/
def andExpansion : List Value → Value
  | [] => .boolean true
  | [t] => t
  | t :: u :: rest => ToList [.symbol "if", t, andExpansion (u :: rest), .boolean false]

/-- The form `(cond ((> 3 2) 'greater) ((< 3 2) 'less))` of the test. -/
def condForm : Value :=
  ToList [.symbol "cond",
    ToList [ToList [.symbol ">", .number 3, .number 2], quoted (.symbol "greater")],
    ToList [ToList [.symbol "<", .number 3, .number 2], quoted (.symbol "less")]]

/-- The form `(if (> 3 2) (begin 'greater) (if (< 3 2) (begin 'less)))` that
the test expects. -/
def condExpected : Value :=
  ToList [.symbol "if", ToList [.symbol ">", .number 3, .number 2],
    ToList [.symbol "begin", quoted (.symbol "greater")],
    ToList [.symbol "if", ToList [.symbol "<", .number 3, .number 2],
      ToList [.symbol "begin", quoted (.symbol "less")]]]

/-- The form `(if (> 3 2) ((lambda () 'greater)) (if (< 3 2) ((lambda () 'less))))`,
in which the forms headed by `begin` are expanded too. -/
def condChained : Value :=
  ToList [.symbol "if", ToList [.symbol ">", .number 3, .number 2],
    ToList [ToList [.symbol "lambda", .null, quoted (.symbol "greater")]],
    ToList [.symbol "if", ToList [.symbol "<", .number 3, .number 2],
      ToList [ToList [.symbol "lambda", .null, quoted (.symbol "less")]]]]

/-- A matcher of the rule `((m p ... q) (p ... q))`, without literals. -/
def ellipsisMatcher : SyntaxMatcher :=
  ⟨[], [], [],
   ⟨ToList [.symbol "m", .symbol "p", .symbol "...", .symbol "q"],
    ToList [.symbol "p", .symbol "...", .symbol "q"]⟩⟩

/-- A matcher of the rule `((m v ...) (v ...))`, without literals. -/
def spliceMatcher : SyntaxMatcher :=
  ⟨[], [], [],
   ⟨ToList [.symbol "m", .symbol "v", .symbol "..."], ToList [.symbol "v", .symbol "..."]⟩⟩

/-- The definition `(define-syntax m (syntax-rules (_) ((m _) 1)))`, in which
the underscore is declared a literal. -/
def underscoreDefinition : Value :=
  ToList [.symbol "define-syntax", .symbol "m",
    ToList [.symbol "syntax-rules", ToList [.symbol "_"],
      ToList [ToList [.symbol "m", .symbol "_"], .number 1]]]

/-- The definition `(define-syntax m (syntax-rules () ((m x y) (x y))))`. -/
def applyDefinition : Value :=
  ToList [.symbol "define-syntax", .symbol "m",
    ToList [.symbol "syntax-rules", .null,
      ToList [ToList [.symbol "m", .symbol "x", .symbol "y"],
              ToList [.symbol "x", .symbol "y"]]]]

/-- The test of the end of the loop of `emitTemplate`: the value is a symbol
and `lookupKeyword` finds a ruleset for it from the scope `s`. -/
def isKeywordHead (keywords : List KeywordTable) (s : ScopeRef) : Value → Bool
  | .symbol sym => (Scope.lookupKeyword keywords s sym).isSome
  | _ => false

mutual
/-- The template in which every symbol that `bindings` binds is replaced by
its value, and every other symbol and datum is left as it is. -/
def substitute (bindings : List (Symbol × Value)) : Value → Value
  | .symbol s => (envGet bindings s).getD (.symbol s)
  | .pair a d => .pair (substitute bindings a) (substitute bindings d)
  | .vector ts => .vector (substituteAll bindings ts)
  | v => v
/-- The replacement in every template of a vector. -/
def substituteAll (bindings : List (Symbol × Value)) : List Value → List Value
  | [] => []
  | t :: ts => substitute bindings t :: substituteAll bindings ts
end

mutual
/-- The number of pairs, vectors, symbols and data of a template. -/
def templateSize : Value → Nat
  | .pair a d => templateSize a + templateSize d + 1
  | .vector ts => templateSizeAll ts + 1
  | _ => 1
def templateSizeAll : List Value → Nat
  | [] => 1
  | t :: ts => templateSize t + templateSizeAll ts + 1
end

mutual
/-- A template without ellipsis and without literal in which no list is
headed, once the variables are replaced, by a keyword of the scope of the
rule. -/
def plainTemplate (literals : List (Symbol × ScopeRef)) (keywords : List KeywordTable)
    (ruleScope : ScopeRef) (bindings : List (Symbol × Value)) : Value → Bool
  | .symbol s => s != "..." && (literalGet literals s).isNone
  | .pair a d =>
    !isKeywordHead keywords ruleScope (substitute bindings a) &&
      (plainTemplate literals keywords ruleScope bindings a &&
        plainRest literals keywords ruleScope bindings d)
  | .vector ts => plainAll literals keywords ruleScope bindings ts
  | _ => true
/-- The same for the cdr of a pair of a template: a pair there goes on with
the list, it does not head one. -/
def plainRest (literals : List (Symbol × ScopeRef)) (keywords : List KeywordTable)
    (ruleScope : ScopeRef) (bindings : List (Symbol × Value)) : Value → Bool
  | .symbol s => s != "..." && (literalGet literals s).isNone
  | .pair a d =>
    plainTemplate literals keywords ruleScope bindings a &&
      plainRest literals keywords ruleScope bindings d
  | .vector ts => plainAll literals keywords ruleScope bindings ts
  | _ => true
/-- The same for the templates of a vector. -/
def plainAll (literals : List (Symbol × ScopeRef)) (keywords : List KeywordTable)
    (ruleScope : ScopeRef) (bindings : List (Symbol × Value)) : List Value → Bool
  | [] => true
  | t :: ts =>
    plainTemplate literals keywords ruleScope bindings t &&
      plainAll literals keywords ruleScope bindings ts
end

/-- The definition `(define-syntax m (syntax-rules () ((m v ...) (and v ...))))`. -/
def spliceAndDefinition : Value :=
  ToList [.symbol "define-syntax", .symbol "m",
    ToList [.symbol "syntax-rules", .null,
      ToList [ToList [.symbol "m", .symbol "v", .symbol "..."],
              ToList [.symbol "and", .symbol "v", .symbol "..."]]]]

/-- The definition `(define-syntax m (syntax-rules () ((m x y) (if x y #f))))`. -/
def guardDefinition : Value :=
  ToList [.symbol "define-syntax", .symbol "m",
    ToList [.symbol "syntax-rules", .null,
      ToList [ToList [.symbol "m", .symbol "x", .symbol "y"],
              ToList [.symbol "if", .symbol "x", .symbol "y", .boolean false]]]]

/-- The bindings of the third rule of `and` after a match with the forms
`t`, `front` and `last`: every binding the matcher made, the latest first. -/
def andBindings (t : Value) (front : List Value) (last : Value) : List (Symbol × Value) :=
  ("test2", .vector (front ++ [last])) :: ("test2", last) ::
    (front.reverse.map (fun f => ("test2", f)) ++ [("test1", t)])


/-! ## Example programs for the calling convention (vm.go, values.go) -/

/-- The procedure of `(lambda (x) x)`. -/
def identityProc : CompiledProcedure :=
  ⟨"<lambda>", ["x"], false, [⟨opGet, .symbol "x"⟩, ⟨opReturn, .null⟩]⟩

/-- The expression `((lambda (x) x) 1 2)`: a procedure of one formal is called
with two arguments. -/
def extraArgumentProgram : Value :=
  ToList [ToList [.symbol "lambda", ToList [.symbol "x"], .symbol "x"], .number 1, .number 2]

/-- The code of `extraArgumentProgram`. -/
def extraArgumentCode : List Instruction :=
  [⟨opLambda, .compiledProcedure identityProc⟩, ⟨opQuote, .number 1⟩, ⟨opQuote, .number 2⟩,
   ⟨opTail, .integer 2⟩]

/-- The expression `((lambda (x) x))`: the same procedure called with no argument. -/
def missingArgumentProgram : Value :=
  ToList [ToList [.symbol "lambda", ToList [.symbol "x"], .symbol "x"]]

/-- The code of `missingArgumentProgram`. -/
def missingArgumentCode : List Instruction :=
  [⟨opLambda, .compiledProcedure identityProc⟩, ⟨opTail, .integer 0⟩]

/-- The procedure of `(lambda (x . r) r)`. -/
def restProc : CompiledProcedure :=
  ⟨"<lambda>", ["x", "r"], true, [⟨opGet, .symbol "r"⟩, ⟨opReturn, .null⟩]⟩

/-- A machine in its first frame, over the global scope, with an empty operand stack. -/
def bindingExample : VM :=
  { frames := [{ closure := some (rootClosure [] globalScope), scope := globalScope,
                 stack := [], pc := 0 }],
    scopes := [globalEnv],
    mstack := [0],
    body := [],
    scope := globalScope,
    stack := [],
    pc := 0 }

/-- The declaration `(x1 ... xn . tail)` of the formals of a lambda expression:
the proper list of the symbols when `tail` is Null. -/
def formalsDeclaration (xs : List Symbol) (tail : Value) : Value :=
  xs.foldr (fun x rest => .pair (.symbol x) rest) tail

/-- The expression `((lambda (a . a) a) 1 2)`: the rest variable repeats the
fixed variable. -/
def repeatedRestProgram : Value :=
  ToList [ToList [.symbol "lambda", formalsDeclaration ["a"] (.symbol "a"), .symbol "a"],
    .number 1, .number 2]

/-- The code of `repeatedRestProgram`. -/
def repeatedRestCode : List Instruction :=
  [⟨opLambda, .compiledProcedure
      ⟨"<lambda>", ["a", "a"], true, [⟨opGet, .symbol "a"⟩, ⟨opReturn, .null⟩]⟩⟩,
   ⟨opQuote, .number 1⟩, ⟨opQuote, .number 2⟩, ⟨opTail, .integer 2⟩]

/-! ## Objects with identity: `eqv` and `equal` (equal.go, values.go)

`eqv` compares pairs as pointers, and `equal` keeps the pairs it is visiting
in a map keyed by the pointers.  The values of this section therefore carry
the identity of their cells: a `*Pair` is the address of a pair cell and a
`Vector` is the address of its elements, in a memory of cells that may refer
to each other in cycles. -/

/-- A Go `Value` of the types Null, Boolean, Number, Character, String, Symbol,
`*Pair` and Vector. -/
inductive Object
  | null
  | boolean (b : Bool)
  | number (n : Int)
  | character (c : Char)
  | string (s : String)
  | symbol (s : Symbol)
  | pair (p : Nat)
  | vector (v : Nat)
  deriving DecidableEq

/-- The cells: `pairs` holds the `car` and the `cdr` of every pair and
`vectors` the elements of every vector. -/
structure Memory where
  pairs : List (Object × Object)
  vectors : List (List Object)

def uncomparable : String := "runtime error: comparing uncomparable type loom.Vector"

def unhashable : String := "runtime error: hash of unhashable type loom.Vector"

/-- The function `eqv`: Numbers are compared by value; every other comparison
is the Go comparison `obj1 == obj2` of two interface values, which panics when
both hold a Vector, a slice type. -/
def eqv (obj1 obj2 : Object) : Except String Bool :=
  match obj1 with
  | .number num1 =>
    match obj2 with
    | .number num2 => .ok (decide (num1 = num2))
    | _ => .ok false
  | .vector _ =>
    match obj2 with
    | .vector _ => .error uncomparable
    | _ => .ok false
  | _ => .ok (decide (obj1 = obj2))

/-- The function `equal`; `stack` holds the keys of the map.  The deferred
deletes restore the map a call was entered with, so the map is passed down and
never returned.  In the case Vector the lookup `stack[obj1]` has a key of slice
type and panics, so the loop over the elements is not reached. -/
def equal (mem : Memory) : Nat → Object → Object → List Object → Except String Bool
  | 0, _, _, _ => .error outOfFuel
  | fuel + 1, obj1, obj2, stack =>
    match eqv obj1 obj2 with
    | .error e => .error e
    | .ok true => .ok true
    | .ok false =>
      match obj1 with
      | .pair p1 =>
        match obj2 with
        | .pair p2 =>
          if obj1 ∈ stack then .ok false
          else if obj2 ∈ stack then .ok false
          else
            match mem.pairs.get? p1, mem.pairs.get? p2 with
            | some (car1, cdr1), some (car2, cdr2) =>
              match equal mem fuel car1 car2 (obj1 :: obj2 :: stack) with
              | .error e => .error e
              | .ok false => .ok false
              | .ok true => equal mem fuel cdr1 cdr2 (obj1 :: obj2 :: stack)
            | _, _ => .error nilDeref
        | _ => .ok false
      | .vector v1 =>
        match obj2 with
        | .vector v2 =>
          match mem.vectors.get? v1, mem.vectors.get? v2 with
          | some elems1, some elems2 =>
            if elems1.length ≠ elems2.length then .ok false else .error unhashable
          | _, _ => .error nilDeref
        | _ => .ok false
      | _ => .ok false

/-- The built-in `equal?`. -/
def Equal (mem : Memory) (fuel : Nat) (args : List Object) : Except String Object :=
  match args with
  | [obj1, obj2] =>
    match equal mem fuel obj1 obj2 [] with
    | .error e => .error e
    | .ok b => .ok (.boolean b)
  | _ => .error "equal? expects 2 arguments"

/-- The loop of `Pair.ToVector` from the pair at the address `p`: the `car` of
every pair of the chain and, when the chain ends in a value that is neither
Null nor a pair, that value. -/
def Pair.elements (mem : Memory) : Nat → Nat → Except String (List Object)
  | 0, _ => .error outOfFuel
  | fuel + 1, p =>
    match mem.pairs.get? p with
    | none => .error nilDeref
    | some (car, cdr) =>
      match cdr with
      | .null => .ok [car]
      | .pair tail =>
        match Pair.elements mem fuel tail with
        | .error e => .error e
        | .ok vec => .ok (car :: vec)
      | _ => .ok [car, cdr]

/-- The method `Pair.ToVector` of the pair at the address `p`: the elements are
collected in a new vector. -/
def Pair.ToVector (mem : Memory) (fuel : Nat) (p : Nat) : Except String (Memory × Object) :=
  match Pair.elements mem fuel p with
  | .error e => .error e
  | .ok vec => .ok ({ mem with vectors := mem.vectors ++ [vec] }, .vector mem.vectors.length)

/-- The loop of `Vector.ToList`: a new pair is allocated for every element, from
the last one to the first; the result is Null for no element. -/
def Vector.listOf (pairs : List (Object × Object)) : List Object → List (Object × Object) × Object
  | [] => (pairs, .null)
  | e :: es =>
    match Vector.listOf pairs es with
    | (pairs1, head) => (pairs1 ++ [(e, head)], .pair pairs1.length)

/-- The method `Vector.ToList` of the vector at the address `v`. -/
def Vector.ToList (mem : Memory) (v : Nat) : Except String (Memory × Object) :=
  match mem.vectors.get? v with
  | none => .error nilDeref
  | some elems =>
    match Vector.listOf mem.pairs elems with
    | (pairs1, head) => .ok ({ mem with pairs := pairs1 }, head)

/-- The object is a proper list of the given elements. -/
def Memory.isList (mem : Memory) : List Object → Object → Bool
  | [], obj => decide (obj = .null)
  | e :: es, .pair p =>
    match mem.pairs.get? p with
    | some (car, cdr) => decide (car = e) && Memory.isList mem es cdr
    | none => false
  | _ :: _, _ => false

/-- The round trip of a list: the list at the address `p` is converted to a vector
and the vector back to a list, and `equal?` compares the two lists. -/
def roundTrip (mem : Memory) (fuel : Nat) (p : Nat) : Except String Object :=
  match Pair.ToVector mem fuel p with
  | .error e => .error e
  | .ok (mem1, .vector v) =>
    match Vector.ToList mem1 v with
    | .error e => .error e
    | .ok (mem2, list) => Equal mem2 fuel [.pair p, list]
  | .ok _ => .error notVector

/-- The pair addresses below the length of the memory that are not keys of the
map: the measure that bounds the depth of `equal`. -/
def Memory.unvisited (mem : Memory) (stack : List Object) : Nat :=
  ((List.range mem.pairs.length).filter (fun p => decide (Object.pair p ∉ stack))).length

/-- A memory with the list `(#(1))` at the pair 0: its element is the vector 0. -/
def vectorListMemory : Memory :=
  { pairs := [(.vector 0, .null)], vectors := [[.number 1]] }

/-- A memory with two pairs that refer to each other: the `cdr` of the pair 0
is the pair 1 and the `cdr` of the pair 1 is the pair 0, and two further pairs
built the same way. -/
def cyclicMemory : Memory :=
  { pairs := [(.number 1, .pair 1), (.number 2, .pair 0),
              (.number 1, .pair 3), (.number 2, .pair 2)],
    vectors := [] }

/-! ## `apply` and `map` (procedure.go, list.go) -/

/-- The type assertion `v.(Procedure)`: the values that implement `Procedure`. -/
def Value.isProcedure : Value → Bool
  | .procedureFunc _ => true
  | .compiledClosure _ _ => true
  | .callCC => true
  | .continuation _ _ => true
  | _ => false

/-- The method `Apply` of the interface `Procedure`: the procedure, its
arguments, and the state `σ` of the interpreter that the call may read and
change. -/
abbrev ApplyMethod (σ : Type) : Type := Value → List Value → σ → Except String (Value × σ)

/-- The method `Apply` of the built-in procedures of `Builtin`, which have no state. -/
def builtinApply : ApplyMethod Unit := fun proc args s =>
  match proc with
  | .procedureFunc f =>
    match f.Apply args with
    | .error e => .error e
    | .ok v => .ok (v, s)
  | _ => .error notProcedure

def notPair : String := "interface conversion: Value is not *Pair"

/-- The built-in `list`. -/
def ListConstructor (args : List Value) : Value := ToList args

/-- The loop `for p != nil { e := &Pair{car: p.car}; ...; p, _ = p.cdr.(*Pair) }`
of `ListAppend`: the `car`s of the chain of pairs, in order. -/
def copiedCars : Value → List Value
  | .pair car cdr => car :: copiedCars cdr
  | _ => []

/-- The loop of `ListAppend` over the arguments but the last: Null is skipped,
a pair contributes the copies of its elements, anything else is an error. -/
def appendCopies : List Value → Except String (List Value)
  | [] => .ok []
  | .null :: rest => appendCopies rest
  | .pair car cdr :: rest =>
    match appendCopies rest with
    | .error e => .error e
    | .ok more => .ok (copiedCars (.pair car cdr) ++ more)
  | _ :: _ => .error "arguments to append must be lists"

/-- The built-in `append`: the copies are linked, and the last argument, which
is not examined, is the `cdr` of the last copy (or the result when there is no
copy). -/
def ListAppend (args : List Value) : Except String Value :=
  match args.getLast? with
  | none => .ok .null
  | some last =>
    match appendCopies args.dropLast with
    | .error e => .error e
    | .ok copies => .ok (copies.foldr Cons last)

/-- The built-in `apply`. -/
def ProcedureApply {σ : Type} (Apply : ApplyMethod σ) (args : List Value) (s : σ) :
    Except String (Value × σ) :=
  match args with
  | [] => .error "apply expects at least one argument"
  | proc :: rest =>
    if proc.isProcedure = false then .error "the first argument to apply must be a procedure"
    else
      match rest.getLast? with
      | none => Apply proc [] s
      | some last =>
        match ListAppend [ListConstructor rest.dropLast, last] with
        | .error e => .error e
        | .ok .null => Apply proc [] s
        | .ok (.pair car cdr) => Apply proc (Value.pair car cdr).ToVector s
        | .ok _ => .error notPair

/-- A value of the interface type `Value` as a function returns it.  A `return`
whose operand has the static type `*Pair` gives an interface that holds the
pointer also when the pointer is nil: `nilPair` is that interface.  It is not
the nil interface, which is `value .null`. -/
inductive Returned
  | value (v : Value)
  | nilPair

/-- The inner loop of `ProcedureMap`: the `car` of every list is the argument
of its position and the list is replaced by its `cdr`; the result is `none`
when some list is no pair. -/
def mapActuals : List Value → Option (List Value × List Value)
  | [] => some ([], [])
  | .pair car cdr :: rest =>
    match mapActuals rest with
    | none => none
    | some (actuals, lists) => some (car :: actuals, cdr :: lists)
  | _ :: _ => none

/-- The outer loop of `ProcedureMap`: the results of the applications, in the
order in which they are made. -/
def mapLoop {σ : Type} (Apply : ApplyMethod σ) (proc : Value) :
    Nat → List Value → σ → Except String (List Value × σ)
  | 0, _, _ => .error outOfFuel
  | fuel + 1, lists, s =>
    match mapActuals lists with
    | none => .ok ([], s)
    | some (actuals, lists1) =>
      match Apply proc actuals s with
      | .error e => .error e
      | .ok (v, s1) =>
        match mapLoop Apply proc fuel lists1 s1 with
        | .error e => .error e
        | .ok (vs, s2) => .ok (v :: vs, s2)

/-- The built-in `map`: the result is `head`, a `*Pair` that is nil when no
application was made. -/
def ProcedureMap {σ : Type} (Apply : ApplyMethod σ) (fuel : Nat) (args : List Value) (s : σ) :
    Except String (Returned × σ) :=
  match args with
  | proc :: list :: lists =>
    if proc.isProcedure = false then .error "the first argument to map must be a procedure"
    else
      match mapLoop Apply proc fuel (list :: lists) s with
      | .error e => .error e
      | .ok ([], s1) => .ok (.nilPair, s1)
      | .ok (v :: vs, s1) => .ok (.value (.pair v (ToList vs)), s1)
  | _ => .error "map expects at least 2 arguments"

/-- The built-in `null?` on a returned value: `args[0] == nil`. -/
def NullPred : List Returned → Value
  | [.value .null] => .boolean true
  | _ => .boolean false

/-- The built-in `pair?` on a returned value: `_, ok := args[0].(*Pair)`. -/
def PairPred : List Returned → Value
  | [.value (.pair _ _)] => .boolean true
  | [.nilPair] => .boolean true
  | _ => .boolean false

/-- The applications that `map` is to make: `f` is applied to each vector of
arguments in turn, and each application starts in the state the one before
left. -/
def applyInOrder {σ : Type} (Apply : ApplyMethod σ) (proc : Value) :
    List (List Value) → σ → Except String (List Value × σ)
  | [], s => .ok ([], s)
  | actuals :: rest, s =>
    match Apply proc actuals s with
    | .error e => .error e
    | .ok (v, s1) =>
      match applyInOrder Apply proc rest s1 with
      | .error e => .error e
      | .ok (vs, s2) => .ok (v :: vs, s2)

/-- The vector of the `i`-th elements of the lists, for every `i` below `n`. -/
def argumentRows (lists : List (List Value)) (n : Nat) : List (List Value) :=
  (List.range n).map (fun i => lists.map (fun l => l.getD i .null))

/-! ## List, string and vector built-ins (list.go, string.go, vector.go, numerics.go)

Numbers are exact integers here, so `Number.Int`, which is exact for the
integers of the range of `int64`, fails only outside that range.  A Go string
is indexed by its bytes, the bytes of the UTF-8 encoding. -/

/-- The method `Number.Int`: the integer, when it is in the range of `int64`. -/
def numberInt (n : Int) : Option Int :=
  if -9223372036854775808 ≤ n ∧ n ≤ 9223372036854775807 then some n else none

def indexOutOfRange : String := "runtime error: index out of range"

def sliceOutOfRange : String := "runtime error: slice bounds out of range"

/-- The loop `for j := i; p != nil && j > 0; j-- { p, _ = p.cdr.(*Pair) }` of
`ListTail` and `ListRef`: `none` is the nil pointer. -/
def tailLoop : Nat → Option (Value × Value) → Option (Value × Value)
  | 0, p => p
  | _ + 1, none => none
  | j + 1, some (_, cdr) => tailLoop j cdr.asPair

/-- The built-in `list-tail`. -/
def ListTail (args : List Value) : Except String Value :=
  match args with
  | [a0, a1] =>
    match a0.asPair with
    | none => .error "the first argument to list-tail must be a list"
    | some p =>
      match a1 with
      | .number n =>
        match numberInt n with
        | none => .error "the second argument to list-tail must be a non-negative integer"
        | some i =>
          if i < 0 then .error "the second argument to list-tail must be a non-negative integer"
          else
            match tailLoop i.toNat (some p) with
            | none => .error ("list does not contain " ++ toString i ++ " elements")
            | some (car, cdr) => .ok (.pair car cdr)
      | _ => .error "the second argument to list-tail must be a non-negative integer"
  | _ => .error "list-tail expects two arguments"

/-- The bytes of a string. -/
def stringBytes (s : String) : List UInt8 :=
  s.data.flatMap String.utf8EncodeChar

/-- The built-in `string-length`. -/
def StringLength (args : List Value) : Except String Value :=
  match args with
  | [a0, _] =>
    match a0 with
    | .string v => .ok (.number (stringBytes v).length)
    | _ => .error "the argument to string-length must be a string"
  | _ => .error "string-length expects 1 argument"

/-- The element access `v[i]` of a slice or string of the elements `elems`. -/
def indexAt {α : Type} (elems : List α) (i : Int) : Except String α :=
  if i < 0 then .error indexOutOfRange
  else
    match elems.get? i.toNat with
    | none => .error indexOutOfRange
    | some x => .ok x

/-- The built-in `string-ref`. -/
def StringRef (args : List Value) : Except String Value :=
  match args with
  | [a0, a1] =>
    match a0 with
    | .string v =>
      match a1 with
      | .number n =>
        match numberInt n with
        | none => .error "the second argument to string-ref must be an integer"
        | some i =>
          if i > (stringBytes v).length then
            .error (toString i ++ " is not a member of a string of length " ++
              toString (stringBytes v).length)
          else
            match indexAt (stringBytes v) i with
            | .error e => .error e
            | .ok b => .ok (.character (Char.ofNat b.toNat))
      | _ => .error "the second argument to string-ref must be an integer"
    | _ => .error "the first argument to string-ref must be a string"
  | _ => .error "string-ref expects 2 arguments"

/-- The built-in `vector-ref`. -/
def VectorRef (args : List Value) : Except String Value :=
  match args with
  | [a0, a1] =>
    match a0 with
    | .vector v =>
      match a1 with
      | .number n =>
        match numberInt n with
        | none => .error "the second argument to vector-ref must be an integer"
        | some i =>
          if i > v.length then
            .error (toString i ++ " is not a member of a vector of length " ++
              toString v.length)
          else indexAt v i
      | _ => .error "the second argument to vector-ref must be an integer"
    | _ => .error "the first argument to vector-ref must be a vector"
  | _ => .error "vector-ref expects 2 arguments"

/-- The slice `s[start:end]` of a string, by byte positions. -/
def sliceString (s : String) (start end_ : Int) : Except String String :=
  if start < 0 ∨ end_ < start ∨ end_ > (stringBytes s).length then .error sliceOutOfRange
  else .ok (s.extract ⟨start.toNat⟩ ⟨end_.toNat⟩)

/-- The built-in `substring`: the number `endN` is read from `args[1]`. -/
def StringSubstring (args : List Value) : Except String Value :=
  match args with
  | [a0, a1, _] =>
    match a0 with
    | .string s =>
      match a1 with
      | .number startN =>
        match numberInt startN with
        | none => .error "the second argument to substring must be an integer"
        | some start =>
          match a1 with
          | .number endN =>
            match numberInt endN with
            | none => .error "the third argument to substring must be an integer"
            | some end_ =>
              match sliceString s start end_ with
              | .error e => .error e
              | .ok r => .ok (.string r)
          | _ => .error "the third argument to substring must be an integer"
      | _ => .error "the second argument to substring must be an integer"
    | _ => .error "the first argument to substring must be a string"
  | _ => .error "substring expects three arguments"

/-- The order of two Go strings: the lexicographic order of their bytes. -/
def bytesLt : List UInt8 → List UInt8 → Bool
  | [], [] => false
  | [], _ :: _ => true
  | _ :: _, [] => false
  | a :: as, b :: bs =>
    if a.toNat < b.toNat then true
    else if b.toNat < a.toNat then false
    else bytesLt as bs

/-- The comparison `a < b` of two Go strings. -/
def stringLt (a b : String) : Bool := bytesLt (stringBytes a) (stringBytes b)

/-- The loop of the string comparisons: `reject x s` is the test that ends the
loop with false, `x` being the next argument and `s` the one before it. -/
def stringChain (reject : String → String → Bool) : String → List Value → Bool
  | _, [] => true
  | s, .string x :: rest => if reject x s then false else stringChain reject x rest
  | _, _ :: _ => false

/-- The built-in `string<?`: the loop ends with false when `x >= s`. -/
def StringLt (args : List Value) : Value :=
  match args with
  | [] => .boolean true
  | .string s :: rest => .boolean (stringChain (fun x s => !stringLt x s) s rest)
  | _ :: _ => .boolean false

/-- The built-in `string>?`: the loop ends with false when `x <= s`. -/
def StringGt (args : List Value) : Value :=
  match args with
  | [] => .boolean true
  | .string s :: rest => .boolean (stringChain (fun x s => !stringLt s x) s rest)
  | _ :: _ => .boolean false

/-- The built-in `string<=?`: the loop ends with false when `x > s`. -/
def StringLte (args : List Value) : Value :=
  match args with
  | [] => .boolean true
  | .string s :: rest => .boolean (stringChain (fun x s => stringLt s x) s rest)
  | _ :: _ => .boolean false

/-- The built-in `string>=?`: the loop ends with false when `x < s`. -/
def StringGte (args : List Value) : Value :=
  match args with
  | [] => .boolean true
  | .string s :: rest => .boolean (stringChain (fun x s => stringLt x s) s rest)
  | _ :: _ => .boolean false

/-! ### The arithmetic built-ins over the operations of `big.Float` (numerics.go)

A Number of the source holds a `*big.Float`: its operations round, the lexer
makes the infinities `+inf.0` and `-inf.0` (lex.go), and `Add`, `Sub`, `Mul`
and `Quo` panic with `ErrNaN` on some operands, such as the sum of the two
infinities.  The machine model keeps to the finite Numbers whose values are
exact integers, on which no operation rounds or fails (`NumberAdd`,
`NumberMul`, `NumberSub`).  Here the four built-ins are translated with the
operation of `big.Float` as a parameter that may fail; the integer of a
`.number` is the name of a `*big.Float`, and which Number it names is left to
the operations. -/

/-- The loop `for _, v := range args[1:]` of the arithmetic built-ins: the
result is nil at the first argument that is not a Number, and the loop ends
with the panic of `op`, the operation of `big.Float`, when `op` panics on the
Numbers before it. -/
def Big.numberFold (op : Int → Int → Except String Int) : Int → List Value → Except String Value
  | acc, [] => .ok (.number acc)
  | acc, .number x :: rest =>
    match op acc x with
    | .error e => .error e
    | .ok r => Big.numberFold op r rest
  | _, _ :: _ => .ok .null

/-- The built-in `+`; `add` is `(*big.Float).Add`. -/
def Big.NumberAdd (add : Int → Int → Except String Int) (args : List Value) :
    Except String Value :=
  match args with
  | [] => .ok .null
  | .number n :: rest => Big.numberFold add n rest
  | _ :: _ => .ok .null

/-- The built-in `*`; `mul` is `(*big.Float).Mul`. -/
def Big.NumberMul (mul : Int → Int → Except String Int) (args : List Value) :
    Except String Value :=
  match args with
  | [] => .ok .null
  | .number n :: rest => Big.numberFold mul n rest
  | _ :: _ => .ok .null

/-- The built-in `-`; `sub` is `(*big.Float).Sub` and `neg` is `(*big.Float).Neg`,
which does not panic. -/
def Big.NumberSub (neg : Int → Int) (sub : Int → Int → Except String Int) (args : List Value) :
    Except String Value :=
  match args with
  | [] => .ok .null
  | [.number n] => .ok (.number (neg n))
  | .number n :: rest => Big.numberFold sub n rest
  | _ :: _ => .ok .null

/-- The built-in `/`; `quo` is `(*big.Float).Quo`. -/
def Big.NumberDiv (quo : Int → Int → Except String Int) (args : List Value) :
    Except String Value :=
  match args with
  | [] => .ok .null
  | [.number n] =>
    match quo 1 n with
    | .error e => .error e
    | .ok q => .ok (.number q)
  | .number n :: rest => Big.numberFold quo n rest
  | _ :: _ => .ok .null

/-- An instance of `Add` for the examples, on the Numbers that are exact
integers or infinities: the even integer `2 * k` names the finite Number `k`,
`1` names `+inf.0` and `-1` names `-inf.0`.  The sum of the two infinities
panics with `ErrNaN`. -/
def Big.exampleAdd (a b : Int) : Except String Int :=
  if a % 2 = 0 ∧ b % 2 = 0 then .ok (a + b)
  else if a % 2 = 0 then .ok b
  else if b % 2 = 0 then .ok a
  else if a = b then .ok a
  else .error "addition of infinities with opposite signs"

/-! ## Literals, and machines about to execute LIST, VECTOR and TAIL (compile.go, vm.go) -/

/-- The expressions of the case `Number, Boolean, Character, String` of `compile`. -/
def Value.isLiteral : Value → Bool
  | .number _ => true
  | .boolean _ => true
  | .character _ => true
  | .string _ => true
  | _ => false

/-- The instructions `QUOTE e`, one for each of the values. -/
def quoteAll (es : List Value) : List Instruction :=
  es.map (fun e => ⟨opQuote, e⟩)

/-- A machine about to execute LIST 2 on the operand stack `0 1 2 ()`. -/
def listExample : VM :=
  { frames := [{ closure := none, scope := [], stack := [], pc := 0 }],
    scopes := [],
    mstack := [0],
    body := [⟨opList, .integer 2⟩],
    scope := [],
    stack := [.number 0, .number 1, .number 2, .null],
    pc := 0 }

/-- A machine about to execute `code`, at the start of it, with the operand
stack `stack`. -/
def codeExample (code : List Instruction) (stack : List Value) : VM :=
  { frames := [{ closure := none, scope := [], stack := [], pc := 0 }],
    scopes := [],
    mstack := [0],
    body := code,
    scope := [],
    stack := stack,
    pc := 0 }

/-- A machine about to execute `code` on the operand stack `0 + 1 2`, in a
frame whose caller holds the operand stack `[7]` and the pc 4. -/
def builtinExample (code : List Instruction) : VM :=
  { frames := [{ closure := some ⟨⟨"caller", [], false, []⟩, []⟩, scope := [],
                 stack := [.number 7], pc := 4 },
               { closure := none, scope := [], stack := [], pc := 0 }],
    scopes := [],
    mstack := [1, 0],
    body := code,
    scope := [],
    stack := [.number 0, .procedureFunc .NumberAdd, .number 1, .number 2],
    pc := 0 }

/-! ## The tree-walking evaluator (eval.go, values.go, numerics.go)

The evaluator has values that the compiler and the machine do not have: the
procedures `*procedure`, which are closed over a scope, and the tail calls
`*tailCall`.  Its values are the type `Tree.Value`; its scopes are the cells
of a heap `List Tree.Scope`, addressed by a `ScopeRef` like the scopes of the
machine.  Every function of the evaluator takes fuel, one unit for each call,
and returns the value together with the heap.

The forms `quasiquote`, `case` and `define-syntax` are not part of the model
(`eval` fails on them with `Tree.notModelled`), and the scopes of the model
have no keywords, so the keyword lookup of an application finds none.  The
built-ins of the model are `+`, `*` and `-`. -/

/-- The built-in procedures of the model of the evaluator. -/
inductive Tree.Builtin
  | NumberAdd
  | NumberMul
  | NumberSub
  deriving DecidableEq, Repr

/-- The values of the evaluator; `p` of a `tailCall` is a `Procedure`. -/
inductive Tree.Value
  | null
  | number (n : Int)
  | boolean (b : Bool)
  | character (c : Char)
  | string (s : String)
  | symbol (s : Symbol)
  | pair (car cdr : Tree.Value)
  | vector (elems : List Tree.Value)
  | procedureFunc (f : Tree.Builtin)
  | procedure (name : Symbol) (closure : ScopeRef) (formals : List Symbol) (isVariadic : Bool)
      (body : List Tree.Value)
  | binding (where_ : ScopeRef) (name : Symbol)
  | tailCall (p : Tree.Value) (args : List Tree.Value)

/-- The test `_, ok := v.(*tailCall)`. -/
def Tree.Value.isTailCall : Tree.Value → Bool
  | .tailCall _ _ => true
  | _ => false

/-- The test `_, ok := v.(Procedure)`. -/
def Tree.Value.isProcedure : Tree.Value → Bool
  | .procedureFunc _ => true
  | .procedure _ _ _ _ _ => true
  | _ => false

/-- The symbol a value is, or the empty symbol: `sym, _ := v.(Symbol)`. -/
def Tree.Value.asSymbol : Tree.Value → Symbol
  | .symbol s => s
  | _ => ""

/-- The method `(*Pair).ToVector`; an improper tail becomes the last element. -/
def Tree.Value.ToVector : Tree.Value → List Tree.Value
  | .null => []
  | .pair a d => a :: Tree.Value.ToVector d
  | v => [v]

/-- The method `Vector.ToList`. -/
def Tree.ToList : List Tree.Value → Tree.Value
  | [] => .null
  | v :: rest => .pair v (Tree.ToList rest)

/-- Truthy returns the truth value of v: any value besides false is true. -/
def Tree.Truthy : Tree.Value → Bool
  | .boolean b => b
  | _ => true

def Tree.notModelled : String := "this form is not part of the model"

def Tree.invalidLet : String := "let must be of the form (let ((variable1 init1) ...) body)"

def Tree.invalidCond : String :=
  "cond clause must be of the form (test expression1 ...), (test => expression), or (else expression1 expression2 ...)"

/-! ### Scopes -/

/-- A scope cell: the `env` map of a `scope`, latest binding first. -/
structure Tree.Scope where
  env : List (Symbol × Tree.Value)

/-- The map read `v, ok := env[name]`. -/
def Tree.envGet : List (Symbol × Tree.Value) → Symbol → Option Tree.Value
  | [], _ => none
  | (k, v) :: rest, name => if k = name then some v else Tree.envGet rest name

/-- The method `lookup`: the value of the nearest scope that binds the name. -/
def Tree.Scope.lookup (scopes : List Tree.Scope) : ScopeRef → Symbol → Option Tree.Value
  | [], _ => none
  | a :: outer, name =>
    match scopes.get? a with
    | none => none
    | some s =>
      match Tree.envGet s.env name with
      | some v => some v
      | none => Tree.Scope.lookup scopes outer name

/-- The method `set`: `s.env[name] = v` in the scope itself. -/
def Tree.Scope.set (scopes : List Tree.Scope) (s : ScopeRef) (name : Symbol) (v : Tree.Value) :
    Except String (List Tree.Scope) :=
  match s with
  | [] => .error nilDeref
  | a :: _ =>
    match scopes.get? a with
    | none => .error nilDeref
    | some cell => .ok (scopes.set a ⟨(name, v) :: cell.env⟩)

/-- The method `setIfBound`: the nearest scope that binds the name is updated;
the result is `none` when no scope binds it (the source returns false). -/
def Tree.Scope.setIfBound (scopes : List Tree.Scope) :
    ScopeRef → Symbol → Tree.Value → Option (List Tree.Scope)
  | [], _, _ => none
  | a :: outer, name, v =>
    match scopes.get? a with
    | none => none
    | some cell =>
      match Tree.envGet cell.env name with
      | some _ => some (scopes.set a ⟨(name, v) :: cell.env⟩)
      | none => Tree.Scope.setIfBound scopes outer name v

/-- The method `push`: a new scope with an empty `env` whose outer scope is `s`. -/
def Tree.Scope.push (scopes : List Tree.Scope) (s : ScopeRef) : List Tree.Scope × ScopeRef :=
  (scopes ++ [⟨[]⟩], scopes.length :: s)

/-! ### Built-in procedures, formals -/

/-- The loop of the arithmetic built-ins: the result is nil as soon as an
argument is not a Number. -/
def Tree.numberFold (op : Int → Int → Int) : Int → List Tree.Value → Tree.Value
  | acc, [] => .number acc
  | acc, .number x :: rest => Tree.numberFold op (op acc x) rest
  | _, _ :: _ => .null

def Tree.NumberAdd (args : List Tree.Value) : Tree.Value :=
  match args with
  | [] => .null
  | .number n :: rest => Tree.numberFold (fun a b => a + b) n rest
  | _ :: _ => .null

def Tree.NumberMul (args : List Tree.Value) : Tree.Value :=
  match args with
  | [] => .null
  | .number n :: rest => Tree.numberFold (fun a b => a * b) n rest
  | _ :: _ => .null

def Tree.NumberSub (args : List Tree.Value) : Tree.Value :=
  match args with
  | [] => .null
  | [.number n] => .number (-n)
  | .number n :: rest => Tree.numberFold (fun a b => a - b) n rest
  | _ :: _ => .null

/-- The application `f(args)` of a `ProcedureFunc`. -/
def Tree.Builtin.Apply (f : Tree.Builtin) (args : List Tree.Value) : Tree.Value :=
  match f with
  | .NumberAdd => Tree.NumberAdd args
  | .NumberMul => Tree.NumberMul args
  | .NumberSub => Tree.NumberSub args

/-- The loop of `makeFormals`; `formals` are the symbols declared so far. -/
def Tree.makeFormalsLoop : Tree.Value → List Symbol → Except String (List Symbol × Bool)
  | .pair (.symbol sym) cdr, formals =>
    if sym ∈ formals then .error ("duplicate formal " ++ sym)
    else
      match cdr with
      | .symbol r => .ok (formals ++ [sym, r], true)
      | .pair a d => Tree.makeFormalsLoop (.pair a d) (formals ++ [sym])
      | .null => .ok (formals ++ [sym], false)
      | _ => .error invalidFormals
  | _, _ => .error invalidFormals

def Tree.makeFormals (declaration : Tree.Value) : Except String (List Symbol × Bool) :=
  match declaration with
  | .symbol sym => .ok ([sym], true)
  | .null => .ok ([], false)
  | .pair a d => Tree.makeFormalsLoop (.pair a d) []
  | _ => .error invalidFormals

/-- The message of the arity check of `apply`, for `n` formals before the rest. -/
def Tree.arityMessage (name : Symbol) (isVariadic : Bool) (n : Nat) : String :=
  name ++ " expects" ++ (if isVariadic then " at least" else "") ++ " " ++ toString n ++
    " arguments"

/-- The loop `for i, sym := range formals { scope.set(sym, args[i]) }`. -/
def Tree.bindFormals (scopes : List Tree.Scope) (scope : ScopeRef) :
    List Symbol → List Tree.Value → Except String (List Tree.Scope)
  | [], _ => .ok scopes
  | _ :: _, [] => .error "index out of range"
  | sym :: formals, arg :: args =>
    match Tree.Scope.set scopes scope sym arg with
    | .error e => .error e
    | .ok scopes1 => Tree.bindFormals scopes1 scope formals args

/-- The head of `apply`: a scope is pushed on the closure and the formals are
bound to the arguments; the result is the heap and the new scope. -/
def Tree.assignFormals (scopes : List Tree.Scope) (name : Symbol) (closure : ScopeRef)
    (formals : List Symbol) (isVariadic : Bool) (args : List Tree.Value) :
    Except String (List Tree.Scope × ScopeRef) :=
  let pushed := Tree.Scope.push scopes closure
  if isVariadic then
    match formals.getLast? with
    | none => .error sliceOutOfRange
    | some rest =>
      let fixed := formals.dropLast
      if args.length < fixed.length then .error (Tree.arityMessage name true fixed.length)
      else
        match Tree.bindFormals pushed.1 pushed.2 fixed args with
        | .error e => .error e
        | .ok scopes1 =>
          match Tree.Scope.set scopes1 pushed.2 rest (Tree.ToList (args.drop fixed.length)) with
          | .error e => .error e
          | .ok scopes2 => .ok (scopes2, pushed.2)
  else
    if args.length < formals.length then .error (Tree.arityMessage name false formals.length)
    else
      match Tree.bindFormals pushed.1 pushed.2 formals args with
      | .error e => .error e
      | .ok scopes1 => .ok (scopes1, pushed.2)

/-! ### The primitive expressions without subexpressions -/

def Tree.evalVariable (scopes : List Tree.Scope) (e : Symbol) (scope : ScopeRef) :
    Except String (Tree.Value × List Tree.Scope) :=
  match Tree.Scope.lookup scopes scope e with
  | none => .error (e ++ " is not bound")
  | some value => .ok (value, scopes)

/-- The function `evalQuote`: `e.cdr.(*Pair).car`. -/
def Tree.evalQuote (scopes : List Tree.Scope) (e : Tree.Value) :
    Except String (Tree.Value × List Tree.Scope) :=
  match e with
  | .pair _ (.pair datum _) => .ok (datum, scopes)
  | _ => .error notPair

def Tree.evalLambda (scopes : List Tree.Scope) (e : Tree.Value) (scope : ScopeRef) :
    Except String (Tree.Value × List Tree.Scope) :=
  match e.ToVector with
  | _ :: declaration :: x :: rest =>
    match Tree.makeFormals declaration with
    | .error err => .error err
    | .ok (formals, isVariadic) =>
      .ok (.procedure "<lambda>" scope formals isVariadic (x :: rest), scopes)
  | _ => .error invalidLambda

/-- The test `isElse`. -/
def Tree.isElse (clause : Tree.Value) : Bool :=
  match clause with
  | .pair (.symbol sym) _ => decide (sym = "else")
  | _ => false

/-! ### The evaluator -/

mutual
/-- The function `eval`. -/
def Tree.eval : Nat → List Tree.Scope → Tree.Value → ScopeRef → Bool →
    Except String (Tree.Value × List Tree.Scope)
  | 0, _, _, _, _ => .error outOfFuel
  | fuel + 1, scopes, expression, scope, tail =>
    match expression with
    | .null => .ok (.null, scopes)
    | .number n => .ok (.number n, scopes)
    | .boolean b => .ok (.boolean b, scopes)
    | .character c => .ok (.character c, scopes)
    | .string s => .ok (.string s, scopes)
    | .symbol e => Tree.evalVariable scopes e scope
    | .binding where_ name => .ok ((Tree.Scope.lookup scopes where_ name).getD .null, scopes)
    | .vector es =>
      match Tree.evalEach fuel scopes es scope with
      | .error err => .error err
      | .ok (result, scopes1) => .ok (.vector result, scopes1)
    | .pair car cdr =>
      let sym := car.asSymbol
      if sym = "quote" then Tree.evalQuote scopes (.pair car cdr)
      else if sym = "quasiquote" then .error Tree.notModelled
      else if sym = "lambda" then Tree.evalLambda scopes (.pair car cdr) scope
      else if sym = "if" then
        match Tree.evalIf fuel scopes (.pair car cdr) scope tail with
        | .error err => .error err
        | .ok (v, scopes1) => if tail then .ok (v, scopes1) else Tree.forceTail fuel scopes1 v
      else if sym = "set!" then Tree.evalSet fuel scopes (.pair car cdr) scope
      else if sym = "include" then .error "NYI: include"
      else if sym = "include-ci" then .error "NYI: include-ci"
      else if sym = "cond" then Tree.evalCond fuel scopes cdr scope tail
      else if sym = "case" then .error Tree.notModelled
      else if sym = "and" then Tree.evalAnd fuel scopes cdr scope tail
      else if sym = "or" then Tree.evalOr fuel scopes cdr scope tail
      else if sym = "let" then Tree.evalLet fuel scopes (.pair car cdr) scope tail
      else if sym = "begin" then Tree.evalBegin fuel scopes (.pair car cdr) scope tail
      else if sym = "define" then Tree.evalDefine fuel scopes (.pair car cdr) scope
      else if sym = "define-syntax" then .error Tree.notModelled
      else
        match Tree.eval fuel scopes car scope false with
        | .error err => .error err
        | .ok (p, scopes1) =>
          if p.isProcedure then
            match Tree.evalEach fuel scopes1 (Tree.Value.pair car cdr).ToVector.tail scope with
            | .error err => .error err
            | .ok (actuals, scopes2) =>
              if tail then .ok (.tailCall p actuals, scopes2)
              else
                match Tree.Apply fuel scopes2 p actuals with
                | .error err => .error err
                | .ok (v, scopes3) => Tree.forceTail fuel scopes3 v
          else .error "value is not a procedure"
    | .tailCall p args =>
      if tail then .ok (.tailCall p args, scopes)
      else
        match Tree.Apply fuel scopes p args with
        | .error err => .error err
        | .ok (v, scopes1) => Tree.forceTail fuel scopes1 v
    | _ => .error "unknown expression type"
/-- The loops `for i, v := range e { result[i] = eval(v, scope, false) }` of
the Vector case and of the actuals of an application. -/
def Tree.evalEach : Nat → List Tree.Scope → List Tree.Value → ScopeRef →
    Except String (List Tree.Value × List Tree.Scope)
  | 0, _, _, _ => .error outOfFuel
  | fuel + 1, scopes, es, scope =>
    match es with
    | [] => .ok ([], scopes)
    | x :: rest =>
      match Tree.eval fuel scopes x scope false with
      | .error err => .error err
      | .ok (v, scopes1) =>
        match Tree.evalEach fuel scopes1 rest scope with
        | .error err => .error err
        | .ok (vs, scopes2) => .ok (v :: vs, scopes2)
/-- The function `forceTail`: the value is applied as long as it is a tail call. -/
def Tree.forceTail : Nat → List Tree.Scope → Tree.Value →
    Except String (Tree.Value × List Tree.Scope)
  | 0, _, _ => .error outOfFuel
  | fuel + 1, scopes, v =>
    match v with
    | .tailCall p args =>
      match Tree.Apply fuel scopes p args with
      | .error err => .error err
      | .ok (v1, scopes1) => Tree.forceTail fuel scopes1 v1
    | _ => .ok (v, scopes)
/-- The method `Apply` of a `Procedure`: a `ProcedureFunc` is called, a
`*procedure` is applied and its result is forced. -/
def Tree.Apply : Nat → List Tree.Scope → Tree.Value → List Tree.Value →
    Except String (Tree.Value × List Tree.Scope)
  | 0, _, _, _ => .error outOfFuel
  | fuel + 1, scopes, p, args =>
    match p with
    | .procedureFunc f => .ok (f.Apply args, scopes)
    | .procedure name closure formals isVariadic body =>
      match Tree.apply fuel scopes (.procedure name closure formals isVariadic body) args with
      | .error err => .error err
      | .ok (v, scopes1) => Tree.forceTail fuel scopes1 v
    | _ => .error notProcedure
/-- The method `apply` of a `*procedure`: the last expression of the body is
evaluated with `tail` true and its value is returned as it is. -/
def Tree.apply : Nat → List Tree.Scope → Tree.Value → List Tree.Value →
    Except String (Tree.Value × List Tree.Scope)
  | 0, _, _, _ => .error outOfFuel
  | fuel + 1, scopes, p, args =>
    match p with
    | .procedure name closure formals isVariadic body =>
      match Tree.assignFormals scopes name closure formals isVariadic args with
      | .error err => .error err
      | .ok (scopes1, scope) => Tree.evalBody fuel scopes1 body scope
    | _ => .error notProcedure
/-- The end of `apply`: `eval(x, scope, false)` for the expressions of
`body[:len(body)-1]`, then `eval(body[len(body)-1], scope, true)`. -/
def Tree.evalBody : Nat → List Tree.Scope → List Tree.Value → ScopeRef →
    Except String (Tree.Value × List Tree.Scope)
  | 0, _, _, _ => .error outOfFuel
  | fuel + 1, scopes, body, scope =>
    match body with
    | [] => .error sliceOutOfRange
    | [last] => Tree.eval fuel scopes last scope true
    | x :: rest =>
      match Tree.eval fuel scopes x scope false with
      | .error err => .error err
      | .ok (_, scopes1) => Tree.evalBody fuel scopes1 rest scope
/-- The function `evalIf`. -/
def Tree.evalIf : Nat → List Tree.Scope → Tree.Value → ScopeRef → Bool →
    Except String (Tree.Value × List Tree.Scope)
  | 0, _, _, _, _ => .error outOfFuel
  | fuel + 1, scopes, e, scope, tail =>
    match e.ToVector with
    | [_, test, consequent] =>
      match Tree.eval fuel scopes test scope false with
      | .error err => .error err
      | .ok (v, scopes1) =>
        if Tree.Truthy v then Tree.eval fuel scopes1 consequent scope tail
        else .ok (.null, scopes1)
    | [_, test, consequent, alternate] =>
      match Tree.eval fuel scopes test scope false with
      | .error err => .error err
      | .ok (v, scopes1) =>
        if Tree.Truthy v then Tree.eval fuel scopes1 consequent scope tail
        else Tree.eval fuel scopes1 alternate scope tail
    | _ => .error invalidIf
/-- The function `evalSet`. -/
def Tree.evalSet : Nat → List Tree.Scope → Tree.Value → ScopeRef →
    Except String (Tree.Value × List Tree.Scope)
  | 0, _, _, _ => .error outOfFuel
  | fuel + 1, scopes, e, scope =>
    match e.ToVector with
    | [_, .symbol sym, x] =>
      match Tree.eval fuel scopes x scope false with
      | .error err => .error err
      | .ok (v, scopes1) =>
        match Tree.Scope.setIfBound scopes1 scope sym v with
        | none => .error ("set!: " ++ sym ++ " is not bound")
        | some scopes2 => .ok (.null, scopes2)
    | _ => .error invalidSet
/-- The function `evalDefine`. -/
def Tree.evalDefine : Nat → List Tree.Scope → Tree.Value → ScopeRef →
    Except String (Tree.Value × List Tree.Scope)
  | 0, _, _, _ => .error outOfFuel
  | fuel + 1, scopes, e, scope =>
    match e.ToVector with
    | _ :: target :: x :: rest =>
      match target with
      | .symbol v =>
        match Tree.eval fuel scopes x scope false with
        | .error err => .error err
        | .ok (value, scopes1) =>
          match Tree.Scope.set scopes1 scope v value with
          | .error err => .error err
          | .ok scopes2 => .ok (.null, scopes2)
      | .pair (.symbol sym) declaration =>
        match Tree.makeFormals declaration with
        | .error err => .error err
        | .ok (formals, isVariadic) =>
          match Tree.Scope.set scopes scope sym
              (.procedure sym scope formals isVariadic (x :: rest)) with
          | .error err => .error err
          | .ok scopes1 => .ok (.null, scopes1)
      | _ => .error invalidDefine
    | _ => .error invalidDefine
/-- The function `evalSeq`; `e` is a `*Pair`, nil when it is no pair. -/
def Tree.evalSeq : Nat → List Tree.Scope → Tree.Value → ScopeRef → Bool →
    Except String (Tree.Value × List Tree.Scope)
  | 0, _, _, _, _ => .error outOfFuel
  | fuel + 1, scopes, e, scope, tail =>
    match e with
    | .pair car cdr =>
      match cdr with
      | .pair a d =>
        match Tree.eval fuel scopes car scope false with
        | .error err => .error err
        | .ok (_, scopes1) => Tree.evalSeq fuel scopes1 (.pair a d) scope tail
      | _ => Tree.eval fuel scopes car scope tail
    | _ => .ok (.null, scopes)
/-- The function `evalBegin`: `evalSeq` of `e.cdr.(*Pair)`. -/
def Tree.evalBegin : Nat → List Tree.Scope → Tree.Value → ScopeRef → Bool →
    Except String (Tree.Value × List Tree.Scope)
  | 0, _, _, _, _ => .error outOfFuel
  | fuel + 1, scopes, e, scope, tail =>
    match e with
    | .pair _ cdr => Tree.evalSeq fuel scopes cdr scope tail
    | _ => .error nilDeref
/-- The function `evalClause`. -/
def Tree.evalClause : Nat → List Tree.Scope → Tree.Value → Tree.Value → ScopeRef → Bool →
    Except String (Tree.Value × List Tree.Scope)
  | 0, _, _, _, _, _ => .error outOfFuel
  | fuel + 1, scopes, arg, clause, scope, tail =>
    match clause with
    | .pair _ (.pair (.symbol sym) (.pair pcar pcdr)) =>
      if sym = "=>" then
        Tree.eval fuel scopes (.pair (.pair pcar pcdr) (.pair arg .null)) scope tail
      else Tree.evalBegin fuel scopes clause scope tail
    | .pair _ (.pair _ _) => Tree.evalBegin fuel scopes clause scope tail
    | .pair _ _ => .ok (arg, scopes)
    | _ => .error nilDeref
/-- The function `evalCond`, entered with `e.cdr` of the form. -/
def Tree.evalCond : Nat → List Tree.Scope → Tree.Value → ScopeRef → Bool →
    Except String (Tree.Value × List Tree.Scope)
  | 0, _, _, _, _ => .error outOfFuel
  | fuel + 1, scopes, e, scope, tail =>
    match e with
    | .pair clause rest =>
      match clause with
      | .pair test body =>
        if (match rest with | .null => true | _ => false) && Tree.isElse clause then
          Tree.evalBegin fuel scopes clause scope tail
        else
          match Tree.eval fuel scopes test scope false with
          | .error err => .error err
          | .ok (v, scopes1) =>
            if Tree.Truthy v then Tree.evalClause fuel scopes1 v (.pair test body) scope tail
            else Tree.evalCond fuel scopes1 rest scope tail
      | _ => .error Tree.invalidCond
    | _ => .ok (.null, scopes)
/-- The function `evalAnd`, entered with `e.cdr` of the form. -/
def Tree.evalAnd : Nat → List Tree.Scope → Tree.Value → ScopeRef → Bool →
    Except String (Tree.Value × List Tree.Scope)
  | 0, _, _, _, _ => .error outOfFuel
  | fuel + 1, scopes, cdr, scope, tail =>
    match cdr with
    | .null => .ok (.boolean true, scopes)
    | .pair a .null => Tree.eval fuel scopes a scope tail
    | .pair a d => Tree.andLoop fuel scopes (.pair a d) scope
    | _ => .error nilDeref
/-- The loop of `evalAnd`. -/
def Tree.andLoop : Nat → List Tree.Scope → Tree.Value → ScopeRef →
    Except String (Tree.Value × List Tree.Scope)
  | 0, _, _, _ => .error outOfFuel
  | fuel + 1, scopes, e, scope =>
    match e with
    | .pair a d =>
      match Tree.eval fuel scopes a scope false with
      | .error err => .error err
      | .ok (v, scopes1) =>
        if Tree.Truthy v then Tree.andLoop fuel scopes1 d scope
        else .ok (.boolean false, scopes1)
    | _ => .ok (.boolean true, scopes)
/-- The function `evalOr`, entered with `e.cdr` of the form. -/
def Tree.evalOr : Nat → List Tree.Scope → Tree.Value → ScopeRef → Bool →
    Except String (Tree.Value × List Tree.Scope)
  | 0, _, _, _, _ => .error outOfFuel
  | fuel + 1, scopes, cdr, scope, tail =>
    match cdr with
    | .null => .ok (.boolean true, scopes)
    | .pair a .null => Tree.eval fuel scopes a scope tail
    | .pair a d => Tree.orLoop fuel scopes (.pair a d) scope
    | _ => .error nilDeref
/-- The loop of `evalOr`. -/
def Tree.orLoop : Nat → List Tree.Scope → Tree.Value → ScopeRef →
    Except String (Tree.Value × List Tree.Scope)
  | 0, _, _, _ => .error outOfFuel
  | fuel + 1, scopes, e, scope =>
    match e with
    | .pair a d =>
      match Tree.eval fuel scopes a scope false with
      | .error err => .error err
      | .ok (v, scopes1) =>
        if Tree.Truthy v then .ok (v, scopes1)
        else Tree.orLoop fuel scopes1 d scope
    | _ => .ok (.boolean false, scopes)
/-- The function `evalBinding`: `none` is the result `false`. -/
def Tree.evalBinding : Nat → List Tree.Scope → Tree.Value → ScopeRef →
    Except String (Option (Symbol × Tree.Value) × List Tree.Scope)
  | 0, _, _, _ => .error outOfFuel
  | fuel + 1, scopes, e, scope =>
    match e with
    | .pair (.symbol sym) (.pair init .null) =>
      match Tree.eval fuel scopes init scope false with
      | .error err => .error err
      | .ok (v, scopes1) => .ok (some (sym, v), scopes1)
    | _ => .ok (none, scopes)
/-- The loop of `evalBindings`, at the pair `(car . cdr)` of the bindings. -/
def Tree.bindingsLoop : Nat → List Tree.Scope → Tree.Value → Tree.Value → ScopeRef → Bool →
    List Symbol → List Tree.Value →
    Except String (Option (List Symbol × List Tree.Value) × List Tree.Scope)
  | 0, _, _, _, _, _, _, _ => .error outOfFuel
  | fuel + 1, scopes, car, cdr, scope, seq, names, values =>
    match Tree.evalBinding fuel scopes car scope with
    | .error err => .error err
    | .ok (none, scopes1) => .ok (none, scopes1)
    | .ok (some (sym, value), scopes1) =>
      match (if seq then Tree.Scope.set scopes1 scope sym value else .ok scopes1) with
      | .error err => .error err
      | .ok scopes2 =>
        match cdr with
        | .null => .ok (some (names ++ [sym], values ++ [value]), scopes2)
        | .pair a d =>
          Tree.bindingsLoop fuel scopes2 a d scope seq (names ++ [sym]) (values ++ [value])
        | _ => .ok (none, scopes2)
/-- The function `evalBindings`: `none` is the result `false`. -/
def Tree.evalBindings : Nat → List Tree.Scope → Tree.Value → ScopeRef → Bool →
    Except String (Option (List Symbol × List Tree.Value) × List Tree.Scope)
  | 0, _, _, _, _ => .error outOfFuel
  | fuel + 1, scopes, e, scope, seq =>
    match e with
    | .null => .ok (some ([], []), scopes)
    | .pair car cdr => Tree.bindingsLoop fuel scopes car cdr scope seq [] []
    | _ => .ok (none, scopes)
/-- The function `evalLet`: it returns `proc.apply(actuals)`, whatever `tail` is. -/
def Tree.evalLet : Nat → List Tree.Scope → Tree.Value → ScopeRef → Bool →
    Except String (Tree.Value × List Tree.Scope)
  | 0, _, _, _, _ => .error outOfFuel
  | fuel + 1, scopes, e, scope, _ =>
    match e.ToVector with
    | _ :: first :: rest =>
      let isNamedLet := match first with
        | .symbol _ => true
        | _ => false
      match (if isNamedLet then rest else first :: rest) with
      | [] => .error Tree.invalidLet
      | bindings :: body =>
        match Tree.evalBindings fuel scopes bindings scope false with
        | .error err => .error err
        | .ok (none, _) => .error Tree.invalidLet
        | .ok (some (formals, actuals), scopes1) =>
          let pushed := Tree.Scope.push scopes1 scope
          let proc := Tree.Value.procedure first.asSymbol pushed.2 formals false body
          if isNamedLet then
            match Tree.Scope.set pushed.1 pushed.2 first.asSymbol proc with
            | .error err => .error err
            | .ok scopes2 => Tree.apply fuel scopes2 proc actuals
          else Tree.apply fuel pushed.1 proc actuals
    | _ => .error Tree.invalidLet
end

/-- The method `Env.Eval`: `eval(expression, e.globals, false)`. -/
def Tree.Eval (fuel : Nat) (scopes : List Tree.Scope) (globals : ScopeRef)
    (expression : Tree.Value) : Except String (Tree.Value × List Tree.Scope) :=
  Tree.eval fuel scopes expression globals false

/-! ### Expressions and scopes of the examples -/

/-- The procedure that `(define (f x) x)` binds to `f` in the scope `[0]`. -/
def Tree.identity : Tree.Value :=
  .procedure "f" [0] ["x"] false [.symbol "x"]

/-- A heap of one scope, the global scope `[0]`, that binds `+` and `f`. -/
def Tree.exampleScopes : List Tree.Scope :=
  [⟨[("f", Tree.identity), ("+", .procedureFunc .NumberAdd)]⟩]

/-- The expression `(f 2)`. -/
def Tree.callExpr : Tree.Value :=
  Tree.ToList [.symbol "f", .number 2]

/-- The expression `(let () (f 2))`. -/
def Tree.letExpr : Tree.Value :=
  Tree.ToList [.symbol "let", .null, Tree.callExpr]

/-- The expression `(begin (f 2))`. -/
def Tree.beginExpr : Tree.Value :=
  Tree.ToList [.symbol "begin", Tree.callExpr]

/-- The expression `(if #t (f 2))`. -/
def Tree.ifExpr : Tree.Value :=
  Tree.ToList [.symbol "if", .boolean true, Tree.callExpr]

/-- The expression `(+ 1 e)`. -/
def Tree.sumExpr (e : Tree.Value) : Tree.Value :=
  Tree.ToList [.symbol "+", .number 1, e]

/-! ## The compiler: equations -/

theorem compileBody_cons (x : Value) (xs : List Value) :
    compileBody (x :: xs) =
      (compileSeq (x :: xs).dropLast >>= fun init =>
       compile ((x :: xs).getLast (List.cons_ne_nil x xs)) true >>= fun fin =>
        match (init ++ fin).getLast? with
        | some i =>
          if i.code ≠ opTail then .ok (init ++ fin ++ [⟨opReturn, .null⟩]) else .ok (init ++ fin)
        | none => .ok (init ++ fin)) := by
  rw [compileBody]
  split
  · rename_i h
    simp at h
  · rename_i last h
    have hl : last = (x :: xs).getLast (List.cons_ne_nil x xs) := by
      rw [List.getLast?_eq_getLast _ (List.cons_ne_nil x xs)] at h
      exact (Option.some.inj h).symm
    subst hl
    rfl

theorem compile_application (car cdr : Value) (tail : Bool)
    (h : car.asSymbol ∉ specialForms) :
    compile (.pair car cdr) tail =
      (compile car false >>= fun f =>
       compileSeq cdr.ToVector >>= fun as =>
        .ok (f ++ as ++ [⟨if tail then opTail else opCall, .integer cdr.ToVector.length⟩])) := by
  simp only [specialForms, List.mem_cons, List.mem_singleton, not_or, List.not_mem_nil,
    not_false_eq_true, and_true] at h
  rw [compile]
  simp only [h, if_false, Value.ToVector, List.tail_cons]

theorem compile_quote_form (cdr : Value) (tail : Bool) :
    compile (.pair (.symbol "quote") cdr) tail = compileQuote (.pair (.symbol "quote") cdr) := by
  rw [compile]; simp [Value.asSymbol]

theorem compile_lambda_form (cdr : Value) (tail : Bool) :
    compile (.pair (.symbol "lambda") cdr) tail = compileLambda (.pair (.symbol "lambda") cdr) := by
  rw [compile]; simp [Value.asSymbol]

theorem compile_if_form (cdr : Value) (tail : Bool) :
    compile (.pair (.symbol "if") cdr) tail = compileIf (.pair (.symbol "if") cdr) tail := by
  rw [compile]; simp [Value.asSymbol]

theorem compile_set_form (cdr : Value) (tail : Bool) :
    compile (.pair (.symbol "set!") cdr) tail = compileSet (.pair (.symbol "set!") cdr) := by
  rw [compile]; simp [Value.asSymbol]

theorem compile_define_form (cdr : Value) (tail : Bool) :
    compile (.pair (.symbol "define") cdr) tail = compileDefine (.pair (.symbol "define") cdr) := by
  rw [compile]; simp [Value.asSymbol]

theorem compileLambda_eq (a0 a1 a2 rest : Value) :
    compileLambda (.pair a0 (.pair a1 (.pair a2 rest))) =
      (makeFormals a1 >>= fun fv =>
       compileBody (a2 :: rest.ToVector) >>= fun body =>
        .ok [⟨opLambda, .compiledProcedure ⟨"<lambda>", fv.1, fv.2, body⟩⟩]) := by
  rw [compileLambda]
  split
  · rename_i b0 b1 b2 brest h
    simp only [Value.ToVector, List.cons.injEq] at h
    obtain ⟨h0, h1, h2, h3⟩ := h
    subst h0 h1 h2 h3
    rfl
  · rename_i h
    exact absurd rfl (h a0 a1 a2 rest.ToVector)

theorem compileIf_eq3 (a0 a1 a2 : Value) (tail : Bool) :
    compileIf (.pair a0 (.pair a1 (.pair a2 .null))) tail =
      (compileBody [a2] >>= fun ifBody =>
       compile a1 false >>= fun test =>
        .ok (test ++
          [⟨opLambda, .compiledProcedure ⟨"<if-true>", [], false, ifBody⟩⟩,
           ⟨opLambda, .compiledProcedure ⟨"<if-false>", [], false,
              [⟨opQuote, .null⟩, ⟨opReturn, .null⟩]⟩⟩,
           ⟨opIf, .null⟩,
           ⟨if tail then opTail else opCall, .integer 0⟩])) := by
  rw [compileIf]
  split
  · rename_i b0 b1 b2 brest h
    simp only [Value.ToVector, List.cons.injEq] at h
    obtain ⟨h0, h1, h2, h3⟩ := h
    subst h0 h1 h2 h3
    simp
  · rename_i h
    exact absurd rfl (h a0 a1 a2 [])

theorem compileIf_eq4 (a0 a1 a2 a3 : Value) (tail : Bool) :
    compileIf (.pair a0 (.pair a1 (.pair a2 (.pair a3 .null)))) tail =
      (compileBody [a2] >>= fun ifBody =>
       compileBody [a3] >>= fun elseBody =>
       compile a1 false >>= fun test =>
        .ok (test ++
          [⟨opLambda, .compiledProcedure ⟨"<if-true>", [], false, ifBody⟩⟩,
           ⟨opLambda, .compiledProcedure ⟨"<if-false>", [], false, elseBody⟩⟩,
           ⟨opIf, .null⟩,
           ⟨if tail then opTail else opCall, .integer 0⟩])) := by
  rw [compileIf]
  split
  · rename_i b0 b1 b2 brest h
    simp only [Value.ToVector, List.cons.injEq] at h
    obtain ⟨h0, h1, h2, h3⟩ := h
    subst h0 h1 h2 h3
    simp
  · rename_i h
    exact absurd rfl (h a0 a1 a2 [a3])

theorem compileDefine_function (a0 vcdr a2 rest : Value) (sym : Symbol) :
    compileDefine (.pair a0 (.pair (.pair (.symbol sym) vcdr) (.pair a2 rest))) =
      (makeFormals vcdr >>= fun fv =>
       compileBody (a2 :: rest.ToVector) >>= fun body =>
        .ok [⟨opLambda, .compiledProcedure ⟨sym, fv.1, fv.2, body⟩⟩, ⟨opDefine, .symbol sym⟩]) := by
  rw [compileDefine]
  split
  · rename_i b0 b1 b2 brest h
    simp only [Value.ToVector, List.cons.injEq] at h
    obtain ⟨h0, h1, h2, h3⟩ := h
    subst h0 h1 h2 h3
    rfl
  · rename_i h
    exact absurd rfl (h a0 _ a2 rest.ToVector)

theorem compileDefine_variable (a0 a2 rest : Value) (v : Symbol) :
    compileDefine (.pair a0 (.pair (.symbol v) (.pair a2 rest))) =
      (compile a2 false >>= fun x => .ok (x ++ [⟨opDefine, .symbol v⟩])) := by
  rw [compileDefine]
  split
  · rename_i b0 b1 b2 brest h
    simp only [Value.ToVector, List.cons.injEq] at h
    obtain ⟨h0, h1, h2, h3⟩ := h
    subst h0 h1 h2 h3
    rfl
  · rename_i h
    exact absurd rfl (h a0 _ a2 rest.ToVector)

theorem compile_number (n : Int) (tail : Bool) :
    compile (.number n) tail = .ok [⟨opQuote, .number n⟩] := by
  rw [compile]

theorem compile_symbol (s : Symbol) (tail : Bool) :
    compile (.symbol s) tail = .ok [⟨opGet, .symbol s⟩] := by
  rw [compile, compileVariable]

theorem compileSeq_nil : compileSeq [] = .ok [] := by
  rw [compileSeq]

theorem compileSeq_cons (x : Value) (xs : List Value) :
    compileSeq (x :: xs) =
      (compile x false >>= fun a => compileSeq xs >>= fun b => .ok (a ++ b)) := by
  rw [compileSeq]


/-- On a result that is there, the bind of `Except` applies the function. -/
theorem ok_bind {α β : Type} (x : α) (f : α → Except String β) :
    (Except.ok x >>= f) = f x := rfl

theorem compileBody_facProgram (n : Int) : compileBody [facProgram n] = .ok (facCode n) := by
  have hfac := fun cdr tail => compile_application (.symbol "fac") cdr tail (by decide)
  have hsub := fun cdr tail => compile_application (.symbol "-") cdr tail (by decide)
  have hmul := fun cdr tail => compile_application (.symbol "*") cdr tail (by decide)
  have heq := fun cdr tail => compile_application (.symbol "=") cdr tail (by decide)
  have happ := fun a d cdr tail =>
    compile_application (.pair a d) cdr tail (by simp [Value.asSymbol, specialForms])
  simp only [facProgram, ToList, compileBody_cons, List.dropLast, List.getLast, compileSeq_nil,
    compileSeq_cons, compile_number, compile_symbol, compile_lambda_form, compile_if_form,
    compile_define_form, compileLambda_eq, compileIf_eq4, compileDefine_function, hfac, hsub,
    hmul, heq, happ, Value.ToVector, makeFormals, makeFormalsLoop, ok_bind, List.cons_append,
    List.nil_append, List.getLast?, List.length_cons, List.length_nil, Instruction.code,
    List.mem_cons, List.not_mem_nil, List.append_nil, ne_eq, not_true_eq_false,
    not_false_eq_true, if_true, if_false, ite_true, ite_false, Bool.false_eq_true]
  rfl

/-! ## Heaps -/

theorem get?_append_base {α : Type} (S l : List α) : (S ++ l).get? S.length = l.get? 0 := by
  simp [List.getElem?_append_right]

theorem get?_append_offset {α : Type} (S l : List α) (j : Nat) :
    (S ++ l).get? (S.length + j) = l.get? j := by
  simp [List.getElem?_append_right]

theorem get?_append_lt {α : Type} (S l : List α) (a : Nat) (h : a < S.length) :
    (S ++ l).get? a = S.get? a := by
  simp [List.getElem?_append_left h]

theorem set_append_base {α : Type} (S l : List α) (x : α) :
    (S ++ l).set S.length x = S ++ l.set 0 x := by
  simp [List.set_append]

theorem set_append_offset {α : Type} (S l : List α) (j : Nat) (x : α) :
    (S ++ l).set (S.length + j) x = S ++ l.set j x := by
  simp [List.set_append]

theorem lookup_append (S l : List Scope) (r : ScopeRef) (name : Symbol)
    (h : ∀ a ∈ r, a < S.length) :
    Scope.lookup (S ++ l) r name = Scope.lookup S r name := by
  induction r with
  | nil => rfl
  | cons a r ih =>
    have ha : a < S.length := h a (List.mem_cons_self a r)
    have hr : ∀ b ∈ r, b < S.length := fun b hb => h b (List.mem_cons_of_mem a hb)
    simp only [Scope.lookup, get?_append_lt S l a ha, ih hr]

/-! ## The loop of `run` -/

theorem run_add (a b : Nat) (m : VM) :
    m.run (a + b) =
      match m.run a with
      | .ok (.next m1) => m1.run b
      | r => r := by
  induction a generalizing m with
  | zero => simp [VM.run]
  | succ a ih =>
    rw [Nat.succ_add]
    simp only [VM.run]
    cases hs : m.step with
    | error e => rfl
    | ok o =>
      cases o with
      | done v => rfl
      | next m1 => exact ih m1

theorem run_of_run_next (a b : Nat) (m m1 : VM) (h : m.run a = .ok (.next m1)) :
    m.run (a + b) = m1.run b := by
  rw [run_add, h]

theorem maxChain_le_of_run (c a : Nat) (m : VM) (h1 : m.maxChain a ≤ c)
    (h2 : ∀ m1, m.run a = .ok (.next m1) → ∀ b, m1.maxChain b ≤ c) :
    ∀ fuel, m.maxChain fuel ≤ c := by
  induction a generalizing m with
  | zero => exact h2 m rfl
  | succ a ih =>
    intro fuel
    simp only [VM.maxChain, max_le_iff] at h1
    cases fuel with
    | zero => exact h1.1
    | succ f =>
      simp only [VM.maxChain, max_le_iff]
      refine ⟨h1.1, ?_⟩
      cases hs : m.step with
      | error e => exact Nat.zero_le c
      | ok o =>
        cases o with
        | done v => exact Nat.zero_le c
        | next m1 =>
          simp only [hs] at h1
          refine ih m1 h1.2 ?_ f
          intro m2 hm2
          apply h2
          simp only [VM.run, hs]
          exact hm2

/-! ## The factorial program (C1, C2) -/

set_option maxRecDepth 10000 in
theorem fac_block (F : List Frame) (S : List Scope) (r : ScopeRef) (s1 : Nat) (x : Value)
    (k a : Int) (fr : Frame)
    (hs1 : s1 < S.length)
    (hfac : S.get? s1 = some ⟨[("fac", .compiledClosure facProc (s1 :: r)), ("x", x)]⟩)
    (hr : ∀ b ∈ r, b < S.length)
    (heq : Scope.lookup S r "=" = some (.procedureFunc .NumberEq))
    (hsub : Scope.lookup S r "-" = some (.procedureFunc .NumberSub))
    (hmul : Scope.lookup S r "*" = some (.procedureFunc .NumberMul))
    (hk : k ≠ 0) :
    ∃ F2 fr2,
      (facHead F S r s1 k a fr).run 18 =
        .ok (.next (facHead (F ++ F2)
          (S ++ [⟨[("acc", .number a), ("n", .number k)]⟩, ⟨[]⟩]) r s1 (k - 1) (k * a) fr2)) := by
  refine ⟨[{ closure := fr.closure, scope := fr.scope, stack := [], pc := 7 },
           { closure := some ⟨facElse, S.length :: s1 :: r⟩, scope := [], stack := [], pc := 9 }],
          { closure := some ⟨facProc, s1 :: r⟩, scope := [], stack := [], pc := 0 }, ?_⟩
  simp only [facHead, VM.run, VM.step, facProc, facThen, facElse, CompiledProcedure.body,
    CompiledProcedure.formals, CompiledProcedure.isVariadic, List.get?, Instruction.code,
    Instruction.immediate, Scope.lookup, get?_append_base, get?_append_offset,
    get?_append_lt _ _ _ hs1, hfac, envGet, lookup_append _ _ _ _ hr, heq, hsub, hmul,
    String.reduceEq, if_true, if_false, ite_true, ite_false, reduceCtorEq, List.nil_append,
    List.cons_append, List.append_nil, VM.call, operandCount, splitStack, Int.toNat_ofNat,
    List.length_cons, List.length_nil, Nat.reduceAdd, Nat.reduceSub, Nat.reduceLeDiff,
    Int.reduceToNat, Int.reduceLE, Nat.zero_add, List.take, List.drop, List.getLast?,
    List.getLast, List.dropLast, Builtin.Apply, NumberEq, NumberSub, NumberMul, numberFold,
    List.all, eqvNumber, hk, decide_False, decide_True, Bool.and_true, Bool.true_and, Truthy,
    List.reverse_cons, List.reverse_nil, List.reverse, List.reverseAux, VM.callClosure, VM.save,
    Scope.push, VM.assignFormals, bindFormals, Scope.set, envPut, set_append_base,
    set_append_offset, List.set, List.length_append, List.append_assoc, List.tail,
    Bool.false_eq_true, le_refl, Nat.le_refl, Nat.lt_irrefl, Nat.not_lt_zero, not_lt_zero']

set_option maxRecDepth 10000 in
theorem fac_block_chain (F : List Frame) (S : List Scope) (r : ScopeRef) (s1 : Nat) (x : Value)
    (k a : Int) (fr : Frame)
    (hs1 : s1 < S.length)
    (hfac : S.get? s1 = some ⟨[("fac", .compiledClosure facProc (s1 :: r)), ("x", x)]⟩)
    (hr : ∀ b ∈ r, b < S.length)
    (heq : Scope.lookup S r "=" = some (.procedureFunc .NumberEq))
    (hsub : Scope.lookup S r "-" = some (.procedureFunc .NumberSub))
    (hmul : Scope.lookup S r "*" = some (.procedureFunc .NumberMul))
    (hk : k ≠ 0) :
    (facHead F S r s1 k a fr).maxChain 18 ≤ 1 := by
  simp only [facHead, VM.maxChain, VM.step, facProc, facThen, facElse, CompiledProcedure.body,
    CompiledProcedure.formals, CompiledProcedure.isVariadic, List.get?, Instruction.code,
    Instruction.immediate, Scope.lookup, get?_append_base, get?_append_offset,
    get?_append_lt _ _ _ hs1, hfac, envGet, lookup_append _ _ _ _ hr, heq, hsub, hmul,
    String.reduceEq, if_true, if_false, ite_true, ite_false, reduceCtorEq, List.nil_append,
    List.cons_append, List.append_nil, VM.call, operandCount, splitStack, Int.toNat_ofNat,
    List.length_cons, List.length_nil, Nat.reduceAdd, Nat.reduceSub, Nat.reduceLeDiff,
    Int.reduceToNat, Int.reduceLE, Nat.zero_add, List.take, List.drop, List.getLast?,
    List.getLast, List.dropLast, Builtin.Apply, NumberEq, NumberSub, NumberMul, numberFold,
    List.all, eqvNumber, hk, decide_False, decide_True, Bool.and_true, Bool.true_and, Truthy,
    List.reverse_cons, List.reverse_nil, List.reverse, List.reverseAux, VM.callClosure, VM.save,
    Scope.push, VM.assignFormals, bindFormals, Scope.set, envPut, set_append_base,
    set_append_offset, List.set, List.length_append, List.append_assoc, List.tail,
    Bool.false_eq_true, le_refl, Nat.le_refl, Nat.lt_irrefl, Nat.not_lt_zero, not_lt_zero',
    max_self]

set_option maxRecDepth 10000 in
theorem fac_base (F : List Frame) (S : List Scope) (r : ScopeRef) (s1 : Nat) (x : Value)
    (a : Int) (fr : Frame)
    (hs1 : s1 < S.length)
    (hfac : S.get? s1 = some ⟨[("fac", .compiledClosure facProc (s1 :: r)), ("x", x)]⟩)
    (hr : ∀ b ∈ r, b < S.length)
    (heq : Scope.lookup S r "=" = some (.procedureFunc .NumberEq)) :
    (facHead F S r s1 0 a fr).run 10 = .ok (.done (.number a)) ∧
      (facHead F S r s1 0 a fr).maxChain 10 ≤ 1 := by
  refine ⟨?_, ?_⟩ <;>
  simp only [facHead, VM.run, VM.maxChain, VM.step, facProc, facThen, facElse, CompiledProcedure.body,
    CompiledProcedure.formals, CompiledProcedure.isVariadic, List.get?, Instruction.code,
    Instruction.immediate, Scope.lookup, get?_append_base, get?_append_offset,
    get?_append_lt _ _ _ hs1, hfac, envGet, lookup_append _ _ _ _ hr, heq,
    String.reduceEq, if_true, if_false, ite_true, ite_false, reduceCtorEq, List.nil_append,
    List.cons_append, List.append_nil, VM.call, operandCount, splitStack, Int.toNat_ofNat,
    List.length_cons, List.length_nil, Nat.reduceAdd, Nat.reduceSub, Nat.reduceLeDiff,
    Int.reduceToNat, Int.reduceLE, Nat.zero_add, List.take, List.drop, List.getLast?,
    List.getLast, List.dropLast, Builtin.Apply, NumberEq, NumberSub, NumberMul, numberFold,
    List.all, eqvNumber, decide_False, decide_True, Bool.and_true, Bool.true_and, Truthy,
    List.reverse_cons, List.reverse_nil, List.reverse, List.reverseAux, VM.callClosure, VM.save,
    Scope.push, VM.assignFormals, bindFormals, Scope.set, envPut, set_append_base,
    set_append_offset, List.set, List.length_append, List.append_assoc, List.tail,
    Bool.false_eq_true, le_refl, Nat.le_refl, Nat.lt_irrefl, Nat.not_lt_zero, not_lt_zero',
    max_self, VM.returnValue] <;>
  decide

theorem fac_loop (r : ScopeRef) (s1 : Nat) (x : Value) (j : Nat) :
    ∀ (F : List Frame) (S : List Scope) (a : Int) (fr : Frame),
      s1 < S.length →
      S.get? s1 = some ⟨[("fac", .compiledClosure facProc (s1 :: r)), ("x", x)]⟩ →
      (∀ b ∈ r, b < S.length) →
      Scope.lookup S r "=" = some (.procedureFunc .NumberEq) →
      Scope.lookup S r "-" = some (.procedureFunc .NumberSub) →
      Scope.lookup S r "*" = some (.procedureFunc .NumberMul) →
      (facHead F S r s1 j a fr).run (18 * j + 10) = .ok (.done (.number (j.factorial * a))) ∧
        ∀ fuel, (facHead F S r s1 j a fr).maxChain fuel ≤ 1 := by
  induction j with
  | zero =>
    intro F S a fr hs1 hfac hr heq _ _
    obtain ⟨h1, h2⟩ := fac_base F S r s1 x a fr hs1 hfac hr heq
    refine ⟨?_, ?_⟩
    · simpa using h1
    · refine maxChain_le_of_run 1 10 _ (by simpa using h2) ?_
      intro m1 hm1
      have h1' : (facHead F S r s1 ((0 : Nat) : Int) a fr).run 10 = .ok (.done (.number a)) := by
        simpa using h1
      rw [h1'] at hm1
      cases hm1
  | succ j ih =>
    intro F S a fr hs1 hfac hr heq hsub hmul
    have hk : ((j + 1 : Nat) : Int) ≠ 0 := by
      exact_mod_cast Nat.succ_ne_zero j
    obtain ⟨F2, fr2, hrun⟩ := fac_block F S r s1 x _ a fr hs1 hfac hr heq hsub hmul hk
    have hkj : ((j + 1 : Nat) : Int) - 1 = (j : Int) := by
      push_cast; ring
    rw [hkj] at hrun
    have hlen : S.length ≤
        (S ++ [(⟨[("acc", .number a), ("n", .number ((j + 1 : Nat) : Int))]⟩ : Scope),
          ⟨[]⟩]).length := by
      simp
    obtain ⟨ih1, ih2⟩ := ih (F ++ F2) _ (((j + 1 : Nat) : Int) * a) fr2
      (Nat.lt_of_lt_of_le hs1 hlen)
      (by rw [get?_append_lt _ _ _ hs1]; exact hfac)
      (fun b hb => Nat.lt_of_lt_of_le (hr b hb) hlen)
      (by rw [lookup_append _ _ _ _ hr]; exact heq)
      (by rw [lookup_append _ _ _ _ hr]; exact hsub)
      (by rw [lookup_append _ _ _ _ hr]; exact hmul)
    refine ⟨?_, ?_⟩
    · have hfuel : 18 * (j + 1) + 10 = 18 + (18 * j + 10) := by ring
      rw [hfuel, run_of_run_next 18 _ _ _ hrun, ih1]
      have hf : ((j.factorial : Nat) : Int) * (((j + 1 : Nat) : Int) * a) =
          (((j + 1).factorial : Nat) : Int) * a := by
        rw [Nat.factorial_succ]; push_cast; ring
      rw [hf]
    · refine maxChain_le_of_run 1 18 _
        (fac_block_chain F S r s1 x _ a fr hs1 hfac hr heq hsub hmul hk) ?_
      intro m1 hm1
      rw [hrun] at hm1
      cases hm1
      exact ih2

set_option maxRecDepth 10000 in
theorem fac_start (n : Int) (F0 : List Frame) (S0 : List Scope) (r0 : ScopeRef) :
    ∃ m, (rootClosure (facCode n) r0).enter F0 S0 [] = .ok m ∧
      m.maxChain 9 ≤ 1 ∧
      ∃ F fr, m.run 9 =
        .ok (.next (facHead F
          (S0 ++ [⟨[]⟩, ⟨[("fac", .compiledClosure facProc ((S0.length + 1) :: S0.length :: r0)),
                          ("x", .number n)]⟩])
          (S0.length :: r0) (S0.length + 1) n 1 fr)) := by
  refine ⟨{ frames := F0 ++ [{ closure := some (rootClosure (facCode n) r0),
                               scope := S0.length :: r0, stack := [], pc := 0 }],
            scopes := S0 ++ [⟨[]⟩], mstack := [F0.length], body := facCode n,
            scope := S0.length :: r0, stack := [], pc := 0 }, ?_, ?_,
          F0 ++ [{ closure := some (rootClosure (facCode n) r0), scope := S0.length :: r0,
                   stack := [], pc := 2 },
                 { closure := some ⟨facOuter, S0.length :: r0⟩, scope := [], stack := [],
                   pc := 5 }],
          { closure := some ⟨facProc, (S0.length + 1) :: S0.length :: r0⟩, scope := [],
            stack := [], pc := 0 }, ?_⟩ <;>
  simp only [rootClosure, CompiledClosure.enter, VM.start, facCode, facOuter,
    facHead, VM.run, VM.maxChain, VM.step, facProc, facThen, facElse, CompiledProcedure.body,
    CompiledProcedure.formals, CompiledProcedure.isVariadic, List.get?, Instruction.code,
    Instruction.immediate, Scope.lookup, get?_append_base, get?_append_offset, envGet,
    String.reduceEq, if_true, if_false, ite_true, ite_false, reduceCtorEq, List.nil_append,
    List.cons_append, List.append_nil, VM.call, operandCount, splitStack, Int.toNat_ofNat,
    List.length_cons, List.length_nil, Nat.reduceAdd, Nat.reduceSub, Nat.reduceLeDiff,
    Int.reduceToNat, Int.reduceLE, Nat.zero_add, List.take, List.drop, List.getLast?,
    List.getLast, List.dropLast, Builtin.Apply,
    decide_False, decide_True, Bool.and_true, Bool.true_and, Truthy,
    List.reverse_cons, List.reverse_nil, List.reverse, List.reverseAux, VM.callClosure, VM.save,
    Scope.push, VM.assignFormals, bindFormals, Scope.set, envPut, set_append_base,
    set_append_offset, List.set, List.length_append, List.append_assoc, List.tail,
    Bool.false_eq_true, le_refl, Nat.le_refl, Nat.lt_irrefl, Nat.not_lt_zero, not_lt_zero',
    max_self, VM.returnValue]

theorem fac_run (n : Nat) (F0 : List Frame) (S0 : List Scope) (r0 : ScopeRef)
    (hr0 : ∀ b ∈ r0, b < S0.length)
    (heq : Scope.lookup S0 r0 "=" = some (.procedureFunc .NumberEq))
    (hsub : Scope.lookup S0 r0 "-" = some (.procedureFunc .NumberSub))
    (hmul : Scope.lookup S0 r0 "*" = some (.procedureFunc .NumberMul)) :
    ∃ m, (rootClosure (facCode n) r0).enter F0 S0 [] = .ok m ∧
      m.run (9 + (18 * n + 10)) = .ok (.done (.number n.factorial)) ∧
      ∀ fuel, m.maxChain fuel ≤ 1 := by
  obtain ⟨m, hm, hchain, F, fr, hrun⟩ := fac_start n F0 S0 r0
  have hlen : (S0 ++ [(⟨[]⟩ : Scope),
      ⟨[("fac", .compiledClosure facProc ((S0.length + 1) :: S0.length :: r0)),
        ("x", .number n)]⟩]).length = S0.length + 2 := by
    simp
  have hr : ∀ b ∈ S0.length :: r0, b < (S0 ++ [(⟨[]⟩ : Scope),
      ⟨[("fac", .compiledClosure facProc ((S0.length + 1) :: S0.length :: r0)),
        ("x", .number n)]⟩]).length := by
    intro b hb
    rw [hlen]
    rcases List.mem_cons.mp hb with h | h
    · omega
    · have := hr0 b h
      omega
  have hlook : ∀ name, Scope.lookup (S0 ++ [(⟨[]⟩ : Scope),
      ⟨[("fac", .compiledClosure facProc ((S0.length + 1) :: S0.length :: r0)),
        ("x", .number n)]⟩]) (S0.length :: r0) name = Scope.lookup S0 r0 name := by
    intro name
    simp only [Scope.lookup, get?_append_base, List.get?, envGet, lookup_append _ _ _ _ hr0]
  obtain ⟨h1, h2⟩ := fac_loop (S0.length :: r0) (S0.length + 1) (.number n) n F _ 1 fr
    (by rw [hlen]; omega)
    (by rw [get?_append_offset]; rfl)
    hr
    (by rw [hlook]; exact heq) (by rw [hlook]; exact hsub) (by rw [hlook]; exact hmul)
  refine ⟨m, hm, ?_, ?_⟩
  · rw [run_of_run_next 9 _ _ _ hrun, h1, mul_one]
  · refine maxChain_le_of_run 1 9 _ hchain ?_
    intro m1 hm1
    rw [hrun] at hm1
    cases hm1
    exact h2

/-- C1: proper tail recursion on the VM.  For every natural number n, in a
scope that binds the built-ins `=`, `-` and `*`, the code that `compileBody`
produces for the factorial program is run with a chain of frames (the active
frame and its callers) whose length never exceeds 1, whatever the number of
turns of the loop of `run`. -/
theorem tail_recursion_frame_chain_bounded (n : Nat) (F0 : List Frame) (S0 : List Scope)
    (r0 : ScopeRef)
    (hr0 : ∀ b ∈ r0, b < S0.length)
    (heq : Scope.lookup S0 r0 "=" = some (.procedureFunc .NumberEq))
    (hsub : Scope.lookup S0 r0 "-" = some (.procedureFunc .NumberSub))
    (hmul : Scope.lookup S0 r0 "*" = some (.procedureFunc .NumberMul)) :
    ∃ code m, compileBody [facProgram n] = .ok code ∧
      (rootClosure code r0).enter F0 S0 [] = .ok m ∧
      ∀ fuel, m.maxChain fuel ≤ 1 := by
  obtain ⟨m, hm, _, hchain⟩ := fac_run n F0 S0 r0 hr0 heq hsub hmul
  exact ⟨facCode n, m, compileBody_facProgram n, hm, hchain⟩

theorem tail_recursion_frame_chain_bounded_witness :
    ∃ code m, compileBody [facProgram 4] = .ok code ∧
      (rootClosure code [1, 0]).enter [] testScopes [] = .ok m ∧
      ∀ fuel, m.maxChain fuel ≤ 1 :=
  tail_recursion_frame_chain_bounded 4 [] testScopes [1, 0] (by decide) rfl rfl rfl

/-- C2: for every natural number n, in a scope that binds the built-ins `=`,
`-` and `*`, applying the closure of the code that `compileBody` produces for
the factorial program terminates and returns n factorial. -/
theorem factorial_program_returns_factorial (n : Nat) (F0 : List Frame) (S0 : List Scope)
    (r0 : ScopeRef)
    (hr0 : ∀ b ∈ r0, b < S0.length)
    (heq : Scope.lookup S0 r0 "=" = some (.procedureFunc .NumberEq))
    (hsub : Scope.lookup S0 r0 "-" = some (.procedureFunc .NumberSub))
    (hmul : Scope.lookup S0 r0 "*" = some (.procedureFunc .NumberMul)) :
    ∃ code fuel, compileBody [facProgram n] = .ok code ∧
      (rootClosure code r0).Apply fuel F0 S0 [] = .ok (.done (.number n.factorial)) := by
  obtain ⟨m, hm, hrun, _⟩ := fac_run n F0 S0 r0 hr0 heq hsub hmul
  refine ⟨facCode n, 9 + (18 * n + 10), compileBody_facProgram n, ?_⟩
  simp only [CompiledClosure.Apply, hm, hrun]

theorem factorial_program_returns_factorial_witness :
    ∃ code fuel, compileBody [facProgram 4] = .ok code ∧
      (rootClosure code [1, 0]).Apply fuel [] testScopes [] = .ok (.done (.number 24)) :=
  factorial_program_returns_factorial 4 [] testScopes [1, 0] (by decide) rfl rfl rfl


/-! ## The compiler: applications, bodies and definitions (C8, C9, C10) -/

theorem bind_eq_ok {α β : Type} (x : Except String α) (f : α → Except String β) (b : β) :
    (x >>= f) = .ok b ↔ ∃ a, x = .ok a ∧ f a = .ok b := by
  cases x with
  | error e =>
    constructor
    · intro h; cases h
    · rintro ⟨a, ha, _⟩; cases ha
  | ok a =>
    constructor
    · intro h; exact ⟨a, rfl, h⟩
    · rintro ⟨a', ha, h⟩; cases ha; exact h

theorem ToVector_ToList (l : List Value) : (ToList l).ToVector = l := by
  induction l with
  | nil => rfl
  | cons x xs ih => simp only [ToList, Value.ToVector, ih]

theorem compileSeq_forall₂ (args : List Value) (codes : List (List Instruction))
    (h : List.Forall₂ (fun a c => compile a false = .ok c) args codes) :
    compileSeq args = .ok codes.flatten := by
  induction h with
  | nil => exact compileSeq_nil
  | cons hx _ ih =>
    rw [compileSeq_cons, hx, ok_bind, ih, ok_bind]
    rfl

/-- C8: for every application form `(f a1 ... an)` whose head is not one of
the special-form symbols, `compile` emits the code of `f`, then the code of
`a1`, ..., then the code of `an`, each compiled as non-tail, and then one
instruction: TAIL n in tail position, CALL n otherwise. -/
theorem compile_application_emits (f : Value) (args : List Value) (tail : Bool)
    (cf : List Instruction) (codes : List (List Instruction))
    (hf : f.asSymbol ∉ specialForms)
    (hcf : compile f false = .ok cf)
    (hargs : List.Forall₂ (fun a c => compile a false = .ok c) args codes) :
    compile (ToList (f :: args)) tail =
      .ok (cf ++ codes.flatten ++
        [⟨if tail then opTail else opCall, .integer args.length⟩]) := by
  rw [ToList, compile_application f (ToList args) tail hf, hcf, ok_bind, ToVector_ToList,
    compileSeq_forall₂ args codes hargs, ok_bind]

theorem compile_application_emits_witness :
    compile (ToList [.symbol "fac", .symbol "x", .number 1]) true =
      .ok ([⟨opGet, .symbol "fac"⟩] ++ [[⟨opGet, .symbol "x"⟩], [⟨opQuote, .number 1⟩]].flatten ++
        [⟨if true then opTail else opCall, .integer ([.symbol "x", .number 1] : List Value).length⟩]) :=
  compile_application_emits (.symbol "fac") [.symbol "x", .number 1] true
    [⟨opGet, .symbol "fac"⟩] [[⟨opGet, .symbol "x"⟩], [⟨opQuote, .number 1⟩]]
    (by decide) (compile_symbol "fac" false)
    (List.Forall₂.cons (compile_symbol "x" false)
      (List.Forall₂.cons (compile_number 1 false) List.Forall₂.nil))

theorem compileLambda_ne_nil (e : Value) (code : List Instruction)
    (h : compileLambda e = .ok code) : code ≠ [] := by
  rw [compileLambda] at h
  split at h
  · obtain ⟨fv, -, h⟩ := (bind_eq_ok _ _ _).mp h
    obtain ⟨body, -, h⟩ := (bind_eq_ok _ _ _).mp h
    cases h
    exact List.cons_ne_nil _ _
  · cases h

theorem compileIf_ne_nil (e : Value) (tail : Bool) (code : List Instruction)
    (h : compileIf e tail = .ok code) : code ≠ [] := by
  rw [compileIf] at h
  split at h
  · split at h
    · cases h
    · obtain ⟨ifBody, -, h⟩ := (bind_eq_ok _ _ _).mp h
      simp only at h
      split at h
      · obtain ⟨elseBody, -, h⟩ := (bind_eq_ok _ _ _).mp h
        obtain ⟨test, -, h⟩ := (bind_eq_ok _ _ _).mp h
        cases h
        simp
      · obtain ⟨elseBody, -, h⟩ := (bind_eq_ok _ _ _).mp h
        obtain ⟨test, -, h⟩ := (bind_eq_ok _ _ _).mp h
        cases h
        simp
  · cases h

theorem compileSet_ne_nil (e : Value) (code : List Instruction)
    (h : compileSet e = .ok code) : code ≠ [] := by
  rw [compileSet] at h
  split at h
  · split at h
    · obtain ⟨v, -, h⟩ := (bind_eq_ok _ _ _).mp h
      cases h
      simp
    · cases h
  · cases h

theorem compileDefine_ne_nil (e : Value) (code : List Instruction)
    (h : compileDefine e = .ok code) : code ≠ [] := by
  rw [compileDefine] at h
  split at h
  · split at h
    · obtain ⟨v, -, h⟩ := (bind_eq_ok _ _ _).mp h
      cases h
      simp
    · obtain ⟨fv, -, h⟩ := (bind_eq_ok _ _ _).mp h
      obtain ⟨body, -, h⟩ := (bind_eq_ok _ _ _).mp h
      cases h
      exact List.cons_ne_nil _ _
    · cases h
  · cases h

theorem compileQuote_ne_nil (e : Value) (code : List Instruction)
    (h : compileQuote e = .ok code) : code ≠ [] := by
  unfold compileQuote at h
  split at h
  · cases h; exact List.cons_ne_nil _ _
  · cases h

/-- The code that `compile` emits for an expression is never empty. -/
theorem compile_ne_nil (e : Value) (tail : Bool) (code : List Instruction)
    (h : compile e tail = .ok code) : code ≠ [] := by
  cases e with
  | pair car cdr =>
    rw [compile] at h
    simp only at h
    by_cases h1 : car.asSymbol = "quote"
    · rw [if_pos h1] at h; exact compileQuote_ne_nil _ _ h
    rw [if_neg h1] at h
    by_cases h2 : car.asSymbol = "lambda"
    · rw [if_pos h2] at h; exact compileLambda_ne_nil _ _ h
    rw [if_neg h2] at h
    by_cases h3 : car.asSymbol = "if"
    · rw [if_pos h3] at h; exact compileIf_ne_nil _ _ _ h
    rw [if_neg h3] at h
    by_cases h4 : car.asSymbol = "set!"
    · rw [if_pos h4] at h; exact compileSet_ne_nil _ _ h
    rw [if_neg h4] at h
    by_cases h5 : car.asSymbol = "include"
    · rw [if_pos h5] at h; cases h
    rw [if_neg h5] at h
    by_cases h6 : car.asSymbol = "include-ci"
    · rw [if_pos h6] at h; cases h
    rw [if_neg h6] at h
    by_cases h7 : car.asSymbol = "define"
    · rw [if_pos h7] at h; exact compileDefine_ne_nil _ _ h
    rw [if_neg h7] at h
    obtain ⟨f, -, h⟩ := (bind_eq_ok _ _ _).mp h
    obtain ⟨as, -, h⟩ := (bind_eq_ok _ _ _).mp h
    cases h
    simp
  | vector es =>
    rw [compile] at h
    obtain ⟨body, -, h⟩ := (bind_eq_ok _ _ _).mp h
    cases h
    simp
  | null => rw [compile] at h; cases h; exact List.cons_ne_nil _ _
  | number n => rw [compile] at h; cases h; exact List.cons_ne_nil _ _
  | boolean b => rw [compile] at h; cases h; exact List.cons_ne_nil _ _
  | character c => rw [compile] at h; cases h; exact List.cons_ne_nil _ _
  | string s => rw [compile] at h; cases h; exact List.cons_ne_nil _ _
  | symbol s => rw [compile] at h; cases h; exact List.cons_ne_nil _ _
  | procedureFunc f => rw [compile] at h <;> first | cases h | (intros; contradiction)
  | compiledClosure p s => rw [compile] at h <;> first | cases h | (intros; contradiction)
  | callCC => rw [compile] at h <;> first | cases h | (intros; contradiction)
  | continuation k a => rw [compile] at h <;> first | cases h | (intros; contradiction)
  | integer i => rw [compile] at h <;> first | cases h | (intros; contradiction)
  | compiledProcedure p => rw [compile] at h <;> first | cases h | (intros; contradiction)
  | binding w n => rw [compile] at h <;> first | cases h | (intros; contradiction)

/-- C9: for every non-empty sequence of expressions on which compilation
succeeds, `compileBody` returns a non-empty instruction sequence whose last
instruction is TAIL or RETURN; the sequence is the code of the expressions
(all but the last as non-tail, the last as tail), and a RETURN is appended
exactly when the code of the last expression does not end in TAIL. -/
theorem compileBody_ends_in_tail_or_return (exprs : List Value) (code : List Instruction)
    (hne : exprs ≠ []) (h : compileBody exprs = .ok code) :
    code ≠ [] ∧
    (∃ i, code.getLast? = some i ∧ (i.code = opTail ∨ i.code = opReturn)) ∧
    (∃ init fin j,
      compileSeq exprs.dropLast = .ok init ∧
      compile (exprs.getLast hne) true = .ok fin ∧
      fin.getLast? = some j ∧
      (j.code = opTail → code = init ++ fin) ∧
      (j.code ≠ opTail → code = init ++ fin ++ [⟨opReturn, .null⟩])) := by
  cases exprs with
  | nil => exact absurd rfl hne
  | cons x xs =>
    rw [compileBody_cons] at h
    obtain ⟨init, hinit, h⟩ := (bind_eq_ok _ _ _).mp h
    obtain ⟨fin, hfin, h⟩ := (bind_eq_ok _ _ _).mp h
    have hfne : fin ≠ [] := compile_ne_nil _ _ _ hfin
    have hj : fin.getLast? = some (fin.getLast hfne) := List.getLast?_eq_getLast _ hfne
    have hlast : (init ++ fin).getLast? = some (fin.getLast hfne) := by
      rw [List.getLast?_append_of_ne_nil _ hfne, hj]
    rw [hlast] at h
    simp only at h
    by_cases hc : (fin.getLast hfne).code = opTail
    · rw [if_neg (not_not.mpr hc)] at h
      cases h
      refine ⟨by simp [hfne], ⟨_, hlast, Or.inl hc⟩, init, fin, _, hinit, hfin, hj,
        fun _ => rfl, fun hn => absurd hc hn⟩
    · rw [if_pos hc] at h
      cases h
      refine ⟨by simp, ⟨⟨opReturn, .null⟩, by simp, Or.inr rfl⟩, init, fin, _, hinit, hfin, hj,
        fun ht => absurd ht hc, fun _ => rfl⟩

theorem compileBody_ends_in_tail_or_return_witness :
    facCode 4 ≠ [] ∧
    (∃ i, (facCode 4).getLast? = some i ∧ (i.code = opTail ∨ i.code = opReturn)) ∧
    (∃ init fin j,
      compileSeq [facProgram 4].dropLast = .ok init ∧
      compile ([facProgram 4].getLast (List.cons_ne_nil _ _)) true = .ok fin ∧
      fin.getLast? = some j ∧
      (j.code = opTail → facCode 4 = init ++ fin) ∧
      (j.code ≠ opTail → facCode 4 = init ++ fin ++ [⟨opReturn, .null⟩])) :=
  compileBody_ends_in_tail_or_return [facProgram 4] (facCode 4) (List.cons_ne_nil _ _)
    (compileBody_facProgram 4)

theorem compileLambda_of_ToVector (e a0 a1 a2 : Value) (rest : List Value)
    (h : e.ToVector = a0 :: a1 :: a2 :: rest) :
    compileLambda e =
      (makeFormals a1 >>= fun fv =>
       compileBody (a2 :: rest) >>= fun body =>
        .ok [⟨opLambda, .compiledProcedure ⟨"<lambda>", fv.1, fv.2, body⟩⟩]) := by
  rw [compileLambda]
  split
  · rename_i b0 b1 b2 brest hv
    rw [h] at hv
    simp only [List.cons.injEq] at hv
    obtain ⟨h0, h1, h2, h3⟩ := hv
    subst h0 h1 h2 h3
    rfl
  · rename_i hn
    exact absurd h (hn a0 a1 a2 rest)

theorem compileDefine_function_of_ToVector (e a0 vcdr a2 : Value) (sym : Symbol)
    (rest : List Value)
    (h : e.ToVector = a0 :: .pair (.symbol sym) vcdr :: a2 :: rest) :
    compileDefine e =
      (makeFormals vcdr >>= fun fv =>
       compileBody (a2 :: rest) >>= fun body =>
        .ok [⟨opLambda, .compiledProcedure ⟨sym, fv.1, fv.2, body⟩⟩, ⟨opDefine, .symbol sym⟩]) := by
  rw [compileDefine]
  split
  · rename_i b0 b1 b2 brest hv
    rw [h] at hv
    simp only [List.cons.injEq] at hv
    obtain ⟨h0, h1, h2, h3⟩ := hv
    subst h0 h1 h2 h3
    rfl
  · rename_i hn
    exact absurd h (hn a0 _ a2 rest)

/-- C10: compiling `(define (f . formals) body...)` emits LAMBDA p and then
DEFINE f, where p is the procedure that compiling `(lambda formals body...)`
emits (same formals, same variadic flag, same body code) under the name f; the
code is the code of `(define f (lambda formals body...))` with the procedure
renamed. -/
theorem define_function_compiles_as_lambda (f : Symbol) (formals body : Value)
    (tail1 tail2 : Bool) (hbody : body.ToVector ≠ []) :
    compile (defineFunction f formals body) tail1 =
      (compile (defineVariable f (lambdaExpr formals body)) tail2).map
        (List.map (renameLambda f)) ∧
    ∀ code, compile (defineFunction f formals body) tail1 = .ok code ↔
      ∃ p, compile (lambdaExpr formals body) tail2 = .ok [⟨opLambda, .compiledProcedure p⟩] ∧
        code = [⟨opLambda, .compiledProcedure (withName f p)⟩, ⟨opDefine, .symbol f⟩] := by
  obtain ⟨a2, rest, hb⟩ : ∃ a2 rest, body.ToVector = a2 :: rest := by
    cases hv : body.ToVector with
    | nil => exact absurd hv hbody
    | cons a2 rest => exact ⟨a2, rest, rfl⟩
  have hdef : compile (defineFunction f formals body) tail1 =
      (makeFormals formals >>= fun fv =>
       compileBody (a2 :: rest) >>= fun b =>
        .ok [⟨opLambda, .compiledProcedure ⟨f, fv.1, fv.2, b⟩⟩, ⟨opDefine, .symbol f⟩]) := by
    rw [defineFunction, compile_define_form]
    exact compileDefine_function_of_ToVector _ (.symbol "define") _ _ _ _
      (by simp only [Value.ToVector, hb])
  have hlam : ∀ t, compile (lambdaExpr formals body) t =
      (makeFormals formals >>= fun fv =>
       compileBody (a2 :: rest) >>= fun b =>
        .ok [⟨opLambda, .compiledProcedure ⟨"<lambda>", fv.1, fv.2, b⟩⟩]) := by
    intro t
    rw [lambdaExpr, compile_lambda_form]
    exact compileLambda_of_ToVector _ (.symbol "lambda") _ _ _
      (by simp only [Value.ToVector, hb])
  have hvar : compile (defineVariable f (lambdaExpr formals body)) tail2 =
      (compile (lambdaExpr formals body) false >>= fun x =>
        .ok (x ++ [⟨opDefine, .symbol f⟩])) := by
    rw [defineVariable, ToList, ToList, ToList, ToList, compile_define_form,
      compileDefine_variable]
  rw [hvar, hdef, hlam false, hlam tail2]
  generalize makeFormals formals = mf
  generalize compileBody (a2 :: rest) = cb
  cases mf with
  | error e =>
    refine ⟨rfl, fun code => ⟨fun h => (by cases h), fun ⟨p, hp, _⟩ => (by cases hp)⟩⟩
  | ok fv =>
    cases cb with
    | error e =>
      refine ⟨rfl, fun code => ⟨fun h => (by cases h), fun ⟨p, hp, _⟩ => (by cases hp)⟩⟩
    | ok b =>
      refine ⟨rfl, fun code => ⟨fun h => ?_, fun ⟨p, hp, hc⟩ => ?_⟩⟩
      · cases h
        exact ⟨_, rfl, rfl⟩
      · cases hp
        rw [hc]
        rfl

theorem define_function_compiles_as_lambda_witness :
    compile (defineFunction "f" (ToList [.symbol "x"]) (ToList [.symbol "x"])) false =
      (compile (defineVariable "f" (lambdaExpr (ToList [.symbol "x"]) (ToList [.symbol "x"])))
        false).map (List.map (renameLambda "f")) ∧
    ∀ code, compile (defineFunction "f" (ToList [.symbol "x"]) (ToList [.symbol "x"])) false =
        .ok code ↔
      ∃ p, compile (lambdaExpr (ToList [.symbol "x"]) (ToList [.symbol "x"])) false =
          .ok [⟨opLambda, .compiledProcedure p⟩] ∧
        code = [⟨opLambda, .compiledProcedure (withName "f" p)⟩, ⟨opDefine, .symbol "f"⟩] :=
  define_function_compiles_as_lambda "f" (ToList [.symbol "x"]) (ToList [.symbol "x"])
    false false (by simp [ToList, Value.ToVector])

/-! ## A non-tail call followed by a reference to a formal (C3) -/

theorem compileBody_nonTailProgram (v : Int) :
    compileBody [nonTailProgram v] = .ok (nonTailCode v) := by
  have happ := fun a d cdr tail =>
    compile_application (.pair a d) cdr tail (by simp [Value.asSymbol, specialForms])
  simp only [nonTailProgram, ToList, compileBody_cons, List.dropLast, List.getLast, compileSeq_nil,
    compileSeq_cons, compile_number, compile_symbol, compile_lambda_form,
    compileLambda_eq, happ, Value.ToVector, makeFormals, makeFormalsLoop, ok_bind,
    List.cons_append, List.nil_append, List.getLast?, List.length_cons, List.length_nil,
    Instruction.code, List.mem_cons, List.not_mem_nil, List.append_nil, ne_eq,
    not_true_eq_false, not_false_eq_true, if_true, if_false, ite_true, ite_false,
    Bool.false_eq_true, reduceCtorEq]
  rfl

/-- C3 (the code breaks the claim): the VM, running the compiled code of
`((lambda (x) ((lambda (y) y) 1) x) v)` over the scopes of the tests, does not
return v: after the inner call returns, RETURN restores the scope of the
closure of the caller and not the scope of its activation, and `x` is not
bound there. -/
theorem nontail_call_loses_caller_scope (v : Int) :
    ∃ code, compileBody [nonTailProgram v] = .ok code ∧
      (rootClosure code [1, 0]).Apply 9 [] testScopes [] = .error "x is not bound" :=
  ⟨nonTailCode v, compileBody_nonTailProgram v, rfl⟩

/-- With `x` bound in the scope of the root closure, the same program returns
that outer binding, whatever the argument v. -/
theorem nontail_call_reads_outer_binding (v u : Int) :
    (rootClosure (nonTailCode v) [1, 0]).Apply 10 [] [globalEnv, ⟨[("x", .number u)]⟩] [] =
      .ok (.done (.number u)) :=
  rfl

/-! ## Calls and returns (C4, C5) -/

theorem operandCount_integer (n : Nat) : operandCount (.integer n) = .ok n := by
  simp [operandCount]

theorem splitStack_append (st args : List Value) :
    splitStack (st ++ args) args.length = .ok (st, args) := by
  simp [splitStack]

theorem getLast?_snoc {α : Type} (st : List α) (v : α) : (st ++ [v]).getLast? = some v := by
  simp

theorem dropLast_snoc {α : Type} (st : List α) (v : α) : (st ++ [v]).dropLast = st := by
  simp

theorem copyChain_append (k : FrameRef) :
    ∀ (frames frames2 : List Frame) (k2 : FrameRef),
      Frame.copyChain frames k = .ok (frames2, k2) →
      ∃ copies, frames2 = frames ++ copies ∧ copies.length = k.length ∧
        k2 = List.range' frames.length k.length := by
  induction k with
  | nil =>
    intro frames frames2 k2 h
    simp only [Frame.copyChain] at h
    cases h
    exact ⟨[], by simp, rfl, rfl⟩
  | cons s callers ih =>
    intro frames frames2 k2 h
    simp only [Frame.copyChain] at h
    cases hs : frames.get? s with
    | none => rw [hs] at h; cases h
    | some f =>
      rw [hs] at h
      simp only at h
      cases hc : Frame.copyChain (frames ++ [f.copy]) callers with
      | error e => rw [hc] at h; cases h
      | ok r =>
        obtain ⟨fs, ks⟩ := r
        rw [hc] at h
        simp only at h
        cases h
        obtain ⟨copies, h1, h2, h3⟩ := ih _ _ _ hc
        refine ⟨f.copy :: copies, ?_, ?_, ?_⟩
        · rw [h1]; simp
        · simp [h2]
        · rw [h3]; simp [List.range']

theorem copyStack_append (frames frames2 : List Frame) (k k2 : FrameRef)
    (h : Frame.copyStack frames k = .ok (frames2, k2)) :
    ∃ copies, frames2 = frames ++ copies ∧ copies.length = k.length ∧
      k2 = List.range' frames.length k.length := by
  cases k with
  | nil => simp [Frame.copyStack] at h
  | cons s callers => exact copyChain_append _ _ _ _ h

theorem save_length (m : VM) (stack : List Value) (frames1 : List Frame)
    (h : m.save stack = .ok frames1) : frames1.length = m.frames.length ∧ m.mstack ≠ [] := by
  unfold VM.save at h
  split at h
  · cases h
  · rename_i hm
    split at h
    · cases h
    · cases h
      simp [hm]

theorem callClosure_chain (m : VM) (tail : Bool) (c : CompiledClosure) (isCallCC : Bool)
    (stack args : List Value) (nargs : Nat) (m1 : VM)
    (h : m.callClosure tail c isCallCC stack args nargs = .ok (.next m1)) :
    ∃ new, m1.mstack = new :: (if tail then m.mstack.tail else m.mstack) ∧
      m.mstack ≠ [] ∧ m.frames.length ≤ new ∧
      m1.frames.get? new = some ⟨some c, [], [], 0⟩ := by
  unfold VM.callClosure at h
  cases hs : m.save stack with
  | error e => rw [hs] at h; cases h
  | ok frames1 =>
    rw [hs] at h
    simp only at h
    obtain ⟨hlen, hne⟩ := save_length m stack frames1 hs
    cases isCallCC with
    | false =>
      simp only [Bool.false_eq_true, if_false] at h
      split at h
      · cases h
      · cases h
        exact ⟨frames1.length, rfl, hne, by omega, get?_append_base _ _⟩
    | true =>
      simp only [if_true] at h
      cases hc : Frame.copyStack frames1 m.mstack with
      | error e => rw [hc] at h; cases h
      | ok r =>
        obtain ⟨frames2, k⟩ := r
        rw [hc] at h
        simp only at h
        obtain ⟨copies, h1, _, _⟩ := copyStack_append _ _ _ _ hc
        split at h
        · cases h
        · cases h
          refine ⟨frames2.length, rfl, hne, ?_, get?_append_base _ _⟩
          rw [h1, List.length_append]
          omega

/-- C4: RETURN with the value v on top of the operand stack.  Without a
caller the run ends with the result v.  With a caller, the active frame is
dropped and the caller becomes the active frame, with the operand stack and
the pc that its frame holds: the stack with v pushed on it, and the pc plus
one.  What its frame holds is what CALL saved there: the operand stack below
the procedure and its arguments, and the pc of the CALL. -/
theorem return_restores_caller (m : VM) (imm v : Value) (st : List Value)
    (hinst : m.body.get? m.pc = some ⟨opReturn, imm⟩) (hst : m.stack = st ++ [v]) :
    (∀ a, m.mstack = [a] → m.step = .ok (.done v)) ∧
    (∀ a caller callers f c, m.mstack = a :: caller :: callers →
      m.frames.get? caller = some f → f.closure = some c →
      m.step = .ok (.next { m with mstack := caller :: callers, scope := c.scope,
                                   body := c.proc.body, stack := f.stack ++ [v],
                                   pc := f.pc + 1 })) ∧
    (∀ (m0 m1 : VM) (n : Nat) (p : CompiledProcedure) (s : ScopeRef) (st0 args : List Value),
      m0.body.get? m0.pc = some ⟨opCall, .integer n⟩ →
      m0.stack = st0 ++ [.compiledClosure p s] ++ args → args.length = n →
      m0.step = .ok (.next m1) →
      ∃ new caller callers f0, m0.mstack = caller :: callers ∧
        m1.mstack = new :: caller :: callers ∧
        m0.frames.get? caller = some f0 ∧
        m1.frames.get? caller = some { f0 with stack := st0, pc := m0.pc }) := by
  refine ⟨?_, ?_, ?_⟩
  · intro a ha
    simp only [VM.step, hinst, Instruction.code, hst, VM.returnValue, ha,
      getLast?_snoc]
  · intro a caller callers f c ha hf hc
    simp only [VM.step, hinst, Instruction.code, hst, VM.returnValue, ha, hf, hc,
      getLast?_snoc]
  · intro m0 m1 n p s st0 args hi hs hn hstep
    subst hn
    simp only [VM.step, hi, Instruction.code, Instruction.immediate, VM.call,
      operandCount_integer, hs, splitStack_append, getLast?_snoc, dropLast_snoc,
      VM.callClosure, Bool.false_eq_true, if_false] at hstep
    cases hsv : m0.save st0 with
    | error e => rw [hsv] at hstep; cases hstep
    | ok frames1 =>
      rw [hsv] at hstep
      simp only at hstep
      unfold VM.save at hsv
      split at hsv
      · cases hsv
      · rename_i caller callers hm
        split at hsv
        · cases hsv
        · rename_i f0 hf0
          cases hsv
          split at hstep
          · cases hstep
          · cases hstep
            refine ⟨m0.frames.length, caller, callers, f0, hm, ?_, hf0, ?_⟩
            · simp [hm]
            · have hlt : caller < m0.frames.length := by
                by_contra hge
                rw [List.get?_eq_none.mpr (Nat.le_of_not_lt hge)] at hf0
                cases hf0
              rw [get?_append_lt _ _ _ (by simpa using hlt)]
              simp [List.getElem?_set, hlt]

theorem return_restores_caller_witness :
    returnExample.body.get? returnExample.pc = some ⟨opReturn, .null⟩ ∧
    returnExample.stack = [] ++ [.number 5] ∧
    returnExample.step =
      .ok (.next { returnExample with mstack := [0], scope := [], body := [],
                                      stack := [.number 1, .number 5], pc := 5 }) :=
  ⟨rfl, rfl,
    (return_restores_caller returnExample .null (.number 5) [] rfl rfl).2.1 1 0 []
      _ _ rfl rfl rfl⟩

/-- C5: executing CALL n (`tail` false) or TAIL n (`tail` true) whose callee
is a compiled closure activates a newly allocated frame of that closure.
After CALL its caller is the frame that was active, so the chain is one frame
longer; after TAIL its caller is the caller of the frame that was active, so
the chain has the same length. -/
theorem call_extends_chain_tail_keeps_length (m m1 : VM) (tail : Bool) (n : Nat)
    (st args : List Value) (callee : Value) (c : CompiledClosure)
    (hinst : m.body.get? m.pc = some ⟨if tail then opTail else opCall, .integer n⟩)
    (hst : m.stack = st ++ [callee] ++ args) (hn : args.length = n)
    (hc : callee = .compiledClosure c.proc c.scope ∨
      (callee = .callCC ∧ c = ⟨callCCProc, globalScope⟩))
    (hstep : m.step = .ok (.next m1)) :
    ∃ new, m1.mstack = new :: (if tail then m.mstack.tail else m.mstack) ∧
      m.frames.length ≤ new ∧
      m1.frames.get? new = some ⟨some c, [], [], 0⟩ ∧
      m1.mstack.length = (if tail then m.mstack.length else m.mstack.length + 1) := by
  subst hn
  have hcall : m.call tail (.integer args.length) = .ok (.next m1) := by
    cases tail <;>
    simpa only [VM.step, hinst, Instruction.code, Instruction.immediate, Bool.false_eq_true,
      if_false, if_true] using hstep
  have hchain : ∃ new, m1.mstack = new :: (if tail then m.mstack.tail else m.mstack) ∧
      m.mstack ≠ [] ∧ m.frames.length ≤ new ∧
      m1.frames.get? new = some ⟨some c, [], [], 0⟩ := by
    rcases hc with hc | ⟨hc, hcc⟩
    · subst hc
      simp only [VM.call, operandCount_integer, hst, splitStack_append, getLast?_snoc,
        dropLast_snoc] at hcall
      exact callClosure_chain m tail c false st args args.length m1 hcall
    · subst hc hcc
      simp only [VM.call, operandCount_integer, hst, splitStack_append, getLast?_snoc,
        dropLast_snoc] at hcall
      exact callClosure_chain m tail _ true st args args.length m1 hcall
  obtain ⟨new, h1, hne, h2, h3⟩ := hchain
  refine ⟨new, h1, h2, h3, ?_⟩
  rw [h1]
  cases tail with
  | false => simp
  | true =>
    cases hm : m.mstack with
    | nil => exact absurd hm hne
    | cons a rest => simp

theorem call_extends_chain_tail_keeps_length_witness :
    (∃ new, (callExample false).mstack ≠ [] ∧ ∃ m1, (callExample false).step = .ok (.next m1) ∧
      m1.mstack = new :: [1, 0] ∧ m1.mstack.length = 3) ∧
    (∃ new, ∃ m1, (callExample true).step = .ok (.next m1) ∧
      m1.mstack = new :: [0] ∧ m1.mstack.length = 2) := by
  refine ⟨?_, ?_⟩
  · obtain ⟨new, h1, _, _, h4⟩ :=
      call_extends_chain_tail_keeps_length (callExample false) _ false 1 []
        [.number 5] _ ⟨⟨"id", ["y"], false, [⟨opGet, .symbol "y"⟩, ⟨opReturn, .null⟩]⟩, []⟩
        rfl rfl rfl (Or.inl rfl) rfl
    exact ⟨new, by decide, _, rfl, h1, h4⟩
  · obtain ⟨new, h1, _, _, h4⟩ :=
      call_extends_chain_tail_keeps_length (callExample true) _ true 1 []
        [.number 5] _ ⟨⟨"id", ["y"], false, [⟨opGet, .symbol "y"⟩, ⟨opReturn, .null⟩]⟩, []⟩
        rfl rfl rfl (Or.inl rfl) rfl
    exact ⟨new, _, rfl, h1, h4⟩

/-! ## Escaping through a continuation (C6) -/

theorem compileBody_callccProgram (v : Int) (w : Value) (code : List Instruction)
    (h : compileBody [callccProgram v w] = .ok code) :
    ∃ rest, code = callccCode v rest := by
  have hmul := fun cdr tail => compile_application (.symbol "*") cdr tail (by decide)
  have hcc := fun cdr tail => compile_application (.symbol "call/cc") cdr tail (by decide)
  have hc := fun cdr tail => compile_application (.symbol "c") cdr tail (by decide)
  rw [compileBody_cons] at h
  simp only [callccProgram, ToList, List.dropLast, List.getLast, compileSeq_nil,
    compileSeq_cons, compile_number, compile_symbol, compile_lambda_form,
    compileLambda_eq, hmul, hcc, Value.ToVector, makeFormals, makeFormalsLoop, ok_bind,
    List.cons_append, List.nil_append, List.length_cons, List.length_nil,
    List.mem_cons, List.not_mem_nil, List.append_nil, ne_eq,
    not_true_eq_false, not_false_eq_true, if_true, if_false, ite_true, ite_false,
    Bool.false_eq_true, reduceCtorEq] at h
  generalize hb : compileBody
    [(Value.symbol "c").pair ((Value.number v).pair Value.null), w] = cb at h
  cases cb with
  | error e => cases h
  | ok body =>
    simp only [ok_bind, List.cons_append, List.nil_append, List.getLast?, List.getLast,
      Instruction.code, ne_eq, not_true_eq_false, if_false] at h
    cases h
    obtain ⟨_, _, init, fin, j, hinit, _, _, h1, h2⟩ :=
      compileBody_ends_in_tail_or_return _ body (List.cons_ne_nil _ _) hb
    simp only [List.dropLast, compileSeq_cons, compileSeq_nil, hc, compile_symbol,
      compile_number, Value.ToVector, ok_bind, List.cons_append, List.nil_append,
      List.append_nil, Bool.false_eq_true, if_false, List.length_cons, List.length_nil] at hinit
    cases hinit
    by_cases hj : j.code = opTail
    · exact ⟨fin, by rw [h1 hj]; rfl⟩
    · exact ⟨fin ++ [⟨opReturn, .null⟩], by rw [h2 hj]; rfl⟩
set_option maxRecDepth 10000 in
theorem callcc_run (v : Int) (rest : List Instruction) (F0 : List Frame) (S0 : List Scope)
    (r0 : ScopeRef)
    (hr0 : ∀ b ∈ r0, b < S0.length)
    (hmul : Scope.lookup S0 r0 "*" = some (.procedureFunc .NumberMul))
    (hcc : Scope.lookup S0 r0 "call/cc" = some .callCC) :
    ∃ m, (rootClosure (callccCode v rest) r0).enter F0 S0 [] = .ok m ∧
      m.run 12 = .ok (.done (.number (2 * v))) := by
  refine ⟨{ frames := F0 ++ [{ closure := some (rootClosure (callccCode v rest) r0),
                               scope := S0.length :: r0, stack := [], pc := 0 }],
            scopes := S0 ++ [⟨[]⟩], mstack := [F0.length], body := callccCode v rest,
            scope := S0.length :: r0, stack := [], pc := 0 }, ?_, ?_⟩ <;>
  simp only [rootClosure, CompiledClosure.enter, VM.start, callccCode, receiverBody, callCCProc,
    globalScope, VM.run, VM.step, CompiledProcedure.body,
    CompiledProcedure.formals, CompiledProcedure.isVariadic, List.get?, Instruction.code,
    Instruction.immediate, Scope.lookup, get?_append_base, get?_append_offset, envGet,
    lookup_append _ _ _ _ hr0, hmul, hcc,
    String.reduceEq, if_true, if_false, ite_true, ite_false, reduceCtorEq, List.nil_append,
    List.cons_append, List.append_nil, VM.call, operandCount, splitStack, Int.toNat_ofNat,
    List.length_cons, List.length_nil, Nat.reduceAdd, Nat.reduceSub, Nat.reduceLeDiff,
    Int.reduceToNat, Int.reduceLE, Nat.zero_add, List.take, List.drop, List.getLast?,
    List.getLast, List.dropLast, Builtin.Apply, NumberMul, numberFold,
    decide_False, decide_True, Bool.and_true, Bool.true_and, Truthy,
    List.reverse_cons, List.reverse_nil, List.reverse, List.reverseAux, VM.callClosure, VM.save,
    Scope.push, VM.assignFormals, bindFormals, Scope.set, envPut, set_append_base,
    set_append_offset, List.set, List.length_append, List.append_assoc, List.tail,
    Bool.false_eq_true, le_refl, Nat.le_refl, Nat.lt_irrefl, Nat.not_lt_zero, not_lt_zero',
    VM.returnValue, Frame.copyStack, Frame.copyChain, Frame.copy, VM.callContinuation,
    ne_eq, not_true_eq_false, not_false_eq_true]
set_option maxRecDepth 10000 in
set_option maxHeartbeats 1600000 in
theorem callcc_trace (v : Int) (rest : List Instruction) (F0 : List Frame) (S0 : List Scope)
    (r0 : ScopeRef)
    (hr0 : ∀ b ∈ r0, b < S0.length)
    (hmul : Scope.lookup S0 r0 "*" = some (.procedureFunc .NumberMul))
    (hcc : Scope.lookup S0 r0 "call/cc" = some .callCC)
    (m : VM) (hm : (rootClosure (callccCode v rest) r0).enter F0 S0 [] = .ok m)
    (k : Nat) (m1 : VM) (hk : m.run k = .ok (.next m1))
    (hb : m1.body = receiverBody v rest) : m1.pc < 3 := by
  obtain ⟨m0, hm0, hrun⟩ := callcc_run v rest F0 S0 r0 hr0 hmul hcc
  rw [hm] at hm0
  cases hm0
  by_cases hlt : k < 12
  · simp only [rootClosure, CompiledClosure.enter, VM.start, callccCode, receiverBody,
      CompiledProcedure.body, CompiledProcedure.formals, CompiledProcedure.isVariadic,
      Scope.push, VM.assignFormals, bindFormals, List.length_nil, Nat.lt_irrefl, if_false,
      get?_append_base, List.get?, Bool.false_eq_true, Nat.not_lt_zero, not_lt_zero',
      List.nil_append, List.cons_append] at hm
    cases hm
    interval_cases k <;>
    simp only [rootClosure, callccCode, receiverBody, callCCProc,
      globalScope, VM.run, VM.step, CompiledProcedure.body,
      CompiledProcedure.formals, CompiledProcedure.isVariadic, List.get?, Instruction.code,
      Instruction.immediate, Scope.lookup, get?_append_base, get?_append_offset, envGet,
      lookup_append _ _ _ _ hr0, hmul, hcc,
      String.reduceEq, if_true, if_false, ite_true, ite_false, reduceCtorEq, List.nil_append,
      List.cons_append, List.append_nil, VM.call, operandCount, splitStack, Int.toNat_ofNat,
      List.length_cons, List.length_nil, Nat.reduceAdd, Nat.reduceSub, Nat.reduceLeDiff,
      Int.reduceToNat, Int.reduceLE, Nat.zero_add, List.take, List.drop, List.getLast?,
      List.getLast, List.dropLast, Builtin.Apply, NumberMul, numberFold,
      decide_False, decide_True, Bool.and_true, Bool.true_and, Truthy,
      List.reverse_cons, List.reverse_nil, List.reverse, List.reverseAux, VM.callClosure,
      VM.save, Scope.push, VM.assignFormals, bindFormals, Scope.set, envPut, set_append_base,
      set_append_offset, List.set, List.length_append, List.append_assoc, List.tail,
      Bool.false_eq_true, le_refl, Nat.le_refl, Nat.lt_irrefl, Nat.not_lt_zero, not_lt_zero',
      VM.returnValue, Frame.copyStack, Frame.copyChain, Frame.copy, VM.callContinuation,
      ne_eq, not_true_eq_false, not_false_eq_true] at hk <;>
    cases hk <;>
    first
      | (dsimp only; omega)
      | (simp [receiverBody, callccCode, callCCProc, CompiledProcedure.body] at hb)
  · obtain ⟨j, rfl⟩ : ∃ j, k = 12 + j := ⟨k - 12, by omega⟩
    rw [run_add, hrun] at hk
    cases hk
theorem compileBody_callccProgram_number (v u : Int) :
    compileBody [callccProgram v (.number u)] =
      .ok (callccCode v [⟨opQuote, .number u⟩, ⟨opReturn, .null⟩]) := by
  have hmul := fun cdr tail => compile_application (.symbol "*") cdr tail (by decide)
  have hcc := fun cdr tail => compile_application (.symbol "call/cc") cdr tail (by decide)
  have hc := fun cdr tail => compile_application (.symbol "c") cdr tail (by decide)
  simp only [callccProgram, ToList, compileBody_cons, List.dropLast, List.getLast, compileSeq_nil,
    compileSeq_cons, compile_number, compile_symbol, compile_lambda_form,
    compileLambda_eq, hmul, hcc, hc, Value.ToVector, makeFormals, makeFormalsLoop, ok_bind,
    List.cons_append, List.nil_append, List.getLast?, List.length_cons, List.length_nil,
    Instruction.code, List.mem_cons, List.not_mem_nil, List.append_nil, ne_eq,
    not_true_eq_false, not_false_eq_true, if_true, if_false, ite_true, ite_false,
    Bool.false_eq_true, reduceCtorEq]
  rfl

/-- C6: escaping through a continuation.  For every numeric literal v and
every trailing expression w, in a scope that binds `*` to the built-in and
`call/cc` to `callCC`, applying the closure of the code that `compileBody`
produces for `(* 2 (call/cc (lambda (c) (c v) w)))` returns 2*v, and the
machine never reaches the code that follows `(c v)` in the body of the
receiver (there the pc stays below 3). -/
theorem callcc_escape_returns_double (v : Int) (w : Value) (code : List Instruction)
    (F0 : List Frame) (S0 : List Scope) (r0 : ScopeRef)
    (hr0 : ∀ b ∈ r0, b < S0.length)
    (hmul : Scope.lookup S0 r0 "*" = some (.procedureFunc .NumberMul))
    (hcc : Scope.lookup S0 r0 "call/cc" = some .callCC)
    (hcode : compileBody [callccProgram v w] = .ok code) :
    (rootClosure code r0).Apply 12 F0 S0 [] = .ok (.done (.number (2 * v))) ∧
    ∃ rest m, code = callccCode v rest ∧
      (rootClosure code r0).enter F0 S0 [] = .ok m ∧
      ∀ k m1, m.run k = .ok (.next m1) → m1.body = receiverBody v rest → m1.pc < 3 := by
  obtain ⟨rest, hrest⟩ := compileBody_callccProgram v w code hcode
  subst hrest
  obtain ⟨m, hm, hrun⟩ := callcc_run v rest F0 S0 r0 hr0 hmul hcc
  refine ⟨by simp only [CompiledClosure.Apply, hm, hrun], rest, m, rfl, hm, ?_⟩
  intro k m1 hk hb
  exact callcc_trace v rest F0 S0 r0 hr0 hmul hcc m hm k m1 hk hb

theorem callcc_escape_returns_double_witness :
    (rootClosure (callccCode 33 [⟨opQuote, .number 21⟩, ⟨opReturn, .null⟩]) [1, 0]).Apply 12
      [] testScopes [] = .ok (.done (.number 66)) :=
  (callcc_escape_returns_double 33 (.number 21) _ [] testScopes [1, 0] (by decide) rfl rfl
    (compileBody_callccProgram_number 33 21)).1

/-! ## Invoking a continuation (C7) -/

/-! ## Continuations (C7) -/

theorem Frame.copy_eq (f : Frame) : f.copy = f := rfl

theorem range'_map_get?_append {α : Type} (c : List α) :
    ∀ l : List α, (List.range' l.length c.length).map (l ++ c).get? = c.map some := by
  induction c with
  | nil => intro l; rfl
  | cons x c ih =>
    intro l
    have h := ih (l ++ [x])
    simp only [List.length_append, List.length_singleton, List.append_assoc,
      List.singleton_append] at h
    simp only [List.length_cons, List.range', List.map_cons, get?_append_base, List.get?, h]

theorem copyChain_contents (k : FrameRef) :
    ∀ (frames frames2 : List Frame) (k2 : FrameRef),
      Frame.copyChain frames k = .ok (frames2, k2) →
      (∀ a ∈ k, a < frames.length) →
      ∃ copies, frames2 = frames ++ copies ∧ copies.map some = k.map frames.get? ∧
        k2 = List.range' frames.length k.length := by
  induction k with
  | nil =>
    intro frames frames2 k2 h _
    simp only [Frame.copyChain] at h
    cases h
    exact ⟨[], by simp, rfl, rfl⟩
  | cons s callers ih =>
    intro frames frames2 k2 h hv
    simp only [Frame.copyChain] at h
    cases hs : frames.get? s with
    | none => rw [hs] at h; cases h
    | some f =>
      rw [hs] at h
      simp only at h
      cases hc : Frame.copyChain (frames ++ [f.copy]) callers with
      | error e => rw [hc] at h; cases h
      | ok r =>
        obtain ⟨fs, ks⟩ := r
        rw [hc] at h
        simp only at h
        cases h
        have hv' : ∀ a ∈ callers, a < (frames ++ [f.copy]).length := by
          intro a ha
          have := hv a (List.mem_cons_of_mem s ha)
          simp only [List.length_append, List.length_singleton]
          omega
        obtain ⟨copies, h1, h2, h3⟩ := ih _ _ _ hc hv'
        refine ⟨f.copy :: copies, ?_, ?_, ?_⟩
        · rw [h1]; simp
        · rw [List.map_cons, List.map_cons, h2, hs, Frame.copy_eq]
          congr 1
          apply List.map_congr_left
          intro a ha
          exact get?_append_lt _ _ _ (hv a (List.mem_cons_of_mem s ha))
        · rw [h3]; simp [List.range']

theorem copyStack_contents (frames frames2 : List Frame) (k k2 : FrameRef)
    (h : Frame.copyStack frames k = .ok (frames2, k2))
    (hv : ∀ a ∈ k, a < frames.length) :
    ∃ copies, frames2 = frames ++ copies ∧ copies.map some = k.map frames.get? ∧
      k2 = List.range' frames.length k.length ∧ k ≠ [] := by
  cases k with
  | nil => simp [Frame.copyStack] at h
  | cons s callers =>
    obtain ⟨copies, h1, h2, h3⟩ := copyChain_contents _ _ _ _ h hv
    exact ⟨copies, h1, h2, h3, List.cons_ne_nil _ _⟩

theorem copyStack_chain (frames frames2 : List Frame) (k k2 : FrameRef)
    (h : Frame.copyStack frames k = .ok (frames2, k2))
    (hv : ∀ a ∈ k, a < frames.length) :
    k2.map frames2.get? = k.map frames.get? ∧
      (∀ a, a < frames.length → frames2.get? a = frames.get? a) ∧
      (∀ b ∈ k2, frames.length ≤ b) ∧ (∀ b ∈ k2, b < frames2.length) ∧
      frames.length ≤ frames2.length ∧
      k2.head? = (if k = [] then none else some frames.length) := by
  obtain ⟨copies, h1, h2, h3, hne⟩ := copyStack_contents _ _ _ _ h hv
  have hlen : copies.length = k.length := by
    have := congrArg List.length h2
    simpa using this
  subst h1 h3
  refine ⟨?_, ?_, ?_, ?_, ?_, ?_⟩
  · rw [← hlen, range'_map_get?_append, h2]
  · intro a ha; exact get?_append_lt _ _ _ ha
  · intro b hb
    rw [List.mem_range'] at hb
    omega
  · intro b hb
    rw [List.mem_range'] at hb
    rw [List.length_append, hlen]
    omega
  · simp
  · cases k with
    | nil => exact absurd rfl hne
    | cons s callers => simp [List.range']
theorem callContinuation_spec (m m1 : VM) (k : FrameRef) (arity : Nat) (args : List Value)
    (hk : ∀ a ∈ k, a < m.frames.length)
    (h : m.callContinuation k arity args = .ok (.next m1)) :
    m1.chain = k.map m.frames.get? ∧
    (∀ a, a < m.frames.length → m1.frames.get? a = m.frames.get? a) ∧
    (∀ b ∈ m1.mstack, m.frames.length ≤ b ∧ b < m1.frames.length) ∧
    m.frames.length ≤ m1.frames.length ∧
    ∃ s callers f c, k = s :: callers ∧ m.frames.get? s = some f ∧ f.closure = some c ∧
      m1.body = c.proc.body ∧ m1.scope = f.scope ∧ m1.stack = f.stack ++ args ∧
      m1.pc = f.pc + 1 := by
  unfold VM.callContinuation at h
  split at h
  · cases h
  · cases hc : Frame.copyStack m.frames k with
    | error e => rw [hc] at h; cases h
    | ok r =>
      obtain ⟨frames1, top⟩ := r
      rw [hc] at h
      simp only at h
      obtain ⟨h1, h2, h3, h4, h5, h6⟩ := copyStack_chain _ _ _ _ hc hk
      cases top with
      | nil => cases h
      | cons a rest =>
        simp only at h
        cases hf : frames1.get? a with
        | none => rw [hf] at h; cases h
        | some f =>
          rw [hf] at h
          simp only at h
          cases hcl : f.closure with
          | none => rw [hcl] at h; cases h
          | some c =>
            rw [hcl] at h
            simp only at h
            cases h
            cases k with
            | nil => simp at h6
            | cons s callers =>
              refine ⟨h1, h2, fun b hb => ⟨h3 b hb, h4 b hb⟩, h5, s, callers, f, c, rfl, ?_,
                hcl, rfl, rfl, rfl, rfl⟩
              have := h1
              simp only [List.map_cons, List.cons.injEq] at this
              rw [← this.1, hf]
/-- What one turn of the loop can do to the heap of frames and to the chain:
frames are only added, no frame but the active one is written, and the frames
of the new chain are frames of the old chain or new frames. -/
def StepEffect (m m1 : VM) : Prop :=
  m.frames.length ≤ m1.frames.length ∧
  (∀ a, a < m.frames.length → m.mstack.head? ≠ some a → m1.frames.get? a = m.frames.get? a) ∧
  (∀ b ∈ m1.mstack, b ∈ m.mstack ∨ m.frames.length ≤ b)

theorem stepEffect_same (m m1 : VM) (hf : m1.frames = m.frames) (hm : m1.mstack = m.mstack) :
    StepEffect m m1 := by
  refine ⟨by rw [hf], fun a _ _ => by rw [hf], fun b hb => Or.inl (by rw [← hm]; exact hb)⟩

theorem returnValue_effect (m m1 : VM) (v : Value)
    (h : m.returnValue v = .ok (.next m1)) : StepEffect m m1 := by
  unfold VM.returnValue at h
  split at h
  · cases h
  · cases h
  · rename_i a caller callers hm
    split at h
    · cases h
    · split at h
      · cases h
      · cases h
        refine ⟨Nat.le_refl _, fun a _ _ => rfl, fun b hb => Or.inl ?_⟩
        rw [hm]
        exact List.mem_cons_of_mem _ hb

theorem save_effect (m : VM) (stack : List Value) (frames1 : List Frame)
    (h : m.save stack = .ok frames1) :
    frames1.length = m.frames.length ∧
      ∀ a, m.mstack.head? ≠ some a → frames1.get? a = m.frames.get? a := by
  unfold VM.save at h
  split at h
  · cases h
  · rename_i s callers hm
    split at h
    · cases h
    · cases h
      refine ⟨by simp, fun a ha => ?_⟩
      have hne : s ≠ a := by
        intro hsa
        apply ha
        rw [hm, hsa]
        rfl
      simp [List.getElem?_set, hne]

theorem callClosure_effect (m : VM) (tail : Bool) (c : CompiledClosure) (isCallCC : Bool)
    (stack args : List Value) (nargs : Nat) (m1 : VM)
    (h : m.callClosure tail c isCallCC stack args nargs = .ok (.next m1)) :
    StepEffect m m1 := by
  obtain ⟨new, h1, _, h3, _⟩ := callClosure_chain m tail c isCallCC stack args nargs m1 h
  have hmem : ∀ b ∈ m1.mstack, b ∈ m.mstack ∨ m.frames.length ≤ b := by
    intro b hb
    rw [h1] at hb
    rcases List.mem_cons.mp hb with hb | hb
    · exact Or.inr (by rw [hb]; exact h3)
    · left
      cases tail with
      | false => simpa using hb
      | true => exact List.mem_of_mem_tail (by simpa using hb)
  unfold VM.callClosure at h
  cases hs : m.save stack with
  | error e => rw [hs] at h; cases h
  | ok frames1 =>
    rw [hs] at h
    simp only at h
    obtain ⟨hlen, hsame⟩ := save_effect m stack frames1 hs
    cases isCallCC with
    | false =>
      simp only [Bool.false_eq_true, if_false] at h
      split at h
      · cases h
      · cases h
        refine ⟨by simp [hlen], fun a ha hne => ?_, hmem⟩
        rw [get?_append_lt _ _ _ (by rw [hlen]; exact ha)]
        exact hsame a hne
    | true =>
      simp only [if_true] at h
      cases hc : Frame.copyStack frames1 m.mstack with
      | error e => rw [hc] at h; cases h
      | ok r =>
        obtain ⟨frames2, k⟩ := r
        rw [hc] at h
        simp only at h
        obtain ⟨copies, hc1, _, _⟩ := copyStack_append _ _ _ _ hc
        split at h
        · cases h
        · cases h
          subst hc1
          refine ⟨by simp only [List.length_append, hlen, List.length_cons, List.length_nil]; omega, fun a ha hne => ?_, hmem⟩
          rw [List.append_assoc, get?_append_lt _ _ _ (by rw [hlen]; exact ha)]
          exact hsame a hne

theorem callContinuation_effect (m m1 : VM) (k : FrameRef) (arity : Nat) (args : List Value)
    (h : m.callContinuation k arity args = .ok (.next m1)) : StepEffect m m1 := by
  unfold VM.callContinuation at h
  split at h
  · cases h
  · cases hc : Frame.copyStack m.frames k with
    | error e => rw [hc] at h; cases h
    | ok r =>
      obtain ⟨frames1, top⟩ := r
      rw [hc] at h
      simp only at h
      obtain ⟨copies, h1, _, h3⟩ := copyStack_append _ _ _ _ hc
      split at h
      · cases h
      · split at h
        · cases h
        · split at h
          · cases h
          · cases h
            subst h1
            refine ⟨by simp, fun a ha _ => get?_append_lt _ _ _ ha, fun b hb => Or.inr ?_⟩
            simp only at hb
            rw [h3, List.mem_range'] at hb
            omega

theorem call_effect (m m1 : VM) (tail : Bool) (immediate : Value)
    (h : m.call tail immediate = .ok (.next m1)) : StepEffect m m1 := by
  unfold VM.call at h
  split at h
  · cases h
  · split at h
    · cases h
    · split at h
      · cases h
      · simp only at h
        split at h
        · exact callClosure_effect _ _ _ _ _ _ _ _ h
        · exact callClosure_effect _ _ _ _ _ _ _ _ h
        · exact callContinuation_effect _ _ _ _ _ h
        · split at h
          · cases h
          · split at h
            · exact returnValue_effect _ _ _ h
            · cases h
              exact stepEffect_same _ _ rfl rfl
        · cases h

theorem step_effect (m m1 : VM) (h : m.step = .ok (.next m1)) : StepEffect m m1 := by
  unfold VM.step at h
  split at h
  · cases h
  · split at h
    · cases h; exact stepEffect_same _ _ rfl rfl
    · split at h
      · split at h
        · cases h
        · cases h; exact stepEffect_same _ _ rfl rfl
      · cases h
    · split at h
      · cases h; exact stepEffect_same _ _ rfl rfl
      · cases h
    · split at h
      · cases h
      · split at h
        · cases h
        · cases h; exact stepEffect_same _ _ rfl rfl
    · split at h
      · cases h
      · split at h
        · cases h
        · split at h
          · cases h
          · cases h; exact stepEffect_same _ _ rfl rfl
    · split at h
      · cases h; exact stepEffect_same _ _ rfl rfl
      · cases h
    · split at h
      · cases h; exact stepEffect_same _ _ rfl rfl
      · cases h
    · split at h
      · split at h
        · cases h
        · split at h
          · cases h
          · cases h; exact stepEffect_same _ _ rfl rfl
      · cases h
    · split at h
      · split at h
        · cases h
        · split at h
          · cases h
          · cases h; exact stepEffect_same _ _ rfl rfl
      · cases h
    · exact call_effect _ _ _ _ h
    · exact call_effect _ _ _ _ h
    · split at h
      · cases h
      · exact returnValue_effect _ _ _ h
theorem copyChain_ok (k : FrameRef) :
    ∀ frames : List Frame, (∀ a ∈ k, a < frames.length) →
      ∃ r, Frame.copyChain frames k = .ok r := by
  induction k with
  | nil => intro frames _; exact ⟨_, rfl⟩
  | cons s callers ih =>
    intro frames hv
    have hs : s < frames.length := hv s (List.mem_cons_self _ _)
    obtain ⟨f, hf⟩ : ∃ f, frames.get? s = some f :=
      ⟨frames.get ⟨s, hs⟩, List.get?_eq_get hs⟩
    obtain ⟨r, hr⟩ := ih (frames ++ [f.copy]) (fun a ha => by
      have := hv a (List.mem_cons_of_mem _ ha)
      simp only [List.length_append, List.length_singleton]
      omega)
    obtain ⟨frames2, copies⟩ := r
    exact ⟨(frames2, frames.length :: copies), by simp only [Frame.copyChain, hf, hr]⟩

theorem callContinuation_ok (m : VM) (k : FrameRef) (arity : Nat) (args : List Value)
    (hk : ∀ a ∈ k, a < m.frames.length)
    (htop : ∃ s callers f c, k = s :: callers ∧ m.frames.get? s = some f ∧ f.closure = some c)
    (hn : args.length = arity) :
    ∃ m1, m.callContinuation k arity args = .ok (.next m1) := by
  obtain ⟨s, callers, f, c, rfl, hf, hcl⟩ := htop
  obtain ⟨r, hr⟩ := copyChain_ok _ m.frames hk
  obtain ⟨frames1, top⟩ := r
  have hc : Frame.copyStack m.frames (s :: callers) = .ok (frames1, top) := hr
  obtain ⟨copies, h1, h2, h3, _⟩ := copyStack_contents _ _ _ _ hc hk
  cases copies with
  | nil => simp at h2
  | cons f1 cs =>
    simp only [List.map_cons, List.cons.injEq, hf, Option.some.injEq] at h2
    obtain ⟨hf1, _⟩ := h2
    subst hf1 h1 h3
    simp only [VM.callContinuation, hn, ne_eq, not_true_eq_false, if_false, hc,
      List.length_cons, List.range', get?_append_base, List.get?, hcl]
    exact ⟨_, rfl⟩

theorem run_keeps_frames (k : FrameRef) :
    ∀ (fuel : Nat) (m m2 : VM),
      (∀ a ∈ k, a < m.frames.length ∧ a ∉ m.mstack) →
      m.run fuel = .ok (.next m2) →
      (∀ a ∈ k, a < m2.frames.length ∧ a ∉ m2.mstack) ∧
        ∀ a ∈ k, m2.frames.get? a = m.frames.get? a := by
  intro fuel
  induction fuel with
  | zero =>
    intro m m2 hk h
    simp only [VM.run] at h
    cases h
    exact ⟨hk, fun _ _ => rfl⟩
  | succ fuel ih =>
    intro m m2 hk h
    rw [VM.run] at h
    cases hs : m.step with
    | error e => rw [hs] at h; cases h
    | ok o =>
      rw [hs] at h
      cases o with
      | done v => cases h
      | next m1 =>
        simp only at h
        obtain ⟨e1, e2, e3⟩ := step_effect m m1 hs
        have hk1 : ∀ a ∈ k, a < m1.frames.length ∧ a ∉ m1.mstack := by
          intro a ha
          obtain ⟨h1, h2⟩ := hk a ha
          refine ⟨Nat.lt_of_lt_of_le h1 e1, fun hmem => ?_⟩
          rcases e3 a hmem with h3 | h3
          · exact h2 h3
          · omega
        obtain ⟨r1, r2⟩ := ih m1 m2 hk1 h
        refine ⟨r1, fun a ha => ?_⟩
        rw [r2 a ha]
        obtain ⟨h1, h2⟩ := hk a ha
        refine e2 a h1 (fun hh => h2 ?_)
        exact List.mem_of_mem_head? hh

theorem step_continuation (m : VM) (tail : Bool) (st args : List Value) (k : FrameRef)
    (arity : Nat)
    (hinst : m.body.get? m.pc = some ⟨if tail then opTail else opCall, .integer arity⟩)
    (hst : m.stack = st ++ [.continuation k arity] ++ args) (hn : args.length = arity) :
    m.step = m.callContinuation k arity args := by
  subst hn
  cases tail <;>
  simp only [VM.step, hinst, Instruction.code, Instruction.immediate, Bool.false_eq_true,
    if_false, if_true, VM.call, operandCount_integer, hst, splitStack_append, getLast?_snoc,
    dropLast_snoc]

theorem enter_spec (frames : List Frame) (scopes : List Scope) (k : FrameRef) (arity : Nat)
    (arg : Value) (rest : List Value) (s : Nat) (callers : FrameRef) (f : Frame)
    (c : CompiledClosure)
    (hk : ∀ a ∈ k, a < frames.length)
    (hs : k = s :: callers) (hf : frames.get? s = some f) (hcl : f.closure = some c)
    (hn : (arg :: rest).length = arity) :
    ∃ m4, Continuation.enter frames scopes k arity (arg :: rest) = .ok m4 ∧
      m4.chain = some (f.push arg) :: callers.map frames.get? ∧
      (∀ a, a < frames.length → m4.frames.get? a = frames.get? a) ∧
      (∀ b ∈ m4.mstack, frames.length ≤ b) ∧
      frames.length ≤ m4.frames.length ∧
      m4.scopes = scopes ∧
      m4.body = c.proc.body ∧ m4.scope = f.scope ∧ m4.stack = [] ∧ m4.pc = 0 := by
  subst hs
  obtain ⟨r, hr⟩ := copyChain_ok _ frames hk
  obtain ⟨frames1, top⟩ := r
  have hc : Frame.copyStack frames (s :: callers) = .ok (frames1, top) := hr
  obtain ⟨copies, h1, h2, h3, _⟩ := copyStack_contents _ _ _ _ hc hk
  cases copies with
  | nil => simp at h2
  | cons f1 cs =>
    simp only [List.map_cons, List.cons.injEq, hf, Option.some.injEq] at h2
    obtain ⟨hf1, hcs⟩ := h2
    subst hf1 h1 h3
    have hlen : cs.length = callers.length := by
      have := congrArg List.length hcs
      simpa using this
    refine ⟨{ frames := frames ++ f1.push arg :: cs, scopes := scopes,
              mstack := List.range' frames.length (callers.length + 1),
              body := c.proc.body, scope := f1.scope, stack := [], pc := 0 }, ?_, ?_, ?_, ?_,
            ?_, rfl, rfl, rfl, rfl, rfl⟩
    · simp only [Continuation.enter, hn, ne_eq, not_true_eq_false, if_false, hc,
        List.length_cons, List.range', get?_append_base, List.get?, set_append_base, List.set,
        VM.start, hcl, Frame.push]
    · have := range'_map_get?_append (f1.push arg :: cs) frames
      simp only [List.length_cons, hlen] at this
      simp only [VM.chain, this, List.map_cons, hcs]
    · intro a ha
      exact get?_append_lt _ _ _ ha
    · intro b hb
      simp only [List.mem_range'] at hb
      omega
    · simp
theorem invoke_spec (m : VM) (tail : Bool) (st args : List Value) (k : FrameRef)
    (arity : Nat) (s : Nat) (callers : FrameRef) (f : Frame) (c : CompiledClosure)
    (hk : ∀ a ∈ k, a < m.frames.length)
    (hs : k = s :: callers) (hf : m.frames.get? s = some f) (hcl : f.closure = some c)
    (hinst : m.body.get? m.pc = some ⟨if tail then opTail else opCall, .integer arity⟩)
    (hst : m.stack = st ++ [.continuation k arity] ++ args) (hn : args.length = arity) :
    ∃ m1, m.step = .ok (.next m1) ∧
      m1.chain = k.map m.frames.get? ∧
      (∀ b ∈ m1.mstack, m.frames.length ≤ b) ∧
      (m1.body = c.proc.body ∧ m1.scope = f.scope ∧ m1.stack = f.stack ++ args ∧
        m1.pc = f.pc + 1) ∧
      (∀ a ∈ k, a < m1.frames.length ∧ a ∉ m1.mstack) ∧
      ∀ a ∈ k, m1.frames.get? a = m.frames.get? a := by
  obtain ⟨m1, h1⟩ := callContinuation_ok m k arity args hk ⟨s, callers, f, c, hs, hf, hcl⟩ hn
  obtain ⟨e1, e2, e3, e4, s1, callers1, f1, c1, g1, g2, g3, g4, g5, g6, g7⟩ :=
    callContinuation_spec m m1 k arity args hk h1
  rw [hs] at g1
  cases g1
  rw [hf] at g2
  cases g2
  rw [hcl] at g3
  cases g3
  refine ⟨m1, by rw [step_continuation m tail st args k arity hinst hst hn, h1], e1,
    fun b hb => (e3 b hb).1, ⟨g4, g5, g6, g7⟩, fun a ha => ⟨?_, fun hmem => ?_⟩,
    fun a ha => e2 a (hk a ha)⟩
  · exact Nat.lt_of_lt_of_le (hk a ha) e4
  · have := (e3 a hmem).1
    have := hk a ha
    omega

/-- C7: invoking the continuation `k`, by CALL (`tail` false), by TAIL (`tail`
true) or by `continuation.Apply`, runs on new frames: CALL and TAIL go on in
a chain of new frames that has the length of the captured chain and, frame by
frame, the closure, scope, pc and operand stack of the captured frames (in
`Apply` the argument is appended to the operand stack of the copy of the
top frame), and no state that the run reaches afterwards has changed a
captured frame.  So an invocation with the same arguments in such a later
state starts with the same chain and the same `body`, `scope`, `stack` and
`pc`. -/
theorem continuation_invocation_preserves_capture (m : VM) (tail : Bool)
    (st : List Value) (arg : Value) (rest : List Value) (k : FrameRef) (arity : Nat)
    (s : Nat) (callers : FrameRef) (f : Frame) (c : CompiledClosure)
    (hk : ∀ a ∈ k, a < m.frames.length)
    (hs : k = s :: callers) (hf : m.frames.get? s = some f) (hcl : f.closure = some c)
    (hinst : m.body.get? m.pc = some ⟨if tail then opTail else opCall, .integer arity⟩)
    (hst : m.stack = st ++ [.continuation k arity] ++ arg :: rest)
    (hn : (arg :: rest).length = arity) :
    (∃ m1, m.step = .ok (.next m1) ∧
      m1.chain = k.map m.frames.get? ∧ m1.mstack.length = k.length ∧
      (∀ b ∈ m1.mstack, m.frames.length ≤ b) ∧
      m1.body = c.proc.body ∧ m1.scope = f.scope ∧ m1.stack = f.stack ++ arg :: rest ∧
      m1.pc = f.pc + 1 ∧
      ∀ fuel m2, m1.run fuel = .ok (.next m2) →
        (∀ a ∈ k, m2.frames.get? a = m.frames.get? a) ∧
        ∀ (tail2 : Bool) (st2 : List Value),
          m2.body.get? m2.pc = some ⟨if tail2 then opTail else opCall, .integer arity⟩ →
          m2.stack = st2 ++ [.continuation k arity] ++ arg :: rest →
          ∃ m3, m2.step = .ok (.next m3) ∧ m3.chain = m1.chain ∧ m3.body = m1.body ∧
            m3.scope = m1.scope ∧ m3.stack = m1.stack ∧ m3.pc = m1.pc) ∧
    (∃ m4, Continuation.enter m.frames m.scopes k arity (arg :: rest) = .ok m4 ∧
      m4.chain = some (f.push arg) :: callers.map m.frames.get? ∧
      m4.mstack.length = k.length ∧
      (∀ b ∈ m4.mstack, m.frames.length ≤ b) ∧
      m4.body = c.proc.body ∧ m4.scope = f.scope ∧ m4.stack = [] ∧ m4.pc = 0 ∧
      ∀ fuel m5, m4.run fuel = .ok (.next m5) →
        (∀ a ∈ k, m5.frames.get? a = m.frames.get? a) ∧
        ∃ m6, Continuation.enter m5.frames m5.scopes k arity (arg :: rest) = .ok m6 ∧
          m6.chain = m4.chain ∧ m6.body = m4.body ∧ m6.scope = m4.scope ∧
          m6.stack = m4.stack ∧ m6.pc = m4.pc) := by
  have hmap : ∀ (F G : List Frame), (∀ a ∈ k, G.get? a = F.get? a) →
      k.map G.get? = k.map F.get? := fun F G h => List.map_congr_left h
  have hlen : ∀ (m1 : VM) (l : List (Option Frame)), m1.chain = l →
      m1.mstack.length = l.length := by
    intro m1 l h
    have := congrArg List.length h
    simpa [VM.chain] using this
  constructor
  · obtain ⟨m1, h1, h2, h3, ⟨g1, g2, g3, g4⟩, h5, h6⟩ :=
      invoke_spec m tail st (arg :: rest) k arity s callers f c hk hs hf hcl hinst hst hn
    refine ⟨m1, h1, h2, by rw [hlen m1 _ h2, List.length_map], h3, g1, g2, g3, g4, ?_⟩
    intro fuel m2 hrun
    obtain ⟨r1, r2⟩ := run_keeps_frames k fuel m1 m2 h5 hrun
    have hsame : ∀ a ∈ k, m2.frames.get? a = m.frames.get? a := fun a ha => by
      rw [r2 a ha, h6 a ha]
    refine ⟨hsame, fun tail2 st2 hinst2 hst2 => ?_⟩
    have hs2 : s ∈ k := by rw [hs]; exact List.mem_cons_self _ _
    obtain ⟨m3, i1, i2, _, ⟨j1, j2, j3, j4⟩, _, _⟩ :=
      invoke_spec m2 tail2 st2 (arg :: rest) k arity s callers f c (fun a ha => (r1 a ha).1) hs
        (by rw [hsame s hs2, hf]) hcl hinst2 hst2 hn
    exact ⟨m3, i1, by rw [i2, h2, hmap _ _ hsame], by rw [j1, g1], by rw [j2, g2],
      by rw [j3, g3], by rw [j4, g4]⟩
  · obtain ⟨m4, h1, h2, h3, h4, h5, _, g1, g2, g3, g4⟩ :=
      enter_spec m.frames m.scopes k arity arg rest s callers f c hk hs hf hcl hn
    have hk4 : ∀ a ∈ k, a < m4.frames.length ∧ a ∉ m4.mstack := fun a ha =>
      ⟨Nat.lt_of_lt_of_le (hk a ha) h5, fun hmem => by
        have := h4 a hmem
        have := hk a ha
        omega⟩
    refine ⟨m4, h1, h2, ?_, h4, g1, g2, g3, g4, ?_⟩
    · rw [hlen m4 _ h2, hs]
      simp
    intro fuel m5 hrun
    obtain ⟨r1, r2⟩ := run_keeps_frames k fuel m4 m5 hk4 hrun
    have hsame : ∀ a ∈ k, m5.frames.get? a = m.frames.get? a := fun a ha => by
      rw [r2 a ha, h3 a (hk a ha)]
    refine ⟨hsame, ?_⟩
    have hs2 : s ∈ k := by rw [hs]; exact List.mem_cons_self _ _
    obtain ⟨m6, i1, i2, _, _, _, _, j1, j2, j3, j4⟩ :=
      enter_spec m5.frames m5.scopes k arity arg rest s callers f c (fun a ha => (r1 a ha).1) hs
        (by rw [hsame s hs2, hf]) hcl hn
    refine ⟨m6, i1, ?_, by rw [j1, g1], by rw [j2, g2], by rw [j3, g3], by rw [j4, g4]⟩
    rw [i2, h2]
    have hc : ∀ a ∈ callers, m5.frames.get? a = m.frames.get? a := fun a ha =>
      hsame a (by rw [hs]; exact List.mem_cons_of_mem _ ha)
    rw [List.map_congr_left hc]

theorem continuation_invocation_preserves_capture_witness :
    (∃ m1, (continuationExample true).step = .ok (.next m1) ∧
      m1.chain = [some ⟨some resumeClosure, [0], [.number 2], 1⟩,
                  some ⟨none, [], [.number 7], 4⟩] ∧
      m1.stack = [.number 2, .number 5] ∧ m1.pc = 2 ∧
      ∀ fuel m2, m1.run fuel = .ok (.next m2) →
        m2.frames.get? 1 = some ⟨some resumeClosure, [0], [.number 2], 1⟩ ∧
        m2.frames.get? 2 = some ⟨none, [], [.number 7], 4⟩) ∧
    (∃ m4, Continuation.enter (continuationExample true).frames [⟨[]⟩] [1, 2] 1 [.number 5] =
        .ok m4 ∧
      m4.chain = [some ⟨some resumeClosure, [0], [.number 2, .number 5], 1⟩,
                  some ⟨none, [], [.number 7], 4⟩] ∧
      m4.stack = [] ∧ m4.pc = 0) := by
  obtain ⟨⟨m1, h1, h2, _, _, _, _, h7, h8, h9⟩, ⟨m4, i1, i2, _, _, _, _, i7, i8, _⟩⟩ :=
    continuation_invocation_preserves_capture (continuationExample true) true []
      (.number 5) [] [1, 2] 1 1 [2] ⟨some resumeClosure, [0], [.number 2], 1⟩ resumeClosure
      (by decide) rfl rfl rfl rfl rfl rfl
  exact ⟨⟨m1, h1, h2, h7, h8, fun fuel m2 hrun =>
      ⟨((h9 fuel m2 hrun).1 1 (by decide)), ((h9 fuel m2 hrun).1 2 (by decide))⟩⟩,
    ⟨m4, i1, i2, i7, i8⟩⟩

/-! # Syntax rules: claims C11 to C20 -/

/-! ## Truth values (C11) -/

/-- C11: `Truthy v` is false exactly when `v` is the Boolean false; it is true
of every other value, among them Null, the number 0 and the empty string. -/
theorem truthy_false_iff_boolean_false :
    (∀ v : Value, Truthy v = false ↔ v = .boolean false) ∧
    (∀ v : Value, v ≠ .boolean false → Truthy v = true) ∧
    Truthy .null = true ∧ Truthy (.number 0) = true ∧ Truthy (.string "") = true := by
  have h : ∀ v : Value, Truthy v = false ↔ v = .boolean false := by
    intro v
    cases v <;> simp [Truthy]
  refine ⟨h, fun v hv => ?_, rfl, rfl, rfl⟩
  cases ht : Truthy v with
  | true => rfl
  | false => exact absurd ((h v).1 ht) hv

/-! ## The loop over the rules (C19) -/

theorem loop_append_of_none (try_ : SyntaxRule → Except String (Option Value))
    (before rest : List SyntaxRule) (h : ∀ q ∈ before, try_ q = .ok none) :
    SyntaxRules.loop try_ (before ++ rest) = SyntaxRules.loop try_ rest := by
  induction before with
  | nil => rfl
  | cons q before ih =>
    rw [List.cons_append, SyntaxRules.loop, h q (List.mem_cons_self _ _)]
    exact ih (fun q hq => h q (List.mem_cons_of_mem _ hq))

theorem loop_eq_none_iff (try_ : SyntaxRule → Except String (Option Value))
    (rules : List SyntaxRule) :
    SyntaxRules.loop try_ rules = .ok none ↔ ∀ q ∈ rules, try_ q = .ok none := by
  induction rules with
  | nil => simp [SyntaxRules.loop]
  | cons q rules ih =>
    rw [SyntaxRules.loop]
    cases hq : try_ q with
    | error e => simp [hq]
    | ok o =>
      cases o with
      | some v => simp [hq]
      | none => simpa [hq] using ih

/-- C19: `syntaxRules.match` returns what the first rule, in the order of the
declaration, whose pattern matches the form returns: when the rules before the
rule `r` return false and `r` returns the expansion `v`, the ruleset returns
`v`, as the ruleset of `r` alone does, whatever the rules before `r` bound
while they were tried; and the ruleset returns false if and only if every rule
returns false. -/
theorem first_matching_rule_wins (scopes : List Scope) (keywords : List KeywordTable)
    (fuel : Nat) (literals : List (Symbol × ScopeRef)) (ruleScope formScope : ScopeRef)
    (form v : Value) (before after : List SyntaxRule) (r : SyntaxRule)
    (hbefore : ∀ q ∈ before,
      SyntaxMatcher.match_ scopes keywords ⟨literals, ruleScope, formScope, q⟩ fuel form =
        .ok none)
    (hr : SyntaxMatcher.match_ scopes keywords ⟨literals, ruleScope, formScope, r⟩ fuel form =
        .ok (some v)) :
    SyntaxRules.match_ scopes keywords fuel ⟨ruleScope, literals, before ++ r :: after⟩ form
        formScope = .ok (some v) ∧
    SyntaxRules.match_ scopes keywords fuel ⟨ruleScope, literals, [r]⟩ form formScope =
        .ok (some v) ∧
    ∀ rules, SyntaxRules.match_ scopes keywords fuel ⟨ruleScope, literals, rules⟩ form
        formScope = .ok none ↔
      ∀ q ∈ rules,
        SyntaxMatcher.match_ scopes keywords ⟨literals, ruleScope, formScope, q⟩ fuel form =
          .ok none := by
  refine ⟨?_, ?_, fun rules => ?_⟩
  · simp only [SyntaxRules.match_]
    rw [loop_append_of_none _ _ _ hbefore, SyntaxRules.loop, hr]
  · simp only [SyntaxRules.match_, SyntaxRules.loop, hr]
  · simp only [SyntaxRules.match_]
    exact loop_eq_none_iff _ _

theorem first_matching_rule_wins_witness :
    SyntaxRules.match_ syntaxScopes [none, some [("and", andRules syntaxScope)]] 30
        (andRules syntaxScope) (ToList [.symbol "and", .boolean true]) globalScope =
      .ok (some (.boolean true)) ∧
    SyntaxMatcher.match_ syntaxScopes [none, some [("and", andRules syntaxScope)]]
        ⟨[], syntaxScope, globalScope,
         ⟨ToList [.symbol "and", .symbol "test1", .symbol "test2", .symbol "..."],
          ToList [.symbol "if", .symbol "test1",
                  ToList [.symbol "and", .symbol "test2", .symbol "..."], .boolean false]⟩⟩
        30 (ToList [.symbol "and", .boolean true]) =
      .ok (some (ToList [.symbol "if", .boolean true, .boolean true, .boolean false])) :=
  ⟨(first_matching_rule_wins syntaxScopes [none, some [("and", andRules syntaxScope)]] 30 []
      syntaxScope globalScope (ToList [.symbol "and", .boolean true]) (.boolean true)
      [⟨ToList [.symbol "and"], .boolean true⟩]
      [⟨ToList [.symbol "and", .symbol "test1", .symbol "test2", .symbol "..."],
        ToList [.symbol "if", .symbol "test1",
                ToList [.symbol "and", .symbol "test2", .symbol "..."], .boolean false]⟩]
      ⟨ToList [.symbol "and", .symbol "test"], .symbol "test"⟩
      (by intro q hq; simp only [List.mem_singleton] at hq; subst hq; rfl) rfl).1,
   rfl⟩
/-! ## The expansion of the cond form of the test (C14) -/

/-- C14 (the code breaks the claim): with the rulesets of `and`, `begin` and
`cond` defined in the scope of the test, matching the form
`(cond ((> 3 2) 'greater) ((< 3 2) 'less))` against the ruleset of `cond`
succeeds, but the forms headed by `begin` that the templates emit are matched
against the ruleset of `begin` too: the result has `((lambda () 'greater))`
where the test expects `(begin 'greater)`. -/
theorem cond_expansion_expands_begin :
    testMatch [andDefinition, beginDefinition, condDefinition] "cond" 60 condForm =
      .ok (some condChained) ∧
    testMatch [andDefinition, beginDefinition, condDefinition] "cond" 60 condForm ≠
      .ok (some condExpected) := by
  have h : testMatch [andDefinition, beginDefinition, condDefinition] "cond" 60 condForm =
      .ok (some condChained) := rfl
  refine ⟨h, ?_⟩
  rw [h]
  simp [condChained, condExpected, ToList, quoted]

/-- Without the ruleset of `begin` in the scope, the result is the form the
test expects. -/
theorem cond_expansion_without_begin :
    testMatch [andDefinition, condDefinition] "cond" 60 condForm = .ok (some condExpected) :=
  rfl

/-! ## An ellipsis followed by other patterns (C15) -/

/-- C15 (the code breaks the claim): the pattern `(m p ... q)` does not match
the form `(m 1)`, which has as many arguments as there are patterns after the
ellipsis; it matches `(m 1 2)` and `(m 1 2 3)`, where `p` is bound to the
vector of the first arguments and `q` to the last one.  The loop over a vector
pattern does match in the same case: `[p ... q]` matches `[1]`, with `p` bound
to the empty vector and `q` to 1. -/
theorem ellipsis_zero_matches_skips_a_form :
    SyntaxMatcher.match_ [] [] ellipsisMatcher 20 (ToList [.symbol "m", .number 1]) = .ok none ∧
    SyntaxMatcher.match_ [] [] ellipsisMatcher 20 (ToList [.symbol "m", .number 1, .number 2]) =
      .ok (some (ToList [.number 1, .number 2])) ∧
    SyntaxMatcher.match_ [] [] ellipsisMatcher 20
        (ToList [.symbol "m", .number 1, .number 2, .number 3]) =
      .ok (some (ToList [.number 1, .number 2, .number 3])) ∧
    SyntaxMatcher.matchPattern [] ellipsisMatcher 20
        (.vector [.symbol "p", .symbol "...", .symbol "q"]) (.vector [.number 1]) [] =
      .ok (some [("q", .number 1), ("p", .vector [])]) :=
  ⟨rfl, rfl, rfl, rfl⟩

/-! ## Keyword definitions (C20) -/

theorem setKeyword_nil_table (keywords : List KeywordTable) (a : Nat) (outer : ScopeRef)
    (name : Symbol) (v : SyntaxRules) (h : keywords.get? a = some none) :
    Scope.setKeyword keywords (a :: outer) name v = .error nilMap := by
  simp only [Scope.setKeyword, h]

/-- In a scope whose table is the nil map, no definition of a keyword
succeeds. -/
theorem evalDefineSyntax_nil_table (scopes : List Scope) (keywords : List KeywordTable)
    (a : Nat) (outer : ScopeRef) (e : Value) (h : keywords.get? a = some none) :
    ∃ msg, evalDefineSyntax scopes keywords e (a :: outer) = .error msg := by
  unfold evalDefineSyntax
  repeat' split
  all_goals first | exact ⟨_, rfl⟩ | exact ⟨_, setKeyword_nil_table _ _ _ _ _ h⟩

/-- C20 (the code breaks the claim): evaluating the definition of `and` in the
global scope, as `NewEnv().Eval` does, panics at the write to the nil map of
`globalScope`, and so it does in the scope of an environment made by
`Env.With`; no definition of a keyword succeeds in these scopes.  In a scope
made by `push` it succeeds and `lookupKeyword` returns the new ruleset. -/
theorem define_syntax_in_global_scope_panics :
    evalDefineSyntax [globalEnv] globalKeywords andDefinition NewEnv = .error nilMap ∧
    evalDefineSyntax (Env.With [globalEnv] globalKeywords NewEnv []).1
        (Env.With [globalEnv] globalKeywords NewEnv []).2.1 andDefinition
        (Env.With [globalEnv] globalKeywords NewEnv []).2.2 = .error nilMap ∧
    (∀ e : Value, ∃ msg, evalDefineSyntax [globalEnv] globalKeywords e NewEnv = .error msg) ∧
    (∀ (bindings : List (Symbol × Value)) (e : Value), ∃ msg,
      evalDefineSyntax (Env.With [globalEnv] globalKeywords NewEnv bindings).1
        (Env.With [globalEnv] globalKeywords NewEnv bindings).2.1 e
        (Env.With [globalEnv] globalKeywords NewEnv bindings).2.2 = .error msg) ∧
    (∃ keywords, evalDefineSyntax syntaxScopes (pushKeywords globalKeywords) andDefinition
        syntaxScope = .ok keywords ∧
      Scope.lookupKeyword keywords syntaxScope "and" = some (andRules syntaxScope)) :=
  ⟨rfl, rfl, fun e => evalDefineSyntax_nil_table _ _ 0 [] e rfl,
   fun _ e => evalDefineSyntax_nil_table _ _ 1 [0] e rfl, ⟨_, rfl, rfl⟩⟩

/-! ## The second rule of and (C13) -/

/-- C13 (amended): with `and` defined by the three rules of the test, the form
`(and #t #f)` expands to `(if #t #f #f)`: the form `(and #f)` that the
template emits is headed by the keyword `and` and is expanded before it is
linked into the result.  This holds in every scope of the use. -/
theorem and_of_two_expands_inner_and (formScope : ScopeRef) :
    SyntaxRules.match_ syntaxScopes [none, some [("and", andRules syntaxScope)]] 30
        (andRules syntaxScope) (ToList [.symbol "and", .boolean true, .boolean false])
        formScope =
      .ok (some (ToList [.symbol "if", .boolean true, .boolean false, .boolean false])) :=
  rfl

theorem and_of_two_keeps_no_inner_and :
    definedIn [andDefinition] "and" =
      .ok ([none, some [("and", andRules syntaxScope)]], andRules syntaxScope) ∧
    testMatch [andDefinition] "and" 30 (ToList [.symbol "and", .boolean true, .boolean false]) ≠
      .ok (some (ToList [.symbol "if", .boolean true,
                         ToList [.symbol "and", .boolean false], .boolean false])) := by
  have h : testMatch [andDefinition] "and" 30
      (ToList [.symbol "and", .boolean true, .boolean false]) =
      .ok (some (ToList [.symbol "if", .boolean true, .boolean false, .boolean false])) := rfl
  refine ⟨rfl, ?_⟩
  rw [h]
  simp [ToList]

/-! ## Literals (C18) -/

/-- C18 (amended): a pattern symbol other than `_` that is declared in the
list of the literals matches a form if and only if the form is the symbol of
the same name and `where` finds for it, in the chain of the scope of the use,
the scope that was recorded for the literal when the ruleset was defined (the
nil pointer when no scope binds it); the match leaves the bindings as they
were. -/
theorem literal_matches_same_binding (scopes : List Scope) (m : SyntaxMatcher) (fuel : Nat)
    (p : Symbol) (w : ScopeRef) (form : Value) (bindings : List (Symbol × Value))
    (hp : p ≠ "_") (hlit : literalGet m.literals p = some w) :
    (SyntaxMatcher.matchPattern scopes m (fuel + 1) (.symbol p) form bindings =
        .ok (some bindings) ∨
      SyntaxMatcher.matchPattern scopes m (fuel + 1) (.symbol p) form bindings = .ok none) ∧
    (SyntaxMatcher.matchPattern scopes m (fuel + 1) (.symbol p) form bindings =
        .ok (some bindings) ↔
      form = .symbol p ∧ Scope.where_ scopes m.formScope p = w) := by
  simp only [SyntaxMatcher.matchPattern, hp, if_false, hlit]
  cases form with
  | symbol f =>
    by_cases hpf : p = f
    · subst hpf
      by_cases hw : Scope.where_ scopes m.formScope p = w
      · simp [hw]
      · simp [hw]
    · have hne : Value.symbol f ≠ Value.symbol p := fun h => hpf (by cases h; rfl)
      simp [hpf, hne]
  | _ => simp

theorem literal_matches_same_binding_witness :
    (SyntaxMatcher.matchPattern [globalEnv] ⟨[("else", [])], [0], [0], ⟨.null, .null⟩⟩ 1
        (.symbol "else") (.symbol "else") [("x", .number 1)] = .ok (some [("x", .number 1)]) ↔
      Value.symbol "else" = .symbol "else" ∧ Scope.where_ [globalEnv] [0] "else" = []) ∧
    SyntaxMatcher.matchPattern [globalEnv] ⟨[("else", [])], [0], [0], ⟨.null, .null⟩⟩ 1
        (.symbol "else") (.symbol "else") [("x", .number 1)] = .ok (some [("x", .number 1)]) ∧
    SyntaxMatcher.matchPattern [⟨[("else", .number 0)]⟩] ⟨[("else", [])], [0], [0], ⟨.null, .null⟩⟩ 1
        (.symbol "else") (.symbol "else") [] = .ok none :=
  ⟨(literal_matches_same_binding [globalEnv] ⟨[("else", [])], [0], [0], ⟨.null, .null⟩⟩ 0
      "else" [] (.symbol "else") [("x", .number 1)] (by decide) rfl).2, rfl, rfl⟩

/-- The underscore is tested before the literals: declared a literal, it still
matches every form. -/
theorem underscore_literal_matches_any_form :
    literalGet [("_", [])] "_" = some [] ∧
    SyntaxMatcher.matchPattern [globalEnv] ⟨[("_", [])], [0], [0], ⟨.null, .null⟩⟩ 1
        (.symbol "_") (.number 5) [] = .ok (some []) ∧
    testMatch [underscoreDefinition] "m" 20 (ToList [.symbol "m", .number 5]) =
      .ok (some (.number 1)) :=
  ⟨rfl, rfl, rfl⟩

/-! ## Lemmas on the matcher -/

theorem lenLoop_ToList (l : List Value) : lenLoop (ToList l) = l.length := by
  induction l with
  | nil => rfl
  | cons a l ih => simp only [ToList, lenLoop, ih, List.length_cons]

theorem asPair_ToList_cons (a : Value) (l : List Value) :
    Value.asPair (ToList (a :: l)) = some (a, ToList l) := rfl

/-- A pattern variable matches every form and is bound to it. -/
theorem matchPattern_variable (scopes : List Scope) (m : SyntaxMatcher) (fuel : Nat)
    (p : Symbol) (form : Value) (bindings : List (Symbol × Value)) (hf : 1 ≤ fuel)
    (hp : p ≠ "_") (hl : literalGet m.literals p = none) :
    SyntaxMatcher.matchPattern scopes m fuel (.symbol p) form bindings =
      .ok (some (envPut bindings p form)) := by
  obtain ⟨f, rfl⟩ : ∃ f, fuel = f + 1 := ⟨fuel - 1, by omega⟩
  simp only [SyntaxMatcher.matchPattern, hp, if_false, hl]

theorem matchPattern_null (scopes : List Scope) (m : SyntaxMatcher) (fuel : Nat)
    (bindings : List (Symbol × Value)) (hf : 1 ≤ fuel) :
    SyntaxMatcher.matchPattern scopes m fuel .null .null bindings = .ok (some bindings) := by
  obtain ⟨f, rfl⟩ : ∃ f, fuel = f + 1 := ⟨fuel - 1, by omega⟩
  simp only [SyntaxMatcher.matchPattern]

theorem matchPattern_null_pair (scopes : List Scope) (m : SyntaxMatcher) (fuel : Nat)
    (a d : Value) (bindings : List (Symbol × Value)) (hf : 1 ≤ fuel) :
    SyntaxMatcher.matchPattern scopes m fuel .null (.pair a d) bindings = .ok none := by
  obtain ⟨f, rfl⟩ : ∃ f, fuel = f + 1 := ⟨fuel - 1, by omega⟩
  simp only [SyntaxMatcher.matchPattern]

/-- The inner loop of an ellipsis whose sub-pattern is a variable: the forms
`front ++ [last]` are matched, the loop stops at the pair of `last`. -/
theorem ellipsisLoop_variable (scopes : List Scope) (m : SyntaxMatcher) (p : Symbol)
    (hp : p ≠ "_") (hl : literalGet m.literals p = none) (last : Value) (back : List Value) :
    ∀ (front : List Value) (fuel : Nat) (scope : List (Symbol × Value)) (matched : List Value),
      front.length + 2 ≤ fuel →
      SyntaxMatcher.ellipsisLoop scopes m fuel (.symbol p)
          (Value.asPair (ToList (front ++ last :: back))) (front.length + 1) scope matched =
        .ok (some (some (last, ToList back),
          (p, last) :: (front.reverse.map (fun f => (p, f)) ++ scope),
          matched ++ front ++ [last])) := by
  intro front
  induction front with
  | nil =>
    intro fuel scope matched hf
    obtain ⟨f, rfl⟩ : ∃ f, fuel = f + 1 := ⟨fuel - 1, by simp at hf; omega⟩
    simp only [List.nil_append, asPair_ToList_cons, SyntaxMatcher.ellipsisLoop,
      matchPattern_variable scopes m f p _ _ (by simp at hf; omega) hp hl, List.length_nil,
      Nat.zero_add, Nat.sub_self, if_true, envPut, List.reverse_nil, List.map_nil,
      List.append_nil]
  | cons a front ih =>
    intro fuel scope matched hf
    obtain ⟨f, rfl⟩ : ∃ f, fuel = f + 1 := ⟨fuel - 1, by omega⟩
    simp only [List.length_cons] at hf
    simp only [List.cons_append, asPair_ToList_cons, SyntaxMatcher.ellipsisLoop,
      matchPattern_variable scopes m f p _ _ (by omega) hp hl, List.length_cons,
      Nat.add_sub_cancel, Nat.add_one_ne_zero, if_false, envPut]
    have h := ih f ((p, a) :: scope) (matched ++ [a]) (by omega)
    cases front with
    | nil =>
      simp only [List.nil_append, asPair_ToList_cons] at h ⊢
      rw [h]
      simp
    | cons b front =>
      simp only [List.cons_append, asPair_ToList_cons] at h ⊢
      rw [h]
      simp

theorem envGet_map_append (p q : Symbol) (hq : p ≠ q) (l : List Value)
    (rest : List (Symbol × Value)) :
    envGet (l.map (fun f => (p, f)) ++ rest) q = envGet rest q := by
  induction l with
  | nil => rfl
  | cons a l ih =>
    rw [List.map_cons, List.cons_append, envGet, if_neg hq]
    exact ih
/-! ## The expansion of and (C12) -/

theorem and_rule1_none (scopes : List Scope) (keywords : List KeywordTable)
    (s formScope : ScopeRef) (t : Value) (rest : List Value) (fuel : Nat) (hf : 1 ≤ fuel) :
    SyntaxMatcher.match_ scopes keywords
        ⟨[], s, formScope, ⟨ToList [.symbol "and"], .boolean true⟩⟩ fuel
        (ToList (.symbol "and" :: t :: rest)) = .ok none := by
  obtain ⟨f, rfl⟩ : ∃ f, fuel = f + 1 := ⟨fuel - 1, by omega⟩
  rfl

theorem and_rule2_one (scopes : List Scope) (keywords : List KeywordTable)
    (s formScope : ScopeRef) (t : Value) (fuel : Nat) (hf : 4 ≤ fuel) :
    SyntaxMatcher.match_ scopes keywords
        ⟨[], s, formScope, ⟨ToList [.symbol "and", .symbol "test"], .symbol "test"⟩⟩ fuel
        (ToList [.symbol "and", t]) = .ok (some t) := by
  obtain ⟨f, rfl⟩ : ∃ f, fuel = f + 4 := ⟨fuel - 4, by omega⟩
  rfl

theorem and_rule2_more (scopes : List Scope) (keywords : List KeywordTable)
    (s formScope : ScopeRef) (t u : Value) (rest : List Value) (fuel : Nat) (hf : 4 ≤ fuel) :
    SyntaxMatcher.match_ scopes keywords
        ⟨[], s, formScope, ⟨ToList [.symbol "and", .symbol "test"], .symbol "test"⟩⟩ fuel
        (ToList (.symbol "and" :: t :: u :: rest)) = .ok none := by
  obtain ⟨f, rfl⟩ : ∃ f, fuel = f + 4 := ⟨fuel - 4, by omega⟩
  rfl
theorem pairLen_ToList (l : List Value) : pairLen (Value.asPair (ToList l)) = l.length := by
  cases l with
  | nil => rfl
  | cons a l => simp only [asPair_ToList_cons, pairLen, lenLoop_ToList, List.length_cons]

/-- The turn of the loop of `matchPattern` at a pattern that an ellipsis
follows. -/
theorem matchLoop_ellipsis (scopes : List Scope) (m : SyntaxMatcher) (fuel : Nat)
    (pcar ncdr : Value) (form : Option (Value × Value)) (scope : List (Symbol × Value)) :
    SyntaxMatcher.matchLoop scopes m (fuel + 1) pcar (.pair (.symbol "...") ncdr) form scope =
      if (pairLen form : Int) - ((lenLoop ncdr + 1 : Nat) : Int) + 1 < 0 then .ok none
      else
        match (if 0 < (pairLen form : Int) - ((lenLoop ncdr + 1 : Nat) : Int) + 1 then
            SyntaxMatcher.ellipsisLoop scopes m fuel pcar form
              ((pairLen form : Int) - ((lenLoop ncdr + 1 : Nat) : Int) + 1).toNat scope []
          else .ok (some (form, scope, []))) with
        | .error e => .error e
        | .ok none => .ok none
        | .ok (some (form1, scope1, matched)) =>
          match ncdr.asPair with
          | some (acar, acdr) =>
            match form1 with
            | none => .error nilDeref
            | some (_, fcdr) =>
              SyntaxMatcher.matchLoop scopes m fuel acar acdr fcdr.asPair
                (setMatched m pcar scope1 matched)
          | none =>
            match form1 with
            | none => .ok (some (setMatched m pcar scope1 matched))
            | some (_, fcdr) =>
              SyntaxMatcher.matchPattern scopes m fuel ncdr fcdr
                (setMatched m pcar scope1 matched) := by
  cases form with
  | none => rw [SyntaxMatcher.matchLoop]; rfl
  | some x =>
    obtain ⟨a, d⟩ := x
    rw [SyntaxMatcher.matchLoop]
    rfl
/-- The turn of the loop of `matchPattern` at a pattern that no ellipsis
follows. -/
theorem matchLoop_plain (scopes : List Scope) (m : SyntaxMatcher) (fuel : Nat)
    (pcar pcdr : Value) (form : Option (Value × Value)) (scope : List (Symbol × Value))
    (he : isEllipsis pcdr.asPair = false) :
    SyntaxMatcher.matchLoop scopes m (fuel + 1) pcar pcdr form scope =
      match form with
      | none => .ok none
      | some (fcar, fcdr) =>
        match SyntaxMatcher.matchPattern scopes m fuel pcar fcar scope with
        | .error e => .error e
        | .ok none => .ok none
        | .ok (some scope1) =>
          match pcdr.asPair with
          | some (ncar, ncdr) =>
            SyntaxMatcher.matchLoop scopes m fuel ncar ncdr fcdr.asPair scope1
          | none => SyntaxMatcher.matchPattern scopes m fuel pcdr fcdr scope1 := by
  cases form with
  | none =>
    rw [SyntaxMatcher.matchLoop]
    simp only [he, Bool.false_eq_true, if_false]
  | some x =>
    obtain ⟨a, d⟩ := x
    rw [SyntaxMatcher.matchLoop]
    simp only [he, Bool.false_eq_true, if_false]

/-- A turn of the loop of `matchPattern` at a variable that no ellipsis
follows and that is not the last pattern: the variable is bound to the form
and the loop goes on with the next pattern and the next form. -/
theorem matchLoop_variable_step (scopes : List Scope) (m : SyntaxMatcher) (fuel : Nat)
    (p : Symbol) (ncar ncdr fcar fcdr : Value) (scope : List (Symbol × Value))
    (hf : 1 ≤ fuel) (hp : p ≠ "_") (hl : literalGet m.literals p = none)
    (he : isEllipsis (some (ncar, ncdr)) = false) :
    SyntaxMatcher.matchLoop scopes m (fuel + 1) (.symbol p) (.pair ncar ncdr)
        (some (fcar, fcdr)) scope =
      SyntaxMatcher.matchLoop scopes m fuel ncar ncdr fcdr.asPair (envPut scope p fcar) := by
  rw [matchLoop_plain scopes m fuel (.symbol p) (.pair ncar ncdr) _ _ he]
  simp only [matchPattern_variable scopes m fuel p _ _ hf hp hl, Value.asPair]

/-- A turn of the loop at a variable that is the last pattern of a proper
list. -/
theorem matchLoop_variable_last (scopes : List Scope) (m : SyntaxMatcher) (fuel : Nat)
    (p : Symbol) (fcar fcdr : Value) (scope : List (Symbol × Value))
    (hf : 1 ≤ fuel) (hp : p ≠ "_") (hl : literalGet m.literals p = none) :
    SyntaxMatcher.matchLoop scopes m (fuel + 1) (.symbol p) .null (some (fcar, fcdr)) scope =
      SyntaxMatcher.matchPattern scopes m fuel .null fcdr (envPut scope p fcar) := by
  rw [matchLoop_plain scopes m fuel (.symbol p) .null _ _ rfl]
  simp only [matchPattern_variable scopes m fuel p _ _ hf hp hl, Value.asPair]

/-- A turn of the loop at a variable followed by an ellipsis that ends the
pattern, when forms are left: the variable is bound to the vector of the
forms. -/
theorem matchLoop_ellipsis_last (scopes : List Scope) (m : SyntaxMatcher) (fuel : Nat)
    (p : Symbol) (front : List Value) (last : Value) (scope : List (Symbol × Value))
    (hf : front.length + 3 ≤ fuel) (hp : p ≠ "_") (hl : literalGet m.literals p = none) :
    SyntaxMatcher.matchLoop scopes m fuel (.symbol p) (.pair (.symbol "...") .null)
        (Value.asPair (ToList (front ++ [last]))) scope =
      .ok (some ((p, .vector (front ++ [last])) :: (p, last) ::
        (front.reverse.map (fun f => (p, f)) ++ scope))) := by
  obtain ⟨f, rfl⟩ : ∃ f, fuel = f + 1 := ⟨fuel - 1, by omega⟩
  rw [matchLoop_ellipsis]
  have hlen : pairLen (Value.asPair (ToList (front ++ [last]))) = front.length + 1 := by
    rw [pairLen_ToList]; simp
  rw [hlen]
  have h1 : (0 : Int) < ((front.length + 1 : Nat) : Int) - ((lenLoop .null + 1 : Nat) : Int) + 1 := by
    simp only [lenLoop]; omega
  have h2 : ¬ (((front.length + 1 : Nat) : Int) - ((lenLoop .null + 1 : Nat) : Int) + 1 < 0) := by
    omega
  have h3 : (((front.length + 1 : Nat) : Int) - ((lenLoop .null + 1 : Nat) : Int) + 1).toNat =
      front.length + 1 := by
    simp only [lenLoop]; omega
  rw [if_neg h2, if_pos h1, h3,
    ellipsisLoop_variable scopes m p hp hl last [] front f _ _ (by omega)]
  simp only [setMatched, hl, envPut, Value.asPair, List.nil_append,
    matchPattern_null scopes m f _ (by omega), ToList]

/-- The same turn when no form is left: the variable is bound to the empty
vector. -/
theorem matchLoop_ellipsis_last_none (scopes : List Scope) (m : SyntaxMatcher) (fuel : Nat)
    (p : Symbol) (scope : List (Symbol × Value))
    (hf : 1 ≤ fuel) (hl : literalGet m.literals p = none) :
    SyntaxMatcher.matchLoop scopes m fuel (.symbol p) (.pair (.symbol "...") .null)
        none scope = .ok (some ((p, .vector []) :: scope)) := by
  obtain ⟨f, rfl⟩ : ∃ f, fuel = f + 1 := ⟨fuel - 1, by omega⟩
  rw [matchLoop_ellipsis]
  simp [setMatched, hl, envPut, pairLen, Value.asPair, lenLoop]

theorem and_rule3_match (scopes : List Scope) (m : SyntaxMatcher) (hm : m.literals = [])
    (t last : Value) (front : List Value) (fuel : Nat) (hf : front.length + 5 ≤ fuel) :
    SyntaxMatcher.matchPair scopes m fuel (.symbol "test1")
        (ToList [.symbol "test2", .symbol "..."])
        (Value.asPair (ToList (t :: (front ++ [last])))) [] =
      .ok (some (andBindings t front last)) := by
  obtain ⟨f, rfl⟩ : ∃ f, fuel = f + 1 := ⟨fuel - 1, by omega⟩
  have hl : ∀ p, literalGet m.literals p = none := fun p => by rw [hm]; rfl
  rw [SyntaxMatcher.matchPair, asPair_ToList_cons]
  simp only [ToList]
  rw [matchLoop_variable_step scopes m f "test1" _ _ _ _ _ (by omega) (by decide) (hl _) (by rfl),
    matchLoop_ellipsis_last scopes m f "test2" front last _ (by omega) (by decide) (hl _)]
  simp only [copyOut, envPut, List.append_nil, andBindings]
/-! ## Lemmas on the emission of templates -/

/-- A symbol of a template that is no literal is replaced by the value it is
bound to and left as it is when it is not bound. -/
theorem emitTemplate_symbol (scopes : List Scope) (keywords : List KeywordTable)
    (m : SyntaxMatcher) (fuel : Nat) (t : Symbol) (bindings : List (Symbol × Value))
    (hf : 1 ≤ fuel) (hl : literalGet m.literals t = none) :
    SyntaxMatcher.emitTemplate scopes keywords m fuel (.symbol t) bindings =
      .ok ((envGet bindings t).getD (.symbol t)) := by
  obtain ⟨f, rfl⟩ : ∃ f, fuel = f + 1 := ⟨fuel - 1, by omega⟩
  rw [SyntaxMatcher.emitTemplate]
  simp only [hl]
  cases envGet bindings t <;> rfl

theorem emitTemplate_pair (scopes : List Scope) (keywords : List KeywordTable)
    (m : SyntaxMatcher) (fuel : Nat) (a d : Value) (bindings : List (Symbol × Value)) :
    SyntaxMatcher.emitTemplate scopes keywords m (fuel + 1) (.pair a d) bindings =
      SyntaxMatcher.emitLoop scopes keywords m fuel a d bindings [] := by
  rw [SyntaxMatcher.emitTemplate]

/-- The turn of the loop of `emitTemplate` at a template that an ellipsis
follows. -/
theorem emitLoop_ellipsis (scopes : List Scope) (keywords : List KeywordTable)
    (m : SyntaxMatcher) (fuel : Nat) (tcar ncdr : Value) (bindings : List (Symbol × Value))
    (acc : List Value) :
    SyntaxMatcher.emitLoop scopes keywords m (fuel + 1) tcar (.pair (.symbol "...") ncdr)
        bindings acc =
      match emitMatches tcar bindings acc with
      | .error e => .error e
      | .ok acc1 =>
        match ncdr.asPair with
        | some (acar, acdr) =>
          SyntaxMatcher.emitLoop scopes keywords m fuel acar acdr bindings acc1
        | none => SyntaxMatcher.emitEnd scopes keywords m fuel ncdr bindings acc1 := by
  rw [SyntaxMatcher.emitLoop]
  rfl

/-- The turn of the loop of `emitTemplate` at a template that no ellipsis
follows. -/
theorem emitLoop_plain (scopes : List Scope) (keywords : List KeywordTable)
    (m : SyntaxMatcher) (fuel : Nat) (tcar tcdr : Value) (bindings : List (Symbol × Value))
    (acc : List Value) (he : isEllipsis tcdr.asPair = false) :
    SyntaxMatcher.emitLoop scopes keywords m (fuel + 1) tcar tcdr bindings acc =
      match SyntaxMatcher.emitTemplate scopes keywords m fuel tcar bindings with
      | .error e => .error e
      | .ok v =>
        match tcdr.asPair with
        | some (ncar, ncdr) =>
          SyntaxMatcher.emitLoop scopes keywords m fuel ncar ncdr bindings (acc ++ [v])
        | none => SyntaxMatcher.emitEnd scopes keywords m fuel tcdr bindings (acc ++ [v]) := by
  rw [SyntaxMatcher.emitLoop]
  simp only [he, Bool.false_eq_true, if_false]

/-- The end of the loop when the list ends in nil and its head is no keyword:
the list is returned as it is. -/
theorem emitEnd_plain (scopes : List Scope) (keywords : List KeywordTable)
    (m : SyntaxMatcher) (fuel : Nat) (bindings : List (Symbol × Value)) (h : Value)
    (rest : List Value) (hk : isKeywordHead keywords m.ruleScope h = false) :
    SyntaxMatcher.emitEnd scopes keywords m (fuel + 1) .null bindings (h :: rest) =
      .ok (ToList (h :: rest)) := by
  have hlink : ∀ l : List Value, linkPairs l .null = ToList l := by
    intro l
    induction l with
    | nil => rfl
    | cons a l ih => simp only [linkPairs, ToList, ih]
  cases h with
  | symbol sym =>
    simp only [isKeywordHead] at hk
    cases hlk : Scope.lookupKeyword keywords m.ruleScope sym with
    | none => simp only [SyntaxMatcher.emitEnd, hlink, hlk]
    | some r => rw [hlk] at hk; cases hk
  | _ => simp only [SyntaxMatcher.emitEnd, hlink]

/-- The end of the loop when the list ends in nil and its head is a keyword:
the list is matched against the ruleset of the keyword, in the scope of the
rule, and the expansion is returned when a rule matches. -/
theorem emitEnd_keyword (scopes : List Scope) (keywords : List KeywordTable)
    (m : SyntaxMatcher) (fuel : Nat) (bindings : List (Symbol × Value)) (sym : Symbol)
    (rest : List Value) (rules : SyntaxRules)
    (hk : Scope.lookupKeyword keywords m.ruleScope sym = some rules) :
    SyntaxMatcher.emitEnd scopes keywords m (fuel + 1) .null bindings (.symbol sym :: rest) =
      match SyntaxRules.match_ scopes keywords fuel rules (ToList (.symbol sym :: rest))
          m.ruleScope with
      | .error e => .error e
      | .ok (some v) => .ok v
      | .ok none => .ok (ToList (.symbol sym :: rest)) := by
  have hlink : ∀ l : List Value, linkPairs l .null = ToList l := by
    intro l
    induction l with
    | nil => rfl
    | cons a l ih => simp only [linkPairs, ToList, ih]
  simp only [SyntaxMatcher.emitEnd, hlink, hk, SyntaxRules.match_]
theorem emitTemplate_boolean (scopes : List Scope) (keywords : List KeywordTable)
    (m : SyntaxMatcher) (fuel : Nat) (b : Bool) (bindings : List (Symbol × Value)) :
    SyntaxMatcher.emitTemplate scopes keywords m (fuel + 1) (.boolean b) bindings =
      .ok (.boolean b) := by
  simp only [SyntaxMatcher.emitTemplate]

/-- The emission of the template of the third rule of `and`: the list headed
by `and` is matched against the ruleset of `and` before it is linked. -/
theorem and_rule3_emit (scopes : List Scope) (keywords : List KeywordTable)
    (m : SyntaxMatcher) (rules : SyntaxRules) (hm : m.literals = [])
    (hand : Scope.lookupKeyword keywords m.ruleScope "and" = some rules)
    (hif : Scope.lookupKeyword keywords m.ruleScope "if" = none)
    (t x : Value) (forms : List Value) (bindings : List (Symbol × Value))
    (h1 : envGet bindings "test1" = some t)
    (h2 : envGet bindings "test2" = some (.vector forms))
    (h3 : envGet bindings "if" = none) (h4 : envGet bindings "and" = none) (f : Nat)
    (hx : SyntaxRules.match_ scopes keywords f rules (ToList (.symbol "and" :: forms))
      m.ruleScope = .ok (some x)) :
    SyntaxMatcher.emitTemplate scopes keywords m (f + 8)
        (ToList [.symbol "if", .symbol "test1",
                 ToList [.symbol "and", .symbol "test2", .symbol "..."], .boolean false])
        bindings =
      .ok (ToList [.symbol "if", t, x, .boolean false]) := by
  have hl : ∀ p, literalGet m.literals p = none := fun p => by rw [hm]; rfl
  have hkif : isKeywordHead keywords m.ruleScope (.symbol "if") = false := by
    simp only [isKeywordHead, hif]; rfl
  simp only [ToList]
  rw [emitTemplate_pair, emitLoop_plain _ _ _ _ _ _ _ _ (by rfl),
    emitTemplate_symbol _ _ _ _ _ _ (by omega) (hl _), h3]
  simp only [Option.getD, Value.asPair, List.nil_append]
  rw [emitLoop_plain _ _ _ _ _ _ _ _ (by rfl),
    emitTemplate_symbol _ _ _ _ _ _ (by omega) (hl _), h1]
  simp only [Option.getD, Value.asPair, List.cons_append, List.nil_append]
  rw [emitLoop_plain _ _ _ _ _ _ _ _ (by rfl), emitTemplate_pair,
    emitLoop_plain _ _ _ _ _ _ _ _ (by rfl),
    emitTemplate_symbol _ _ _ _ _ _ (by omega) (hl _), h4]
  simp only [Option.getD, Value.asPair, List.cons_append, List.nil_append]
  rw [emitLoop_ellipsis]
  simp only [emitMatches, h2, Value.asPair, List.cons_append, List.nil_append]
  rw [emitEnd_keyword _ _ _ _ _ _ _ _ hand, hx]
  simp only []
  rw [emitLoop_plain _ _ _ _ _ _ _ _ (by rfl), emitTemplate_boolean]
  simp only [Value.asPair, List.cons_append, List.nil_append]
  rw [emitEnd_plain _ _ _ _ _ _ _ hkif]
  rfl

theorem andBindings_lookup (t : Value) (front : List Value) (last : Value) :
    envGet (andBindings t front last) "test1" = some t ∧
    envGet (andBindings t front last) "test2" = some (.vector (front ++ [last])) ∧
    envGet (andBindings t front last) "if" = none ∧
    envGet (andBindings t front last) "and" = none := by
  refine ⟨?_, rfl, ?_, ?_⟩ <;>
  · rw [andBindings, envGet, if_neg (by decide), envGet, if_neg (by decide),
      envGet_map_append _ _ (by decide)]
    rfl

/-- The method `syntaxMatcher.match` on a rule whose pattern has a pattern
after the keyword: the rest of the pattern is matched and the template is
emitted with the bindings of the match. -/
theorem match_of_pattern (scopes : List Scope) (keywords : List KeywordTable)
    (m : SyntaxMatcher) (fuel : Nat) (pa pcar pcdr fa fcdr : Value)
    (hpat : m.rule.pattern = .pair pa (.pair pcar pcdr)) :
    SyntaxMatcher.match_ scopes keywords m (fuel + 1) (.pair fa fcdr) =
      match SyntaxMatcher.matchPair scopes m fuel pcar pcdr fcdr.asPair [] with
      | .error e => .error e
      | .ok none => .ok none
      | .ok (some bindings) =>
        match SyntaxMatcher.emitTemplate scopes keywords m fuel m.rule.template bindings with
        | .error e => .error e
        | .ok v => .ok (some v) := by
  rw [SyntaxMatcher.match_.eq_def]
  simp only [hpat, Value.asPair]

theorem match_of_pattern_list (scopes : List Scope) (keywords : List KeywordTable)
    (m : SyntaxMatcher) (fuel : Nat) (pa pcar pcdr fa : Value) (fs : List Value)
    (hpat : m.rule.pattern = .pair pa (.pair pcar pcdr)) :
    SyntaxMatcher.match_ scopes keywords m (fuel + 1) (ToList (fa :: fs)) =
      match SyntaxMatcher.matchPair scopes m fuel pcar pcdr (Value.asPair (ToList fs)) [] with
      | .error e => .error e
      | .ok none => .ok none
      | .ok (some bindings) =>
        match SyntaxMatcher.emitTemplate scopes keywords m fuel m.rule.template bindings with
        | .error e => .error e
        | .ok v => .ok (some v) :=
  match_of_pattern scopes keywords m fuel pa pcar pcdr fa (ToList fs) hpat

/-- The ruleset of `and` expands a form with the forms `ts` to the nested
`if` forms, given the turns its chain of expansions takes. -/
theorem and_match (scopes : List Scope) (keywords : List KeywordTable) (s : ScopeRef)
    (hand : Scope.lookupKeyword keywords s "and" = some (andRules s))
    (hif : Scope.lookupKeyword keywords s "if" = none) :
    ∀ (ts : List Value) (formScope : ScopeRef) (fuel : Nat), ts ≠ [] →
      9 * ts.length + 4 ≤ fuel →
      SyntaxRules.match_ scopes keywords fuel (andRules s) (ToList (.symbol "and" :: ts))
        formScope = .ok (some (andExpansion ts)) := by
  intro ts
  induction ts with
  | nil => intro _ _ h; exact absurd rfl h
  | cons t rest ih =>
    intro formScope fuel _ hf
    simp only [List.length_cons] at hf
    cases rest with
    | nil =>
      simp only [SyntaxRules.match_, andRules, SyntaxRules.loop,
        and_rule1_none scopes keywords s formScope t [] fuel (by omega),
        and_rule2_one scopes keywords s formScope t fuel (by omega), andExpansion]
    | cons u rest =>
      obtain ⟨front, last, hfl⟩ : ∃ front last, u :: rest = front ++ [last] :=
        ⟨(u :: rest).dropLast, (u :: rest).getLast (List.cons_ne_nil _ _),
          (List.dropLast_append_getLast _).symm⟩
      have hlen : (u :: rest).length = front.length + 1 := by rw [hfl]; simp
      simp only [List.length_cons] at hf hlen
      obtain ⟨f, rfl⟩ : ∃ f, fuel = f + 9 := ⟨fuel - 9, by omega⟩
      have hx := ih s f (List.cons_ne_nil _ _) (by simp only [List.length_cons]; omega)
      simp only [SyntaxRules.match_, andRules, SyntaxRules.loop,
        and_rule1_none scopes keywords s formScope t (u :: rest) (f + 9) (by omega),
        and_rule2_more scopes keywords s formScope t u rest (f + 9) (by omega)]
      rw [match_of_pattern_list scopes keywords _ _ _ _ _ _ _ rfl]
      have hmatch := and_rule3_match scopes
        ⟨[], s, formScope,
         ⟨ToList [.symbol "and", .symbol "test1", .symbol "test2", .symbol "..."],
          ToList [.symbol "if", .symbol "test1",
                  ToList [.symbol "and", .symbol "test2", .symbol "..."], .boolean false]⟩⟩
        rfl t last front (f + 8) (by omega)
      rw [← hfl] at hmatch
      rw [hmatch]
      obtain ⟨b1, b2, b3, b4⟩ := andBindings_lookup t front last
      rw [← hfl] at b2
      have hemit := and_rule3_emit scopes keywords
        ⟨[], s, formScope,
         ⟨ToList [.symbol "and", .symbol "test1", .symbol "test2", .symbol "..."],
          ToList [.symbol "if", .symbol "test1",
                  ToList [.symbol "and", .symbol "test2", .symbol "..."], .boolean false]⟩⟩
        (andRules s) rfl hand hif t (andExpansion (u :: rest)) (u :: rest)
        (andBindings t front last) b1 b2 b3 b4 f hx
      simp only [hemit, andExpansion]
/-! ## Templates without ellipsis (C16) -/

theorem linkPairs_null (l : List Value) : linkPairs l .null = ToList l := by
  induction l with
  | nil => rfl
  | cons a l ih => simp only [linkPairs, ToList, ih]

theorem linkPairs_append (acc : List Value) (v tail : Value) :
    linkPairs (acc ++ [v]) tail = linkPairs acc (.pair v tail) := by
  induction acc with
  | nil => rfl
  | cons a acc ih =>
    rw [List.cons_append, linkPairs, linkPairs, ih]

theorem templateSize_pos (t : Value) : 1 ≤ templateSize t := by
  cases t <;> simp [templateSize]

theorem templateSizeAll_pos (ts : List Value) : 1 ≤ templateSizeAll ts := by
  cases ts <;> simp [templateSizeAll]

/-- The end of the loop when the template ends in an improper tail and the
head of the list is no keyword. -/
theorem emitEnd_tail (scopes : List Scope) (keywords : List KeywordTable)
    (m : SyntaxMatcher) (fuel : Nat) (tcdr : Value) (bindings : List (Symbol × Value))
    (h : Value) (rest : List Value) (hn : tcdr ≠ .null)
    (hk : isKeywordHead keywords m.ruleScope h = false) :
    SyntaxMatcher.emitEnd scopes keywords m (fuel + 1) tcdr bindings (h :: rest) =
      match SyntaxMatcher.emitTemplate scopes keywords m fuel tcdr bindings with
      | .error e => .error e
      | .ok tail => .ok (linkPairs (h :: rest) tail) := by
  have hsym : ∀ sym, h = .symbol sym → Scope.lookupKeyword keywords m.ruleScope sym = none := by
    intro sym hs
    subst hs
    simp only [isKeywordHead] at hk
    cases hlk : Scope.lookupKeyword keywords m.ruleScope sym with
    | none => rfl
    | some r => rw [hlk] at hk; cases hk
  cases tcdr with
  | null => exact absurd rfl hn
  | _ =>
    cases h with
    | symbol sym =>
      simp only [SyntaxMatcher.emitEnd, hsym sym rfl]
    | _ =>
      simp only [SyntaxMatcher.emitEnd]
theorem plainRest_not_ellipsis (literals : List (Symbol × ScopeRef))
    (keywords : List KeywordTable) (ruleScope : ScopeRef) (bindings : List (Symbol × Value))
    (tcdr : Value) (h : plainRest literals keywords ruleScope bindings tcdr = true) :
    isEllipsis tcdr.asPair = false := by
  cases tcdr with
  | pair a d =>
    cases a with
    | symbol s =>
      simp only [plainRest, plainTemplate, Bool.and_eq_true, bne_iff_ne, ne_eq] at h
      simp only [Value.asPair, isEllipsis, beq_eq_false_iff_ne, ne_eq]
      exact h.1.1
    | _ => rfl
  | _ => rfl

theorem plainAll_not_ellipsis (literals : List (Symbol × ScopeRef))
    (keywords : List KeywordTable) (ruleScope : ScopeRef) (bindings : List (Symbol × Value))
    (ts : List Value) (h : plainAll literals keywords ruleScope bindings ts = true) :
    isEllipsisVector ts = false := by
  match ts with
  | [] => rfl
  | [_] => rfl
  | _ :: b :: rest =>
    cases b with
    | symbol s =>
      simp only [plainAll, plainTemplate, Bool.and_eq_true, bne_iff_ne, ne_eq] at h
      simp only [isEllipsisVector, beq_eq_false_iff_ne, ne_eq]
      exact h.2.1.1
    | _ => rfl

theorem plainTemplate_of_plainRest (literals : List (Symbol × ScopeRef))
    (keywords : List KeywordTable) (ruleScope : ScopeRef) (bindings : List (Symbol × Value))
    (t : Value) (hp : ∀ a d, t ≠ .pair a d)
    (h : plainRest literals keywords ruleScope bindings t = true) :
    plainTemplate literals keywords ruleScope bindings t = true := by
  cases t with
  | pair a d => exact absurd rfl (hp a d)
  | symbol s => simpa only [plainRest, plainTemplate] using h
  | vector ts => simpa only [plainRest, plainTemplate] using h
  | _ => simp only [plainTemplate]

/-- The emission of a template without ellipsis, without literal and
without list headed by a keyword replaces the variables by their values. -/
theorem emit_plain (scopes : List Scope) (keywords : List KeywordTable) (m : SyntaxMatcher)
    (sigma bindings : List (Symbol × Value))
    (hs : ∀ s, envGet bindings s = envGet sigma s) :
    ∀ fuel : Nat,
      (∀ t, plainTemplate m.literals keywords m.ruleScope sigma t = true →
        2 * templateSize t ≤ fuel →
        SyntaxMatcher.emitTemplate scopes keywords m fuel t bindings =
          .ok (substitute sigma t)) ∧
      (∀ tcar tcdr acc, plainTemplate m.literals keywords m.ruleScope sigma tcar = true →
        plainRest m.literals keywords m.ruleScope sigma tcdr = true →
        isKeywordHead keywords m.ruleScope ((acc ++ [substitute sigma tcar]).headD .null) =
          false →
        2 * templateSize tcar + 2 * templateSize tcdr + 1 ≤ fuel →
        SyntaxMatcher.emitLoop scopes keywords m fuel tcar tcdr bindings acc =
          .ok (linkPairs acc (.pair (substitute sigma tcar) (substitute sigma tcdr)))) ∧
      (∀ tcdr h rest, (∀ a d, tcdr ≠ .pair a d) →
        plainRest m.literals keywords m.ruleScope sigma tcdr = true →
        isKeywordHead keywords m.ruleScope h = false →
        2 * templateSize tcdr + 1 ≤ fuel →
        SyntaxMatcher.emitEnd scopes keywords m fuel tcdr bindings (h :: rest) =
          .ok (linkPairs (h :: rest) (substitute sigma tcdr))) ∧
      (∀ ts result, plainAll m.literals keywords m.ruleScope sigma ts = true →
        2 * templateSizeAll ts + 1 ≤ fuel →
        SyntaxMatcher.emitVector scopes keywords m fuel ts bindings result =
          .ok (result ++ substituteAll sigma ts)) := by
  intro fuel
  induction fuel with
  | zero =>
    refine ⟨fun t _ h => ?_, fun _ _ _ _ _ _ h => ?_, fun _ _ _ _ _ _ h => ?_,
      fun _ _ _ h => ?_⟩
    · have := templateSize_pos t; omega
    · omega
    · omega
    · omega
  | succ f ih =>
    obtain ⟨ih1, ih2, ih3, ih4⟩ := ih
    refine ⟨?_, ?_, ?_, ?_⟩
    · intro t hp hf
      cases t with
      | symbol s =>
        simp only [plainTemplate, Bool.and_eq_true, bne_iff_ne, ne_eq,
          Option.isNone_iff_eq_none] at hp
        rw [emitTemplate_symbol _ _ _ _ _ _ (by omega) hp.2, hs, substitute]
      | pair a d =>
        simp only [plainTemplate, Bool.and_eq_true, Bool.not_eq_true'] at hp
        simp only [templateSize] at hf
        rw [emitTemplate_pair, ih2 a d [] hp.2.1 hp.2.2 (by simpa using hp.1) (by omega)]
        simp only [linkPairs, substitute]
      | vector ts =>
        simp only [plainTemplate] at hp
        simp only [templateSize] at hf
        simp only [SyntaxMatcher.emitTemplate, ih4 ts [] hp (by omega), List.nil_append,
          substitute]
      | _ => simp only [SyntaxMatcher.emitTemplate, substitute]
    · intro tcar tcdr acc hp1 hp2 hk hf
      have h1 := templateSize_pos tcar
      have h2 := templateSize_pos tcdr
      rw [emitLoop_plain _ _ _ _ _ _ _ _ (plainRest_not_ellipsis _ _ _ _ _ hp2),
        ih1 tcar hp1 (by omega)]
      cases tcdr with
      | pair ncar ncdr =>
        simp only [plainRest, Bool.and_eq_true] at hp2
        simp only [templateSize] at hf
        simp only [Value.asPair]
        rw [ih2 ncar ncdr _ hp2.1 hp2.2 ?_ (by omega), linkPairs_append, substitute]
        cases acc with
        | nil => simpa using hk
        | cons a acc => simpa using hk
      | _ =>
        simp only [Value.asPair]
        cases acc with
        | nil =>
          rw [List.nil_append, ih3 _ _ [] (by intro a d h; cases h) hp2 (by simpa using hk)
            (by omega)]
          rfl
        | cons a acc =>
          rw [List.cons_append, ih3 _ _ _ (by intro a d h; cases h) hp2 (by simpa using hk)
            (by omega), ← List.cons_append, linkPairs_append]
    · intro tcdr h rest hnp hp hk hf
      by_cases hn : tcdr = .null
      · subst hn
        rw [emitEnd_plain _ _ _ _ _ _ _ hk, ← linkPairs_null]
        rfl
      · rw [emitEnd_tail _ _ _ _ _ _ _ _ hn hk,
          ih1 tcdr (plainTemplate_of_plainRest _ _ _ _ _ hnp hp) (by omega)]
    · intro ts result hp hf
      cases ts with
      | nil => simp only [SyntaxMatcher.emitVector, substituteAll, List.append_nil]
      | cons t ts =>
        have hne := plainAll_not_ellipsis _ _ _ _ _ hp
        simp only [plainAll, Bool.and_eq_true] at hp
        simp only [templateSizeAll] at hf
        have h2 := templateSizeAll_pos ts
        simp only [SyntaxMatcher.emitVector, hne, Bool.false_eq_true, if_false,
          ih1 t hp.1 (by omega), ih4 ts _ hp.2 (by omega), substituteAll,
          List.append_assoc, List.singleton_append]

/-- C12: with the ruleset of `and` defined in a scope from which `if` is no
keyword, matching `(and)` yields `#t`, and for every n >= 1 and forms
t1 ... tn matching `(and t1 ... tn)` yields the nested form
`(if t1 (if t2 ... (if t(n-1) tn #f) ... #f) #f)`, in which no form headed by
`and` is left by the rules: every `(and t2 ...)` that a template emits is
expanded before it is linked. -/
theorem and_expands_to_nested_if (scopes : List Scope) (keywords : List KeywordTable)
    (s formScope : ScopeRef) (ts : List Value) (fuel : Nat)
    (hand : Scope.lookupKeyword keywords s "and" = some (andRules s))
    (hif : Scope.lookupKeyword keywords s "if" = none)
    (hf : 9 * ts.length + 4 ≤ fuel) :
    SyntaxRules.match_ scopes keywords fuel (andRules s) (ToList [.symbol "and"]) formScope =
      .ok (some (.boolean true)) ∧
    (ts ≠ [] →
      SyntaxRules.match_ scopes keywords fuel (andRules s) (ToList (.symbol "and" :: ts))
        formScope = .ok (some (andExpansion ts))) := by
  refine ⟨?_, fun hts => and_match scopes keywords s hand hif ts formScope fuel hts hf⟩
  obtain ⟨f, rfl⟩ : ∃ f, fuel = f + 2 := ⟨fuel - 2, by omega⟩
  rfl

theorem and_expands_to_nested_if_witness :
    definedIn [andDefinition] "and" =
      .ok ([none, some [("and", andRules syntaxScope)]], andRules syntaxScope) ∧
    SyntaxRules.match_ syntaxScopes [none, some [("and", andRules syntaxScope)]] 40
      (andRules syntaxScope) (ToList [.symbol "and"]) globalScope = .ok (some (.boolean true)) ∧
    SyntaxRules.match_ syntaxScopes [none, some [("and", andRules syntaxScope)]] 40
      (andRules syntaxScope) (ToList [.symbol "and", .boolean true]) globalScope =
        .ok (some (.boolean true)) ∧
    SyntaxRules.match_ syntaxScopes [none, some [("and", andRules syntaxScope)]] 40
      (andRules syntaxScope) (ToList [.symbol "and", .boolean true, .boolean false]) globalScope =
        .ok (some (ToList [.symbol "if", .boolean true, .boolean false, .boolean false])) ∧
    SyntaxRules.match_ syntaxScopes [none, some [("and", andRules syntaxScope)]] 40
      (andRules syntaxScope)
      (ToList [.symbol "and", .symbol "a", .symbol "b", .symbol "c"]) globalScope =
        .ok (some (ToList [.symbol "if", .symbol "a",
          ToList [.symbol "if", .symbol "b", .symbol "c", .boolean false], .boolean false])) :=
  ⟨rfl,
   (and_expands_to_nested_if syntaxScopes [none, some [("and", andRules syntaxScope)]]
      syntaxScope globalScope [.boolean true] 40 rfl rfl (by decide)).1,
   (and_expands_to_nested_if syntaxScopes [none, some [("and", andRules syntaxScope)]]
      syntaxScope globalScope [.boolean true] 40 rfl rfl (by decide)).2 (List.cons_ne_nil _ _),
   (and_expands_to_nested_if syntaxScopes [none, some [("and", andRules syntaxScope)]]
      syntaxScope globalScope [.boolean true, .boolean false] 40 rfl rfl (by decide)).2
      (List.cons_ne_nil _ _),
   (and_expands_to_nested_if syntaxScopes [none, some [("and", andRules syntaxScope)]]
      syntaxScope globalScope [.symbol "a", .symbol "b", .symbol "c"] 40 rfl rfl (by decide)).2
      (List.cons_ne_nil _ _)⟩

/-! ## Patterns of variables -/

theorem envGet_append (l1 l2 : List (Symbol × Value)) (s : Symbol) :
    envGet (l1 ++ l2) s =
      match envGet l1 s with
      | some v => some v
      | none => envGet l2 s := by
  induction l1 with
  | nil => rfl
  | cons p l1 ih =>
    obtain ⟨k, v⟩ := p
    by_cases hk : k = s
    · simp only [List.cons_append, envGet, hk, if_true]
    · rw [List.cons_append, envGet, if_neg hk, envGet, if_neg hk]
      exact ih

theorem envGet_zip_none (xs : List Symbol) (s : Symbol) (hs : s ∉ xs) :
    ∀ args : List Value, envGet (xs.zip args) s = none := by
  induction xs with
  | nil => intro args; rfl
  | cons x xs ih =>
    intro args
    cases args with
    | nil => rfl
    | cons a args =>
      have hx : x ≠ s := fun h => hs (by rw [h]; exact List.mem_cons_self _ _)
      simp only [List.zip_cons_cons, envGet, hx, if_false]
      exact ih (fun h => hs (List.mem_cons_of_mem _ h)) args

/-- With distinct variables, the bindings the matcher made, the latest first,
bind every symbol as the list of the variables and their forms does. -/
theorem envGet_reverse_zip (xs : List Symbol) (hn : xs.Nodup) (s : Symbol) :
    ∀ args : List Value, envGet (xs.zip args).reverse s = envGet (xs.zip args) s := by
  induction xs with
  | nil => intro args; rfl
  | cons x xs ih =>
    intro args
    cases args with
    | nil => rfl
    | cons a args =>
      have hx := (List.nodup_cons.mp hn).1
      rw [List.zip_cons_cons, List.reverse_cons, envGet_append, ih (List.nodup_cons.mp hn).2]
      by_cases hk : x = s
      · subst hk
        simp only [envGet_zip_none xs x hx, envGet, if_true]
      · simp only [envGet, hk, if_false]
        cases envGet (xs.zip args) s <;> rfl

/-- The loop of `matchPattern` over a pattern of variables and as many forms
binds every variable to its form. -/
theorem matchLoop_variables (scopes : List Scope) (m : SyntaxMatcher) :
    ∀ (xs : List Symbol) (x : Symbol) (args : List Value) (a : Value) (fuel : Nat)
      (scope : List (Symbol × Value)),
      args.length = xs.length →
      (∀ y ∈ x :: xs, y ≠ "_" ∧ y ≠ "..." ∧ literalGet m.literals y = none) →
      xs.length + 3 ≤ fuel →
      SyntaxMatcher.matchLoop scopes m fuel (.symbol x) (ToList (xs.map .symbol))
          (some (a, ToList args)) scope =
        .ok (some (((x :: xs).zip (a :: args)).reverse ++ scope)) := by
  intro xs
  induction xs with
  | nil =>
    intro x args a fuel scope hlen hv hf
    obtain ⟨f, rfl⟩ : ∃ f, fuel = f + 1 := ⟨fuel - 1, by omega⟩
    have hx := hv x (List.mem_cons_self _ _)
    cases args with
    | nil =>
      simp only [List.map_nil, ToList]
      rw [matchLoop_variable_last scopes m f x _ _ _ (by omega) hx.1 hx.2.2,
        matchPattern_null scopes m f _ (by omega)]
      rfl
    | cons b args => simp at hlen
  | cons y xs ih =>
    intro x args a fuel scope hlen hv hf
    obtain ⟨f, rfl⟩ : ∃ f, fuel = f + 1 := ⟨fuel - 1, by omega⟩
    have hx := hv x (List.mem_cons_self _ _)
    have hy := hv y (List.mem_cons_of_mem _ (List.mem_cons_self _ _))
    cases args with
    | nil => simp at hlen
    | cons b args =>
      simp only [List.length_cons] at hlen hf
      simp only [List.map_cons, ToList]
      have he : isEllipsis (some (Value.symbol y, ToList (xs.map Value.symbol))) = false := by
        simp only [isEllipsis, beq_eq_false_iff_ne, ne_eq]
        exact hy.2.1
      rw [matchLoop_variable_step scopes m f x _ _ _ _ _ (by omega) hx.1 hx.2.2 he]
      simp only [Value.asPair]
      rw [ih y args b f _ (by omega) (fun z hz => hv z (List.mem_cons_of_mem _ hz)) (by omega)]
      simp only [envPut, List.zip_cons_cons, List.reverse_cons, List.append_assoc,
        List.singleton_append, List.cons_append, List.nil_append]
/-! ## Template substitution (C16) -/

theorem match_of_keyword_pattern (scopes : List Scope) (keywords : List KeywordTable)
    (m : SyntaxMatcher) (fuel : Nat) (pa fa : Value) (hpat : m.rule.pattern = .pair pa .null) :
    SyntaxMatcher.match_ scopes keywords m (fuel + 1) (.pair fa .null) =
      match SyntaxMatcher.emitTemplate scopes keywords m fuel m.rule.template [] with
      | .error e => .error e
      | .ok v => .ok (some v) := by
  rw [SyntaxMatcher.match_.eq_def]
  simp only [hpat, Value.asPair]

/-- C16 (amended): for a rule whose pattern is `(_ x1 ... xk)` with distinct
variables (symbols other than `_` and the ellipsis, none a literal) and whose
template has no ellipsis, no literal and no list that is headed, once the
variables are replaced by the arguments, by a keyword of the scope of the
rule, and for a form with exactly k arguments, the expansion is the template
in which every occurrence of `xi` is replaced by the i-th argument and every
other symbol and datum is left as it is. -/
theorem template_substitution (scopes : List Scope) (keywords : List KeywordTable)
    (literals : List (Symbol × ScopeRef)) (ruleScope formScope : ScopeRef) (k fa : Value)
    (xs : List Symbol) (args : List Value) (template : Value) (fuel : Nat)
    (hlen : args.length = xs.length) (hnodup : xs.Nodup)
    (hvars : ∀ x ∈ xs, x ≠ "_" ∧ x ≠ "..." ∧ literalGet literals x = none)
    (hplain : plainTemplate literals keywords ruleScope (xs.zip args) template = true)
    (hf : xs.length + 2 * templateSize template + 4 ≤ fuel) :
    SyntaxMatcher.match_ scopes keywords
        ⟨literals, ruleScope, formScope, ⟨ToList (k :: xs.map .symbol), template⟩⟩ fuel
        (ToList (fa :: args)) =
      .ok (some (substitute (xs.zip args) template)) := by
  obtain ⟨f, rfl⟩ : ∃ f, fuel = f + 1 := ⟨fuel - 1, by omega⟩
  cases xs with
  | nil =>
    cases args with
    | cons a args => simp at hlen
    | nil =>
      simp only [List.map_nil, ToList]
      rw [match_of_keyword_pattern _ _ _ _ _ _ rfl]
      have h := (emit_plain scopes keywords
        ⟨literals, ruleScope, formScope, ⟨.pair k .null, template⟩⟩ [] [] (fun _ => rfl) f).1
        template hplain (by simp only [List.length_nil] at hf; omega)
      simp only [h, List.zip_nil_left]
  | cons x xs =>
    cases args with
    | nil => simp at hlen
    | cons a args =>
      simp only [List.length_cons] at hlen hf
      rw [List.map_cons, match_of_pattern_list scopes keywords _ f k (.symbol x)
        (ToList (xs.map .symbol)) fa (a :: args) rfl, asPair_ToList_cons,
        SyntaxMatcher.matchPair,
        matchLoop_variables scopes _ xs x args a f [] (by omega) hvars (by omega)]
      have h := (emit_plain scopes keywords
        ⟨literals, ruleScope, formScope, ⟨ToList (k :: .symbol x :: xs.map .symbol), template⟩⟩
        ((x :: xs).zip (a :: args))
        (copyOut (((x :: xs).zip (a :: args)).reverse ++ []) [])
        (fun s => by
          rw [copyOut, List.append_nil, List.append_nil]
          exact envGet_reverse_zip (x :: xs) hnodup s (a :: args)) f).1
        template hplain (by omega)
      simp only [h]

theorem template_substitution_witness :
    SyntaxMatcher.match_ syntaxScopes [none, some [("and", andRules syntaxScope)]]
        ⟨[], syntaxScope, globalScope,
         ⟨ToList (.symbol "m" :: ["x", "y"].map .symbol),
          ToList [.symbol "if", .symbol "x", .symbol "y", .boolean false]⟩⟩ 40
        (ToList [.symbol "m", .symbol "and", .number 2]) =
      .ok (some (substitute (["x", "y"].zip [.symbol "and", .number 2])
        (ToList [.symbol "if", .symbol "x", .symbol "y", .boolean false]))) ∧
    substitute (["x", "y"].zip [.symbol "and", .number 2])
        (ToList [.symbol "if", .symbol "x", .symbol "y", .boolean false]) =
      ToList [.symbol "if", .symbol "and", .number 2, .boolean false] :=
  ⟨template_substitution syntaxScopes [none, some [("and", andRules syntaxScope)]] []
      syntaxScope globalScope (.symbol "m") (.symbol "m") ["x", "y"] [.symbol "and", .number 2]
      (ToList [.symbol "if", .symbol "x", .symbol "y", .boolean false]) 40 rfl (by decide)
      (by decide) rfl (by decide),
   rfl⟩

/-- The template `(x y)` has no ellipsis, no literal and no list headed by a
keyword, but with `and` for `x` the list it emits is headed by the keyword
`and` and is expanded: `(m and #t)` gives `#t` and not `(and #t)`. -/
theorem template_head_variable_chains :
    testMatch [andDefinition, applyDefinition] "m" 40
        (ToList [.symbol "m", .symbol "and", .boolean true]) = .ok (some (.boolean true)) ∧
    substitute (["x", "y"].zip [.symbol "and", .boolean true])
        (ToList [.symbol "x", .symbol "y"]) = ToList [.symbol "and", .boolean true] ∧
    testMatch [andDefinition, applyDefinition] "m" 40
        (ToList [.symbol "m", .symbol "and", .boolean true]) ≠
      .ok (some (substitute (["x", "y"].zip [.symbol "and", .boolean true])
        (ToList [.symbol "x", .symbol "y"]))) := by
  have h : testMatch [andDefinition, applyDefinition] "m" 40
      (ToList [.symbol "m", .symbol "and", .boolean true]) = .ok (some (.boolean true)) := rfl
  have h2 : substitute (["x", "y"].zip [.symbol "and", .boolean true])
      (ToList [.symbol "x", .symbol "y"]) = ToList [.symbol "and", .boolean true] := rfl
  refine ⟨h, h2, ?_⟩
  rw [h, h2]
  simp [ToList]

/-! ## Splicing (C17) -/

/-- The match of the pattern `(_ v ...)` against any number of forms binds
`v` to the vector of the forms and binds no other symbol. -/
theorem splice_match (scopes : List Scope) (m : SyntaxMatcher) (v : Symbol)
    (forms : List Value) (fuel : Nat) (hv : v ≠ "_")
    (hl : literalGet m.literals v = none) (hf : forms.length + 3 ≤ fuel) :
    ∃ bindings,
      SyntaxMatcher.matchPair scopes m fuel (.symbol v) (.pair (.symbol "...") .null)
          (Value.asPair (ToList forms)) [] = .ok (some bindings) ∧
      envGet bindings v = some (.vector forms) ∧
      ∀ s, s ≠ v → envGet bindings s = none := by
  have hcases : forms = [] ∨ ∃ front last, forms = front ++ [last] := by
    cases forms with
    | nil => exact Or.inl rfl
    | cons a l =>
      exact Or.inr ⟨(a :: l).dropLast, (a :: l).getLast (List.cons_ne_nil _ _),
        (List.dropLast_append_getLast _).symm⟩
  rcases hcases with h | ⟨front, last, h⟩
  · subst h
    refine ⟨[(v, .vector [])], ?_, ?_, ?_⟩
    · rw [SyntaxMatcher.matchPair]
      have : Value.asPair (ToList []) = none := rfl
      rw [this, matchLoop_ellipsis_last_none scopes m fuel v [] (by omega) hl]
      rfl
    · simp only [envGet, if_true]
    · intro s hs
      simp only [envGet, Ne.symm hs, if_false]
  · subst h
    simp only [List.length_append, List.length_singleton] at hf
    refine ⟨(v, .vector (front ++ [last])) :: (v, last) ::
      (front.reverse.map (fun f => (v, f)) ++ []), ?_, ?_, ?_⟩
    · rw [SyntaxMatcher.matchPair,
        matchLoop_ellipsis_last scopes m fuel v front last [] (by omega) hv hl]
      simp only [copyOut, List.append_nil]
    · simp only [envGet, if_true]
    · intro s hs
      rw [envGet, if_neg (Ne.symm hs), envGet, if_neg (Ne.symm hs),
        envGet_map_append v s (Ne.symm hs)]
      rfl

/-- C17 (amended): for every n >= 1, the template `(v ...)`, with `v` bound by
the pattern `(_ v ...)` to n matched forms, emits the proper list of those
forms in order, when the first form is no keyword of the scope of the rule;
and for every n >= 0 the template `(h v ...)`, for a symbol `h` that is no
variable, no literal and no keyword of the scope of the rule, emits `h`
followed by those n forms. -/
theorem splice_emits_matched_forms (scopes : List Scope) (keywords : List KeywordTable)
    (literals : List (Symbol × ScopeRef)) (ruleScope formScope : ScopeRef) (k fa : Value)
    (v h : Symbol) (forms : List Value) (fuel : Nat)
    (hv : v ≠ "_" ∧ v ≠ "..." ∧ literalGet literals v = none)
    (hh : h ≠ v ∧ literalGet literals h = none ∧
      isKeywordHead keywords ruleScope (.symbol h) = false)
    (hf : forms.length + 8 ≤ fuel) :
    (∀ first rest, forms = first :: rest → isKeywordHead keywords ruleScope first = false →
      SyntaxMatcher.match_ scopes keywords
          ⟨literals, ruleScope, formScope,
           ⟨ToList [k, .symbol v, .symbol "..."], ToList [.symbol v, .symbol "..."]⟩⟩ fuel
          (ToList (fa :: forms)) = .ok (some (ToList forms))) ∧
    SyntaxMatcher.match_ scopes keywords
        ⟨literals, ruleScope, formScope,
         ⟨ToList [k, .symbol v, .symbol "..."],
          ToList [.symbol h, .symbol v, .symbol "..."]⟩⟩ fuel
        (ToList (fa :: forms)) = .ok (some (ToList (.symbol h :: forms))) := by
  obtain ⟨f, rfl⟩ : ∃ f, fuel = f + 5 := ⟨fuel - 5, by omega⟩
  constructor
  · intro first rest hfr hk
    obtain ⟨bindings, h1, h2, _⟩ := splice_match scopes
      ⟨literals, ruleScope, formScope,
       ⟨ToList [k, .symbol v, .symbol "..."], ToList [.symbol v, .symbol "..."]⟩⟩
      v forms (f + 4) hv.1 hv.2.2 (by omega)
    rw [match_of_pattern_list scopes keywords _ (f + 4) k (.symbol v)
      (.pair (.symbol "...") .null) fa forms rfl, h1]
    simp only [ToList]
    rw [emitTemplate_pair, emitLoop_ellipsis]
    simp only [emitMatches, h2, Value.asPair, List.nil_append]
    subst hfr
    rw [emitEnd_plain _ _ _ _ _ _ _ hk]
  · obtain ⟨bindings, h1, h2, h3⟩ := splice_match scopes
      ⟨literals, ruleScope, formScope,
       ⟨ToList [k, .symbol v, .symbol "..."],
        ToList [.symbol h, .symbol v, .symbol "..."]⟩⟩
      v forms (f + 4) hv.1 hv.2.2 (by omega)
    have he : isEllipsis (Value.asPair
        (.pair (.symbol v) (.pair (.symbol "...") .null))) = false := by
      simp only [Value.asPair, isEllipsis, beq_eq_false_iff_ne, ne_eq]
      exact hv.2.1
    rw [match_of_pattern_list scopes keywords _ (f + 4) k (.symbol v)
      (.pair (.symbol "...") .null) fa forms rfl, h1]
    simp only [ToList]
    rw [emitTemplate_pair, emitLoop_plain _ _ _ _ _ _ _ _ he,
      emitTemplate_symbol _ _ _ _ _ _ (by omega) hh.2.1, h3 h hh.1]
    simp only [Option.getD, Value.asPair, List.nil_append]
    rw [emitLoop_ellipsis]
    simp only [emitMatches, h2, Value.asPair, List.cons_append, List.nil_append]
    rw [emitEnd_plain _ _ _ _ _ _ _ hh.2.2]
    rfl

theorem splice_emits_matched_forms_witness :
    SyntaxMatcher.match_ syntaxScopes [none, some [("and", andRules syntaxScope)]]
        ⟨[], syntaxScope, globalScope,
         ⟨ToList [.symbol "m", .symbol "v", .symbol "..."],
          ToList [.symbol "v", .symbol "..."]⟩⟩ 20
        (ToList [.symbol "m", .number 1, .number 2]) =
      .ok (some (ToList [.number 1, .number 2])) ∧
    SyntaxMatcher.match_ syntaxScopes [none, some [("and", andRules syntaxScope)]]
        ⟨[], syntaxScope, globalScope,
         ⟨ToList [.symbol "m", .symbol "v", .symbol "..."],
          ToList [.symbol "list", .symbol "v", .symbol "..."]⟩⟩ 20
        (ToList [.symbol "m"]) = .ok (some (ToList [.symbol "list"])) ∧
    SyntaxMatcher.match_ syntaxScopes [none, some [("and", andRules syntaxScope)]]
        ⟨[], syntaxScope, globalScope,
         ⟨ToList [.symbol "m", .symbol "v", .symbol "..."],
          ToList [.symbol "list", .symbol "v", .symbol "..."]⟩⟩ 20
        (ToList [.symbol "m", .number 1, .number 2]) =
      .ok (some (ToList [.symbol "list", .number 1, .number 2])) :=
  ⟨(splice_emits_matched_forms syntaxScopes [none, some [("and", andRules syntaxScope)]] []
      syntaxScope globalScope (.symbol "m") (.symbol "m") "v" "list" [.number 1, .number 2] 20
      (by decide) ⟨by decide, rfl, rfl⟩ (by decide)).1 _ _ rfl rfl,
   (splice_emits_matched_forms syntaxScopes [none, some [("and", andRules syntaxScope)]] []
      syntaxScope globalScope (.symbol "m") (.symbol "m") "v" "list" [] 20
      (by decide) ⟨by decide, rfl, rfl⟩ (by decide)).2,
   (splice_emits_matched_forms syntaxScopes [none, some [("and", andRules syntaxScope)]] []
      syntaxScope globalScope (.symbol "m") (.symbol "m") "v" "list" [.number 1, .number 2] 20
      (by decide) ⟨by decide, rfl, rfl⟩ (by decide)).2⟩

/-- The template `(and v ...)` in a scope in which `and` is a keyword does not
emit `and` followed by the forms: the list is expanded by the ruleset of
`and`.  And the template `(v ...)` with no matched form panics, where the
empty list is expected: nothing is linked, and the car of the nil `head` is
read. -/
theorem splice_head_keyword_expands_and_empty_splice_panics :
    testMatch [andDefinition, spliceAndDefinition] "m" 40
        (ToList [.symbol "m", .boolean false]) = .ok (some (.boolean false)) ∧
    testMatch [andDefinition, spliceAndDefinition] "m" 40
        (ToList [.symbol "m", .boolean false]) ≠
      .ok (some (ToList [.symbol "and", .boolean false])) ∧
    SyntaxMatcher.match_ [] [] spliceMatcher 20 (ToList [.symbol "m"]) = .error nilDeref ∧
    SyntaxMatcher.match_ [] [] spliceMatcher 20 (ToList [.symbol "m"]) ≠ .ok (some .null) := by
  have h : testMatch [andDefinition, spliceAndDefinition] "m" 40
      (ToList [.symbol "m", .boolean false]) = .ok (some (.boolean false)) := rfl
  have h2 : SyntaxMatcher.match_ [] [] spliceMatcher 20 (ToList [.symbol "m"]) =
      .error nilDeref := rfl
  refine ⟨h, ?_, h2, ?_⟩
  · rw [h]
    simp [ToList]
  · rw [h2]
    simp


/-! ## Scope chains: lookup, set and setIfBound (eval.go) -/

theorem get?_set_same {α : Type} (l : List α) (a : Nat) (x : α) (h : a < l.length) :
    (l.set a x).get? a = some x := by
  simp [List.get?_eq_getElem?, List.getElem?_set, h]

theorem get?_set_other {α : Type} (l : List α) (a b : Nat) (x : α) (h : b ≠ a) :
    (l.set a x).get? b = l.get? b := by
  simp [List.get?_eq_getElem?, List.getElem?_set, Ne.symm h]

theorem get?_isSome_of_lt {α : Type} (l : List α) (a : Nat) (h : a < l.length) :
    ∃ x, l.get? a = some x := by
  rw [List.get?_eq_getElem?, List.getElem?_eq_getElem h]
  exact ⟨_, rfl⟩

theorem envGet_envPut_same (env : List (Symbol × Value)) (name : Symbol) (v : Value) :
    envGet (envPut env name v) name = some v := by
  simp [envPut, envGet]

theorem envGet_envPut_other (env : List (Symbol × Value)) (name n : Symbol) (v : Value)
    (h : n ≠ name) : envGet (envPut env name v) n = envGet env n := by
  simp [envPut, envGet, Ne.symm h]

/-- A write to a cell that is not on the chain leaves every lookup from the chain as it was. -/
theorem lookup_set_off_chain (scopes : List Scope) (a : Nat) (cell : Scope) (s : ScopeRef)
    (n : Symbol) (h : a ∉ s) : Scope.lookup (scopes.set a cell) s n = Scope.lookup scopes s n := by
  induction s with
  | nil => rfl
  | cons b outer ih =>
    have hb : b ≠ a := fun e => h (by simp [e])
    have ho : a ∉ outer := fun e => h (by simp [e])
    simp only [Scope.lookup, get?_set_other scopes a b cell hb, ih ho]

/-- The lookup along a chain whose first scopes do not bind the name goes on in the rest. -/
theorem lookup_skip (scopes : List Scope) (inner rest : ScopeRef) (name : Symbol)
    (hv : ∀ b ∈ inner, b < scopes.length)
    (h : ∀ b ∈ inner, ∀ c, scopes.get? b = some c → envGet c.env name = none) :
    Scope.lookup scopes (inner ++ rest) name = Scope.lookup scopes rest name := by
  induction inner with
  | nil => rfl
  | cons b inner ih =>
    obtain ⟨c, hc⟩ := get?_isSome_of_lt scopes b (hv b (by simp))
    rw [List.cons_append, Scope.lookup, hc]
    simp only [h b (by simp) c hc]
    exact ih (fun x hx => hv x (by simp [hx])) (fun x hx => h x (by simp [hx]))

theorem lookup_eq_none_iff (scopes : List Scope) (s : ScopeRef) (name : Symbol)
    (hs : ∀ a ∈ s, a < scopes.length) :
    Scope.lookup scopes s name = none ↔
      ∀ a ∈ s, ∀ c, scopes.get? a = some c → envGet c.env name = none := by
  induction s with
  | nil => simp [Scope.lookup]
  | cons b outer ih =>
    obtain ⟨c, hc⟩ := get?_isSome_of_lt scopes b (hs b (by simp))
    have ih2 := ih (fun x hx => hs x (by simp [hx]))
    rw [Scope.lookup, hc]
    cases hg : envGet c.env name with
    | some v =>
      simp only [hg, false_iff, reduceCtorEq]
      intro hall
      have := hall b (by simp) c hc
      rw [hg] at this
      cases this
    | none =>
      simp only [hg]
      rw [ih2]
      constructor
      · intro hall a ha c2 hc2
        rcases List.mem_cons.1 ha with rfl | ha2
        · rw [hc] at hc2; cases hc2; exact hg
        · exact hall a ha2 c2 hc2
      · intro hall a ha c2 hc2
        exact hall a (by simp [ha]) c2 hc2

/-- C21: on a chain of allocated scopes, `lookup` returns the value stored in
the innermost scope of the chain that binds the name, and it reports not-found
exactly when no scope of the chain binds the name; after `set(name, v)` on a
child scope the lookup from the child returns `v` and every lookup from the
outer scope returns what it returned before. -/
theorem lookup_returns_innermost_binding (scopes : List Scope) (s : ScopeRef) (name : Symbol)
    (hs : ∀ a ∈ s, a < scopes.length) :
    (∀ (inner : ScopeRef) (a : Nat) (outer : ScopeRef) (cell : Scope) (v : Value),
        s = inner ++ a :: outer → scopes.get? a = some cell → envGet cell.env name = some v →
        (∀ b ∈ inner, ∀ c, scopes.get? b = some c → envGet c.env name = none) →
        Scope.lookup scopes s name = some v) ∧
    (Scope.lookup scopes s name = none ↔
        ∀ a ∈ s, ∀ c, scopes.get? a = some c → envGet c.env name = none) ∧
    (∀ (child : Nat) (outer : ScopeRef) (v : Value), s = child :: outer → child ∉ outer →
        ∃ scopes2, Scope.set scopes s name v = .ok scopes2 ∧
          Scope.lookup scopes2 s name = some v ∧
          ∀ n, Scope.lookup scopes2 outer n = Scope.lookup scopes outer n) := by
  refine ⟨?_, lookup_eq_none_iff scopes s name hs, ?_⟩
  · intro inner a outer cell v hsplit hcell hget hinner
    subst hsplit
    rw [lookup_skip scopes inner (a :: outer) name
      (fun b hb => hs b (by simp [hb])) hinner, Scope.lookup, hcell]
    simp only [hget]
  · intro child outer v hsplit hfresh
    subst hsplit
    have hlt : child < scopes.length := hs child (by simp)
    obtain ⟨cell, hcell⟩ := get?_isSome_of_lt scopes child hlt
    refine ⟨scopes.set child ⟨envPut cell.env name v⟩, ?_, ?_, ?_⟩
    · simp only [Scope.set, hcell]
    · rw [Scope.lookup, get?_set_same scopes child _ hlt]
      simp only [envGet_envPut_same]
    · intro n
      exact lookup_set_off_chain scopes child _ outer n hfresh

theorem lookup_returns_innermost_binding_witness :
    (∀ a ∈ ([1, 0] : ScopeRef),
        a < ([⟨[("x", .number 1)]⟩, ⟨[("y", .number 2)]⟩] : List Scope).length) ∧
    Scope.lookup [⟨[("x", .number 1)]⟩, ⟨[("y", .number 2)]⟩] [1, 0] "x" = some (.number 1) :=
  ⟨by decide,
    (lookup_returns_innermost_binding [⟨[("x", .number 1)]⟩, ⟨[("y", .number 2)]⟩] [1, 0] "x"
      (by decide)).1 [1] 0 [] ⟨[("x", .number 1)]⟩ (.number 1) rfl rfl rfl
      (fun b hb c hc => by
        rw [List.mem_singleton] at hb
        subst hb
        cases hc
        rfl)⟩

theorem setIfBound_eq_none_iff (scopes : List Scope) (s : ScopeRef) (name : Symbol) (v : Value)
    (hs : ∀ a ∈ s, a < scopes.length) :
    Scope.setIfBound scopes s name v = none ↔ Scope.lookup scopes s name = none := by
  induction s with
  | nil => simp [Scope.setIfBound, Scope.lookup]
  | cons b outer ih =>
    obtain ⟨c, hc⟩ := get?_isSome_of_lt scopes b (hs b (by simp))
    have ih2 := ih (fun x hx => hs x (by simp [hx]))
    rw [Scope.setIfBound, Scope.lookup, hc]
    cases hg : envGet c.env name with
    | some w => simp only [hg, reduceCtorEq]
    | none => simp only [hg]; exact ih2

/-- C22: on a chain of allocated scopes, `setIfBound` returns true (here: a
new heap) exactly when some scope of the chain binds the name; then the
innermost scope of the chain that binds it is the only cell that is written,
in that cell the name is bound to `v` and every other name keeps its binding,
and no cell is allocated.  When it returns false there is no write at all (the
result carries no heap). -/
theorem setIfBound_updates_innermost_binding (scopes : List Scope) (s : ScopeRef)
    (name : Symbol) (v : Value) (hs : ∀ a ∈ s, a < scopes.length) :
    ((∃ scopes2, Scope.setIfBound scopes s name v = some scopes2) ↔
        ∃ a ∈ s, ∃ c w, scopes.get? a = some c ∧ envGet c.env name = some w) ∧
    (∀ scopes2, Scope.setIfBound scopes s name v = some scopes2 →
        ∃ (inner : ScopeRef) (a : Nat) (outer : ScopeRef) (cell cell2 : Scope) (w : Value),
          s = inner ++ a :: outer ∧
          (∀ b ∈ inner, ∀ c, scopes.get? b = some c → envGet c.env name = none) ∧
          scopes.get? a = some cell ∧ envGet cell.env name = some w ∧
          scopes2.length = scopes.length ∧
          scopes2.get? a = some cell2 ∧ envGet cell2.env name = some v ∧
          (∀ n, n ≠ name → envGet cell2.env n = envGet cell.env n) ∧
          (∀ b, b ≠ a → scopes2.get? b = scopes.get? b)) := by
  constructor
  · constructor
    · rintro ⟨scopes2, h2⟩
      have hne : Scope.lookup scopes s name ≠ none := fun hl =>
        by rw [(setIfBound_eq_none_iff scopes s name v hs).2 hl] at h2; cases h2
      by_contra hno
      apply hne
      rw [lookup_eq_none_iff scopes s name hs]
      intro a ha c hc
      cases hg : envGet c.env name with
      | none => rfl
      | some w => exact absurd ⟨a, ha, c, w, hc, hg⟩ hno
    · rintro ⟨a, ha, c, w, hc, hg⟩
      cases h2 : Scope.setIfBound scopes s name v with
      | some scopes2 => exact ⟨scopes2, rfl⟩
      | none =>
        have hl := (setIfBound_eq_none_iff scopes s name v hs).1 h2
        rw [lookup_eq_none_iff scopes s name hs] at hl
        have := hl a ha c hc
        rw [hg] at this
        cases this
  · induction s with
    | nil => intro scopes2 h2; cases h2
    | cons b rest ih =>
      intro scopes2 h2
      have hlt : b < scopes.length := hs b (by simp)
      obtain ⟨c, hc⟩ := get?_isSome_of_lt scopes b hlt
      rw [Scope.setIfBound, hc] at h2
      cases hg : envGet c.env name with
      | some w =>
        simp only [hg, Option.some.injEq] at h2
        subst h2
        refine ⟨[], b, rest, c, ⟨envPut c.env name v⟩, w, rfl, ?_, hc, hg, ?_, ?_, ?_, ?_, ?_⟩
        · intro x hx; cases hx
        · simp
        · exact get?_set_same scopes b _ hlt
        · exact envGet_envPut_same _ _ _
        · intro n hn; exact envGet_envPut_other _ _ _ _ hn
        · intro x hx; exact get?_set_other scopes b x _ hx
      | none =>
        simp only [hg] at h2
        obtain ⟨inner, a, outer, cell, cell2, w, hsplit, hinner, hrest⟩ :=
          ih (fun x hx => hs x (by simp [hx])) scopes2 h2
        refine ⟨b :: inner, a, outer, cell, cell2, w, by rw [hsplit]; rfl, ?_, hrest⟩
        intro x hx c2 hc2
        rcases List.mem_cons.1 hx with rfl | hx2
        · rw [hc] at hc2; cases hc2; exact hg
        · exact hinner x hx2 c2 hc2

theorem setIfBound_updates_innermost_binding_witness :
    (∀ a ∈ ([1, 0] : ScopeRef),
        a < ([⟨[("x", .number 1)]⟩, ⟨[("y", .number 2)]⟩] : List Scope).length) ∧
    ∃ scopes2, Scope.setIfBound [⟨[("x", .number 1)]⟩, ⟨[("y", .number 2)]⟩] [1, 0] "x"
      (.number 5) = some scopes2 :=
  ⟨by decide,
    (setIfBound_updates_innermost_binding [⟨[("x", .number 1)]⟩, ⟨[("y", .number 2)]⟩] [1, 0]
      "x" (.number 5) (by decide)).1.2 ⟨0, by decide, ⟨[("x", .number 1)]⟩, .number 1, rfl, rfl⟩⟩

/-! ## Calls of compiled closures: the binding of the formals (vm.go) -/

/-- The loop `for i, sym := range formals { scope.set(sym, args[i]) }` on distinct
formals: the cell of the scope binds every formal to its argument and keeps
the other names; no other cell is written. -/
theorem bindFormals_spec (xs : List Symbol) :
    ∀ (scopes : List Scope) (a : Nat) (outer : ScopeRef) (args : List Value) (cell : Scope),
      xs.Nodup → xs.length ≤ args.length → scopes.get? a = some cell →
      ∃ scopes2 cell2, bindFormals scopes (a :: outer) xs args = .ok scopes2 ∧
        scopes2.length = scopes.length ∧ scopes2.get? a = some cell2 ∧
        (∀ b, b ≠ a → scopes2.get? b = scopes.get? b) ∧
        (∀ i (hi : i < xs.length), envGet cell2.env (xs.get ⟨i, hi⟩) = args.get? i) ∧
        (∀ n, n ∉ xs → envGet cell2.env n = envGet cell.env n) := by
  induction xs with
  | nil =>
    intro scopes a outer args cell _ _ hc
    exact ⟨scopes, cell, rfl, rfl, hc, fun _ _ => rfl, fun i hi => absurd hi (Nat.not_lt_zero i), fun _ _ => rfl⟩
  | cons x xs ih =>
    intro scopes a outer args cell hnd hlen hc
    cases args with
    | nil => simp at hlen
    | cons arg args =>
      have hlt : a < scopes.length := by
        rw [List.get?_eq_some] at hc
        exact hc.1
      have hx : x ∉ xs := (List.nodup_cons.1 hnd).1
      obtain ⟨scopes2, cell2, h1, h2, h3, h4, h5, h6⟩ :=
        ih (scopes.set a ⟨envPut cell.env x arg⟩) a outer args ⟨envPut cell.env x arg⟩
          (List.nodup_cons.1 hnd).2 (by simpa using hlen) (get?_set_same scopes a _ hlt)
      refine ⟨scopes2, cell2, ?_, ?_, h3, ?_, ?_, ?_⟩
      · simp only [bindFormals, Scope.set, hc, h1]
      · rw [h2, List.length_set]
      · intro b hb
        rw [h4 b hb, get?_set_other scopes a b _ hb]
      · intro i hi
        cases i with
        | zero =>
          show envGet cell2.env x = some arg
          rw [h6 x hx]
          exact envGet_envPut_same _ _ _
        | succ j => exact h5 j (by simpa using hi)
      · intro n hn
        have hnx : n ≠ x := fun e => hn (by simp [e])
        have hnxs : n ∉ xs := fun e => hn (by simp [e])
        rw [h6 n hnxs]
        exact envGet_envPut_other _ _ _ _ hnx

/-- The entry of a call: a call of a compiled closure whose formals are the
distinct variables `x1..xk` (followed by the rest variable `r` when the
procedure is variadic) with the arguments `a1..am` fails when `m < k`; otherwise the machine goes on at the
start of the body with a scope that is a fresh cell whose outer scope is the
scope captured by the closure, the cells allocated before are unchanged, and the
fresh cell binds each `xi` to `ai`, binds `r` (when variadic) to the proper list
`(a(k+1) ... am)`, and binds nothing else. -/
theorem closure_call_binds_formals (m : VM) (tail : Bool) (c : CompiledClosure)
    (stack args : List Value) (nargs : Nat) (xs : List Symbol) (r : Symbol)
    (frames1 : List Frame) (hsave : m.save stack = .ok frames1)
    (hformals : c.proc.formals = if c.proc.isVariadic then xs ++ [r] else xs)
    (hnodup : c.proc.formals.Nodup) :
    (args.length < xs.length →
        VM.callClosure m tail c false stack args nargs = .error (arityMessage c.proc)) ∧
    (xs.length ≤ args.length →
        ∃ m2 cell, VM.callClosure m tail c false stack args nargs = .ok (.next m2) ∧
          m2.scope = m.scopes.length :: c.scope ∧
          m2.scopes.length = m.scopes.length + 1 ∧
          (∀ b, b < m.scopes.length → m2.scopes.get? b = m.scopes.get? b) ∧
          m2.body = c.proc.body ∧ m2.pc = 0 ∧ m2.stack = [] ∧
          m2.scopes.get? m.scopes.length = some cell ∧
          (∀ i (hi : i < xs.length),
            Scope.lookup m2.scopes m2.scope (xs.get ⟨i, hi⟩) = args.get? i) ∧
          (c.proc.isVariadic = true →
            Scope.lookup m2.scopes m2.scope r = some (ToList (args.drop xs.length))) ∧
          (∀ n, n ∉ c.proc.formals → envGet cell.env n = none)) := by
  have hfresh : (m.scopes ++ [(⟨[]⟩ : Scope)]).get? m.scopes.length = some ⟨[]⟩ := by
    simp [List.get?_eq_getElem?]
  have hold : ∀ b, b < m.scopes.length →
      (m.scopes ++ [(⟨[]⟩ : Scope)]).get? b = m.scopes.get? b := by
    intro b hb
    simp [List.get?_eq_getElem?, List.getElem?_append_left hb]
  cases hv : c.proc.isVariadic with
  | false =>
    rw [hv] at hformals
    simp only [Bool.false_eq_true, if_false] at hformals
    constructor
    · intro hlt
      simp only [VM.callClosure, hsave, Scope.push, VM.assignFormals, hv, hformals, hlt,
        Bool.false_eq_true, if_false, if_true]
    · intro hle
      obtain ⟨scopes2, cell2, h1, h2, h3, h4, h5, h6⟩ :=
        bindFormals_spec xs (m.scopes ++ [⟨[]⟩]) m.scopes.length c.scope args ⟨[]⟩
          (hformals ▸ hnodup) hle hfresh
      have hcall : ∃ m2, VM.callClosure m tail c false stack args nargs = .ok (.next m2) ∧
          m2.scope = m.scopes.length :: c.scope ∧ m2.scopes = scopes2 ∧
          m2.body = c.proc.body ∧ m2.pc = 0 ∧ m2.stack = [] := by
        simp only [VM.callClosure, hsave, Scope.push, VM.assignFormals, hv, hformals,
          Nat.not_lt.2 hle, Bool.false_eq_true, if_false, h1]
        exact ⟨_, rfl, rfl, rfl, rfl, rfl, rfl⟩
      obtain ⟨m2, hc1, hc2, hc3, hc4, hc5, hc6⟩ := hcall
      refine ⟨m2, cell2, hc1, hc2, ?_, ?_, hc4, hc5, hc6, ?_, ?_, ?_, ?_⟩
      · rw [hc3, h2, List.length_append]; rfl
      · intro b hb
        rw [hc3, h4 b (Nat.ne_of_lt hb), hold b hb]
      · rw [hc3]; exact h3
      · intro i hi
        rw [hc3, hc2, Scope.lookup, h3]
        have hsome : args.get? i = some (args.get ⟨i, by omega⟩) := List.get?_eq_get _
        simp only [h5 i hi, hsome]
      · intro hcontra; cases hcontra
      · intro n hn
        rw [h6 n (hformals ▸ hn)]; rfl
  | true =>
    rw [hv] at hformals
    simp only [if_true] at hformals
    have hlast : c.proc.formals.getLast? = some r := by rw [hformals]; simp
    have hdrop : c.proc.formals.dropLast = xs := by rw [hformals]; simp
    have hnd : (xs ++ [r]).Nodup := hformals ▸ hnodup
    have hxs : xs.Nodup := (List.nodup_append.1 hnd).1
    have hr : r ∉ xs := fun hmem => (List.nodup_append.1 hnd).2.2 hmem (by simp)
    constructor
    · intro hlt
      simp only [VM.callClosure, hsave, Scope.push, VM.assignFormals, hv, hlast, hdrop, hlt,
        Bool.false_eq_true, if_false, if_true]
    · intro hle
      obtain ⟨scopes2, cell2, h1, h2, h3, h4, h5, h6⟩ :=
        bindFormals_spec xs (m.scopes ++ [⟨[]⟩]) m.scopes.length c.scope args ⟨[]⟩
          hxs hle hfresh
      have hlt2 : m.scopes.length < scopes2.length := by
        rw [h2, List.length_append]; simp
      have hcall : ∃ m2, VM.callClosure m tail c false stack args nargs = .ok (.next m2) ∧
          m2.scope = m.scopes.length :: c.scope ∧
          m2.scopes = scopes2.set m.scopes.length
            ⟨envPut cell2.env r (ToList (args.drop xs.length))⟩ ∧
          m2.body = c.proc.body ∧ m2.pc = 0 ∧ m2.stack = [] := by
        simp only [VM.callClosure, hsave, Scope.push, VM.assignFormals, hv, hlast, hdrop,
          Nat.not_lt.2 hle, Bool.false_eq_true, if_false, if_true, h1, Scope.set, h3]
        exact ⟨_, rfl, rfl, rfl, rfl, rfl, rfl⟩
      obtain ⟨m2, hc1, hc2, hc3, hc4, hc5, hc6⟩ := hcall
      refine ⟨m2, ⟨envPut cell2.env r (ToList (args.drop xs.length))⟩, hc1, hc2, ?_, ?_, hc4,
        hc5, hc6, ?_, ?_, ?_, ?_⟩
      · rw [hc3, List.length_set, h2, List.length_append]; rfl
      · intro b hb
        rw [hc3, get?_set_other scopes2 _ b _ (Nat.ne_of_lt hb), h4 b (Nat.ne_of_lt hb),
          hold b hb]
      · rw [hc3]; exact get?_set_same scopes2 _ _ hlt2
      · intro i hi
        rw [hc3, hc2, Scope.lookup, get?_set_same scopes2 _ _ hlt2]
        have hne : xs.get ⟨i, hi⟩ ≠ r := fun e => hr (e ▸ List.get_mem xs i hi)
        have hsome : args.get? i = some (args.get ⟨i, by omega⟩) := List.get?_eq_get _
        simp only [envGet_envPut_other _ _ _ _ hne, h5 i hi, hsome]
      · intro _
        rw [hc3, hc2, Scope.lookup, get?_set_same scopes2 _ _ hlt2]
        simp only [envGet_envPut_same]
      · intro n hn
        have hnr : n ≠ r := fun e => hn (by rw [hformals]; simp [e])
        have hnxs : n ∉ xs := fun e => hn (by rw [hformals]; simp [e])
        show envGet (envPut cell2.env r _) n = none
        rw [envGet_envPut_other _ _ _ _ hnr, h6 n hnxs]; rfl

theorem closure_call_binds_formals_witness :
    bindingExample.save [] = .ok bindingExample.frames ∧
    ∃ m2, VM.callClosure bindingExample false ⟨restProc, globalScope⟩ false []
        [.number 1, .number 2, .number 3] 3 = .ok (.next m2) ∧
      Scope.lookup m2.scopes m2.scope "r" = some (ToList [.number 2, .number 3]) := by
  have h := (closure_call_binds_formals bindingExample false ⟨restProc, globalScope⟩ []
    [.number 1, .number 2, .number 3] 3 ["x"] "r" bindingExample.frames rfl rfl (by decide)).2
    (by decide)
  obtain ⟨m2, cell, h1, h2, h3, h4, h5, h6, h7, h8, h9, h10, h11⟩ := h
  exact ⟨rfl, m2, h1, h10 rfl⟩

/-- C23 (the code breaks the claim): a call of a compiled closure enters the
body in a fresh scope, chained on the scope the closure captured, that binds
the formals, but the body does not go on running there.  In the compiled code
of `((lambda (x) ((lambda (y) y) 1) x) v)` the body of the outer procedure is
entered with `x` bound to `v` in the fresh scope; after its non-tail call has
returned, the same frame continues at the next instruction of the same body in
the scope captured by the closure, where `x` is not bound although the fresh
scope still binds it, and the reference to `x` fails. -/
theorem body_continues_in_captured_scope (v : Int) :
    ∃ code m0, compileBody [nonTailProgram v] = .ok code ∧
      (rootClosure code [1, 0]).enter [] testScopes [] = .ok m0 ∧
      (∃ m3, m0.run 3 = .ok (.next m3) ∧
        m3.body = nonTailOuter.body ∧ m3.pc = 0 ∧ m3.stack = [] ∧ m3.mstack = [1] ∧
        m3.scope = [3, 2, 1, 0] ∧
        m3.scopes.get? 3 = some ⟨[("x", .number v)]⟩ ∧
        Scope.lookup m3.scopes m3.scope "x" = some (.number v)) ∧
      (∃ m8, m0.run 8 = .ok (.next m8) ∧
        m8.body = nonTailOuter.body ∧ m8.pc = 3 ∧ m8.stack = [.number 1] ∧ m8.mstack = [1] ∧
        m8.scope = [2, 1, 0] ∧
        m8.scopes.get? 3 = some ⟨[("x", .number v)]⟩ ∧
        Scope.lookup m8.scopes m8.scope "x" = none ∧
        m8.step = .error "x is not bound") ∧
      m0.run 9 = .error "x is not bound" :=
  ⟨nonTailCode v, _, compileBody_nonTailProgram v, rfl,
    ⟨_, rfl, rfl, rfl, rfl, rfl, rfl, rfl, rfl⟩,
    ⟨_, rfl, rfl, rfl, rfl, rfl, rfl, rfl, rfl, rfl⟩, rfl⟩


/-! ## The arity check of `assignFormals` (vm.go) -/

theorem compileBody_extraArgumentProgram :
    compileBody [extraArgumentProgram] = .ok extraArgumentCode := by
  have happ := fun a d cdr tail =>
    compile_application (.pair a d) cdr tail (by simp [Value.asSymbol, specialForms])
  simp only [extraArgumentProgram, ToList, compileBody_cons, List.dropLast, List.getLast,
    compileSeq_nil,
    compileSeq_cons, compile_number, compile_symbol, compile_lambda_form,
    compileLambda_eq, happ, Value.ToVector, makeFormals, makeFormalsLoop, ok_bind,
    List.cons_append, List.nil_append, List.getLast?, List.length_cons, List.length_nil,
    Instruction.code, List.mem_cons, List.not_mem_nil, List.append_nil, ne_eq,
    not_true_eq_false, not_false_eq_true, if_true, if_false, ite_true, ite_false,
    Bool.false_eq_true, reduceCtorEq]
  rfl

theorem compileBody_missingArgumentProgram :
    compileBody [missingArgumentProgram] = .ok missingArgumentCode := by
  have happ := fun a d cdr tail =>
    compile_application (.pair a d) cdr tail (by simp [Value.asSymbol, specialForms])
  simp only [missingArgumentProgram, ToList, compileBody_cons, List.dropLast, List.getLast,
    compileSeq_nil,
    compileSeq_cons, compile_number, compile_symbol, compile_lambda_form,
    compileLambda_eq, happ, Value.ToVector, makeFormals, makeFormalsLoop, ok_bind,
    List.cons_append, List.nil_append, List.getLast?, List.length_cons, List.length_nil,
    Instruction.code, List.mem_cons, List.not_mem_nil, List.append_nil, ne_eq,
    not_true_eq_false, not_false_eq_true, if_true, if_false, ite_true, ite_false,
    Bool.false_eq_true, reduceCtorEq]
  rfl

/-- The loop over the formals reads only the first arguments. -/
theorem bindFormals_append (xs : List Symbol) :
    ∀ (scopes : List Scope) (scope : ScopeRef) (args extra : List Value),
      xs.length ≤ args.length →
      bindFormals scopes scope xs (args ++ extra) = bindFormals scopes scope xs args := by
  induction xs with
  | nil => intro scopes scope args extra _; cases args <;> rfl
  | cons x xs ih =>
    intro scopes scope args extra hlen
    cases args with
    | nil => simp at hlen
    | cons arg args =>
      rw [List.cons_append, bindFormals, bindFormals]
      cases Scope.set scopes scope x arg with
      | error e => rfl
      | ok scopes1 => exact ih scopes1 scope args extra (by simpa using hlen)

/-- C24 (the code breaks the claim): a procedure of fixed arity called with
more arguments than formals does not fail.  The compiled code of
`((lambda (x) x) 1 2)` runs to the value 1, while `((lambda (x) x))` fails with
the arity error; for every procedure that is not variadic, arguments beyond
the formals are ignored by `assignFormals`. -/
theorem extra_arguments_are_ignored :
    (∃ code, compileBody [extraArgumentProgram] = .ok code ∧
      (rootClosure code [1, 0]).Apply 9 [] testScopes [] = .ok (.done (.number 1))) ∧
    (∃ code, compileBody [missingArgumentProgram] = .ok code ∧
      (rootClosure code [1, 0]).Apply 9 [] testScopes [] =
        .error "<lambda> expects 1 arguments") ∧
    (∀ (scopes : List Scope) (p : CompiledProcedure) (scope : ScopeRef)
        (args extra : List Value), p.isVariadic = false → args.length = p.formals.length →
      VM.assignFormals scopes p scope (args ++ extra) = VM.assignFormals scopes p scope args) := by
  refine ⟨⟨extraArgumentCode, compileBody_extraArgumentProgram, rfl⟩,
    ⟨missingArgumentCode, compileBody_missingArgumentProgram, rfl⟩, ?_⟩
  intro scopes p scope args extra hv hlen
  have h1 : ¬ (args ++ extra).length < p.formals.length := by
    rw [List.length_append]; omega
  have h2 : ¬ args.length < p.formals.length := by omega
  simp only [VM.assignFormals, hv, Bool.false_eq_true, if_false, h1, h2]
  exact bindFormals_append p.formals scopes scope args extra (by omega)

/-! ## The formals of a lambda expression (values.go) -/

theorem makeFormalsLoop_proper (xs : List Symbol) :
    ∀ (x : Symbol) (formals : List Symbol), (formals ++ x :: xs).Nodup →
      makeFormalsLoop (formalsDeclaration (x :: xs) .null) formals =
        .ok (formals ++ x :: xs, false) := by
  induction xs with
  | nil =>
    intro x formals hnd
    have hx : x ∉ formals := fun h => by
      have := List.nodup_append.1 hnd
      exact this.2.2 h (by simp)
    simp only [formalsDeclaration, List.foldr, makeFormalsLoop, hx, if_false]
  | cons y ys ih =>
    intro x formals hnd
    have hx : x ∉ formals := fun h => by
      have := List.nodup_append.1 hnd
      exact this.2.2 h (by simp)
    have h2 := ih y (formals ++ [x]) (by simpa using hnd)
    simp only [formalsDeclaration, List.foldr] at h2 ⊢
    simp only [makeFormalsLoop, hx, if_false]
    rw [h2]
    simp

theorem makeFormalsLoop_improper (xs : List Symbol) (r : Symbol) :
    ∀ (x : Symbol) (formals : List Symbol), (formals ++ x :: xs).Nodup →
      makeFormalsLoop (formalsDeclaration (x :: xs) (.symbol r)) formals =
        .ok (formals ++ x :: xs ++ [r], true) := by
  induction xs with
  | nil =>
    intro x formals hnd
    have hx : x ∉ formals := fun h => by
      have := List.nodup_append.1 hnd
      exact this.2.2 h (by simp)
    simp only [formalsDeclaration, List.foldr, makeFormalsLoop, hx, if_false]
    simp
  | cons y ys ih =>
    intro x formals hnd
    have hx : x ∉ formals := fun h => by
      have := List.nodup_append.1 hnd
      exact this.2.2 h (by simp)
    have h2 := ih y (formals ++ [x]) (by simpa using hnd)
    simp only [formalsDeclaration, List.foldr] at h2 ⊢
    simp only [makeFormalsLoop, hx, if_false]
    rw [h2]
    simp

theorem makeFormalsLoop_declared (x : Symbol) (cdr : Value) (formals : List Symbol)
    (h : x ∈ formals) :
    makeFormalsLoop (.pair (.symbol x) cdr) formals = .error ("duplicate formal " ++ x) := by
  cases cdr <;> simp only [makeFormalsLoop, h, if_true]

theorem makeFormalsLoop_next (x : Symbol) (a d : Value) (formals : List Symbol)
    (h : x ∉ formals) :
    makeFormalsLoop (.pair (.symbol x) (.pair a d)) formals =
      makeFormalsLoop (.pair a d) (formals ++ [x]) := by
  simp only [makeFormalsLoop, h, if_false]

theorem makeFormalsLoop_duplicate (ys : List Symbol) (x : Symbol) (zs : List Symbol)
    (tail : Value) :
    ∀ (formals : List Symbol), (formals ++ ys).Nodup → x ∈ formals ++ ys →
      makeFormalsLoop (formalsDeclaration (ys ++ x :: zs) tail) formals =
        .error ("duplicate formal " ++ x) := by
  induction ys with
  | nil =>
    intro formals _ hx
    have hx2 : x ∈ formals := by simpa using hx
    exact makeFormalsLoop_declared x _ formals hx2
  | cons y ys ih =>
    intro formals hnd hx
    have hy : y ∉ formals := fun h => by
      have := List.nodup_append.1 hnd
      exact this.2.2 h (by simp)
    have h2 := ih (formals ++ [y]) (by simpa using hnd) (by simpa using hx)
    cases ys with
    | nil => exact (makeFormalsLoop_next y _ _ formals hy).trans h2
    | cons w ws => exact (makeFormalsLoop_next y _ _ formals hy).trans h2

/-- C25 (the code breaks the claim): for distinct fixed variables `xs` (at
least one) and ANY rest variable `r`, also one of `xs`, `makeFormals` accepts
the declaration `(xs . r)` and returns `xs` followed by `r` with the variadic
flag set: the rest variable is not compared with the variables declared before
it. -/
theorem makeFormals_accepts_repeated_rest_variable (xs : List Symbol) (r : Symbol)
    (hne : xs ≠ []) (hnd : xs.Nodup) :
    makeFormals (formalsDeclaration xs (.symbol r)) = .ok (xs ++ [r], true) := by
  cases xs with
  | nil => exact absurd rfl hne
  | cons x xs =>
    have h := makeFormalsLoop_improper xs r x [] (by simpa using hnd)
    simp only [formalsDeclaration, List.foldr] at h ⊢
    simp only [makeFormals]
    rw [h]
    rfl

theorem makeFormals_accepts_repeated_rest_variable_witness :
    (["a"] : List Symbol) ≠ [] ∧ (["a"] : List Symbol).Nodup ∧
    makeFormals (.pair (.symbol "a") (.symbol "a")) = .ok (["a", "a"], true) :=
  ⟨by decide, by decide, makeFormals_accepts_repeated_rest_variable ["a"] "a" (by decide)
    (by decide)⟩

/-- What `makeFormals` does on distinct variables: they are
returned in the order of the declaration, the flag is set for a single symbol
and for an improper list and clear for a proper list, and a fixed variable
that repeats an earlier one is an error. -/
theorem makeFormals_distinct (xs : List Symbol) (r : Symbol) (hnd : (xs ++ [r]).Nodup) :
    makeFormals (.symbol r) = .ok ([r], true) ∧
    makeFormals (formalsDeclaration xs .null) = .ok (xs, false) ∧
    (xs ≠ [] → makeFormals (formalsDeclaration xs (.symbol r)) = .ok (xs ++ [r], true)) ∧
    (∀ (x : Symbol) (zs : List Symbol) (tail : Value), x ∈ xs →
      makeFormals (formalsDeclaration (xs ++ x :: zs) tail) =
        .error ("duplicate formal " ++ x)) := by
  have hxs : xs.Nodup := (List.nodup_append.1 hnd).1
  refine ⟨rfl, ?_, ?_, ?_⟩
  rotate_left
  · intro hne
    cases xs with
    | nil => exact absurd rfl hne
    | cons x xs =>
      have h := makeFormalsLoop_improper xs r x [] (by simpa using hxs)
      simp only [formalsDeclaration, List.foldr] at h ⊢
      simp only [makeFormals]
      rw [h]
      rfl
  rotate_left
  · cases xs with
    | nil => rfl
    | cons x xs =>
      have h := makeFormalsLoop_proper xs x [] (by simpa using hxs)
      simp only [formalsDeclaration, List.foldr] at h ⊢
      simp only [makeFormals]
      rw [h]
      rfl
  · intro x zs tail hx
    cases xs with
    | nil => cases hx
    | cons y ys =>
      have h := makeFormalsLoop_duplicate (y :: ys) x zs tail [] (by simpa using hxs)
        (by simpa using hx)
      simp only [formalsDeclaration, List.cons_append, List.foldr] at h ⊢
      simp only [makeFormals]
      exact h

theorem compileBody_repeatedRestProgram :
    compileBody [repeatedRestProgram] = .ok repeatedRestCode := by
  have happ := fun a d cdr tail =>
    compile_application (.pair a d) cdr tail (by simp [Value.asSymbol, specialForms])
  simp only [repeatedRestProgram, formalsDeclaration, List.foldr, ToList, compileBody_cons,
    List.dropLast, List.getLast, compileSeq_nil,
    compileSeq_cons, compile_number, compile_symbol, compile_lambda_form,
    compileLambda_eq, happ, Value.ToVector, makeFormals, makeFormalsLoop, ok_bind,
    List.cons_append, List.nil_append, List.getLast?, List.length_cons, List.length_nil,
    Instruction.code, List.mem_cons, List.not_mem_nil, List.append_nil, ne_eq,
    not_true_eq_false, not_false_eq_true, if_true, if_false, ite_true, ite_false,
    Bool.false_eq_true, reduceCtorEq]
  rfl

/-- The program `((lambda (a . a) a) 1 2)` compiles and runs: the binding of the
rest variable replaces the binding of the first argument. -/
theorem repeated_rest_variable_runs :
    ∃ code, compileBody [repeatedRestProgram] = .ok code ∧
      (rootClosure code [1, 0]).Apply 9 [] testScopes [] = .ok (.done (ToList [.number 2])) :=
  ⟨repeatedRestCode, compileBody_repeatedRestProgram, rfl⟩


/-! ## `equal?` (equal.go) -/

theorem eqv_self (x : Object) (h : ∀ v, x ≠ .vector v) : eqv x x = .ok true := by
  cases x with
  | vector v => exact absurd rfl (h v)
  | number n => simp [eqv]
  | _ => simp [eqv]

theorem eqv_vectors (v w : Nat) : eqv (.vector v) (.vector w) = .error uncomparable := rfl

theorem eqv_ne_outOfFuel (obj1 obj2 : Object) : eqv obj1 obj2 ≠ .error outOfFuel := by
  cases obj1 <;> cases obj2 <;> simp [eqv, uncomparable, outOfFuel]

/-- On every value that is not a Vector, `equal?` of the value and itself is #t:
the first test, `eqv`, finds the same object. -/
theorem equal_self (mem : Memory) (fuel : Nat) (x : Object) (h : ∀ v, x ≠ .vector v) :
    Equal mem (fuel + 1) [x, x] = .ok (.boolean true) := by
  simp only [Equal, equal, eqv_self x h]

/-- C27 (the code breaks the claim): `equal?` applied to a Vector and itself,
and to any two Vectors, does not return #t: the first test of `equal` is `eqv`,
whose comparison `obj1 == obj2` panics on two values of the slice type Vector,
whatever the elements. -/
theorem equal_of_vectors_panics (mem : Memory) (fuel : Nat) (v w : Nat) :
    Equal mem (fuel + 1) [.vector v, .vector v] = .error uncomparable ∧
    Equal mem (fuel + 1) [.vector v, .vector w] = .error uncomparable :=
  ⟨rfl, rfl⟩

theorem filter_length_le_of_imp (l : List Nat) (q pr : Nat → Bool)
    (hsub : ∀ x, q x = true → pr x = true) :
    (l.filter q).length ≤ (l.filter pr).length := by
  induction l with
  | nil => simp
  | cons x l ih =>
    simp only [List.filter_cons]
    cases hq : q x with
    | true => simp only [hsub x hq, if_true, List.length_cons]; omega
    | false =>
      cases hp : pr x with
      | true => simp only [if_true, Bool.false_eq_true, if_false, List.length_cons]; omega
      | false => simpa using ih

theorem filter_length_lt_of_imp (l : List Nat) (q pr : Nat → Bool) (a : Nat)
    (hsub : ∀ x, q x = true → pr x = true) (ha : a ∈ l) (hpa : pr a = true)
    (hqa : q a = false) : (l.filter q).length < (l.filter pr).length := by
  induction l with
  | nil => cases ha
  | cons x l ih =>
    have hle := filter_length_le_of_imp l q pr hsub
    simp only [List.filter_cons]
    rcases List.mem_cons.1 ha with rfl | hmem
    · simp only [hpa, hqa, if_true, Bool.false_eq_true, if_false, List.length_cons]; omega
    · have := ih hmem
      cases hq : q x with
      | true => simp only [hsub x hq, if_true, List.length_cons]; omega
      | false =>
        cases hp : pr x with
        | true => simp only [if_true, Bool.false_eq_true, if_false, List.length_cons]; omega
        | false => simpa using this

/-- A pair that enters the map is no longer counted. -/
theorem unvisited_push (mem : Memory) (stack : List Object) (p1 : Nat) (obj2 : Object)
    (hp : p1 < mem.pairs.length) (hn : Object.pair p1 ∉ stack) :
    mem.unvisited (.pair p1 :: obj2 :: stack) < mem.unvisited stack := by
  unfold Memory.unvisited
  apply filter_length_lt_of_imp _ _ _ p1
  · intro x hx
    simp only [decide_eq_true_eq, List.mem_cons, not_or] at hx ⊢
    exact hx.2.2
  · exact List.mem_range.2 hp
  · simpa using hn
  · simp

/-- One turn of `equal`. -/
theorem equal_succ (mem : Memory) (fuel : Nat) (obj1 obj2 : Object) (stack : List Object) :
    equal mem (fuel + 1) obj1 obj2 stack =
      match eqv obj1 obj2 with
      | .error e => .error e
      | .ok true => .ok true
      | .ok false =>
        match obj1 with
        | .pair p1 =>
          match obj2 with
          | .pair p2 =>
            if obj1 ∈ stack then .ok false
            else if obj2 ∈ stack then .ok false
            else
              match mem.pairs.get? p1, mem.pairs.get? p2 with
              | some (car1, cdr1), some (car2, cdr2) =>
                match equal mem fuel car1 car2 (obj1 :: obj2 :: stack) with
                | .error e => .error e
                | .ok false => .ok false
                | .ok true => equal mem fuel cdr1 cdr2 (obj1 :: obj2 :: stack)
              | _, _ => .error nilDeref
          | _ => .ok false
        | .vector v1 =>
          match obj2 with
          | .vector v2 =>
            match mem.vectors.get? v1, mem.vectors.get? v2 with
            | some elems1, some elems2 =>
              if elems1.length ≠ elems2.length then .ok false else .error unhashable
            | _, _ => .error nilDeref
          | _ => .ok false
        | _ => .ok false :=
  rfl

/-- With more fuel than pairs that are not yet keys of the map, `equal` does
not run out of fuel. -/
theorem equal_fuel (mem : Memory) :
    ∀ (fuel : Nat) (obj1 obj2 : Object) (stack : List Object),
      mem.unvisited stack < fuel → equal mem fuel obj1 obj2 stack ≠ .error outOfFuel := by
  intro fuel
  induction fuel with
  | zero => intro _ _ _ h; omega
  | succ fuel ih =>
    intro obj1 obj2 stack h
    rw [equal_succ]
    cases heq : eqv obj1 obj2 with
    | error e =>
      intro hc
      simp only at hc
      rw [hc] at heq
      exact eqv_ne_outOfFuel obj1 obj2 heq
    | ok b =>
      cases b with
      | true => simp
      | false =>
        simp only
        cases obj1 with
        | pair p1 =>
          cases obj2 with
          | pair p2 =>
            simp only
            by_cases h1 : Object.pair p1 ∈ stack
            · simp [h1]
            · by_cases h2 : Object.pair p2 ∈ stack
              · simp [h1, h2]
              · simp only [h1, h2, if_false]
                cases hg1 : mem.pairs.get? p1 with
                | none => simp [nilDeref, outOfFuel]
                | some c1 =>
                  cases hg2 : mem.pairs.get? p2 with
                  | none => simp [nilDeref, outOfFuel]
                  | some c2 =>
                    obtain ⟨car1, cdr1⟩ := c1
                    obtain ⟨car2, cdr2⟩ := c2
                    have hp : p1 < mem.pairs.length := by
                      rw [List.get?_eq_some] at hg1
                      exact hg1.1
                    have hlt := unvisited_push mem stack p1 (.pair p2) hp h1
                    have hfuel : mem.unvisited (.pair p1 :: .pair p2 :: stack) < fuel := by omega
                    simp only
                    cases hcar : equal mem fuel car1 car2 (.pair p1 :: .pair p2 :: stack) with
                    | error e =>
                      intro hc
                      simp only at hc
                      rw [hc] at hcar
                      exact ih _ _ _ hfuel hcar
                    | ok b =>
                      cases b with
                      | false => simp
                      | true => exact ih _ _ _ hfuel
          | _ => simp
        | vector v1 =>
          cases obj2 with
          | vector v2 =>
            simp only
            cases mem.vectors.get? v1 with
            | none => simp [nilDeref, outOfFuel]
            | some e1 =>
              cases mem.vectors.get? v2 with
              | none => simp [nilDeref, outOfFuel]
              | some e2 =>
                simp only
                split <;> simp [unhashable, outOfFuel]
          | _ => simp
        | _ => simp

/-- C28: `equal` terminates on every memory of pair and vector cells, cyclic
or not: called with the empty map and more fuel than the memory has pairs, it
does not run out of fuel, for the depth of the recursion is bounded by the
number of pairs that are not yet keys of the map. -/
theorem equal_terminates_on_cyclic_structure (mem : Memory) (fuel : Nat)
    (obj1 obj2 : Object) (hfuel : mem.pairs.length < fuel) :
    equal mem fuel obj1 obj2 [] ≠ .error outOfFuel := by
  apply equal_fuel mem fuel obj1 obj2 []
  simpa [Memory.unvisited] using hfuel

theorem equal_terminates_on_cyclic_structure_witness :
    cyclicMemory.pairs.length < 5 ∧
    equal cyclicMemory 5 (.pair 0) (.pair 2) [] ≠ .error outOfFuel :=
  ⟨by decide, equal_terminates_on_cyclic_structure cyclicMemory 5 (.pair 0) (.pair 2)
    (by decide)⟩

/-- On the cyclic lists of `cyclicMemory`, which have the same elements over
distinct pairs, `equal?` returns #f: a pair that is being visited is met again. -/
theorem equal_on_cyclic_lists :
    Equal cyclicMemory 5 [.pair 0, .pair 2] = .ok (.boolean false) ∧
    Equal cyclicMemory 5 [.pair 0, .pair 0] = .ok (.boolean true) :=
  ⟨rfl, rfl⟩

/-! ## The round trip between lists and vectors (values.go, equal.go) -/

theorem get?_append_some {α : Type} (S l : List α) (a : Nat) (x : α) (h : S.get? a = some x) :
    (S ++ l).get? a = some x := by
  have hlt : a < S.length := by
    rw [List.get?_eq_some] at h
    exact h.1
  rw [get?_append_lt S l a hlt, h]

theorem isList_nil (mem : Memory) (obj : Object) : mem.isList [] obj = true ↔ obj = .null := by
  simp [Memory.isList]

theorem isList_cons (mem : Memory) (e : Object) (es : List Object) (obj : Object) :
    mem.isList (e :: es) obj = true ↔
      ∃ p cdr, obj = .pair p ∧ mem.pairs.get? p = some (e, cdr) ∧ mem.isList es cdr = true := by
  cases obj with
  | pair p =>
    simp only [Memory.isList]
    cases hg : mem.pairs.get? p with
    | none =>
      simp only [Bool.false_eq_true, false_iff]
      rintro ⟨q, cdr, hq, hg2, _⟩
      cases hq
      rw [hg] at hg2
      cases hg2
    | some c =>
      obtain ⟨car, cdr⟩ := c
      simp only [Bool.and_eq_true, decide_eq_true_eq]
      constructor
      · rintro ⟨h1, h2⟩
        subst h1
        exact ⟨p, cdr, rfl, hg, h2⟩
      · rintro ⟨q, cdr2, hq, hg2, h3⟩
        cases hq
        rw [hg] at hg2
        cases hg2
        exact ⟨rfl, h3⟩
  | _ => simp [Memory.isList]

/-- A proper list stays the same proper list when pairs are allocated. -/
theorem isList_extend (mem : Memory) (more : List (Object × Object)) (vectors : List (List Object))
    (es : List Object) :
    ∀ obj, mem.isList es obj = true →
      (⟨mem.pairs ++ more, vectors⟩ : Memory).isList es obj = true := by
  induction es with
  | nil => intro obj h; rw [isList_nil] at h ⊢; exact h
  | cons e es ih =>
    intro obj h
    rw [isList_cons] at h ⊢
    obtain ⟨p, cdr, h1, h2, h3⟩ := h
    exact ⟨p, cdr, h1, get?_append_some _ _ _ _ h2, ih cdr h3⟩

/-- The elements of a proper list determine its length. -/
theorem isList_length_unique (mem : Memory) (es : List Object) :
    ∀ (es2 : List Object) (obj : Object), mem.isList es obj = true →
      mem.isList es2 obj = true → es.length = es2.length := by
  induction es with
  | nil =>
    intro es2 obj h h2
    rw [isList_nil] at h
    subst h
    cases es2 with
    | nil => rfl
    | cons e2 es2 => simp [Memory.isList] at h2
  | cons e es ih =>
    intro es2 obj h h2
    rw [isList_cons] at h
    obtain ⟨p, cdr, h1, hg, h3⟩ := h
    subst h1
    cases es2 with
    | nil => simp [Memory.isList] at h2
    | cons e2 es2 =>
      rw [isList_cons] at h2
      obtain ⟨q, cdr2, hq, hg2, h4⟩ := h2
      cases hq
      rw [hg] at hg2
      cases hg2
      simp only [List.length_cons]
      rw [ih es2 cdr h3 h4]

/-- The loop of `Vector.ToList` appends its pairs to the memory and returns a
proper list of the elements. -/
theorem listOf_spec (es : List Object) :
    ∀ (pairs : List (Object × Object)),
      ∃ more head, Vector.listOf pairs es = (pairs ++ more, head) ∧
        (∀ vectors, (⟨pairs ++ more, vectors⟩ : Memory).isList es head = true) := by
  induction es with
  | nil => intro pairs; exact ⟨[], .null, by simp [Vector.listOf], fun _ => rfl⟩
  | cons e es ih =>
    intro pairs
    obtain ⟨more, head, h1, h2⟩ := ih pairs
    refine ⟨more ++ [(e, head)], .pair (pairs ++ more).length, ?_, ?_⟩
    · simp only [Vector.listOf, h1, List.append_assoc]
    · intro vectors
      rw [isList_cons]
      refine ⟨(pairs ++ more).length, head, rfl, ?_, ?_⟩
      · rw [← List.append_assoc, get?_append_base]; rfl
      · have := isList_extend ⟨pairs ++ more, vectors⟩ [(e, head)] vectors es head (h2 vectors)
        simpa [List.append_assoc] using this

/-- The loop of `Pair.ToVector` on a proper list returns its elements. -/
theorem elements_of_isList (mem : Memory) (es : List Object) :
    ∀ (fuel p : Nat) (e : Object), mem.isList (e :: es) (.pair p) = true → es.length < fuel →
      Pair.elements mem fuel p = .ok (e :: es) := by
  induction es with
  | nil =>
    intro fuel p e h hf
    obtain ⟨f, rfl⟩ : ∃ f, fuel = f + 1 := ⟨fuel - 1, by omega⟩
    rw [isList_cons] at h
    obtain ⟨q, cdr, hq, hg, h3⟩ := h
    cases hq
    rw [isList_nil] at h3
    subst h3
    simp only [Pair.elements, hg]
  | cons e2 es ih =>
    intro fuel p e h hf
    obtain ⟨f, rfl⟩ : ∃ f, fuel = f + 1 := ⟨fuel - 1, by omega⟩
    rw [isList_cons] at h
    obtain ⟨q, cdr, hq, hg, h3⟩ := h
    cases hq
    have h4 := h3
    rw [isList_cons] at h4
    obtain ⟨q2, cdr2, hq2, _, _⟩ := h4
    subst hq2
    have := ih f q2 e2 h3 (by simpa using hf)
    simp only [Pair.elements, hg, this]

/-- Two proper lists of the same elements, none of them a Vector, are `equal`:
the pairs of the map are heads of longer lists, so no pair of the two lists is
met in the map. -/
theorem equal_lists (mem : Memory) (es : List Object) :
    ∀ (fuel : Nat) (obj1 obj2 : Object) (stack : List Object),
      mem.isList es obj1 = true → mem.isList es obj2 = true →
      (∀ e ∈ es, ∀ v, e ≠ .vector v) → es.length < fuel →
      (∀ obj ∈ stack, ∃ es2, mem.isList es2 obj = true ∧ es.length < es2.length) →
      equal mem fuel obj1 obj2 stack = .ok true := by
  induction es with
  | nil =>
    intro fuel obj1 obj2 stack h1 h2 _ hf _
    obtain ⟨f, rfl⟩ : ∃ f, fuel = f + 1 := ⟨fuel - 1, by omega⟩
    rw [isList_nil] at h1 h2
    subst h1 h2
    rfl
  | cons e es ih =>
    intro fuel obj1 obj2 stack h1 h2 hv hf hstack
    obtain ⟨f, rfl⟩ : ∃ f, fuel = f + 1 := ⟨fuel - 1, by omega⟩
    have hl1 := h1
    have hl2 := h2
    rw [isList_cons] at h1 h2
    obtain ⟨p1, cdr1, hp1, hg1, ht1⟩ := h1
    obtain ⟨p2, cdr2, hp2, hg2, ht2⟩ := h2
    subst hp1 hp2
    have hn1 : Object.pair p1 ∉ stack := fun hmem => by
      obtain ⟨es2, h3, h4⟩ := hstack _ hmem
      have := isList_length_unique mem _ _ _ hl1 h3
      omega
    have hn2 : Object.pair p2 ∉ stack := fun hmem => by
      obtain ⟨es2, h3, h4⟩ := hstack _ hmem
      have := isList_length_unique mem _ _ _ hl2 h3
      omega
    obtain ⟨f2, rfl⟩ : ∃ f2, f = f2 + 1 := ⟨f - 1, by simp at hf; omega⟩
    have hcar : equal mem (f2 + 1) e e (.pair p1 :: .pair p2 :: stack) = .ok true := by
      rw [equal_succ, eqv_self e (hv e (by simp))]
    have hcdr := ih (f2 + 1) cdr1 cdr2 (.pair p1 :: .pair p2 :: stack) ht1 ht2
      (fun x hx => hv x (by simp [hx])) (by simpa using hf)
      (by
        intro obj hobj
        rcases List.mem_cons.1 hobj with rfl | hobj
        · exact ⟨e :: es, hl1, by simp⟩
        · rcases List.mem_cons.1 hobj with rfl | hobj
          · exact ⟨e :: es, hl2, by simp⟩
          · obtain ⟨es2, h3, h4⟩ := hstack obj hobj
            exact ⟨es2, h3, by simp at h4; omega⟩)
    rw [equal_succ]
    by_cases hpp : p1 = p2
    · subst hpp
      simp [eqv]
    · have heqv : eqv (.pair p1) (.pair p2) = .ok false := by simp [eqv, hpp]
      simp only [heqv, hn1, hn2, if_false, hg1, hg2, hcar, hcdr]

/-- The round trip of a list where it succeeds: when no element of the proper list
is a Vector, the list that comes back from the round trip has the same
elements and `equal?` returns #t. -/
theorem list_round_trip_equal (mem : Memory) (fuel p : Nat) (es : List Object)
    (hl : mem.isList es (.pair p) = true) (hv : ∀ e ∈ es, ∀ v, e ≠ .vector v)
    (hf : es.length < fuel) : roundTrip mem fuel p = .ok (.boolean true) := by
  cases es with
  | nil => simp [Memory.isList] at hl
  | cons e es =>
    have hel := elements_of_isList mem es fuel p e hl (by simp at hf; omega)
    obtain ⟨more, head, h1, h2⟩ := listOf_spec (e :: es) mem.pairs
    have h3 := h2 (mem.vectors ++ [e :: es])
    have h4 := isList_extend mem more (mem.vectors ++ [e :: es]) (e :: es) _ hl
    have h5 := equal_lists ⟨mem.pairs ++ more, mem.vectors ++ [e :: es]⟩ (e :: es) fuel
      (.pair p) head [] h4 h3 hv hf (fun _ h => by cases h)
    simp only [roundTrip, Pair.ToVector, hel, Vector.ToList, get?_append_base, List.get?, h1,
      Equal, h5]

/-- The round trip of a vector: the list made from a vector that is not empty,
converted back, is a vector of the same elements. -/
theorem vector_round_trip (mem : Memory) (fuel v : Nat) (es : List Object)
    (hv : mem.vectors.get? v = some es) (hne : es ≠ []) (hf : es.length ≤ fuel) :
    ∃ mem1 p mem2 w, Vector.ToList mem v = .ok (mem1, .pair p) ∧
      Pair.ToVector mem1 fuel p = .ok (mem2, .vector w) ∧ mem2.vectors.get? w = some es := by
  cases es with
  | nil => exact absurd rfl hne
  | cons e es =>
    obtain ⟨more, head, h1, h2⟩ := listOf_spec (e :: es) mem.pairs
    have h3 := h2 mem.vectors
    have h4 := h3
    rw [isList_cons] at h4
    obtain ⟨p, cdr, hp, _, _⟩ := h4
    subst hp
    have hel := elements_of_isList ⟨mem.pairs ++ more, mem.vectors⟩ es fuel p e h3
      (by simp at hf; omega)
    refine ⟨⟨mem.pairs ++ more, mem.vectors⟩, p,
      ⟨mem.pairs ++ more, mem.vectors ++ [e :: es]⟩, mem.vectors.length, ?_, ?_, ?_⟩
    · simp only [Vector.ToList, hv, h1]
    · simp only [Pair.ToVector, hel]
    · show (mem.vectors ++ [e :: es]).get? mem.vectors.length = _
      rw [get?_append_base]; rfl

/-- C26 (the code breaks the claim): the proper list `(#(1))`, whose element is
a Vector, is converted to a vector and back, and `equal?` of the list and the
result does not return #t: the two `car`s are the same Vector, and `eqv`
panics on the comparison of two Vectors. -/
theorem list_round_trip_with_vector_element_panics (fuel : Nat) :
    vectorListMemory.isList [.vector 0] (.pair 0) = true ∧
    roundTrip vectorListMemory (fuel + 2) 0 = .error uncomparable :=
  ⟨rfl, rfl⟩


/-! ## `apply` (procedure.go, list.go) -/

theorem copiedCars_ToList (l : List Value) : copiedCars (ToList l) = l := by
  induction l with
  | nil => rfl
  | cons x l ih => simp only [ToList, copiedCars, ih]

theorem appendCopies_list (l : List Value) : appendCopies [ListConstructor l] = .ok l := by
  cases l with
  | nil => rfl
  | cons x l =>
    simp only [ListConstructor, ToList, appendCopies, copiedCars, copiedCars_ToList,
      List.append_nil]

/-- What `apply` passes to `append`: the list of the leading arguments is
copied and the last argument becomes the tail of the copy. -/
theorem ListAppend_list (l : List Value) (last : Value) :
    ListAppend [ListConstructor l, last] = .ok (l.foldr Cons last) := by
  simp only [ListAppend, List.getLast?, List.getLast, List.dropLast, appendCopies_list]

theorem foldr_Cons_ToList (l es : List Value) : l.foldr Cons (ToList es) = ToList (l ++ es) := by
  induction l with
  | nil => rfl
  | cons x l ih =>
    show Cons x (l.foldr Cons (ToList es)) = ToList (x :: (l ++ es))
    rw [ih]
    rfl

theorem ToVector_foldr_Cons (l : List Value) (last : Value) :
    (l.foldr Cons last).ToVector = l ++ last.ToVector := by
  induction l with
  | nil => rfl
  | cons x l ih => simp only [List.foldr, Cons, Value.ToVector, ih, List.cons_append]

theorem ProcedureApply_cons {σ : Type} (Apply : ApplyMethod σ) (f : Value) (l : List Value)
    (last : Value) (s : σ) (hf : f.isProcedure = true) :
    ProcedureApply Apply (f :: (l ++ [last])) s =
      match l.foldr Cons last with
      | .null => Apply f [] s
      | .pair car cdr => Apply f (Value.pair car cdr).ToVector s
      | _ => .error notPair := by
  simp only [ProcedureApply, hf, Bool.true_eq_false, if_false, getLast?_snoc, dropLast_snoc,
    ListAppend_list]
  cases l.foldr Cons last <;> rfl

/-- C29 (amended): for every procedure `f`, leading arguments `a1..ak` and last
argument `x`: when `x` is a proper list of `e1..em`, `apply` returns what
`f.Apply` returns on `[a1, ..., ak, e1, ..., em]`; when there is no leading
argument and `x` is neither Null nor a pair, `apply` fails; in every other
case it does not fail by itself but returns what `f.Apply` returns on
`a1..ak` followed by the elements of the chain of pairs `x` and its tail that
is not Null (so on `[a1, ..., ak, x]` when `x` is no pair). -/
theorem apply_spreads_last_argument {σ : Type} (Apply : ApplyMethod σ) (f : Value)
    (l : List Value) (x : Value) (s : σ) (hf : f.isProcedure = true) :
    (∀ es, x = ToList es → ProcedureApply Apply (f :: (l ++ [x])) s = Apply f (l ++ es) s) ∧
    (l = [] → x ≠ .null → (∀ a d, x ≠ .pair a d) →
      ProcedureApply Apply (f :: (l ++ [x])) s = .error notPair) ∧
    (l ≠ [] ∨ (∃ a d, x = .pair a d) →
      ProcedureApply Apply (f :: (l ++ [x])) s = Apply f (l ++ x.ToVector) s) := by
  refine ⟨?_, ?_, ?_⟩
  · intro es hx
    subst hx
    rw [ProcedureApply_cons Apply f l _ s hf, foldr_Cons_ToList]
    cases hl : l ++ es with
    | nil => rfl
    | cons y ys =>
      simp only [ToList]
      rw [show Value.pair y (ToList ys) = ToList (y :: ys) from rfl, ToVector_ToList]
  · intro hl hnull hpair
    subst hl
    rw [ProcedureApply_cons Apply f [] x s hf]
    cases x with
    | null => exact absurd rfl hnull
    | pair a d => exact absurd rfl (hpair a d)
    | _ => rfl
  · intro h
    rw [ProcedureApply_cons Apply f l x s hf]
    have hv := ToVector_foldr_Cons l x
    cases l with
    | nil =>
      rcases h with h | ⟨a, d, rfl⟩
      · exact absurd rfl h
      · rfl
    | cons y ys =>
      simp only [List.foldr, Cons] at hv ⊢
      rw [hv]

theorem apply_spreads_last_argument_witness :
    (Value.procedureFunc .NumberAdd).isProcedure = true ∧
    ProcedureApply builtinApply
        [.procedureFunc .NumberAdd, .number 1, ToList [.number 2, .number 4]] () =
      .ok (.number 7, ()) :=
  ⟨rfl, (apply_spreads_last_argument builtinApply (.procedureFunc .NumberAdd) [.number 1]
    (ToList [.number 2, .number 4]) () rfl).1 [.number 2, .number 4] rfl⟩

/-- The call `(apply + 1 2)`, whose last argument 2 is not a list,
does not fail but returns 3. -/
theorem apply_accepts_last_argument_that_is_no_list :
    ProcedureApply builtinApply [.procedureFunc .NumberAdd, .number 1, .number 2] () =
      .ok (.number 3, ()) ∧
    (∀ es, Value.number 2 ≠ ToList es) := by
  refine ⟨rfl, ?_⟩
  intro es h
  cases es <;> cases h

/-! ## `map` (procedure.go) -/

theorem mapActuals_none (lists : List (List Value)) (h : [] ∈ lists) :
    mapActuals (lists.map ToList) = none := by
  induction lists with
  | nil => cases h
  | cons l lists ih =>
    cases l with
    | nil => rfl
    | cons x l =>
      have hmem : [] ∈ lists := by
        rcases List.mem_cons.1 h with h | h
        · cases h
        · exact h
      simp only [List.map, ToList, mapActuals, ih hmem]

theorem mapActuals_some (lists : List (List Value)) (h : ∀ l ∈ lists, 1 ≤ l.length) :
    mapActuals (lists.map ToList) =
      some (lists.map (fun l => l.getD 0 .null), (lists.map List.tail).map ToList) := by
  induction lists with
  | nil => rfl
  | cons l lists ih =>
    cases l with
    | nil => have := h [] (by simp); simp at this
    | cons x l =>
      simp only [List.map, ToList, mapActuals, ih (fun l hl => h l (by simp [hl])),
        List.getD_cons_zero, List.tail_cons]

theorem argumentRows_succ (lists : List (List Value)) (n : Nat) :
    argumentRows lists (n + 1) =
      lists.map (fun l => l.getD 0 .null) :: argumentRows (lists.map List.tail) n := by
  simp only [argumentRows, List.range_succ_eq_map, List.map_cons, List.map_map]
  congr 1
  apply List.map_congr_left
  intro i _
  simp only [Function.comp]
  apply List.map_congr_left
  intro l _
  cases l with
  | nil => simp
  | cons x l => simp

/-- The loop of `map` on proper lists makes the applications to the rows of
arguments below the length of the shortest list, in order. -/
theorem mapLoop_rows {σ : Type} (Apply : ApplyMethod σ) (f : Value) :
    ∀ (n : Nat) (lists : List (List Value)) (fuel : Nat) (s : σ),
      (∀ l ∈ lists, n ≤ l.length) → (∃ l ∈ lists, l.length = n) → n < fuel →
      mapLoop Apply f fuel (lists.map ToList) s =
        applyInOrder Apply f (argumentRows lists n) s := by
  intro n
  induction n with
  | zero =>
    intro lists fuel s _ hmin hfuel
    obtain ⟨g, rfl⟩ : ∃ g, fuel = g + 1 := ⟨fuel - 1, by omega⟩
    obtain ⟨l, hl, hlen⟩ := hmin
    have hnil : l = [] := List.length_eq_zero.1 hlen
    subst hnil
    simp only [mapLoop, mapActuals_none lists hl]
    rfl
  | succ n ih =>
    intro lists fuel s hlen hmin hfuel
    obtain ⟨g, rfl⟩ : ∃ g, fuel = g + 1 := ⟨fuel - 1, by omega⟩
    have h1 : ∀ l ∈ lists, 1 ≤ l.length := fun l hl => by have := hlen l hl; omega
    have hrec := fun s1 => ih (lists.map List.tail) g s1
      (by
        intro l hl
        obtain ⟨l0, hl0, rfl⟩ := List.mem_map.1 hl
        have := hlen l0 hl0
        simp only [List.length_tail]
        omega)
      (by
        obtain ⟨l0, hl0, hlen0⟩ := hmin
        exact ⟨l0.tail, List.mem_map.2 ⟨l0, hl0, rfl⟩, by simp [hlen0]⟩)
      (by omega)
    rw [argumentRows_succ]
    simp only [mapLoop, mapActuals_some lists h1, applyInOrder]
    cases Apply f (lists.map (fun l => l.getD 0 .null)) s with
    | error e => rfl
    | ok r =>
      obtain ⟨v, s1⟩ := r
      simp only [hrec s1]

theorem applyInOrder_length {σ : Type} (Apply : ApplyMethod σ) (f : Value) :
    ∀ (rows : List (List Value)) (s : σ) (results : List Value) (s2 : σ),
      applyInOrder Apply f rows s = .ok (results, s2) → results.length = rows.length := by
  intro rows
  induction rows with
  | nil =>
    intro s results s2 h
    simp only [applyInOrder, Except.ok.injEq, Prod.mk.injEq] at h
    rw [← h.1]
    rfl
  | cons row rows ih =>
    intro s results s2 h
    simp only [applyInOrder] at h
    cases h1 : Apply f row s with
    | error e => rw [h1] at h; cases h
    | ok r =>
      obtain ⟨v, s1⟩ := r
      rw [h1] at h
      simp only at h
      cases h2 : applyInOrder Apply f rows s1 with
      | error e => rw [h2] at h; cases h
      | ok r2 =>
        obtain ⟨vs, s3⟩ := r2
        rw [h2] at h
        simp only [Except.ok.injEq, Prod.mk.injEq] at h
        rw [← h.1, List.length_cons, ih s1 vs s3 h2, List.length_cons]

/-- The result of `map` where it is a list: on proper lists of which none is empty, `map`
returns the proper list of the results of `f` on the rows of `i`-th elements,
`i` below the length `n` of the shortest list, the applications being made in
the order of `i`. -/
theorem map_applies_in_order {σ : Type} (Apply : ApplyMethod σ) (f : Value) (n : Nat)
    (list : List Value) (lists : List (List Value)) (fuel : Nat) (s s2 : σ)
    (results : List Value) (hf : f.isProcedure = true)
    (hlen : ∀ l ∈ list :: lists, n + 1 ≤ l.length)
    (hmin : ∃ l ∈ list :: lists, l.length = n + 1) (hfuel : n + 1 < fuel)
    (hres : applyInOrder Apply f (argumentRows (list :: lists) (n + 1)) s = .ok (results, s2)) :
    ProcedureMap Apply fuel (f :: ToList list :: lists.map ToList) s =
      .ok (.value (ToList results), s2) ∧ results.length = n + 1 := by
  have hloop := mapLoop_rows Apply f (n + 1) (list :: lists) fuel s hlen hmin hfuel
  have hl := applyInOrder_length Apply f _ s results s2 hres
  simp only [argumentRows, List.length_map, List.length_range] at hl
  refine ⟨?_, hl⟩
  rw [hres] at hloop
  simp only [List.map] at hloop
  cases results with
  | nil => simp at hl
  | cons v vs => simp only [ProcedureMap, hf, Bool.true_eq_false, if_false, hloop, ToList]

/-- C30 (the code breaks the claim): when the first list is empty, `map` returns
its variable `head`, a nil `*Pair`, as a Value.  That Value is not the empty
list: it is not the nil interface, `null?` of it is #f and `pair?` of it is #t. -/
theorem map_of_empty_list_returns_nil_pair {σ : Type} (Apply : ApplyMethod σ) (f : Value)
    (lists : List Value) (fuel : Nat) (s : σ) (hf : f.isProcedure = true) :
    ProcedureMap Apply (fuel + 1) (f :: .null :: lists) s = .ok (.nilPair, s) ∧
    NullPred [.nilPair] = .boolean false ∧ PairPred [.nilPair] = .boolean true := by
  refine ⟨?_, rfl, rfl⟩
  simp only [ProcedureMap, hf, Bool.true_eq_false, if_false, mapLoop, mapActuals]

theorem map_of_empty_list_returns_nil_pair_witness :
    (Value.procedureFunc .NumberAdd).isProcedure = true ∧
    ProcedureMap builtinApply 1 [.procedureFunc .NumberAdd, .null] () = .ok (.nilPair, ()) :=
  ⟨rfl, (map_of_empty_list_returns_nil_pair builtinApply (.procedureFunc .NumberAdd) [] 0 ()
    rfl).1⟩


/-! ## List, string and vector built-ins (list.go, string.go, vector.go, numerics.go) -/

theorem numberInt_of_range (i : Int) (hmin : -9223372036854775808 ≤ i)
    (hmax : i ≤ 9223372036854775807) : numberInt i = some i := by
  simp [numberInt, hmin, hmax]

/-- The loop of `list-tail` on a proper list walks to the sublist after the
first `k` elements, which is the nil pointer when there are none left. -/
theorem tailLoop_ToList (k : Nat) (es : List Value) :
    tailLoop k (ToList es).asPair = (ToList (es.drop k)).asPair := by
  induction k generalizing es with
  | zero => rfl
  | succ k ih =>
    cases es with
    | nil => rfl
    | cons a rest => exact ih rest

theorem ToList_asPair_none (es : List Value) (h : es = []) : (ToList es).asPair = none := by
  subst h; rfl

theorem ToList_asPair_some (es : List Value) (h : es ≠ []) :
    ∃ car cdr, (ToList es).asPair = some (car, cdr) ∧ ToList es = .pair car cdr := by
  cases es with
  | nil => exact absurd rfl h
  | cons a rest => exact ⟨a, ToList rest, rfl, rfl⟩

/-- C31: on a proper list of `n ≥ 1` elements `list-tail` returns the sublist
without the first `k` elements for every `k < n`, but for `k = n` (and every
larger `k`) it fails with "list does not contain k elements" instead of
returning the empty list; the empty list itself is rejected even for `k = 0`. -/
theorem ListTail_fails_at_length (es : List Value) (k : Nat) (hne : es ≠ [])
    (hk : (k : Int) ≤ 9223372036854775807) :
    (k < es.length → ListTail [ToList es, .number k] = .ok (ToList (es.drop k))) ∧
    (es.length ≤ k → ListTail [ToList es, .number k] =
      .error ("list does not contain " ++ toString (k : Int) ++ " elements")) ∧
    ListTail [ToList [], .number 0] = .error "the first argument to list-tail must be a list" := by
  obtain ⟨car, cdr, hp, _⟩ := ToList_asPair_some es hne
  have hint : numberInt (k : Int) = some (k : Int) :=
    numberInt_of_range k (by omega) hk
  have hneg : ¬ ((k : Int) < 0) := by omega
  have hloop : tailLoop (k : Int).toNat (some (car, cdr)) = (ToList (es.drop k)).asPair := by
    rw [← hp, Int.toNat_ofNat]
    exact tailLoop_ToList k es
  refine ⟨?_, ?_, rfl⟩
  · intro hlt
    obtain ⟨c2, d2, hp2, he2⟩ := ToList_asPair_some (es.drop k)
      (by intro h; have := congrArg List.length h; simp at this; omega)
    rw [he2]
    simp only [ListTail, hp, hint, hneg, if_false, hloop, hp2]
  · intro hge
    have hnone := ToList_asPair_none (es.drop k) (List.drop_eq_nil_of_le hge)
    simp only [ListTail, hp, hint, hneg, if_false, hloop, hnone]

theorem ListTail_fails_at_length_witness :
    ListTail [ToList [.number 1, .number 2, .number 3], .number 3] =
      .error "list does not contain 3 elements" :=
  (ListTail_fails_at_length [.number 1, .number 2, .number 3] 3 (by simp) (by decide)).2.1
    (Nat.le_refl 3)

/-- C32: `string-length` fails with "string-length expects 1 argument" when it
is applied to the one argument `s`, and it returns the length of `s` when it is
applied to `s` and one more argument, whatever that is. -/
theorem StringLength_expects_two_arguments (s : String) (x : Value) :
    StringLength [.string s] = .error "string-length expects 1 argument" ∧
    StringLength [.string s, x] = .ok (.number (stringBytes s).length) :=
  ⟨rfl, rfl⟩

theorem extract_same (s : String) (p : String.Pos) : s.extract p p = "" := by
  cases s
  simp [String.extract]

/-- C33: `substring` reads its end position from the second argument, like the
start position, and never looks at the third: for every start position within
the string the result is the empty string, whatever the third argument is. -/
theorem StringSubstring_reads_start_twice (s : String) (start : Int) (x : Value)
    (h0 : 0 ≤ start) (h1 : start ≤ (stringBytes s).length)
    (h2 : start ≤ 9223372036854775807) :
    StringSubstring [.string s, .number start, x] = .ok (.string "") := by
  have hint : numberInt start = some start := numberInt_of_range start (by omega) h2
  have hcond : ¬ (start < 0 ∨ start < start ∨ start > ((stringBytes s).length : Int)) := by
    omega
  simp only [StringSubstring, hint, sliceString, hcond, if_false, extract_same]

theorem StringSubstring_reads_start_twice_witness :
    StringSubstring [.string "hello", .number 1, .number 3] = .ok (.string "") ∧
    sliceString "hello" 1 3 = .ok "el" :=
  ⟨StringSubstring_reads_start_twice "hello" 1 (.number 3) (by decide) (by decide) (by decide),
   rfl⟩

/-- The loop of the arithmetic built-ins applies the operation to the Numbers
before the first argument that is not a Number: it fails when one of these
operations fails, and returns nil otherwise. -/
theorem Big_numberFold_prefix (op : Int → Int → Except String Int) (ns : List Int) :
    ∀ (acc : Int) (a : Value) (rest : List Value), (∀ n, a ≠ .number n) →
      Big.numberFold op acc (ns.map Value.number ++ a :: rest) =
        match ns.foldlM op acc with
        | .error e => .error e
        | .ok _ => .ok .null := by
  induction ns with
  | nil =>
    intro acc a rest h
    cases a with
    | number n => exact absurd rfl (h n)
    | _ => rfl
  | cons x ns ih =>
    intro acc a rest h
    simp only [List.map_cons, List.cons_append, Big.numberFold, List.foldlM_cons]
    cases hop : op acc x with
    | error e => rfl
    | ok r => exact ih r a rest h

/-- On the exact integers of the machine model, where no operation fails, the
built-ins over the operations of `big.Float` are the built-ins of the machine. -/
theorem Big_numberFold_exact (op : Int → Int → Int) (rest : List Value) :
    ∀ acc, Big.numberFold (fun a b => .ok (op a b)) acc rest = .ok (numberFold op acc rest) := by
  induction rest with
  | nil => intro acc; rfl
  | cons x rest ih =>
    intro acc
    cases x with
    | number m => exact ih (op acc m)
    | _ => rfl

theorem Big_builtins_exact (args : List Value) :
    Big.NumberAdd (fun a b => .ok (a + b)) args = Builtin.Apply .NumberAdd args ∧
    Big.NumberMul (fun a b => .ok (a * b)) args = Builtin.Apply .NumberMul args ∧
    Big.NumberSub (fun n => -n) (fun a b => .ok (a - b)) args = Builtin.Apply .NumberSub args := by
  cases args with
  | nil => exact ⟨rfl, rfl, rfl⟩
  | cons x rest =>
    cases x with
    | number n =>
      refine ⟨Big_numberFold_exact _ rest n, Big_numberFold_exact _ rest n, ?_⟩
      cases rest with
      | nil => rfl
      | cons y rest2 => exact Big_numberFold_exact _ (y :: rest2) n
    | _ => exact ⟨rfl, rfl, rfl⟩

/-- C34, as the code has it: when an argument of `+`, `-`, `*` or `/` is not a
Number, the built-in does not fail with a type mismatch.  It returns nil (the
empty list) when its first argument is not a Number; otherwise it applies its
operation of `big.Float` from left to right to the Numbers `n, ns` that come
before the first argument `a` that is not a Number, fails with the panic of
that operation when one of these applications panics (as `Add` does on the
two infinities), and returns nil when none does. -/
theorem arithmetic_on_non_number_returns_nil
    (add sub mul quo : Int → Int → Except String Int) (neg : Int → Int)
    (n : Int) (ns : List Int) (a : Value) (rest : List Value) (h : ∀ k, a ≠ .number k) :
    (Big.NumberAdd add (a :: rest) = .ok .null ∧
     Big.NumberSub neg sub (a :: rest) = .ok .null ∧
     Big.NumberMul mul (a :: rest) = .ok .null ∧
     Big.NumberDiv quo (a :: rest) = .ok .null) ∧
    (Big.NumberAdd add (.number n :: (ns.map Value.number ++ a :: rest)) =
      match ns.foldlM add n with
      | .error e => .error e
      | .ok _ => .ok .null) ∧
    (Big.NumberSub neg sub (.number n :: (ns.map Value.number ++ a :: rest)) =
      match ns.foldlM sub n with
      | .error e => .error e
      | .ok _ => .ok .null) ∧
    (Big.NumberMul mul (.number n :: (ns.map Value.number ++ a :: rest)) =
      match ns.foldlM mul n with
      | .error e => .error e
      | .ok _ => .ok .null) ∧
    (Big.NumberDiv quo (.number n :: (ns.map Value.number ++ a :: rest)) =
      match ns.foldlM quo n with
      | .error e => .error e
      | .ok _ => .ok .null) ∧
    (∀ x e, add n x = .error e →
      Big.NumberAdd add (.number n :: .number x :: a :: rest) = .error e) := by
  have hne : ns.map Value.number ++ a :: rest ≠ [] := by
    intro hnil
    cases ns <;> cases hnil
  refine ⟨?_, ?_, ?_, ?_, ?_, ?_⟩
  · cases a with
    | number k => exact absurd rfl (h k)
    | _ => exact ⟨rfl, rfl, rfl, rfl⟩
  · exact Big_numberFold_prefix add ns n a rest h
  · have hfold := Big_numberFold_prefix sub ns n a rest h
    cases hl : ns.map Value.number ++ a :: rest with
    | nil => exact absurd hl hne
    | cons y tail =>
      rw [hl] at hfold
      exact hfold
  · exact Big_numberFold_prefix mul ns n a rest h
  · have hfold := Big_numberFold_prefix quo ns n a rest h
    cases hl : ns.map Value.number ++ a :: rest with
    | nil => exact absurd hl hne
    | cons y tail =>
      rw [hl] at hfold
      exact hfold
  · intro x e hx
    have hfold := Big_numberFold_prefix add [x] n a rest h
    simp only [List.map_cons, List.map_nil, List.cons_append, List.nil_append,
      List.foldlM_cons, List.foldlM_nil] at hfold
    show Big.numberFold add n (.number x :: a :: rest) = .error e
    rw [hfold, hx]
    rfl

theorem arithmetic_on_non_number_returns_nil_witness :
    Big.NumberAdd Big.exampleAdd [.number 2, .number 4, .string "a", .number 6] = .ok .null ∧
    Big.NumberAdd Big.exampleAdd [.number 1, .number (-1), .string "a"] =
      .error "addition of infinities with opposite signs" :=
  ⟨(arithmetic_on_non_number_returns_nil Big.exampleAdd (fun a b => .ok (a - b))
      (fun a b => .ok (a * b)) (fun a b => .ok (a / b)) (fun n => -n) 2 [4] (.string "a")
      [.number 6] (fun k hk => by cases hk)).2.1,
   (arithmetic_on_non_number_returns_nil Big.exampleAdd (fun a b => .ok (a - b))
      (fun a b => .ok (a * b)) (fun a b => .ok (a / b)) (fun n => -n) 1 [] (.string "a")
      [] (fun k hk => by cases hk)).2.2.2.2.2 (-1) "addition of infinities with opposite signs"
      rfl⟩

/-- The sum of a number and a string is a value, the empty list, and so are
the difference, the product and the quotient, whatever the operations of
`big.Float` are: none of them fails. -/
theorem sum_of_number_and_string_is_nil :
    (∀ add : Int → Int → Except String Int,
      Big.NumberAdd add [.number 1, .string "a"] = .ok .null) ∧
    (∀ (neg : Int → Int) (sub : Int → Int → Except String Int),
      Big.NumberSub neg sub [.number 1, .string "a"] = .ok .null) ∧
    (∀ mul : Int → Int → Except String Int,
      Big.NumberMul mul [.number 1, .string "a"] = .ok .null) ∧
    (∀ quo : Int → Int → Except String Int,
      Big.NumberDiv quo [.number 1, .string "a"] = .ok .null) ∧
    Builtin.Apply .NumberAdd [.number 1, .string "a"] = .ok .null :=
  ⟨fun _ => rfl, fun _ _ => rfl, fun _ => rfl, fun _ => rfl, rfl⟩

theorem indexAt_negative {α : Type} (elems : List α) (i : Int) (h : i < 0) :
    indexAt elems i = .error indexOutOfRange := by
  simp only [indexAt, h, if_true]

theorem indexAt_length {α : Type} (elems : List α) :
    indexAt elems (elems.length : Int) = .error indexOutOfRange := by
  have h : ¬ ((elems.length : Int) < 0) := by omega
  have hg : elems.get? elems.length = none := by
    rw [List.get?_eq_getElem?]; exact List.getElem?_eq_none (Nat.le_refl _)
  simp only [indexAt, h, if_false, Int.toNat_ofNat, hg]

/-- C35: the checks of `vector-ref` and `string-ref` reject an index only when
it is greater than the length: a negative index and the index equal to the
length pass them, and the element access then fails with the run-time error
"index out of range" instead of the descriptive error of the checks. -/
theorem ref_checks_admit_index_out_of_bounds (v : List Value) (s : String) (i : Int)
    (hmin : -9223372036854775808 ≤ i) (hv : (v.length : Int) ≤ 9223372036854775807)
    (hs : ((stringBytes s).length : Int) ≤ 9223372036854775807) :
    (i < 0 ∨ i = v.length → VectorRef [.vector v, .number i] = .error indexOutOfRange) ∧
    (i < 0 ∨ i = (stringBytes s).length →
      StringRef [.string s, .number i] = .error indexOutOfRange) ∧
    (v.length < i → i ≤ 9223372036854775807 → VectorRef [.vector v, .number i] =
      .error (toString i ++ " is not a member of a vector of length " ++ toString v.length)) := by
  refine ⟨?_, ?_, ?_⟩
  · intro hi
    have hint : numberInt i = some i := numberInt_of_range i hmin (by omega)
    have hcheck : ¬ (i > (v.length : Int)) := by omega
    rcases hi with hneg | heq
    · simp only [VectorRef, hint, hcheck, if_false, indexAt_negative v i hneg]
    · subst heq
      simp only [VectorRef, hint, hcheck, if_false, indexAt_length]
  · intro hi
    have hint : numberInt i = some i := numberInt_of_range i hmin (by omega)
    have hcheck : ¬ (i > ((stringBytes s).length : Int)) := by omega
    rcases hi with hneg | heq
    · simp only [StringRef, hint, hcheck, if_false, indexAt_negative _ i hneg]
    · subst heq
      simp only [StringRef, hint, hcheck, if_false, indexAt_length]
  · intro hgt hmax
    have hint : numberInt i = some i := numberInt_of_range i hmin hmax
    have hcheck : i > (v.length : Int) := hgt
    simp only [VectorRef, hint, hcheck, if_true]

theorem ref_checks_admit_index_out_of_bounds_witness :
    VectorRef [.vector [.number 1, .number 2], .number 2] = .error indexOutOfRange ∧
    StringRef [.string "ab", .number 2] = .error indexOutOfRange :=
  ⟨(ref_checks_admit_index_out_of_bounds [.number 1, .number 2] "ab" 2 (by decide) (by decide)
      (by decide)).1 (Or.inr rfl),
   (ref_checks_admit_index_out_of_bounds [.number 1, .number 2] "ab" 2 (by decide) (by decide)
      (by decide)).2.1 (Or.inr rfl)⟩

theorem bytesLt_asymm (a b : List UInt8) (h : bytesLt a b = true) : bytesLt b a = false := by
  induction a generalizing b with
  | nil => cases b <;> simp [bytesLt] at h ⊢
  | cons x as ih =>
    cases b with
    | nil => simp [bytesLt] at h
    | cons y bs =>
      simp only [bytesLt] at h ⊢
      by_cases h1 : x.toNat < y.toNat
      · have h2 : ¬ (y.toNat < x.toNat) := by omega
        simp only [h1, h2, if_true, if_false]
      · by_cases h2 : y.toNat < x.toNat
        · simp only [h1, h2, if_false, if_true] at h
          cases h
        · simp only [h1, h2, if_false] at h ⊢
          exact ih bs h

/-- C40: the string comparisons compare each argument with the one before it
the wrong way round: `string<?` on `(a, b)` returns `#t` exactly when `b` is
less than `a`, `string>?` exactly when `a` is less than `b`, `string<=?`
exactly when `a` is not less than `b` and `string>=?` exactly when `b` is not
less than `a`; so `string<?` returns `#f` whenever `a` is less than `b`, as on
`("a", "b")`, where the numeric `<` on `(1, 2)` returns `#t`. -/
theorem string_comparisons_are_reversed (a b : String) :
    StringLt [.string a, .string b] = .boolean (stringLt b a) ∧
    StringGt [.string a, .string b] = .boolean (stringLt a b) ∧
    StringLte [.string a, .string b] = .boolean (!stringLt a b) ∧
    StringGte [.string a, .string b] = .boolean (!stringLt b a) ∧
    (stringLt a b = true → StringLt [.string a, .string b] = .boolean false) ∧
    StringLt [.string "a", .string "b"] = .boolean false ∧
    StringLt [.string "b", .string "a"] = .boolean true ∧
    StringLt [.string "c", .string "b", .string "a"] = .boolean true ∧
    NumberLt [.number 1, .number 2] = .boolean true := by
  refine ⟨?_, ?_, ?_, ?_, ?_, rfl, rfl, rfl, rfl⟩
  · cases h : stringLt b a <;> simp [StringLt, stringChain, h]
  · cases h : stringLt a b <;> simp [StringGt, stringChain, h]
  · cases h : stringLt a b <;> simp [StringLte, stringChain, h]
  · cases h : stringLt b a <;> simp [StringGte, stringChain, h]
  · intro h
    have h2 : stringLt b a = false := bytesLt_asymm _ _ h
    simp [StringLt, stringChain, h2]


/-! ## The instructions LIST and VECTOR, and TAIL of a built-in (vm.go) -/

/-- C36: with the operand stack ending in `v0 ... v(n-1) t`, LIST n removes
these `n + 1` values and pushes `t` when `n = 0` and the pair `(v0 . t)`
otherwise: every turn of its loop conses onto `t`, not onto the list built so
far, so `v1 ... v(n-1)` are lost; for `n = 2` and `t = Null` the result is the
one-element list `(v0)`, not `(v0 v1)`. -/
theorem LIST_conses_first_value_onto_tail (m : VM) (n : Nat) (st vs : List Value) (t : Value)
    (hinst : m.body.get? m.pc = some ⟨opList, .integer n⟩)
    (hstack : m.stack = st ++ vs ++ [t]) (hn : vs.length = n) :
    m.step = .ok (.next { m with stack := st ++ [match vs.head? with | none => t | some v0 => Cons v0 t],
                                 pc := m.pc + 1 }) ∧
    (∀ v0 v1, vs = [v0, v1] → t = .null →
      m.step = .ok (.next { m with stack := st ++ [ToList [v0]], pc := m.pc + 1 })) := by
  subst hn
  have hstep : m.step = .ok (.next { m with
      stack := st ++ [match vs.head? with | none => t | some v0 => Cons v0 t], pc := m.pc + 1 }) := by
    simp only [VM.step, hinst, Instruction.code, Instruction.immediate, operandCount_integer,
      hstack, getLast?_snoc, dropLast_snoc, splitStack_append]
    cases vs with
    | nil => rfl
    | cons v0 rest => rfl
  refine ⟨hstep, ?_⟩
  intro v0 v1 hvs ht
  subst hvs ht
  exact hstep

theorem LIST_conses_first_value_onto_tail_witness :
    listExample.step = .ok (.next { listExample with stack := [.number 0, ToList [.number 1]],
                                                     pc := 1 }) :=
  (LIST_conses_first_value_onto_tail listExample 2 [.number 0] [.number 1, .number 2] .null
    rfl rfl rfl).2 (.number 1) (.number 2) rfl rfl

theorem compile_literal (e : Value) (tail : Bool) (h : e.isLiteral = true) :
    compile e tail = .ok [⟨opQuote, e⟩] := by
  cases e with
  | number n => rw [compile]
  | boolean b => rw [compile]
  | character c => rw [compile]
  | string s => rw [compile]
  | _ => cases h

theorem compileSeq_literals (es : List Value) (h : ∀ e ∈ es, e.isLiteral = true) :
    compileSeq es = .ok (quoteAll es) := by
  induction es with
  | nil => exact compileSeq_nil
  | cons e rest ih =>
    rw [compileSeq_cons, compile_literal e false (h e (by simp)), ok_bind,
      ih (fun x hx => h x (by simp [hx])), ok_bind]
    rfl

/-- The code of a vector literal: QUOTE of the empty vector, the code of the
elements, VECTOR n. -/
theorem compile_vector_literal (es : List Value) (tail : Bool)
    (h : ∀ e ∈ es, e.isLiteral = true) :
    compile (.vector es) tail =
      .ok ([⟨opQuote, .vector []⟩] ++ quoteAll es ++ [⟨opVector, .integer es.length⟩]) := by
  rw [compile, compileSeq_literals es h, ok_bind]

theorem get?_append_mid {α : Type} (pre post : List α) (x : α) :
    (pre ++ x :: post).get? pre.length = some x := by
  rw [get?_append_base]
  rfl

/-- A block of QUOTE instructions pushes its values, in order. -/
theorem run_quoteAll (es : List Value) :
    ∀ (m : VM) (pre post : List Instruction), m.body = pre ++ quoteAll es ++ post →
      m.pc = pre.length →
      m.run es.length = .ok (.next { m with stack := m.stack ++ es, pc := m.pc + es.length }) := by
  induction es with
  | nil =>
    intro m pre post _ _
    simp [VM.run]
  | cons e rest ih =>
    intro m pre post hbody hpc
    have hget : m.body.get? m.pc = some ⟨opQuote, e⟩ := by
      rw [hbody, hpc]
      simp only [quoteAll, List.map_cons, List.append_assoc, List.cons_append]
      exact get?_append_mid pre _ _
    have hstep : m.step = .ok (.next { m with stack := m.stack ++ [e], pc := m.pc + 1 }) := by
      simp only [VM.step, hget, Instruction.code, Instruction.immediate]
    have hrest := ih { m with stack := m.stack ++ [e], pc := m.pc + 1 } (pre ++ [⟨opQuote, e⟩]) post
      (by simp only [hbody, quoteAll, List.map_cons, List.append_assoc, List.cons_append,
            List.nil_append])
      (by simp [hpc])
    simp only [List.length_cons, VM.run, hstep, hrest, List.append_assoc, List.singleton_append,
      Nat.add_assoc, Nat.add_comm 1]

/-- C37: the code that `compile` emits for a vector literal of `n` literal
elements starts with a QUOTE of the empty vector; executing it leaves the
stack from before with TWO new values on top, the empty vector and above it
the vector of the `n` elements in order. -/
theorem vector_literal_pushes_two_values (es : List Value) (tail : Bool) (m : VM)
    (pre post code : List Instruction) (h : ∀ e ∈ es, e.isLiteral = true)
    (hcode : compile (.vector es) tail = .ok code)
    (hbody : m.body = pre ++ code ++ post) (hpc : m.pc = pre.length) :
    code.length = es.length + 2 ∧
    m.run (es.length + 2) =
      .ok (.next { m with stack := m.stack ++ [.vector [], .vector es],
                          pc := m.pc + (es.length + 2) }) := by
  rw [compile_vector_literal es tail h] at hcode
  cases hcode
  refine ⟨by simp [quoteAll], ?_⟩
  have hget : m.body.get? m.pc = some ⟨opQuote, .vector []⟩ := by
    rw [hbody, hpc]
    simp only [List.append_assoc, List.cons_append, List.nil_append]
    exact get?_append_mid pre _ _
  have hstep : m.step = .ok (.next { m with stack := m.stack ++ [.vector []], pc := m.pc + 1 }) := by
    simp only [VM.step, hget, Instruction.code, Instruction.immediate]
  have hquotes := run_quoteAll es { m with stack := m.stack ++ [.vector []], pc := m.pc + 1 }
    (pre ++ [⟨opQuote, .vector []⟩]) ([⟨opVector, .integer es.length⟩] ++ post)
    (by simp only [hbody, List.append_assoc, List.cons_append, List.nil_append])
    (by simp [hpc])
  have hget2 : m.body.get? (m.pc + 1 + es.length) = some ⟨opVector, .integer es.length⟩ := by
    have hl : m.pc + 1 + es.length =
        (pre ++ [(⟨opQuote, .vector []⟩ : Instruction)] ++ quoteAll es).length := by
      simp only [quoteAll, hpc, List.length_append, List.length_map, List.length_singleton]
    rw [hbody, hl]
    simp only [List.append_assoc, List.cons_append, List.nil_append]
    have := get?_append_mid (pre ++ [(⟨opQuote, .vector []⟩ : Instruction)] ++ quoteAll es)
      post (⟨opVector, .integer es.length⟩ : Instruction)
    simpa only [List.append_assoc, List.cons_append, List.nil_append] using this
  have hlast : ({ m with stack := m.stack ++ [.vector []] ++ es,
                         pc := m.pc + 1 + es.length } : VM).step =
      .ok (.next { m with stack := m.stack ++ [.vector [], .vector es],
                          pc := m.pc + (es.length + 2) }) := by
    simp only [VM.step, hget2, Instruction.code, Instruction.immediate, operandCount_integer,
      splitStack_append]
    simp only [List.append_assoc, List.singleton_append]
    have hp : m.pc + 1 + es.length + 1 = m.pc + (es.length + 2) := by omega
    rw [hp]
  have h1 : m.run 1 = .ok (.next { m with stack := m.stack ++ [.vector []], pc := m.pc + 1 }) := by
    simp only [VM.run, hstep]
  have h2 : m.run (1 + es.length) =
      .ok (.next { m with stack := m.stack ++ [.vector []] ++ es, pc := m.pc + 1 + es.length }) := by
    rw [run_of_run_next 1 es.length m _ h1, hquotes]
  have h3 : m.run (1 + es.length + 1) =
      .ok (.next { m with stack := m.stack ++ [.vector [], .vector es],
                          pc := m.pc + (es.length + 2) }) := by
    rw [run_of_run_next (1 + es.length) 1 m _ h2]
    simp only [VM.run, hlast]
  have hf : es.length + 2 = 1 + es.length + 1 := by omega
  rw [show VM.run (es.length + 2) m = VM.run (1 + es.length + 1) m from by rw [hf]]
  exact h3

theorem vector_literal_pushes_two_values_witness :
    (codeExample [⟨opQuote, .vector []⟩, ⟨opQuote, .number 1⟩, ⟨opQuote, .number 2⟩,
        ⟨opVector, .integer 2⟩] [.number 0]).run 4 =
      .ok (.next { codeExample [⟨opQuote, .vector []⟩, ⟨opQuote, .number 1⟩,
                     ⟨opQuote, .number 2⟩, ⟨opVector, .integer 2⟩] [.number 0] with
                   stack := [.number 0, .vector [], .vector [.number 1, .number 2]], pc := 4 }) :=
  (vector_literal_pushes_two_values [.number 1, .number 2] false
    (codeExample [⟨opQuote, .vector []⟩, ⟨opQuote, .number 1⟩, ⟨opQuote, .number 2⟩,
      ⟨opVector, .integer 2⟩] [.number 0]) [] []
    [⟨opQuote, .vector []⟩, ⟨opQuote, .number 1⟩, ⟨opQuote, .number 2⟩, ⟨opVector, .integer 2⟩]
    (by simp [Value.isLiteral])
    (compile_vector_literal [.number 1, .number 2] false (by simp [Value.isLiteral]))
    rfl rfl).2

/-- C38: from a state whose operand stack ends with a built-in and `n`
arguments, TAIL n does what CALL n followed by RETURN does: the two runs have
the same outcome, which is the result of the built-in as the final result when
the frame has no caller, and otherwise the state in which the caller is
resumed with that result pushed on its operand stack. -/
theorem TAIL_of_builtin_is_CALL_then_RETURN (m : VM) (body2 : List Instruction) (n : Nat)
    (st args : List Value) (f : Builtin)
    (htail : m.body.get? m.pc = some ⟨opTail, .integer n⟩)
    (hcall : body2.get? m.pc = some ⟨opCall, .integer n⟩)
    (hret : body2.get? (m.pc + 1) = some ⟨opReturn, .null⟩)
    (hstack : m.stack = st ++ [.procedureFunc f] ++ args) (hn : args.length = n) :
    m.run 1 = ({ m with body := body2 } : VM).run 2 ∧
    (∀ v, f.Apply args = .ok v →
      (∀ a, m.mstack = [a] → m.run 1 = .ok (.done v)) ∧
      (∀ a caller callers fr c, m.mstack = a :: caller :: callers →
        m.frames.get? caller = some fr → fr.closure = some c →
        m.run 1 = .ok (.next { m with mstack := caller :: callers, scope := c.scope,
                                      body := c.proc.body, stack := fr.stack ++ [v],
                                      pc := fr.pc + 1 }))) := by
  subst hn
  have hsplit : splitStack m.stack args.length = .ok (st ++ [.procedureFunc f], args) := by
    rw [hstack]; exact splitStack_append _ _
  have htailstep : m.step =
      match f.Apply args with
      | .error e => .error e
      | .ok v => m.returnValue v := by
    simp only [VM.step, htail, Instruction.code, Instruction.immediate, VM.call,
      operandCount_integer, hsplit, getLast?_snoc, dropLast_snoc]
    cases f.Apply args <;> rfl
  have hcallstep : ({ m with body := body2 } : VM).step =
      match f.Apply args with
      | .error e => .error e
      | .ok v => .ok (.next { m with body := body2, stack := st ++ [v], pc := m.pc + 1 }) := by
    simp only [VM.step, hcall, Instruction.code, Instruction.immediate, VM.call,
      operandCount_integer, hsplit, getLast?_snoc, dropLast_snoc]
    cases f.Apply args <;> rfl
  have hretstep : ∀ v, ({ m with body := body2, stack := st ++ [v], pc := m.pc + 1 } : VM).step =
      m.returnValue v := by
    intro v
    simp only [VM.step, hret, Instruction.code, getLast?_snoc, VM.returnValue]
  refine ⟨?_, ?_⟩
  · simp only [VM.run, htailstep, hcallstep]
    cases hv : f.Apply args with
    | error e => rfl
    | ok v =>
      simp only [hretstep v]
  · intro v hv
    refine ⟨?_, ?_⟩
    · intro a ha
      simp only [VM.run, htailstep, hv, VM.returnValue, ha]
    · intro a caller callers fr c ha hfr hc
      simp only [VM.run, htailstep, hv, VM.returnValue, ha, hfr, hc]

theorem TAIL_of_builtin_is_CALL_then_RETURN_witness :
    (builtinExample [⟨opTail, .integer 2⟩]).run 1 =
      (builtinExample [⟨opCall, .integer 2⟩, ⟨opReturn, .null⟩]).run 2 :=
  (TAIL_of_builtin_is_CALL_then_RETURN (builtinExample [⟨opTail, .integer 2⟩])
    [⟨opCall, .integer 2⟩, ⟨opReturn, .null⟩] 2 [.number 0] [.number 1, .number 2] .NumberAdd
    rfl rfl rfl rfl rfl).1


/-! ## The tree-walking evaluator: tail calls (eval.go, values.go) -/

theorem forceTail_succ (fuel : Nat) (scopes : List Tree.Scope) (v : Tree.Value) :
    Tree.forceTail (fuel + 1) scopes v =
      match v with
      | .tailCall p args =>
        match Tree.Apply fuel scopes p args with
        | .error err => .error err
        | .ok (v1, scopes1) => Tree.forceTail fuel scopes1 v1
      | _ => .ok (v, scopes) := by
  cases v <;> rfl

theorem Apply_succ (fuel : Nat) (scopes : List Tree.Scope) (p : Tree.Value)
    (args : List Tree.Value) :
    Tree.Apply (fuel + 1) scopes p args =
      match p with
      | .procedureFunc f => .ok (f.Apply args, scopes)
      | .procedure name closure formals isVariadic body =>
        match Tree.apply fuel scopes (.procedure name closure formals isVariadic body) args with
        | .error err => .error err
        | .ok (v, scopes1) => Tree.forceTail fuel scopes1 v
      | _ => .error notProcedure := by
  cases p <;> rfl

/-- The value that `forceTail` returns is no tail call. -/
theorem forceTail_isTailCall (fuel : Nat) :
    ∀ (scopes : List Tree.Scope) (v r : Tree.Value) (s : List Tree.Scope),
      Tree.forceTail fuel scopes v = .ok (r, s) → r.isTailCall = false := by
  induction fuel with
  | zero => intro scopes v r s h; cases h
  | succ fuel ih =>
    intro scopes v r s h
    rw [forceTail_succ] at h
    cases v with
    | tailCall p args =>
      simp only [] at h
      cases ha : Tree.Apply fuel scopes p args with
      | error err => rw [ha] at h; cases h
      | ok r1 =>
        obtain ⟨v1, scopes1⟩ := r1
        rw [ha] at h
        exact ih scopes1 v1 r s h
    | _ => cases h; rfl

theorem numberFold_isTailCall (op : Int → Int → Int) (rest : List Tree.Value) :
    ∀ acc, (Tree.numberFold op acc rest).isTailCall = false := by
  induction rest with
  | nil => intro acc; rfl
  | cons x rest ih =>
    intro acc
    cases x <;> first | rfl | exact ih _

theorem Builtin_Apply_isTailCall (f : Tree.Builtin) (args : List Tree.Value) :
    (f.Apply args).isTailCall = false := by
  cases f
  · cases args with
    | nil => rfl
    | cons x rest => cases x <;> first | rfl | exact numberFold_isTailCall _ _ _
  · cases args with
    | nil => rfl
    | cons x rest => cases x <;> first | rfl | exact numberFold_isTailCall _ _ _
  · cases args with
    | nil => rfl
    | cons x rest =>
      cases x with
      | number n =>
        cases rest with
        | nil => rfl
        | cons y rest2 => exact numberFold_isTailCall _ _ _
      | _ => rfl

/-- The value that the method `Apply` of a procedure returns is no tail call. -/
theorem Apply_isTailCall (fuel : Nat) (scopes : List Tree.Scope) (p : Tree.Value)
    (args : List Tree.Value) (r : Tree.Value) (s : List Tree.Scope)
    (h : Tree.Apply fuel scopes p args = .ok (r, s)) : r.isTailCall = false := by
  cases fuel with
  | zero => cases h
  | succ fuel =>
    rw [Apply_succ] at h
    cases p with
    | procedureFunc f =>
      cases h
      exact Builtin_Apply_isTailCall f args
    | procedure name closure formals isVariadic body =>
      simp only [] at h
      cases ha : Tree.apply fuel scopes (.procedure name closure formals isVariadic body) args with
      | error err => rw [ha] at h; cases h
      | ok r1 =>
        obtain ⟨v1, scopes1⟩ := r1
        rw [ha] at h
        exact forceTail_isTailCall fuel scopes1 v1 r s h
    | _ => cases h

/-- C39: `forceTail` and the method `Apply` never return a tail call, and
`eval` with `tail` false forces the value of an application and of an `if`;
but `evalLet` returns the value of `apply`, whose last body expression is
evaluated with `tail` true, without forcing it: `eval` of `(let () (f 2))`
with `tail` false, and so `Eval` of it, returns the tail call of `f` on `2`,
where `(f 2)`,
`(if #t (f 2))` and `(begin (f 2))` return `2`, and `Eval` of
`(+ 1 (let () (f 2)))` returns nil, where `(+ 1 (f 2))` returns `3`. -/
theorem evalLet_returns_unforced_tail_call :
    (∀ fuel scopes v r s, Tree.forceTail fuel scopes v = .ok (r, s) → r.isTailCall = false) ∧
    (∀ fuel scopes p args r s, Tree.Apply fuel scopes p args = .ok (r, s) →
      r.isTailCall = false) ∧
    Tree.eval 10 Tree.exampleScopes Tree.letExpr [0] false =
      .ok (.tailCall Tree.identity [.number 2], Tree.exampleScopes ++ [⟨[]⟩, ⟨[]⟩]) ∧
    Tree.Eval 10 Tree.exampleScopes [0] Tree.letExpr =
      .ok (.tailCall Tree.identity [.number 2], Tree.exampleScopes ++ [⟨[]⟩, ⟨[]⟩]) ∧
    Tree.eval 10 Tree.exampleScopes Tree.callExpr [0] false =
      .ok (.number 2, Tree.exampleScopes ++ [⟨[("x", .number 2)]⟩]) ∧
    Tree.eval 10 Tree.exampleScopes Tree.ifExpr [0] false =
      .ok (.number 2, Tree.exampleScopes ++ [⟨[("x", .number 2)]⟩]) ∧
    Tree.eval 10 Tree.exampleScopes Tree.beginExpr [0] false =
      .ok (.number 2, Tree.exampleScopes ++ [⟨[("x", .number 2)]⟩]) ∧
    Tree.Eval 12 Tree.exampleScopes [0] (Tree.sumExpr Tree.letExpr) =
      .ok (.null, Tree.exampleScopes ++ [⟨[]⟩, ⟨[]⟩]) ∧
    Tree.Eval 12 Tree.exampleScopes [0] (Tree.sumExpr Tree.callExpr) =
      .ok (.number 3, Tree.exampleScopes ++ [⟨[("x", .number 2)]⟩]) :=
  ⟨fun fuel scopes v r s h => forceTail_isTailCall fuel scopes v r s h,
   fun fuel scopes p args r s h => Apply_isTailCall fuel scopes p args r s h,
   rfl, rfl, rfl, rfl, rfl, rfl, rfl⟩

end Loom
